import Mathlib

/-!
# SSML parser, validator and serializer of `double12gzh/ssml-parser`

A shallow embedding of `src/ssml/types.go`, `src/ssml/parser.go` and
`src/ssml/serializer.go`, followed by the theorems that settle the claims made
about them.

The Go code reads its input through `encoding/xml`.  That library is not part of
the repository, so it is modelled by its documented interface: a decoder hands
out the tokens of the input one by one, checks that start and end tags are
properly nested and matched, and ends either with `io.EOF` or with a syntax
error.  The parser is defined on such a decoder, for any sequence of tokens.  How
the decoder cuts a text into raw tokens is modelled further down, for the markup
that the serializer writes, so that serialized text can be parsed again; how it
translates the names of the raw tokens by the name space declarations in scope
before it hands them out is modelled by `xml.translated`.  The functions of the
repository keep their Go names.
-/

set_option autoImplicit false

/-! ## Go errors -/

/-- An `error` value of the Go program: the sentinel `io.EOF`, an
`*xml.SyntaxError` (its line number is not modelled) or an error made by
`fmt.Errorf`. -/
inductive GoError where
  | EOF
  | SyntaxError (Msg : String)
  | errorString (s : String)
deriving DecidableEq, Repr

/-- The text `err.Error()` of an error. -/
def GoError.Error : GoError → String
  | .EOF => "EOF"
  | .SyntaxError m => "XML syntax error: " ++ m
  | .errorString s => s

/-! ## `unicode` and `strings` -/

namespace unicode

/-- The white space characters of `unicode.IsSpace`: the Latin-1 ones listed in
its documentation and the other code points with the `White_Space` property. -/
def IsSpace (c : Char) : Bool :=
  c = '\t' || c = '\n' || c.toNat = 0x0B || c.toNat = 0x0C || c = '\r' || c = ' '
    || c.toNat = 0x85 || c.toNat = 0xA0 || c.toNat = 0x1680
    || (0x2000 ≤ c.toNat && c.toNat ≤ 0x200A)
    || c.toNat = 0x2028 || c.toNat = 0x2029 || c.toNat = 0x202F
    || c.toNat = 0x205F || c.toNat = 0x3000

end unicode

namespace strings

/-- The characters of a string with leading and trailing white space removed. -/
def trimChars (cs : List Char) : List Char :=
  ((cs.dropWhile unicode.IsSpace).reverse.dropWhile unicode.IsSpace).reverse

/-- Go `strings.TrimSpace`: the string without its leading and trailing white
space. -/
def TrimSpace (s : String) : String :=
  String.mk (trimChars s.data)

end strings

/-! ## `encoding/xml` -/

namespace xml

/-- Go `xml.Name`. -/
structure Name where
  Space : String
  Local : String
deriving DecidableEq, Repr

/-- Go `xml.Attr`. -/
structure Attr where
  Name : Name
  Value : String
deriving DecidableEq, Repr

/-- Go `xml.Token`: the six kinds of token a decoder returns.  A self-closing
tag is a `StartElement` immediately followed by its `EndElement`. -/
inductive Token where
  | StartElement (Name : Name) (Attr : List Attr)
  | EndElement (Name : Name)
  | CharData (data : String)
  | Comment (data : String)
  | ProcInst (Target : String) (Inst : String)
  | Directive (data : String)
deriving DecidableEq, Repr

/-- The state of an `xml.Decoder`: the tokens of the input that have not been
read yet, the syntax error (if any) the tokenizer runs into once those are used
up, and the names of the elements that are open, innermost first.  The names of
the tokens are handed out as they stand in `input`; the translation of names by
name space declarations is the work of `xml.translated`. -/
structure Decoder where
  input : List Token
  lexErr : Option String
  stk : List Name
deriving DecidableEq, Repr

/-- Go `xml.NewDecoder`, on the tokens of the text behind the reader, their names
taken as given (`xml.NewTranslatingDecoder` is the decoder on raw tokens that
translates them). -/
def NewDecoder (input : List Token) (lexErr : Option String) : Decoder :=
  { input := input, lexErr := lexErr, stk := [] }

/-- Go `(*xml.Decoder).Token` in its default strict mode.  It returns the next
token and guarantees that start and end elements are properly nested and
matched: an unexpected end element, or the end of the input while an element is
still open, is a syntax error.  At the end of a complete input it returns
`io.EOF`. -/
def Decoder.Token (d : Decoder) : Except GoError (xml.Token × Decoder) :=
  match d.input with
  | [] =>
    match d.lexErr with
    | some msg => .error (.SyntaxError msg)
    | none =>
      match d.stk with
      | [] => .error .EOF
      | _ :: _ => .error (.SyntaxError "unexpected EOF")
  | .StartElement name attr :: rest =>
    .ok (.StartElement name attr, { d with input := rest, stk := name :: d.stk })
  | .EndElement name :: rest =>
    match d.stk with
    | [] => .error (.SyntaxError ("unexpected end element </" ++ name.Local ++ ">"))
    | top :: stk =>
      if top.Local ≠ name.Local then
        .error (.SyntaxError
          ("element <" ++ top.Local ++ "> closed by </" ++ name.Local ++ ">"))
      else if top.Space ≠ name.Space then
        .error (.SyntaxError
          ("element <" ++ top.Local ++ "> in space " ++ top.Space
            ++ " closed by </" ++ name.Local ++ "> in space " ++ name.Space))
      else
        .ok (.EndElement name, { d with input := rest, stk := stk })
  | tok :: rest => .ok (tok, { d with input := rest })

end xml

/-! ## The document model (`types.go`) -/

namespace ssml

/-- Go `Audio`, without its `Content` (carried by `Node.Audio`). -/
structure Audio where
  XMLName : xml.Name
  Src : String
deriving DecidableEq, Repr

/-- Go `Break`. -/
structure Break where
  XMLName : xml.Name
  Time : String
  Strength : String
deriving DecidableEq, Repr

/-- Go `Emphasis`, without its `Content`. -/
structure Emphasis where
  XMLName : xml.Name
  Level : String
deriving DecidableEq, Repr

/-- Go `Paragraph`, without its `Content`. -/
structure Paragraph where
  XMLName : xml.Name
deriving DecidableEq, Repr

/-- Go `Phoneme`, without its `Content`. -/
structure Phoneme where
  XMLName : xml.Name
  Alphabet : String
  Ph : String
deriving DecidableEq, Repr

/-- Go `Prosody`, without its `Content`. -/
structure Prosody where
  XMLName : xml.Name
  Rate : String
  Pitch : String
  Range : String
  Volume : String
deriving DecidableEq, Repr

/-- Go `Sentence`, without its `Content`. -/
structure Sentence where
  XMLName : xml.Name
deriving DecidableEq, Repr

/-- Go `Sub`, without its `Content`. -/
structure Sub where
  XMLName : xml.Name
  Alias : String
deriving DecidableEq, Repr

/-- Go `Voice`, without its `Content`. -/
structure Voice where
  XMLName : xml.Name
  Gender : String
  Age : String
  Variant : String
  Name : String
  Languages : String
deriving DecidableEq, Repr

/-- Go `W`, without its `Content`. -/
structure W where
  XMLName : xml.Name
  Role : String
deriving DecidableEq, Repr

/-- An item of a `[]interface{}` content list: a `Text` value, a pointer to one
of the ten element structs together with that struct's `Content`, or a value of
any other dynamic type (`Other`, which the parser never produces). -/
inductive Node where
  | Text (Content : String)
  | Audio (audio : Audio) (Content : List Node)
  | Break (breakElem : Break)
  | Emphasis (emphasis : Emphasis) (Content : List Node)
  | Paragraph (paragraph : Paragraph) (Content : List Node)
  | Phoneme (phoneme : Phoneme) (Content : List Node)
  | Prosody (prosody : Prosody) (Content : List Node)
  | Sentence (sentence : Sentence) (Content : List Node)
  | Sub (sub : Sub) (Content : List Node)
  | Voice (voice : Voice) (Content : List Node)
  | W (w : W) (Content : List Node)
  | Other (typeName : String)
deriving Repr

/-- Go `Speak`, the root element. -/
structure Speak where
  XMLName : xml.Name
  Version : String
  Lang : String
  Content : List Node
deriving Repr

/-- Go `ParseResult`; `Root = none` is the nil pointer. -/
structure ParseResult where
  Root : Option Speak
  Warnings : List String
  Errors : List String
deriving Repr

/-- Go `ValidationConfig`; `MaxDuration` is a `time.Duration` in nanoseconds. -/
structure ValidationConfig where
  StrictMode : Bool
  AllowUnknownElements : Bool
  MaxNestingDepth : Int
  MaxDuration : Int
deriving DecidableEq, Repr

/-- Go `DefaultValidationConfig`. -/
def DefaultValidationConfig : ValidationConfig :=
  { StrictMode := false
    AllowUnknownElements := true
    MaxNestingDepth := 10
    MaxDuration := 3600 * 1000000000 }

/-- The type assertion `item.(SSMLElement)` followed by `GetContent()`: `none`
when the item does not implement the interface (a `Text` value, an `Other`),
the empty list for a `*Break`, the `Content` of a container. -/
def Node.GetContent : Node → Option (List Node)
  | .Text _ => none
  | .Audio _ c => some c
  | .Break _ => some []
  | .Emphasis _ c => some c
  | .Paragraph _ c => some c
  | .Phoneme _ c => some c
  | .Prosody _ c => some c
  | .Sentence _ c => some c
  | .Sub _ c => some c
  | .Voice _ c => some c
  | .W _ c => some c
  | .Other _ => none

/-! ## The parser (`parser.go`) -/

/-- The outcome of a parsing function that reads from the decoder: the returned
value with the decoder as the call leaves it, or the returned error.  The
recursive functions take a recursion budget; `fuel` reports that it ran out
(`ParseReader` supplies a budget that never does). -/
inductive Res (α : Type) where
  | ok (val : α) (d : xml.Decoder)
  | err (e : GoError)
  | fuel
deriving Repr

/-- The attribute loop of `parseSpeak`. -/
def parseSpeak.attr (speak : Speak) (attr : xml.Attr) : Speak :=
  match attr.Name.Local with
  | "version" => { speak with Version := attr.Value }
  | "lang" => { speak with Lang := attr.Value }
  | _ => speak

/-- The attribute loop of `parseAudio`. -/
def parseAudio.attr (audio : Audio) (attr : xml.Attr) : Audio :=
  if attr.Name.Local = "src" then { audio with Src := attr.Value } else audio

/-- The attribute loop of `parseBreak`. -/
def parseBreak.attr (breakElem : Break) (attr : xml.Attr) : Break :=
  match attr.Name.Local with
  | "time" => { breakElem with Time := attr.Value }
  | "strength" => { breakElem with Strength := attr.Value }
  | _ => breakElem

/-- The attribute loop of `parseEmphasis`. -/
def parseEmphasis.attr (emphasis : Emphasis) (attr : xml.Attr) : Emphasis :=
  if attr.Name.Local = "level" then { emphasis with Level := attr.Value } else emphasis

/-- The attribute loop of `parsePhoneme`. -/
def parsePhoneme.attr (phoneme : Phoneme) (attr : xml.Attr) : Phoneme :=
  match attr.Name.Local with
  | "alphabet" => { phoneme with Alphabet := attr.Value }
  | "ph" => { phoneme with Ph := attr.Value }
  | _ => phoneme

/-- The attribute loop of `parseProsody`. -/
def parseProsody.attr (prosody : Prosody) (attr : xml.Attr) : Prosody :=
  match attr.Name.Local with
  | "rate" => { prosody with Rate := attr.Value }
  | "pitch" => { prosody with Pitch := attr.Value }
  | "range" => { prosody with Range := attr.Value }
  | "volume" => { prosody with Volume := attr.Value }
  | _ => prosody

/-- The attribute loop of `parseSub`. -/
def parseSub.attr (sub : Sub) (attr : xml.Attr) : Sub :=
  if attr.Name.Local = "alias" then { sub with Alias := attr.Value } else sub

/-- The attribute loop of `parseVoice`. -/
def parseVoice.attr (voice : Voice) (attr : xml.Attr) : Voice :=
  match attr.Name.Local with
  | "gender" => { voice with Gender := attr.Value }
  | "age" => { voice with Age := attr.Value }
  | "variant" => { voice with Variant := attr.Value }
  | "name" => { voice with Name := attr.Value }
  | "lang" => { voice with Languages := attr.Value }
  | _ => voice

/-- The attribute loop of `parseW`. -/
def parseW.attr (w : W) (attr : xml.Attr) : W :=
  if attr.Name.Local = "role" then { w with Role := attr.Value } else w

/-- The loop of `parseBreak` that reads tokens up to the first end tag named
`break`. -/
def parseBreak.loop : Nat → xml.Decoder → Res Unit
  | 0, _ => .fuel
  | fuel + 1, decoder =>
    match decoder.Token with
    | .error err => .err err
    | .ok (.EndElement name, d) =>
      if name.Local = "break" then .ok () d else parseBreak.loop fuel d
    | .ok (_, d) => parseBreak.loop fuel d

/-- Go `Parser.parseBreak`. -/
def parseBreak (fuel : Nat) (decoder : xml.Decoder) (start : xml.Name)
    (attr : List xml.Attr) : Res Break :=
  let breakElem := attr.foldl parseBreak.attr { XMLName := start, Time := "", Strength := "" }
  match parseBreak.loop fuel decoder with
  | .err err => .err err
  | .fuel => .fuel
  | .ok _ d => .ok breakElem d

/-- Go `Parser.skipElement`: reads tokens up to the first end tag named
`tagName` and returns nil. -/
def skipElement : Nat → xml.Decoder → String → Res (Option Node)
  | 0, _, _ => .fuel
  | fuel + 1, decoder, tagName =>
    match decoder.Token with
    | .error err => .err err
    | .ok (.EndElement name, d) =>
      if name.Local = tagName then .ok none d else skipElement fuel d tagName
    | .ok (_, d) => skipElement fuel d tagName

/-- The body shared by the nine container parsers (`parseAudio`, `parseEmphasis`,
...): parse the content up to the end tag and store it in the element. -/
def parseContainer (parseContent : xml.Decoder → String → Res (List Node))
    (decoder : xml.Decoder) (tag : String) (mk : List Node → Node) : Res (Option Node) :=
  match parseContent decoder tag with
  | .err err => .err err
  | .fuel => .fuel
  | .ok content d => .ok (some (mk content)) d

/-- Go `Parser.parseElement`, given the content parser to use for the children
(`parseContent` with the remaining budget).  Each container case is the body of
the corresponding `parseAudio`, ..., `parseW`: the attribute loop, then
`parseContent` with the element's own tag. -/
def parseElement (cfg : ValidationConfig)
    (parseContent : xml.Decoder → String → Res (List Node)) (fuel : Nat)
    (decoder : xml.Decoder) (start : xml.Name) (attr : List xml.Attr) : Res (Option Node) :=
  match start.Local with
  | "audio" =>
    parseContainer parseContent decoder "audio"
      (Node.Audio (attr.foldl parseAudio.attr { XMLName := start, Src := "" }))
  | "break" =>
    match parseBreak fuel decoder start attr with
    | .err err => .err err
    | .fuel => .fuel
    | .ok breakElem d => .ok (some (Node.Break breakElem)) d
  | "emphasis" =>
    parseContainer parseContent decoder "emphasis"
      (Node.Emphasis (attr.foldl parseEmphasis.attr { XMLName := start, Level := "" }))
  | "p" =>
    parseContainer parseContent decoder "p" (Node.Paragraph { XMLName := start })
  | "phoneme" =>
    parseContainer parseContent decoder "phoneme"
      (Node.Phoneme (attr.foldl parsePhoneme.attr { XMLName := start, Alphabet := "", Ph := "" }))
  | "prosody" =>
    parseContainer parseContent decoder "prosody"
      (Node.Prosody (attr.foldl parseProsody.attr
        { XMLName := start, Rate := "", Pitch := "", Range := "", Volume := "" }))
  | "s" =>
    parseContainer parseContent decoder "s" (Node.Sentence { XMLName := start })
  | "sub" =>
    parseContainer parseContent decoder "sub"
      (Node.Sub (attr.foldl parseSub.attr { XMLName := start, Alias := "" }))
  | "voice" =>
    parseContainer parseContent decoder "voice"
      (Node.Voice (attr.foldl parseVoice.attr
        { XMLName := start, Gender := "", Age := "", Variant := "", Name := "", Languages := "" }))
  | "w" =>
    parseContainer parseContent decoder "w"
      (Node.W (attr.foldl parseW.attr { XMLName := start, Role := "" }))
  | _ =>
    if !cfg.AllowUnknownElements then
      .err (.errorString ("unknown element: " ++ start.Local))
    else
      skipElement fuel decoder start.Local

/-- The `for` loop of `Parser.parseContent`, with the `content` built so far. -/
def parseContent.loop (cfg : ValidationConfig) :
    Nat → xml.Decoder → String → List Node → Res (List Node)
  | 0, _, _, _ => .fuel
  | fuel + 1, decoder, parentTag, content =>
    match decoder.Token with
    | .error err => .err err
    | .ok (.StartElement name attr, d) =>
      match parseElement cfg (fun d1 tag => parseContent.loop cfg fuel d1 tag []) fuel d name attr with
      | .err err => .err err
      | .fuel => .fuel
      | .ok (some element) d1 => parseContent.loop cfg fuel d1 parentTag (content ++ [element])
      | .ok none d1 => parseContent.loop cfg fuel d1 parentTag content
    | .ok (.CharData data, d) =>
      let text := strings.TrimSpace data
      if text ≠ "" then
        parseContent.loop cfg fuel d parentTag (content ++ [Node.Text text])
      else
        parseContent.loop cfg fuel d parentTag content
    | .ok (.EndElement name, d) =>
      if name.Local = parentTag then .ok content d
      else parseContent.loop cfg fuel d parentTag content
    | .ok (_, d) => parseContent.loop cfg fuel d parentTag content

/-- Go `Parser.parseContent`. -/
def parseContent (cfg : ValidationConfig) (fuel : Nat) (decoder : xml.Decoder)
    (parentTag : String) : Res (List Node) :=
  parseContent.loop cfg fuel decoder parentTag []

/-- Go `Parser.parseSpeak`. -/
def parseSpeak (cfg : ValidationConfig) (fuel : Nat) (decoder : xml.Decoder)
    (start : xml.Name) (attr : List xml.Attr) : Res Speak :=
  let speak := attr.foldl parseSpeak.attr
    { XMLName := start, Version := "", Lang := "", Content := [] }
  match parseContent cfg fuel decoder "speak" with
  | .err err => .err err
  | .fuel => .fuel
  | .ok content d => .ok { speak with Content := content } d

/-- The error of `validateNestingDepth`. -/
def nestingError (cfg : ValidationConfig) : GoError :=
  .errorString ("maximum nesting depth exceeded: " ++ toString cfg.MaxNestingDepth)

/-- The depth check at the head of `validateNestingDepth`: when `depth` exceeds
`MaxNestingDepth` the error is recorded in `result.Errors` and returned,
otherwise the function goes on with `body` (its loop). -/
def validateNestingDepth.check (cfg : ValidationConfig) (depth : Int) (result : ParseResult)
    (body : ParseResult × Option GoError) : ParseResult × Option GoError :=
  if depth > cfg.MaxNestingDepth then
    ({ result with Errors := result.Errors ++ [(nestingError cfg).Error] },
      some (nestingError cfg))
  else body

mutual
/-- One round of the loop of `validateNestingDepth`: for an item that is an
`SSMLElement`, the recursive call `validateNestingDepth(element.GetContent(),
depth+1, result)`, that is its depth check followed by its loop. -/
def validateNestingDepth.item (cfg : ValidationConfig) :
    Node → Int → ParseResult → ParseResult × Option GoError
  | .Audio _ c, depth, result =>
    validateNestingDepth.check cfg (depth + 1) result
      (validateNestingDepth.loop cfg c (depth + 1) result)
  | .Break _, depth, result =>
    validateNestingDepth.check cfg (depth + 1) result (result, none)
  | .Emphasis _ c, depth, result =>
    validateNestingDepth.check cfg (depth + 1) result
      (validateNestingDepth.loop cfg c (depth + 1) result)
  | .Paragraph _ c, depth, result =>
    validateNestingDepth.check cfg (depth + 1) result
      (validateNestingDepth.loop cfg c (depth + 1) result)
  | .Phoneme _ c, depth, result =>
    validateNestingDepth.check cfg (depth + 1) result
      (validateNestingDepth.loop cfg c (depth + 1) result)
  | .Prosody _ c, depth, result =>
    validateNestingDepth.check cfg (depth + 1) result
      (validateNestingDepth.loop cfg c (depth + 1) result)
  | .Sentence _ c, depth, result =>
    validateNestingDepth.check cfg (depth + 1) result
      (validateNestingDepth.loop cfg c (depth + 1) result)
  | .Sub _ c, depth, result =>
    validateNestingDepth.check cfg (depth + 1) result
      (validateNestingDepth.loop cfg c (depth + 1) result)
  | .Voice _ c, depth, result =>
    validateNestingDepth.check cfg (depth + 1) result
      (validateNestingDepth.loop cfg c (depth + 1) result)
  | .W _ c, depth, result =>
    validateNestingDepth.check cfg (depth + 1) result
      (validateNestingDepth.loop cfg c (depth + 1) result)
  | .Text _, _, result => (result, none)
  | .Other _, _, result => (result, none)
/-- The `for` loop of `validateNestingDepth` over the items of `content`. -/
def validateNestingDepth.loop (cfg : ValidationConfig) :
    List Node → Int → ParseResult → ParseResult × Option GoError
  | [], _, result => (result, none)
  | item :: rest, depth, result =>
    match validateNestingDepth.item cfg item depth result with
    | (result1, some err) => (result1, some err)
    | (result1, none) => validateNestingDepth.loop cfg rest depth result1
end

/-- Go `Parser.validateNestingDepth`. -/
def validateNestingDepth (cfg : ValidationConfig) (content : List Node) (depth : Int)
    (result : ParseResult) : ParseResult × Option GoError :=
  validateNestingDepth.check cfg depth result (validateNestingDepth.loop cfg content depth result)

/-- Go `Parser.basicValidation`. -/
def basicValidation (cfg : ValidationConfig) (speak : Speak) (result : ParseResult) :
    ParseResult × Option GoError :=
  let result1 :=
    if speak.Version = "" then
      { result with Warnings := result.Warnings ++ ["SSML version not specified"] }
    else result
  let result2 :=
    if speak.Lang = "" then
      { result1 with Warnings := result1.Warnings ++ ["Language not specified"] }
    else result1
  validateNestingDepth cfg speak.Content 0 result2

/-- Go `Parser.strictValidation`. -/
def strictValidation (cfg : ValidationConfig) (speak : Speak) (result : ParseResult) :
    ParseResult × Option GoError :=
  if speak.Version = "" then
    ({ result with Errors := result.Errors ++ ["SSML version is required in strict mode"] },
      some (.errorString "SSML version is required"))
  else if speak.Lang = "" then
    ({ result with Errors := result.Errors ++ ["Language is required in strict mode"] },
      some (.errorString "language is required"))
  else validateNestingDepth cfg speak.Content 0 result

/-- Go `Parser.validate`. -/
def validate (cfg : ValidationConfig) (speak : Speak) (result : ParseResult) :
    ParseResult × Option GoError :=
  if cfg.StrictMode then strictValidation cfg speak result
  else basicValidation cfg speak result

/-- How the token loop of `ParseReader` ends: by one of its `return` statements,
by `break` at `io.EOF` (with the `root` found so far), or by the recursion
budget of the model running out. -/
inductive LoopExit where
  | returned (result : ParseResult) (err : GoError)
  | done (result : ParseResult) (root : Option Speak)
  | fuel
deriving Repr

/-- The token loop of `Parser.ParseReader`. -/
def ParseReader.loop (cfg : ValidationConfig) :
    Nat → xml.Decoder → ParseResult → Option Speak → LoopExit
  | 0, _, _, _ => .fuel
  | fuel + 1, decoder, result, root =>
    match decoder.Token with
    | .error .EOF => .done result root
    | .error err =>
      .returned { result with Errors := result.Errors ++ ["XML parsing error: " ++ err.Error] } err
    | .ok (.StartElement name attr, d) =>
      if name.Local = "speak" then
        match parseSpeak cfg fuel d name attr with
        | .err err =>
          .returned
            { result with
              Errors := result.Errors ++ ["Error parsing speak element: " ++ err.Error] } err
        | .fuel => .fuel
        | .ok speak d1 => ParseReader.loop cfg fuel d1 result (some speak)
      else
        ParseReader.loop cfg fuel d
          { result with
            Warnings := result.Warnings
              ++ ["Root element should be 'speak', found '" ++ name.Local ++ "'"] } root
    | .ok (_, d) => ParseReader.loop cfg fuel d result root

/-- Go `Parser.ParseReader`, on the decoder made from the reader.  The result is
the returned `*ParseResult` and the returned error (`none` is nil); the outer
`none` would mean that the recursion budget ran out, which never happens
(`ParseReader_total`). -/
def ParseReader (cfg : ValidationConfig) (decoder : xml.Decoder) :
    Option (ParseResult × Option GoError) :=
  match ParseReader.loop cfg (decoder.input.length + 1) decoder
      { Root := none, Warnings := [], Errors := [] } none with
  | .fuel => none
  | .returned result err => some (result, some err)
  | .done result none =>
    some ({ result with Errors := result.Errors ++ ["No valid SSML root element found"] },
      some (.errorString "no valid SSML root element found"))
  | .done result (some root) =>
    some (validate cfg root { result with Root := some root })

/-! ## The parser as a token-by-token machine

`ParseReader.loop` and the functions it calls read the tokens strictly from left
to right.  The machine below makes the call stack explicit, so that the state of
the parser after any part of the input can be named: which loop is reading, for
which element, and with which content built so far.  `ParseReader_loop_eq_run`
proves that the machine computes exactly what `ParseReader.loop` computes. -/

/-- A container element under construction: the struct that one of `parseAudio`,
`parseEmphasis`, `parseParagraph`, `parsePhoneme`, `parseProsody`,
`parseSentence`, `parseSub`, `parseVoice`, `parseW` has filled from the
attributes, before its content is parsed. -/
inductive Open where
  | Audio (audio : Audio)
  | Emphasis (emphasis : Emphasis)
  | Paragraph (paragraph : Paragraph)
  | Phoneme (phoneme : Phoneme)
  | Prosody (prosody : Prosody)
  | Sentence (sentence : Sentence)
  | Sub (sub : Sub)
  | Voice (voice : Voice)
  | W (w : W)
deriving Repr

/-- The tag that the element's parser passes to `parseContent`. -/
def Open.tag : Open → String
  | .Audio _ => "audio"
  | .Emphasis _ => "emphasis"
  | .Paragraph _ => "p"
  | .Phoneme _ => "phoneme"
  | .Prosody _ => "prosody"
  | .Sentence _ => "s"
  | .Sub _ => "sub"
  | .Voice _ => "voice"
  | .W _ => "w"

/-- The finished element: the struct with its parsed content. -/
def Open.close : Open → List Node → Node
  | .Audio a, c => .Audio a c
  | .Emphasis e, c => .Emphasis e c
  | .Paragraph p, c => .Paragraph p c
  | .Phoneme p, c => .Phoneme p c
  | .Prosody p, c => .Prosody p c
  | .Sentence s, c => .Sentence s c
  | .Sub s, c => .Sub s c
  | .Voice v, c => .Voice v c
  | .W w, c => .W w c

/-- What `parseElement` does with a start tag: parse a container, parse a break,
skip an unknown element, or fail on it. -/
inductive ElementKind where
  | container (elem : Open)
  | breakElem (breakElem : Break)
  | skip (tagName : String)
  | unknown (tagName : String)
deriving Repr

/-- The dispatch of `parseElement` on the tag name, with the attribute loop of
the chosen element parser. -/
def elementKind (cfg : ValidationConfig) (start : xml.Name) (attr : List xml.Attr) :
    ElementKind :=
  match start.Local with
  | "audio" => .container (.Audio (attr.foldl parseAudio.attr { XMLName := start, Src := "" }))
  | "break" =>
    .breakElem (attr.foldl parseBreak.attr { XMLName := start, Time := "", Strength := "" })
  | "emphasis" =>
    .container (.Emphasis (attr.foldl parseEmphasis.attr { XMLName := start, Level := "" }))
  | "p" => .container (.Paragraph { XMLName := start })
  | "phoneme" =>
    .container (.Phoneme (attr.foldl parsePhoneme.attr
      { XMLName := start, Alphabet := "", Ph := "" }))
  | "prosody" =>
    .container (.Prosody (attr.foldl parseProsody.attr
      { XMLName := start, Rate := "", Pitch := "", Range := "", Volume := "" }))
  | "s" => .container (.Sentence { XMLName := start })
  | "sub" => .container (.Sub (attr.foldl parseSub.attr { XMLName := start, Alias := "" }))
  | "voice" =>
    .container (.Voice (attr.foldl parseVoice.attr
      { XMLName := start, Gender := "", Age := "", Variant := "", Name := "", Languages := "" }))
  | "w" => .container (.W (attr.foldl parseW.attr { XMLName := start, Role := "" }))
  | _ => if !cfg.AllowUnknownElements then .unknown start.Local else .skip start.Local

/-- A loop that reads tokens up to an end tag without building anything: the loop
of `parseBreak` (which then returns the break) or `skipElement`. -/
inductive Skip where
  | breakElem (breakElem : Break)
  | unknown (tagName : String)
deriving Repr

/-- The tag whose end tag ends the loop. -/
def Skip.tag : Skip → String
  | .breakElem _ => "break"
  | .unknown tagName => tagName

/-- The state of the parser between two tokens.  `speak = none`: the loop of
`ParseReader` is reading.  `speak = some s`: `parseSpeak` is running for the
struct `s`; `frames` are the containers open inside it, innermost first, each
with the content its parent had when it was opened; `content` is the content of
the innermost open element so far; `skip` tells whether the loop of `parseBreak`
or `skipElement` is reading instead of `parseContent`. -/
structure Machine where
  result : ParseResult
  root : Option Speak
  speak : Option Speak
  frames : List (Open × List Node)
  content : List Node
  skip : Option Skip
deriving Repr

/-- The state in which `ParseReader` enters its loop. -/
def Machine.init : Machine :=
  { result := { Root := none, Warnings := [], Errors := [] }, root := none, speak := none,
    frames := [], content := [], skip := none }

/-- The `parentTag` of the `parseContent` call that is reading. -/
def Machine.parentTag (m : Machine) : String :=
  match m.frames with
  | [] => "speak"
  | (elem, _) :: _ => elem.tag

/-- The state when the loop of `parseBreak` or `skipElement` has read its end tag:
`parseContent` goes on, with the break appended to its content, or with nothing
for a skipped element. -/
def Machine.endSkip (m : Machine) : Skip → Machine
  | .breakElem b => { m with skip := none, content := m.content ++ [Node.Break b] }
  | .unknown _ => { m with skip := none }

/-- The state when the `parseContent` call that is reading returns `content`: the
innermost container is finished and appended to the content of its parent; if no
container is open, `parseSpeak` returns and the speak element becomes the
root. -/
def Machine.leave (m : Machine) (speak : Speak) (content : List Node) : Machine :=
  match m.frames with
  | [] => { m with root := some { speak with Content := content }, speak := none, content := [] }
  | (elem, outer) :: frames =>
    { m with frames := frames, content := outer ++ [elem.close content] }

/-- The parser's reaction to a token it has been handed: the next state, or the
result and error with which `ParseReader` returns. -/
def Machine.step (cfg : ValidationConfig) (m : Machine) (tok : xml.Token) :
    Except (ParseResult × GoError) Machine :=
  match m.speak with
  | none =>
    match tok with
    | .StartElement name attr =>
      if name.Local = "speak" then
        .ok { m with
          speak := some (attr.foldl parseSpeak.attr
            { XMLName := name, Version := "", Lang := "", Content := [] })
          frames := [], content := [], skip := none }
      else
        .ok { m with
          result := { m.result with
            Warnings := m.result.Warnings
              ++ ["Root element should be 'speak', found '" ++ name.Local ++ "'"] } }
    | _ => .ok m
  | some speak =>
    match m.skip with
    | some sk =>
      match tok with
      | .EndElement name => if name.Local = sk.tag then .ok (m.endSkip sk) else .ok m
      | _ => .ok m
    | none =>
      match tok with
      | .StartElement name attr =>
        match elementKind cfg name attr with
        | .container elem =>
          .ok { m with frames := (elem, m.content) :: m.frames, content := [] }
        | .breakElem b => .ok { m with skip := some (.breakElem b) }
        | .skip tagName => .ok { m with skip := some (.unknown tagName) }
        | .unknown tagName =>
          .error
            ({ m.result with
                Errors := m.result.Errors
                  ++ ["Error parsing speak element: "
                    ++ (GoError.errorString ("unknown element: " ++ tagName)).Error] },
              .errorString ("unknown element: " ++ tagName))
      | .CharData data =>
        if strings.TrimSpace data ≠ "" then
          .ok { m with content := m.content ++ [Node.Text (strings.TrimSpace data)] }
        else .ok m
      | .EndElement name =>
        if name.Local = m.parentTag then .ok (m.leave speak m.content) else .ok m
      | _ => .ok m

/-- The end of the token loop when the decoder returns the error `err` instead of
a token. -/
def Machine.stop (m : Machine) (err : GoError) : LoopExit :=
  match m.speak with
  | none =>
    match err with
    | .EOF => .done m.result m.root
    | _ =>
      .returned
        { m.result with Errors := m.result.Errors ++ ["XML parsing error: " ++ err.Error] } err
  | some _ =>
    .returned
      { m.result with
        Errors := m.result.Errors ++ ["Error parsing speak element: " ++ err.Error] } err

/-- The machine run over the raw tokens `input` of a decoder whose open elements
are `stk`. -/
def Machine.run (cfg : ValidationConfig) (lexErr : Option String) :
    List xml.Token → List xml.Name → Machine → LoopExit
  | [], stk, m =>
    match xml.Decoder.Token { input := [], lexErr := lexErr, stk := stk } with
    | .error err => m.stop err
    | .ok _ => .fuel
  | tok :: rest, stk, m =>
    match xml.Decoder.Token { input := tok :: rest, lexErr := lexErr, stk := stk } with
    | .error err => m.stop err
    | .ok (t, d) =>
      match m.step cfg t with
      | .error (result, err) => .returned result err
      | .ok m1 => Machine.run cfg lexErr rest d.stk m1

/-- The state of the decoder's element stack and of the parser after the tokens
`input` have been read, if neither has stopped with an error by then. -/
def Machine.feed (cfg : ValidationConfig) :
    List xml.Token → List xml.Name → Machine → Option (List xml.Name × Machine)
  | [], stk, m => some (stk, m)
  | tok :: rest, stk, m =>
    match xml.Decoder.Token { input := tok :: rest, lexErr := none, stk := stk } with
    | .error _ => none
    | .ok (t, d) =>
      match m.step cfg t with
      | .error _ => none
      | .ok m1 => Machine.feed cfg rest d.stk m1

end ssml

/-! ## Vocabulary of the statements -/

namespace xml

/-- The nesting check of `Decoder.Token` on one token: the open elements after the
token, or the syntax error it raises. -/
def nestStep (stk : List Name) : Token → Except GoError (List Name)
  | .StartElement name _ => .ok (name :: stk)
  | .EndElement name =>
    match stk with
    | [] => .error (.SyntaxError ("unexpected end element </" ++ name.Local ++ ">"))
    | top :: stk1 =>
      if top.Local ≠ name.Local then
        .error (.SyntaxError
          ("element <" ++ top.Local ++ "> closed by </" ++ name.Local ++ ">"))
      else if top.Space ≠ name.Space then
        .error (.SyntaxError
          ("element <" ++ top.Local ++ "> in space " ++ top.Space
            ++ " closed by </" ++ name.Local ++ "> in space " ++ name.Space))
      else .ok stk1
  | _ => .ok stk

/-- The elements that are open after the decoder has handed out all the tokens of
`input`, starting with the elements `stk` open; `none` when it reports a nesting
error on the way. -/
def openAfter : List Token → List Name → Option (List Name)
  | [], stk => some stk
  | tok :: rest, stk =>
    match nestStep stk tok with
    | .error _ => none
    | .ok stk1 => openAfter rest stk1

/-- A token that is neither a start tag nor an end tag. -/
def Token.isMisc : Token → Bool
  | .StartElement _ _ => false
  | .EndElement _ => false
  | _ => true

end xml

namespace ssml

/-- The tag names that `parseElement` recognizes. -/
def recognizedTags : List String :=
  ["audio", "break", "emphasis", "p", "phoneme", "prosody", "s", "sub", "voice", "w"]

end ssml

namespace ssml

/-- The warnings that the loop of `ParseReader` records for start tags other than
speak, one for each start tag of `input` in order. -/
def rootWarnings (input : List xml.Token) : List String :=
  input.filterMap fun tok =>
    match tok with
    | .StartElement name _ => some ("Root element should be 'speak', found '" ++ name.Local ++ "'")
    | _ => none

end ssml

namespace ssml

mutual
/-- The nesting depth of an item: 0 for an item that is not an element (a `Text`
value), otherwise 1 more than the nesting depth of its content (1 for a
`Break`, which has none). -/
def Node.elemDepth : Node → Nat
  | .Text _ => 0
  | .Audio _ c => 1 + elemDepth c
  | .Break _ => 1
  | .Emphasis _ c => 1 + elemDepth c
  | .Paragraph _ c => 1 + elemDepth c
  | .Phoneme _ c => 1 + elemDepth c
  | .Prosody _ c => 1 + elemDepth c
  | .Sentence _ c => 1 + elemDepth c
  | .Sub _ c => 1 + elemDepth c
  | .Voice _ c => 1 + elemDepth c
  | .W _ c => 1 + elemDepth c
  | .Other _ => 0
/-- The nesting depth of a content list: 0 when it holds no element, otherwise 1
more than the largest nesting depth of the content of its elements. -/
def elemDepth : List Node → Nat
  | [] => 0
  | item :: rest => max item.elemDepth (elemDepth rest)
end

/-- The `n` nested emphasis elements around a text that the test
`TestParseNestingDepth` writes, one for each attribute list of `attrs`. -/
def nestedEmphasis : List (List xml.Attr) → String → List xml.Token
  | [], text => [.CharData text]
  | attr :: rest, text =>
    .StartElement ⟨"", "emphasis"⟩ attr
      :: (nestedEmphasis rest text ++ [.EndElement ⟨"", "emphasis"⟩])

/-- The tokens of the document of `TestParseNestingDepth`: the XML declaration,
`<speak version=... xml:lang=...>`, the nested emphasis elements around the text,
`</speak>`. -/
def emphasisDocument (version lang : String) (attrs : List (List xml.Attr)) (text : String) :
    List xml.Token :=
  [.ProcInst "xml" "version=\"1.0\" encoding=\"UTF-8\"",
   .StartElement ⟨"", "speak"⟩ [⟨⟨"", "version"⟩, version⟩, ⟨⟨"xml", "lang"⟩, lang⟩]]
    ++ (nestedEmphasis attrs text ++ [.EndElement ⟨"", "speak"⟩])

/-- The content that the nested emphasis elements are parsed into. -/
def emphasisTree : List (List xml.Attr) → String → List Node
  | [], text => if strings.TrimSpace text ≠ "" then [Node.Text (strings.TrimSpace text)] else []
  | attr :: rest, text =>
    [Node.Emphasis (attr.foldl parseEmphasis.attr { XMLName := ⟨"", "emphasis"⟩, Level := "" })
      (emphasisTree rest text)]

end ssml

namespace xml

/-- A token sequence whose start and end tags are properly nested and matched
among themselves: the decoder hands it out without an error and ends with the
same elements open as before. -/
def Balanced (toks : List Token) : Prop :=
  ∀ stk, openAfter toks stk = some stk

end xml

namespace ssml

/-- `Content cfg toks nodes`: the tokens `toks` are a well-formed sequence of
children (character data, comments and the like, and complete elements) that
`parseContent` reads child by child, and `nodes` is the content it builds from
them.  Every element is a recognized container with such a sequence inside, a
break, or an unrecognized element that the configuration lets the parser skip;
a break or a skipped element may hold any balanced tokens except an end tag of
its own name, where its loop would stop early. -/
inductive Content (cfg : ValidationConfig) : List xml.Token → List Node → Prop where
  | nil : Content cfg [] []
  | text (data : String) (rest : List xml.Token) (nodes : List Node) :
      Content cfg rest nodes →
      Content cfg (.CharData data :: rest)
        ((if strings.TrimSpace data ≠ "" then [Node.Text (strings.TrimSpace data)] else [])
          ++ nodes)
  | comment (data : String) (rest : List xml.Token) (nodes : List Node) :
      Content cfg rest nodes → Content cfg (.Comment data :: rest) nodes
  | procInst (target inst : String) (rest : List xml.Token) (nodes : List Node) :
      Content cfg rest nodes → Content cfg (.ProcInst target inst :: rest) nodes
  | directive (data : String) (rest : List xml.Token) (nodes : List Node) :
      Content cfg rest nodes → Content cfg (.Directive data :: rest) nodes
  | container (name : xml.Name) (attr : List xml.Attr) (elem : Open)
      (body : List xml.Token) (inner : List Node) (rest : List xml.Token) (nodes : List Node) :
      elementKind cfg name attr = .container elem →
      Content cfg body inner → Content cfg rest nodes →
      Content cfg (.StartElement name attr :: (body ++ .EndElement name :: rest))
        (elem.close inner :: nodes)
  | breakElem (name : xml.Name) (attr : List xml.Attr) (b : Break)
      (mid : List xml.Token) (rest : List xml.Token) (nodes : List Node) :
      elementKind cfg name attr = .breakElem b →
      xml.Balanced mid → (∀ n, xml.Token.EndElement n ∈ mid → n.Local ≠ "break") →
      Content cfg rest nodes →
      Content cfg (.StartElement name attr :: (mid ++ .EndElement name :: rest))
        (Node.Break b :: nodes)
  | skipped (name : xml.Name) (attr : List xml.Attr) (tagName : String)
      (mid : List xml.Token) (rest : List xml.Token) (nodes : List Node) :
      elementKind cfg name attr = .skip tagName →
      xml.Balanced mid → (∀ n, xml.Token.EndElement n ∈ mid → n.Local ≠ tagName) →
      Content cfg rest nodes →
      Content cfg (.StartElement name attr :: (mid ++ .EndElement name :: rest)) nodes

end ssml

/-! ## The serializer (`serializer.go`) -/

namespace html

/-- The replacement that `html.EscapeString` makes for one character. -/
def escapeChar (c : Char) : List Char :=
  if c = '&' then "&amp;".data
  else if c = Char.ofNat 39 then "&#39;".data
  else if c = '<' then "&lt;".data
  else if c = '>' then "&gt;".data
  else if c = Char.ofNat 34 then "&#34;".data
  else [c]

/-- Go `html.EscapeString`: the five characters `<`, `>`, `&`, the apostrophe and
the double quote are replaced by `&lt;`, `&gt;`, `&amp;`, `&#39;` and `&#34;`. -/
def EscapeString (s : String) : String :=
  String.mk (s.data.flatMap escapeChar)

end html

namespace ssml

/-- Go `Serializer`. -/
structure Serializer where
  Pretty : Bool
  Indent : String
deriving DecidableEq, Repr

/-- Go `NewSerializer`. -/
def NewSerializer (pretty : Bool) : Serializer :=
  { Pretty := pretty, Indent := if pretty then "  " else "" }

/-- Go `Serializer.escapeString`. -/
def Serializer.escapeString (_s : Serializer) (str : String) : String :=
  html.EscapeString str

/-- Go `Serializer.writeIndent`; the builder is passed in and returned. -/
def Serializer.writeIndent (s : Serializer) (builder : String) (depth : Nat) : String :=
  if s.Pretty then (List.replicate depth s.Indent).foldl (fun b indent => b ++ indent) builder
  else builder

/-- Go `Serializer.serializeBreak`. -/
def Serializer.serializeBreak (s : Serializer) (builder : String) (breakElem : Break)
    (depth : Nat) : Except GoError String :=
  let builder := s.writeIndent builder depth
  let builder := builder ++ "<break"
  let builder :=
    if breakElem.Time ≠ "" then builder ++ (" time=\"" ++ s.escapeString breakElem.Time ++ "\"")
    else builder
  let builder :=
    if breakElem.Strength ≠ "" then
      builder ++ (" strength=\"" ++ s.escapeString breakElem.Strength ++ "\"")
    else builder
  let builder := builder ++ "/>"
  let builder := if s.Pretty then builder ++ "\n" else builder
  .ok builder

/-- Go `Serializer.serializeAudio`; `serializeContent` is the call
`s.serializeContent(builder, audio.Content, depth+1)`. -/
def Serializer.serializeAudio (s : Serializer) (builder : String) (audio : Audio)
    (content : List Node) (depth : Nat) (serializeContent : String → Except GoError String) :
    Except GoError String :=
  let builder := s.writeIndent builder depth
  let builder := builder ++ "<audio"
  let builder :=
    if audio.Src ≠ "" then builder ++ (" src=\"" ++ s.escapeString audio.Src ++ "\"")
    else builder
  if content.length = 0 then
    let builder := builder ++ "/>"
    let builder := if s.Pretty then builder ++ "\n" else builder
    .ok builder
  else
    let builder := builder ++ ">"
    let builder := if s.Pretty then builder ++ "\n" else builder
    match serializeContent builder with
    | .error err => .error err
    | .ok builder =>
      let builder := s.writeIndent builder depth
      let builder := builder ++ "</audio>"
      let builder := if s.Pretty then builder ++ "\n" else builder
      .ok builder

/-- Go `Serializer.serializeEmphasis`. -/
def Serializer.serializeEmphasis (s : Serializer) (builder : String) (emphasis : Emphasis)
    (content : List Node) (depth : Nat) (serializeContent : String → Except GoError String) :
    Except GoError String :=
  let builder := s.writeIndent builder depth
  let builder := builder ++ "<emphasis"
  let builder :=
    if emphasis.Level ≠ "" then builder ++ (" level=\"" ++ s.escapeString emphasis.Level ++ "\"")
    else builder
  if content.length = 0 then
    let builder := builder ++ "/>"
    let builder := if s.Pretty then builder ++ "\n" else builder
    .ok builder
  else
    let builder := builder ++ ">"
    let builder := if s.Pretty then builder ++ "\n" else builder
    match serializeContent builder with
    | .error err => .error err
    | .ok builder =>
      let builder := s.writeIndent builder depth
      let builder := builder ++ "</emphasis>"
      let builder := if s.Pretty then builder ++ "\n" else builder
      .ok builder

/-- Go `Serializer.serializeParagraph`, which has no self-closing form. -/
def Serializer.serializeParagraph (s : Serializer) (builder : String)
    (depth : Nat) (serializeContent : String → Except GoError String) :
    Except GoError String :=
  let builder := s.writeIndent builder depth
  let builder := builder ++ "<p>"
  let builder := if s.Pretty then builder ++ "\n" else builder
  match serializeContent builder with
  | .error err => .error err
  | .ok builder =>
    let builder := s.writeIndent builder depth
    let builder := builder ++ "</p>"
    let builder := if s.Pretty then builder ++ "\n" else builder
    .ok builder

/-- Go `Serializer.serializePhoneme`. -/
def Serializer.serializePhoneme (s : Serializer) (builder : String) (phoneme : Phoneme)
    (content : List Node) (depth : Nat) (serializeContent : String → Except GoError String) :
    Except GoError String :=
  let builder := s.writeIndent builder depth
  let builder := builder ++ "<phoneme"
  let builder :=
    if phoneme.Alphabet ≠ "" then
      builder ++ (" alphabet=\"" ++ s.escapeString phoneme.Alphabet ++ "\"")
    else builder
  let builder :=
    if phoneme.Ph ≠ "" then builder ++ (" ph=\"" ++ s.escapeString phoneme.Ph ++ "\"")
    else builder
  if content.length = 0 then
    let builder := builder ++ "/>"
    let builder := if s.Pretty then builder ++ "\n" else builder
    .ok builder
  else
    let builder := builder ++ ">"
    let builder := if s.Pretty then builder ++ "\n" else builder
    match serializeContent builder with
    | .error err => .error err
    | .ok builder =>
      let builder := s.writeIndent builder depth
      let builder := builder ++ "</phoneme>"
      let builder := if s.Pretty then builder ++ "\n" else builder
      .ok builder

/-- Go `Serializer.serializeProsody`. -/
def Serializer.serializeProsody (s : Serializer) (builder : String) (prosody : Prosody)
    (content : List Node) (depth : Nat) (serializeContent : String → Except GoError String) :
    Except GoError String :=
  let builder := s.writeIndent builder depth
  let builder := builder ++ "<prosody"
  let builder :=
    if prosody.Rate ≠ "" then builder ++ (" rate=\"" ++ s.escapeString prosody.Rate ++ "\"")
    else builder
  let builder :=
    if prosody.Pitch ≠ "" then builder ++ (" pitch=\"" ++ s.escapeString prosody.Pitch ++ "\"")
    else builder
  let builder :=
    if prosody.Range ≠ "" then builder ++ (" range=\"" ++ s.escapeString prosody.Range ++ "\"")
    else builder
  let builder :=
    if prosody.Volume ≠ "" then
      builder ++ (" volume=\"" ++ s.escapeString prosody.Volume ++ "\"")
    else builder
  if content.length = 0 then
    let builder := builder ++ "/>"
    let builder := if s.Pretty then builder ++ "\n" else builder
    .ok builder
  else
    let builder := builder ++ ">"
    let builder := if s.Pretty then builder ++ "\n" else builder
    match serializeContent builder with
    | .error err => .error err
    | .ok builder =>
      let builder := s.writeIndent builder depth
      let builder := builder ++ "</prosody>"
      let builder := if s.Pretty then builder ++ "\n" else builder
      .ok builder

/-- Go `Serializer.serializeSentence`, which has no self-closing form. -/
def Serializer.serializeSentence (s : Serializer) (builder : String)
    (depth : Nat) (serializeContent : String → Except GoError String) :
    Except GoError String :=
  let builder := s.writeIndent builder depth
  let builder := builder ++ "<s>"
  let builder := if s.Pretty then builder ++ "\n" else builder
  match serializeContent builder with
  | .error err => .error err
  | .ok builder =>
    let builder := s.writeIndent builder depth
    let builder := builder ++ "</s>"
    let builder := if s.Pretty then builder ++ "\n" else builder
    .ok builder

/-- Go `Serializer.serializeSub`. -/
def Serializer.serializeSub (s : Serializer) (builder : String) (sub : Sub)
    (content : List Node) (depth : Nat) (serializeContent : String → Except GoError String) :
    Except GoError String :=
  let builder := s.writeIndent builder depth
  let builder := builder ++ "<sub"
  let builder :=
    if sub.Alias ≠ "" then builder ++ (" alias=\"" ++ s.escapeString sub.Alias ++ "\"")
    else builder
  if content.length = 0 then
    let builder := builder ++ "/>"
    let builder := if s.Pretty then builder ++ "\n" else builder
    .ok builder
  else
    let builder := builder ++ ">"
    let builder := if s.Pretty then builder ++ "\n" else builder
    match serializeContent builder with
    | .error err => .error err
    | .ok builder =>
      let builder := s.writeIndent builder depth
      let builder := builder ++ "</sub>"
      let builder := if s.Pretty then builder ++ "\n" else builder
      .ok builder

/-- Go `Serializer.serializeVoice`. -/
def Serializer.serializeVoice (s : Serializer) (builder : String) (voice : Voice)
    (content : List Node) (depth : Nat) (serializeContent : String → Except GoError String) :
    Except GoError String :=
  let builder := s.writeIndent builder depth
  let builder := builder ++ "<voice"
  let builder :=
    if voice.Gender ≠ "" then builder ++ (" gender=\"" ++ s.escapeString voice.Gender ++ "\"")
    else builder
  let builder :=
    if voice.Age ≠ "" then builder ++ (" age=\"" ++ s.escapeString voice.Age ++ "\"")
    else builder
  let builder :=
    if voice.Variant ≠ "" then
      builder ++ (" variant=\"" ++ s.escapeString voice.Variant ++ "\"")
    else builder
  let builder :=
    if voice.Name ≠ "" then builder ++ (" name=\"" ++ s.escapeString voice.Name ++ "\"")
    else builder
  let builder :=
    if voice.Languages ≠ "" then
      builder ++ (" xml:lang=\"" ++ s.escapeString voice.Languages ++ "\"")
    else builder
  if content.length = 0 then
    let builder := builder ++ "/>"
    let builder := if s.Pretty then builder ++ "\n" else builder
    .ok builder
  else
    let builder := builder ++ ">"
    let builder := if s.Pretty then builder ++ "\n" else builder
    match serializeContent builder with
    | .error err => .error err
    | .ok builder =>
      let builder := s.writeIndent builder depth
      let builder := builder ++ "</voice>"
      let builder := if s.Pretty then builder ++ "\n" else builder
      .ok builder

/-- Go `Serializer.serializeW`. -/
def Serializer.serializeW (s : Serializer) (builder : String) (w : W)
    (content : List Node) (depth : Nat) (serializeContent : String → Except GoError String) :
    Except GoError String :=
  let builder := s.writeIndent builder depth
  let builder := builder ++ "<w"
  let builder :=
    if w.Role ≠ "" then builder ++ (" role=\"" ++ s.escapeString w.Role ++ "\"")
    else builder
  if content.length = 0 then
    let builder := builder ++ "/>"
    let builder := if s.Pretty then builder ++ "\n" else builder
    .ok builder
  else
    let builder := builder ++ ">"
    let builder := if s.Pretty then builder ++ "\n" else builder
    match serializeContent builder with
    | .error err => .error err
    | .ok builder =>
      let builder := s.writeIndent builder depth
      let builder := builder ++ "</w>"
      let builder := if s.Pretty then builder ++ "\n" else builder
      .ok builder

mutual
/-- One round of the loop of `serializeContent`: the type switch on the item. -/
def Serializer.serializeItem (s : Serializer) :
    String → Node → Nat → Except GoError String
  | builder, .Text content, depth =>
    let builder := s.writeIndent builder depth
    let builder := builder ++ s.escapeString content
    let builder := if s.Pretty then builder ++ "\n" else builder
    .ok builder
  | builder, .Audio audio content, depth =>
    s.serializeAudio builder audio content depth
      (fun b => Serializer.serializeContent s b content (depth + 1))
  | builder, .Break breakElem, depth => s.serializeBreak builder breakElem depth
  | builder, .Emphasis emphasis content, depth =>
    s.serializeEmphasis builder emphasis content depth
      (fun b => Serializer.serializeContent s b content (depth + 1))
  | builder, .Paragraph _ content, depth =>
    s.serializeParagraph builder depth
      (fun b => Serializer.serializeContent s b content (depth + 1))
  | builder, .Phoneme phoneme content, depth =>
    s.serializePhoneme builder phoneme content depth
      (fun b => Serializer.serializeContent s b content (depth + 1))
  | builder, .Prosody prosody content, depth =>
    s.serializeProsody builder prosody content depth
      (fun b => Serializer.serializeContent s b content (depth + 1))
  | builder, .Sentence _ content, depth =>
    s.serializeSentence builder depth
      (fun b => Serializer.serializeContent s b content (depth + 1))
  | builder, .Sub sub content, depth =>
    s.serializeSub builder sub content depth
      (fun b => Serializer.serializeContent s b content (depth + 1))
  | builder, .Voice voice content, depth =>
    s.serializeVoice builder voice content depth
      (fun b => Serializer.serializeContent s b content (depth + 1))
  | builder, .W w content, depth =>
    s.serializeW builder w content depth
      (fun b => Serializer.serializeContent s b content (depth + 1))
  | _, .Other typeName, _ => .error (.errorString ("unknown content type: " ++ typeName))
/-- Go `Serializer.serializeContent`. -/
def Serializer.serializeContent (s : Serializer) :
    String → List Node → Nat → Except GoError String
  | builder, [], _ => .ok builder
  | builder, item :: rest, depth =>
    match Serializer.serializeItem s builder item depth with
    | .error err => .error err
    | .ok builder1 => Serializer.serializeContent s builder1 rest depth
end

/-- Go `Serializer.serializeSpeak`. -/
def Serializer.serializeSpeak (s : Serializer) (builder : String) (speak : Speak)
    (depth : Nat) : Except GoError String :=
  let builder := s.writeIndent builder depth
  let builder := builder ++ "<speak"
  let builder :=
    if speak.Version ≠ "" then
      builder ++ (" version=\"" ++ s.escapeString speak.Version ++ "\"")
    else builder
  let builder :=
    if speak.Lang ≠ "" then builder ++ (" xml:lang=\"" ++ s.escapeString speak.Lang ++ "\"")
    else builder
  if speak.Content.length = 0 then
    let builder := builder ++ "/>"
    let builder := if s.Pretty then builder ++ "\n" else builder
    .ok builder
  else
    let builder := builder ++ ">"
    let builder := if s.Pretty then builder ++ "\n" else builder
    match s.serializeContent builder speak.Content (depth + 1) with
    | .error err => .error err
    | .ok builder =>
      let builder := s.writeIndent builder depth
      let builder := builder ++ "</speak>"
      let builder := if s.Pretty then builder ++ "\n" else builder
      .ok builder

/-- Go `Serializer.Serialize`; `speak = none` is the nil pointer. -/
def Serializer.Serialize (s : Serializer) (speak : Option Speak) : String × Option GoError :=
  match speak with
  | none => ("", some (.errorString "speak is nil"))
  | some speak =>
    let builder := "<?xml version=\"1.0\" encoding=\"UTF-8\"?>"
    let builder := if s.Pretty then builder ++ "\n" else builder
    match s.serializeSpeak builder speak 0 with
    | .error err => ("", some err)
    | .ok builder => (builder, none)

end ssml

/-! ## The tokenizer of `encoding/xml`

`Parser.Parse` hands the text to `xml.NewDecoder`.  The functions below model how
the decoder cuts a text into raw tokens, for the markup that the serializer can
write: the XML declaration, start tags with quoted attribute values,
self-closing tags, end tags and character data with the predefined entities and
numeric character references.  Comments, CDATA sections, directives, other
declarations and names outside ASCII are outside the modelled subset and are
reported as such.  The text is read as a list of characters (Go reads UTF-8
bytes; the bytes the decoder tests are ASCII, and the bytes of any other
character are passed on unchanged).  Namespace prefixes are left as the decoder's
`RawToken` returns them: the parser tests only `Name.Local`, and for a text
without name space declarations and without start elements with the prefix `xml`
their translation changes nothing in the parse result (`Parse_undeclared`); the
entity and the code point named by error messages are left out, as line numbers
are. -/

namespace xml

/-- Go `isInCharacterRange`: the characters that XML allows. -/
def isInCharacterRange (r : Char) : Bool :=
  r.toNat = 0x09 || r.toNat = 0x0A || r.toNat = 0x0D
    || (0x20 ≤ r.toNat && r.toNat ≤ 0xD7FF)
    || (0xE000 ≤ r.toNat && r.toNat ≤ 0xFFFD)
    || (0x10000 ≤ r.toNat && r.toNat ≤ 0x10FFFF)

/-- Go `isNameByte`. -/
def isNameByte (c : Char) : Bool :=
  (65 ≤ c.toNat && c.toNat ≤ 90) || (97 ≤ c.toNat && c.toNat ≤ 122)
    || (48 ≤ c.toNat && c.toNat ≤ 57)
    || c = '_' || c = ':' || c = '.' || c = '-'

/-- The characters that `readName` collects: name bytes and every byte outside
ASCII. -/
def isNameChar (c : Char) : Bool :=
  128 ≤ c.toNat || isNameByte c

/-- Go `isName`, on a name whose characters are all ASCII name bytes: the first
one must be a letter, an underscore or a colon. -/
def isName (s : List Char) : Bool :=
  match s with
  | [] => false
  | c :: _ =>
    (65 ≤ c.toNat && c.toNat ≤ 90) || (97 ≤ c.toNat && c.toNat ≤ 122) || c = '_' || c = ':'

/-- The white space that `Decoder.space` skips. -/
def isSpaceByte (c : Char) : Bool :=
  c = ' ' || c = '\r' || c = '\n' || c = '\t'

/-- Go `Decoder.space`: the input after the white space at its start. -/
def space (input : List Char) : List Char :=
  input.dropWhile isSpaceByte

/-- Go `Decoder.name`: the name at the start of the input and the input after
it.  `expected` is the message of the caller when there is no name. -/
def name (expected : String) (input : List Char) : Except String (List Char × List Char) :=
  let b := input.takeWhile isNameChar
  let rest := input.dropWhile isNameChar
  if input = [] then .error "unexpected EOF"
  else if b = [] then .error expected
  else if rest = [] then .error "unexpected EOF"
  else if b.any (fun c => 128 ≤ c.toNat) then .error "outside the modelled subset"
  else if !isName b then .error ("invalid XML name: " ++ String.mk b)
  else .ok (b, rest)

/-- The split that `Decoder.nsname` makes of a name with at most one colon: the
prefix before the colon and the local part after it, or the whole name as local
part when there is no colon or one of the two parts would be empty. -/
def splitName (s : List Char) : Name :=
  let space := s.takeWhile (fun c => c ≠ ':')
  let loc := (s.dropWhile (fun c => c ≠ ':')).drop 1
  if (s.filter (fun c => c = ':')).length = 0 || space = [] || loc = [] then
    { Space := "", Local := String.mk s }
  else { Space := String.mk space, Local := String.mk loc }

/-- Go `Decoder.nsname`: the name, split at its colon into prefix and local
part. -/
def nsname (expected : String) (input : List Char) : Except String (Name × List Char) :=
  match name expected input with
  | .error e => .error e
  | .ok (s, rest) =>
    if (s.filter (fun c => c = ':')).length > 1 then .error expected
    else .ok (splitName s, rest)

/-- The predefined entities of XML. -/
def entity (name : List Char) : Option Char :=
  if name = "lt".data then some '<'
  else if name = "gt".data then some '>'
  else if name = "amp".data then some '&'
  else if name = "apos".data then some (Char.ofNat 39)
  else if name = "quot".data then some (Char.ofNat 34)
  else none

/-- The value of a digit in the given base, if it is one. -/
def digitValue (base : Nat) (c : Char) : Option Nat :=
  if 48 ≤ c.toNat && c.toNat ≤ 57 then some (c.toNat - 48)
  else if base = 16 && 97 ≤ c.toNat && c.toNat ≤ 102 then some (c.toNat - 97 + 10)
  else if base = 16 && 65 ≤ c.toNat && c.toNat ≤ 70 then some (c.toNat - 65 + 10)
  else none

/-- The character of a numeric character reference: the digits are read in the
base, and the number must not exceed `unicode.MaxRune`; a number that is no
valid code point gives U+FFFD, as the conversion `string(rune(n))` does. -/
def charRef (base : Nat) (digits : List Char) : Option Char :=
  match digits with
  | [] => none
  | _ :: _ =>
    match digits.foldl
        (fun acc c => match acc, digitValue base c with
          | some n, some d => some (n * base + d)
          | _, _ => none)
        (some 0) with
    | none => none
    | some n =>
      if n ≤ 0x10FFFF then
        some (if 0xD800 ≤ n && n ≤ 0xDFFF then Char.ofNat 0xFFFD else Char.ofNat n)
      else none

/-- The character that the text between `&` and `;` stands for. -/
def entityText (name : List Char) : Option Char :=
  match name with
  | '#' :: 'x' :: digits => charRef 16 digits
  | '#' :: digits => charRef 10 digits
  | _ => entity name

/-- Put a character in front of the text that has been read. -/
def consText (c : Char) :
    Except String (List Char × List Char) → Except String (List Char × List Char)
  | .error e => .error e
  | .ok (data, rest) => .ok (c :: data, rest)

/-- The loop of Go `Decoder.text(quote, false)`: the character data up to the
next `<` (which stays in the input) or, inside an attribute value, up to the
closing quote (which is consumed), with entities replaced and `\r` and `\r\n`
rewritten to `\n`.  `b0` and `b1` are the two characters read last; `ent` holds
the characters read since an `&`.  The result is the text and the input after
it. -/
def text (quote : Option Char) :
    Char → Char → Option (List Char) → List Char → Except String (List Char × List Char)
  | _, _, none, [] => if quote.isSome then .error "unexpected EOF" else .ok ([], [])
  | _, _, some _, [] => .error "unexpected EOF"
  | b0, b1, none, b :: rest =>
    if b0 = ']' ∧ b1 = ']' ∧ b = '>' then .error "unescaped ]]> not in CDATA section"
    else if b = '<' then
      if quote.isSome then .error "unescaped < inside quoted string" else .ok ([], b :: rest)
    else if quote = some b then .ok ([], rest)
    else if b = '&' then text quote b0 b1 (some []) rest
    else if b = '\r' then consText '\n' (text quote b1 b none rest)
    else if b1 = '\r' ∧ b = '\n' then text quote b1 b none rest
    else consText b (text quote b1 b none rest)
  | b0, b1, some ent, b :: rest =>
    if b = ';' then
      match entityText ent with
      | some c => consText c (text quote (Char.ofNat 0) (Char.ofNat 0) none rest)
      | none => .error "invalid character entity"
    else text quote b0 b1 (some (ent ++ [b])) rest

/-- Go `Decoder.text` with its final check that every character read is one
that XML allows. -/
def textData (quote : Option Char) (input : List Char) : Except String (String × List Char) :=
  match text quote (Char.ofNat 0) (Char.ofNat 0) none input with
  | .error e => .error e
  | .ok (data, rest) =>
    if data.all isInCharacterRange then .ok (String.mk data, rest)
    else .error "illegal character code"

/-- Go `Decoder.attrval` in strict mode: a quoted attribute value. -/
def attrval : List Char → Except String (String × List Char)
  | [] => .error "unexpected EOF"
  | b :: rest =>
    if b = Char.ofNat 34 ∨ b = Char.ofNat 39 then textData (some b) rest
    else .error "unquoted or missing attribute value in element"

/-- The attribute loop of `Decoder.rawToken` for a start tag: the attributes
read, whether the tag is self-closing, and the input after the tag.  The first
argument bounds the number of rounds; any number above the length of the input
is enough. -/
def attrs : Nat → List Char → List Attr → Except String (List Attr × Bool × List Char)
  | 0, _, _ => .error "recursion budget"
  | fuel + 1, input, attr =>
    match space input with
    | [] => .error "unexpected EOF"
    | b :: rest =>
      if b = '/' then
        match rest with
        | [] => .error "unexpected EOF"
        | b1 :: rest1 =>
          if b1 = '>' then .ok (attr, true, rest1) else .error "expected /> in element"
      else if b = '>' then .ok (attr, false, rest)
      else
        match nsname "expected attribute name in element" (b :: rest) with
        | .error e => .error e
        | .ok (a, rest1) =>
          match space rest1 with
          | [] => .error "unexpected EOF"
          | b1 :: rest2 =>
            if b1 ≠ '=' then .error "attribute name without = in element"
            else
              match attrval (space rest2) with
              | .error e => .error e
              | .ok (value, rest3) => attrs fuel rest3 (attr ++ [{ Name := a, Value := value }])

/-- The text of a processing instruction up to its closing `?>`, and the input
after it. -/
def procInstData : List Char → Except String (List Char × List Char)
  | [] => .error "unexpected EOF"
  | b :: rest =>
    match b, rest with
    | '?', '>' :: rest1 => .ok ([], rest1)
    | _, _ => consText b (procInstData rest)

/-- Put a token in front of the tokens that are read after it. -/
def consToken (tok : Token) (r : List Token × Option String) : List Token × Option String :=
  (tok :: r.1, r.2)

/-- The raw tokens of a text, in the order in which the decoder reads them, and
the syntax error at which it stops, if any.  A self-closing tag gives its start
element and the end element that `Decoder.Token` adds.  The first argument
bounds the number of tokens; any number above the length of the text is
enough. -/
def tokens : Nat → List Char → List Token × Option String
  | 0, _ => ([], some "recursion budget")
  | _ + 1, [] => ([], none)
  | fuel + 1, b :: rest =>
    if b ≠ '<' then
      match textData none (b :: rest) with
      | .error e => ([], some e)
      | .ok (data, rest1) => consToken (.CharData data) (tokens fuel rest1)
    else
      match rest with
      | [] => ([], some "unexpected EOF")
      | b1 :: rest1 =>
        if b1 = '/' then
          match nsname "expected element name after </" rest1 with
          | .error e => ([], some e)
          | .ok (n, rest2) =>
            match space rest2 with
            | [] => ([], some "unexpected EOF")
            | b2 :: rest3 =>
              if b2 ≠ '>' then
                ([], some ("invalid characters between </" ++ n.Local ++ " and >"))
              else consToken (.EndElement n) (tokens fuel rest3)
        else if b1 = '?' then
          match name "expected target name after <?" rest1 with
          | .error e => ([], some e)
          | .ok (target, rest2) =>
            match procInstData (space rest2) with
            | .error e => ([], some e)
            | .ok (data, rest3) =>
              if target = "xml".data ∧ data ≠ "version=\"1.0\" encoding=\"UTF-8\"".data then
                ([], some "outside the modelled subset")
              else consToken (.ProcInst (String.mk target) (String.mk data)) (tokens fuel rest3)
        else if b1 = '!' then ([], some "outside the modelled subset")
        else
          match nsname "expected element name after <" (b1 :: rest1) with
          | .error e => ([], some e)
          | .ok (n, rest2) =>
            match attrs (rest2.length + 1) rest2 [] with
            | .error e => ([], some e)
            | .ok (attr, empty, rest3) =>
              if empty then
                consToken (.StartElement n attr) (consToken (.EndElement n) (tokens fuel rest3))
              else consToken (.StartElement n attr) (tokens fuel rest3)

/-- The raw tokens of a text and the syntax error, if any, that ends them. -/
def tokenize (s : String) : List Token × Option String :=
  tokens (s.data.length + 1) s.data

end xml

namespace ssml

/-- Go `Parser.Parse`: `ParseReader` on a decoder for the text, with the names of
the tokens as written. -/
def Parse (cfg : ValidationConfig) (ssmlContent : String) :
    Option (ParseResult × Option GoError) :=
  ParseReader cfg (xml.NewDecoder (xml.tokenize ssmlContent).1 (xml.tokenize ssmlContent).2)

end ssml

/-! ## The markup that the serializer writes

To relate the text that `Serialize` writes to the tokens that the decoder reads
from it, the document is viewed as a markup tree (`Node.markup`), and the text as
a sequence of pieces: runs of characters, start tags and end tags. -/

namespace ssml

/-- A document item as the serializer sees it: a text, an element with its tag,
the attributes it may write (those with an empty value are left out), whether it
is written as a self-closing tag when it has no content, and its content; or a
value the serializer does not know. -/
inductive Markup where
  | text (content : String)
  | element (tag : String) (attrs : List (String × String)) (selfClosing : Bool)
      (content : List Markup)
  | other

mutual
/-- The markup view of a document item. -/
def Node.markup : Node → Markup
  | .Text c => .text c
  | .Audio a c => .element "audio" [("src", a.Src)] true (markupList c)
  | .Break b => .element "break" [("time", b.Time), ("strength", b.Strength)] true []
  | .Emphasis e c => .element "emphasis" [("level", e.Level)] true (markupList c)
  | .Paragraph _ c => .element "p" [] false (markupList c)
  | .Phoneme p c => .element "phoneme" [("alphabet", p.Alphabet), ("ph", p.Ph)] true (markupList c)
  | .Prosody p c =>
    .element "prosody"
      [("rate", p.Rate), ("pitch", p.Pitch), ("range", p.Range), ("volume", p.Volume)] true
      (markupList c)
  | .Sentence _ c => .element "s" [] false (markupList c)
  | .Sub s c => .element "sub" [("alias", s.Alias)] true (markupList c)
  | .Voice v c =>
    .element "voice"
      [("gender", v.Gender), ("age", v.Age), ("variant", v.Variant), ("name", v.Name),
        ("xml:lang", v.Languages)] true
      (markupList c)
  | .W w c => .element "w" [("role", w.Role)] true (markupList c)
  | .Other _ => .other
/-- The markup view of a content list. -/
def markupList : List Node → List Markup
  | [] => []
  | item :: rest => item.markup :: markupList rest
end

/-- A piece of serialized text: characters (to be escaped), a start tag, which
may be self-closing, or an end tag. -/
inductive Piece where
  | text (cs : List Char)
  | startTag (tag : String) (attrs : List (String × String)) (empty : Bool)
  | endTag (tag : String)

/-- The indentation that `writeIndent` writes at a depth. -/
def indentChars (pretty : Bool) (depth : Nat) : List Char :=
  if pretty then (List.replicate depth "  ".data).flatten else []

/-- The line break that the serializer writes in pretty mode. -/
def newlineChars (pretty : Bool) : List Char :=
  if pretty then ['\n'] else []

mutual
/-- The pieces that the serializer writes for an item at a depth. -/
def Markup.pieces (pretty : Bool) : Nat → Markup → List Piece
  | depth, .text c => [.text (indentChars pretty depth ++ c.data ++ newlineChars pretty)]
  | depth, .element tag attrs selfClosing content =>
    if content.isEmpty && selfClosing then
      [.text (indentChars pretty depth), .startTag tag attrs true, .text (newlineChars pretty)]
    else
      [.text (indentChars pretty depth), .startTag tag attrs false, .text (newlineChars pretty)]
        ++ (piecesList pretty (depth + 1) content
          ++ [.text (indentChars pretty depth), .endTag tag, .text (newlineChars pretty)])
  | _, .other => []
/-- The pieces that the serializer writes for a content list at a depth. -/
def piecesList (pretty : Bool) : Nat → List Markup → List Piece
  | _, [] => []
  | depth, item :: rest => item.pieces pretty depth ++ piecesList pretty depth rest
end

/-- The text of an attribute in a start tag; nothing for an empty value. -/
def renderAttr (a : String × String) : List Char :=
  if a.2 ≠ "" then
    ' ' :: (a.1.data ++ ("=\"".data ++ ((html.EscapeString a.2).data ++ "\"".data)))
  else []

/-- The text of a piece. -/
def Piece.render : Piece → List Char
  | .text cs => cs.flatMap html.escapeChar
  | .startTag tag attrs empty =>
    '<' :: (tag.data ++ (attrs.flatMap renderAttr ++ (if empty then "/>".data else ">".data)))
  | .endTag tag => "</".data ++ (tag.data ++ ">".data)

/-- The text of a sequence of pieces. -/
def render (ps : List Piece) : List Char :=
  ps.flatMap Piece.render

mutual
/-- No value of unknown type occurs in the item. -/
def Markup.known : Markup → Bool
  | .text _ => true
  | .element _ _ _ content => knownList content
  | .other => false
/-- No value of unknown type occurs in the list. -/
def knownList : List Markup → Bool
  | [] => true
  | item :: rest => item.known && knownList rest
end

end ssml

namespace ssml

/-- The text of an element at a depth: the self-closing tag when `body` is
`none`, otherwise the start tag, the body and the end tag. -/
def elementChars (pretty : Bool) (depth : Nat) (tag : String) (attrs : List (String × String))
    (body : Option (List Char)) : List Char :=
  indentChars pretty depth ++ ('<' :: (tag.data ++ (attrs.flatMap renderAttr ++
    match body with
    | none => "/>".data ++ newlineChars pretty
    | some inner =>
      ">".data ++ (newlineChars pretty ++ (inner ++ (indentChars pretty depth
        ++ ("</".data ++ (tag.data ++ (">".data ++ newlineChars pretty)))))))))

end ssml

/-! ## The tokens of serialized text -/

namespace xml

/-- The rewriting of line ends that `Decoder.text` applies to the characters it
reads: `\r\n` and `\r` become `\n`.  The flag tells whether the character read
last was a `\r`. -/
def normalize : Bool → List Char → List Char
  | _, [] => []
  | cr, c :: rest =>
    if c = '\r' then '\n' :: normalize true rest
    else if cr && c = '\n' then normalize false rest
    else c :: normalize false rest

/-- A name that the decoder reads back as it is written: ASCII name characters, a
first character that may start a name, and at most one colon. -/
def goodName (s : List Char) : Bool :=
  s.all isNameByte && isName s && decide ((s.filter (fun c => c = ':')).length ≤ 1)

end xml

namespace ssml

/-- The attributes that the decoder reads from the attributes written in a start
tag. -/
def attrTokens : List (String × String) → List xml.Attr
  | [] => []
  | a :: rest =>
    if a.2 ≠ "" then
      { Name := xml.splitName a.1.data, Value := String.mk (xml.normalize false a.2.data) }
        :: attrTokens rest
    else attrTokens rest

/-- The character data token for the characters written since the last tag;
nothing when there are none. -/
def flush (pending : List Char) : List xml.Token :=
  if pending = [] then [] else [.CharData (String.mk (xml.normalize false pending))]

/-- The tokens that the decoder reads from a sequence of pieces, up to the last
tag, and the characters written after that tag.  `pending` are the characters
written since the tag before the pieces. -/
def scan : List Char → List Piece → List xml.Token × List Char
  | pending, [] => ([], pending)
  | pending, .text cs :: ps => scan (pending ++ cs) ps
  | pending, .startTag tag attrs empty :: ps =>
    (flush pending ++ (.StartElement (xml.splitName tag.data) (attrTokens attrs)
      :: ((if empty then [.EndElement (xml.splitName tag.data)] else []) ++ (scan [] ps).1)),
      (scan [] ps).2)
  | pending, .endTag tag :: ps =>
    (flush pending ++ (.EndElement (xml.splitName tag.data) :: (scan [] ps).1), (scan [] ps).2)

/-- The pieces that the decoder can read back: characters that XML allows, and
names that it reads as they are written. -/
def Piece.valid : Piece → Bool
  | .text cs => cs.all xml.isInCharacterRange
  | .startTag tag attrs _ =>
    xml.goodName tag.data
      && attrs.all (fun a => xml.goodName a.1.data && a.2.data.all xml.isInCharacterRange)
  | .endTag tag => xml.goodName tag.data

end ssml

/-! ## Vocabulary of the round trip -/

namespace ssml

/-- The characters hold one that is not white space. -/
def solid (cs : List Char) : Bool :=
  cs.any (fun c => !unicode.IsSpace c)

/-- The text items that `parseContent` makes of a run of character data: one
item with the trimmed text, or none when the run is white space only. -/
def textNodes (pending : List Char) : List Node :=
  if solid pending then [Node.Text (strings.TrimSpace (String.mk (xml.normalize false pending)))]
  else []

/-- The item is a `Text`. -/
def Node.isText : Node → Bool
  | .Text _ => true
  | _ => false

/-- The number of items of a content list when every run of adjacent `Text`
items counts as one item.  The flag tells whether the item before the list is a
`Text`. -/
def countRuns : Bool → List Node → Nat
  | _, [] => 0
  | prevText, item :: rest =>
    (if prevText && item.isText then 0 else 1) + countRuns item.isText rest

mutual
/-- What every item built by the parser satisfies, at any depth: it is a `Text`
whose content has a character that is not white space, or one of the ten
elements with such content. -/
def Node.parsed : Node → Bool
  | .Text c => decide (strings.TrimSpace c ≠ "")
  | .Audio _ c => parsedList c
  | .Break _ => true
  | .Emphasis _ c => parsedList c
  | .Paragraph _ c => parsedList c
  | .Phoneme _ c => parsedList c
  | .Prosody _ c => parsedList c
  | .Sentence _ c => parsedList c
  | .Sub _ c => parsedList c
  | .Voice _ c => parsedList c
  | .W _ c => parsedList c
  | .Other _ => false
/-- Every item of the list, at any depth, is as the parser builds it. -/
def parsedList : List Node → Bool
  | [] => true
  | item :: rest => item.parsed && parsedList rest
end

/-- The string holds only characters that XML allows. -/
def xmlString (s : String) : Bool :=
  s.data.all xml.isInCharacterRange

mutual
/-- Every text and every attribute value of the item, at any depth, holds only
characters that XML allows (as all character data and attribute values that
the decoder hands out do). -/
def Node.xmlChars : Node → Bool
  | .Text c => xmlString c
  | .Audio a c => xmlString a.Src && xmlCharsList c
  | .Break b => xmlString b.Time && xmlString b.Strength
  | .Emphasis e c => xmlString e.Level && xmlCharsList c
  | .Paragraph _ c => xmlCharsList c
  | .Phoneme p c => xmlString p.Alphabet && xmlString p.Ph && xmlCharsList c
  | .Prosody p c =>
    xmlString p.Rate && xmlString p.Pitch && xmlString p.Range && xmlString p.Volume
      && xmlCharsList c
  | .Sentence _ c => xmlCharsList c
  | .Sub s c => xmlString s.Alias && xmlCharsList c
  | .Voice v c =>
    xmlString v.Gender && xmlString v.Age && xmlString v.Variant && xmlString v.Name
      && xmlString v.Languages && xmlCharsList c
  | .W w c => xmlString w.Role && xmlCharsList c
  | .Other _ => true
/-- Every text and attribute value in the list holds only characters that XML
allows. -/
def xmlCharsList : List Node → Bool
  | [] => true
  | item :: rest => item.xmlChars && xmlCharsList rest
end

/-- Every text and attribute value of the document holds only characters that
XML allows. -/
def Speak.xmlChars (speak : Speak) : Bool :=
  xmlString speak.Version && xmlString speak.Lang && xmlCharsList speak.Content

/-- The markup item is a text. -/
def Markup.isText : Markup → Bool
  | .text _ => true
  | _ => false

/-- The tags of the nine container elements. -/
def containerTags : List String :=
  ["audio", "emphasis", "p", "phoneme", "prosody", "s", "sub", "voice", "w"]

mutual
/-- The nesting depth of a markup item, as `Node.elemDepth`. -/
def Markup.depth : Markup → Nat
  | .text _ => 0
  | .element _ _ _ content => 1 + depthList content
  | .other => 0
/-- The nesting depth of a markup list, as `elemDepth`. -/
def depthList : List Markup → Nat
  | [] => 0
  | item :: rest => max item.depth (depthList rest)
end

mutual
/-- The markup items that the parser reads back: texts with a character that is
not white space, and recognized elements (a break being empty and
self-closing), all with characters that XML allows and attribute names that are
read as written. -/
def Markup.ok : Markup → Bool
  | .text c => solid c.data && xmlString c
  | .element tag attrs selfClosing content =>
    (decide (tag ∈ containerTags)
        || (decide (tag = "break") && content.isEmpty && selfClosing))
      && attrs.all (fun a => xml.goodName a.1.data && xmlString a.2)
      && okList content
  | .other => false
/-- Every item of the list can be read back. -/
def okList : List Markup → Bool
  | [] => true
  | item :: rest => item.ok && okList rest
end

/-- `countRuns` on markup. -/
def countRunsM : Bool → List Markup → Nat
  | _, [] => 0
  | prevText, item :: rest =>
    (if prevText && item.isText then 0 else 1) + countRunsM item.isText rest

/-- Whether the last item of the list is a text; the flag when the list is
empty. -/
def lastText : Bool → List Markup → Bool
  | prevText, [] => prevText
  | _, item :: rest => lastText item.isText rest

end ssml

namespace ssml

/-- Every item that the parser holds in a state is as `Node.parsed` describes:
the content of the root, if there is one, the content read so far, and the
content that the open elements' parents had. -/
def Machine.parsed (m : Machine) : Bool :=
  (match m.root with
    | none => true
    | some root => parsedList root.Content)
    && parsedList m.content && m.frames.all (fun f => parsedList f.2)

end ssml

namespace ssml

/-- The markup view of the root element. -/
def Speak.markup (speak : Speak) : Markup :=
  .element "speak" [("version", speak.Version), ("xml:lang", speak.Lang)] true
    (markupList speak.Content)

/-- The pieces that `Serialize` writes after the XML declaration. -/
def documentPieces (pretty : Bool) (speak : Speak) : List Piece :=
  .text (newlineChars pretty) :: speak.markup.pieces pretty 0

/-- Two `Text` items stand next to each other in the list. -/
def adjacentTexts : List Node → Bool
  | [] => false
  | item :: rest =>
    (match rest with
      | [] => false
      | next :: _ => item.isText && next.isText) || adjacentTexts rest

end ssml

namespace ssml

/-- The document of the test `TestParseSerializeRoundtrip`. -/
def roundtripDocument : String :=
  "<?xml version=\"1.0\" encoding=\"UTF-8\"?>\n<speak version=\"1.0\" xml:lang=\"zh-CN\">\n  <voice name=\"xiaoxiao\">\n    <prosody rate=\"fast\" pitch=\"high\">\n      这是测试内容。\n    </prosody>\n    <break time=\"500ms\"/>\n    <emphasis level=\"strong\">重要内容</emphasis>\n  </voice>\n</speak>"

/-- The document that the parser builds from `roundtripDocument`. -/
def roundtripRoot : Speak :=
  { XMLName := ⟨"", "speak"⟩, Version := "1.0", Lang := "zh-CN",
    Content :=
      [.Voice
        { XMLName := ⟨"", "voice"⟩, Gender := "", Age := "", Variant := "", Name := "xiaoxiao",
          Languages := "" }
        [.Prosody
          { XMLName := ⟨"", "prosody"⟩, Rate := "fast", Pitch := "high", Range := "",
            Volume := "" }
          [.Text "这是测试内容。"],
         .Break { XMLName := ⟨"", "break"⟩, Time := "500ms", Strength := "" },
         .Emphasis { XMLName := ⟨"", "emphasis"⟩, Level := "strong" } [.Text "重要内容"]]] }

end ssml

/-! ## Vocabulary of the error contract -/

namespace ssml

/-- The errors with which `validate` rejects a document that has been parsed:
the two of `strictValidation` and the one of `validateNestingDepth`. -/
def validationErrors (cfg : ValidationConfig) : List GoError :=
  [.errorString "SSML version is required", .errorString "language is required",
    nestingError cfg]

/-- A configuration that admits one level of elements below the root. -/
def shallowConfig : ValidationConfig :=
  { StrictMode := false, AllowUnknownElements := true, MaxNestingDepth := 1, MaxDuration := 0 }

/-- The tokens of `<speak version="1.0" xml:lang="en"><p><s>x</s></p></speak>`. -/
def nestedTokens : List xml.Token :=
  [.StartElement ⟨"", "speak"⟩ [⟨⟨"", "version"⟩, "1.0"⟩, ⟨⟨"xml", "lang"⟩, "en"⟩],
   .StartElement ⟨"", "p"⟩ [], .StartElement ⟨"", "s"⟩ [], .CharData "x",
   .EndElement ⟨"", "s"⟩, .EndElement ⟨"", "p"⟩, .EndElement ⟨"", "speak"⟩]

/-- The tree of `nestedTokens`. -/
def nestedRoot : Speak :=
  { XMLName := ⟨"", "speak"⟩, Version := "1.0", Lang := "en",
    Content := [.Paragraph ⟨⟨"", "p"⟩⟩ [.Sentence ⟨⟨"", "s"⟩⟩ [.Text "x"]]] }

end ssml

/-! ## Vocabulary of content construction -/

namespace ssml

/-- The string is not empty and neither begins nor ends with white space. -/
def trimmed (s : String) : Bool :=
  match s.data.head?, s.data.getLast? with
  | some a, some b => !unicode.IsSpace a && !unicode.IsSpace b
  | _, _ => false

mutual
/-- Every `Text` of the item, at any depth, has a content for which `p` holds. -/
def Node.allTexts (p : String → Bool) : Node → Bool
  | .Text c => p c
  | .Audio _ c => allTextsList p c
  | .Break _ => true
  | .Emphasis _ c => allTextsList p c
  | .Paragraph _ c => allTextsList p c
  | .Phoneme _ c => allTextsList p c
  | .Prosody _ c => allTextsList p c
  | .Sentence _ c => allTextsList p c
  | .Sub _ c => allTextsList p c
  | .Voice _ c => allTextsList p c
  | .W _ c => allTextsList p c
  | .Other _ => true
/-- Every `Text` of the list, at any depth, has a content for which `p` holds. -/
def allTextsList (p : String → Bool) : List Node → Bool
  | [] => true
  | item :: rest => item.allTexts p && allTextsList p rest
end

/-- Every `Text` that the parser holds in a state has a content for which `p`
holds. -/
def Machine.allTexts (p : String → Bool) (m : Machine) : Bool :=
  (match m.root with
    | none => true
    | some root => allTextsList p root.Content)
    && allTextsList p m.content && m.frames.all (fun f => allTextsList p f.2)

end ssml
namespace xml

/-- A well-formed piece of a document as a tree: character data, a comment, a
processing instruction, a directive, or an element with its children. -/
inductive Tree where
  | charData (data : String)
  | comment (data : String)
  | procInst (target inst : String)
  | directive (data : String)
  | element (name : Name) (attr : List Attr) (children : List Tree)

mutual
/-- The tokens that the decoder hands out for the tree. -/
def Tree.tokens : Tree → List Token
  | .charData data => [.CharData data]
  | .comment data => [.Comment data]
  | .procInst target inst => [.ProcInst target inst]
  | .directive data => [.Directive data]
  | .element name attr children =>
    .StartElement name attr :: (Tree.listTokens children ++ [.EndElement name])
/-- The tokens of a sequence of trees. -/
def Tree.listTokens : List Tree → List Token
  | [] => []
  | t :: ts => t.tokens ++ Tree.listTokens ts
end

mutual
/-- The tree is or contains an element with the local name `tag`. -/
def Tree.hasElement (tag : String) : Tree → Bool
  | .element name _ children => name.Local == tag || Tree.listHasElement tag children
  | _ => false
/-- One of the trees is or contains an element with the local name `tag`. -/
def Tree.listHasElement (tag : String) : List Tree → Bool
  | [] => false
  | t :: ts => t.hasElement tag || Tree.listHasElement tag ts
end

end xml

namespace ssml

mutual
/-- The items that a child contributes to the content of its parent: a `Text`
with the trimmed string for character data that is not all white space, one
item of the variant that `parseElement` chooses for a recognized element, with
the items of its own children as content, and nothing otherwise. -/
def childNodes (cfg : ValidationConfig) : xml.Tree → List Node
  | .charData data =>
    if strings.TrimSpace data ≠ "" then [Node.Text (strings.TrimSpace data)] else []
  | .comment _ => []
  | .procInst _ _ => []
  | .directive _ => []
  | .element name attr children =>
    match elementKind cfg name attr with
    | .container elem => [elem.close (childrenNodes cfg children)]
    | .breakElem b => [Node.Break b]
    | .skip _ => []
    | .unknown _ => []
/-- The content that a sequence of children makes, in document order. -/
def childrenNodes (cfg : ValidationConfig) : List xml.Tree → List Node
  | [] => []
  | t :: ts => childNodes cfg t ++ childrenNodes cfg ts
end

mutual
/-- No break of the tree contains a break, no unrecognized element contains an
element of its own name, and every unrecognized element is one that the
configuration lets the parser skip. -/
def plainTree (cfg : ValidationConfig) : xml.Tree → Bool
  | .element name attr children =>
    match elementKind cfg name attr with
    | .container _ => plainTrees cfg children
    | .breakElem _ => !xml.Tree.listHasElement "break" children
    | .skip tagName => !xml.Tree.listHasElement tagName children
    | .unknown _ => false
  | _ => true
/-- Every tree of the list is plain. -/
def plainTrees (cfg : ValidationConfig) : List xml.Tree → Bool
  | [] => true
  | t :: ts => plainTree cfg t && plainTrees cfg ts
end

end ssml

namespace ssml

/-- The children of the speak element of
`<speak> Hello <p>One<break time="1s"/><x>no</x></p>  <!--c--></speak>`. -/
def sampleChildren : List xml.Tree :=
  [.charData " Hello ",
   .element ⟨"", "p"⟩ []
     [.charData "One", .element ⟨"", "break"⟩ [⟨⟨"", "time"⟩, "1s"⟩] [],
      .element ⟨"", "x"⟩ [] [.charData "no"]],
   .charData "  ", .comment "c"]

/-- The tokens of `<speak version="1.0" xml:lang="en"><u><u></u>x</u></speak>`: an
unrecognized element that holds an element of its own name and then a text. -/
def nestedUnknownTokens : List xml.Token :=
  (xml.Tree.element ⟨"", "speak"⟩ [⟨⟨"", "version"⟩, "1.0"⟩, ⟨⟨"xml", "lang"⟩, "en"⟩]
    [.element ⟨"", "u"⟩ [] [.element ⟨"", "u"⟩ [] [], .charData "x"]]).tokens

end ssml

/-! ## Vocabulary of attribute parsing -/

namespace ssml

/-- The value of the attribute with the local name `name` among `attr` (of the
last one, if there are several), and the empty string if there is none. -/
def attrValue (attr : List xml.Attr) (name : String) : String :=
  attr.foldl (fun value a => if a.Name.Local = name then a.Value else value) ""

/-- The attribute names that the parser of the element with the tag `tag` reads. -/
def recognizedAttrs (tag : String) : List String :=
  match tag with
  | "speak" => ["version", "lang"]
  | "audio" => ["src"]
  | "break" => ["time", "strength"]
  | "emphasis" => ["level"]
  | "phoneme" => ["alphabet", "ph"]
  | "prosody" => ["rate", "pitch", "range", "volume"]
  | "sub" => ["alias"]
  | "voice" => ["name", "gender", "age", "variant", "lang"]
  | "w" => ["role"]
  | _ => []

/-- The token without the attributes that the parser of its element does not
read. -/
def stripAttrs : xml.Token → xml.Token
  | .StartElement name attr =>
    .StartElement name (attr.filter (fun a => decide (a.Name.Local ∈ recognizedAttrs name.Local)))
  | tok => tok

/-- The tokens of
`<speak version="1.0" id="x"><voice name="a" foo="b" xml:lang="en"></voice></speak>`. -/
def attributeTokens : List xml.Token :=
  [.StartElement ⟨"", "speak"⟩ [⟨⟨"", "version"⟩, "1.0"⟩, ⟨⟨"", "id"⟩, "x"⟩],
   .StartElement ⟨"", "voice"⟩
     [⟨⟨"", "name"⟩, "a"⟩, ⟨⟨"", "foo"⟩, "b"⟩, ⟨⟨"xml", "lang"⟩, "en"⟩],
   .EndElement ⟨"", "voice"⟩, .EndElement ⟨"", "speak"⟩]

/-- The tokens of `<speak version="1.0"><voice name="a" xml:lang="en"></voice></speak>`. -/
def attributeTokensStripped : List xml.Token :=
  [.StartElement ⟨"", "speak"⟩ [⟨⟨"", "version"⟩, "1.0"⟩],
   .StartElement ⟨"", "voice"⟩ [⟨⟨"", "name"⟩, "a"⟩, ⟨⟨"xml", "lang"⟩, "en"⟩],
   .EndElement ⟨"", "voice"⟩, .EndElement ⟨"", "speak"⟩]

end ssml

/-! ## Name spaces in `encoding/xml`

`Decoder.Token` does not hand out the names of a start or end element as they
stand in the text: it records the name space declarations among the attributes
of every start element (`xmlns="..."` and `xmlns:prefix="..."`), keeps them in
force until the matching end element, and replaces the prefix of each element
and attribute name by the name space bound to it.  The nesting check compares
the names as written.  The functions below model this step: `xml.translated`
turns the raw tokens of a text into the tokens that `Token` hands out, and
`xml.NewTranslatingDecoder` is the decoder on them. -/

namespace xml

/-- Go `xmlURL`, the name space of the prefix `xml`. -/
def xmlURL : String := "http://www.w3.org/XML/1998/namespace"

/-- Go `(*Decoder).translate`, with the bindings `ns` of the decoder (its map
`d.ns` as a list, the latest binding of a prefix first) and the decoder's
`DefaultSpace` left empty, as `xml.NewDecoder` makes it. -/
def translate (ns : List (String × String)) (n : Name) (isElementName : Bool) : Name :=
  if n.Space = "xmlns" then n
  else if n.Space = "" ∧ isElementName = false then n
  else if n.Space = "" ∧ n.Local = "xmlns" then n
  else
    let space := if n.Space = "xml" then xmlURL else n.Space
    match ns.lookup space with
    | some v => { n with Space := v }
    | none => { n with Space := space }

/-- The attribute is a name space declaration: `xmlns:prefix="..."` or
`xmlns="..."`. -/
def Attr.declares (a : Attr) : Bool :=
  a.Name.Space = "xmlns" || (a.Name.Space = "" && a.Name.Local = "xmlns")

/-- The bindings after one attribute of a start element has been looked at, as in
the first loop of `Token` over `t1.Attr`. -/
def declareAttr (ns : List (String × String)) (a : Attr) : List (String × String) :=
  let ns1 := if a.Name.Space = "xmlns" then (a.Name.Local, a.Value) :: ns else ns
  if a.Name.Space = "" ∧ a.Name.Local = "xmlns" then ("", a.Value) :: ns1 else ns1

/-- The bindings in force inside a start element with the attributes `attr`. -/
def declare (ns : List (String × String)) (attr : List Attr) : List (String × String) :=
  attr.foldl declareAttr ns

/-- The start element as `Token` hands it out when `ns` are the bindings in force
inside it: the element name and then each attribute name are translated. -/
def translateStart (ns : List (String × String)) (name : Name) (attr : List Attr) : Token :=
  .StartElement (translate ns name true)
    (attr.map (fun a => { a with Name := translate ns a.Name false }))

/-- The tokens that `Token` hands out for the raw tokens `raw`, and the syntax
error that ends them, if any.  `opened` holds the elements that are open,
innermost first, each under its name as written and with the bindings that were
in force outside it, and `ns` the bindings in force.  An end element is checked
against the name as written of the innermost open element (`popElement`); when
the check fails, its error ends the tokens.  `lexErr` is the syntax error, if
any, that the tokenizer runs into after `raw`. -/
def translated : List (Name × List (String × String)) → List (String × String) →
    List Token → Option String → List Token × Option String
  | _, _, [], lexErr => ([], lexErr)
  | opened, ns, .StartElement name attr :: rest, lexErr =>
    let r := translated ((name, ns) :: opened) (declare ns attr) rest lexErr
    (translateStart (declare ns attr) name attr :: r.1, r.2)
  | opened, ns, .EndElement name :: rest, lexErr =>
    match opened with
    | [] => ([], some ("unexpected end element </" ++ name.Local ++ ">"))
    | (top, outer) :: opened1 =>
      if top.Local ≠ name.Local then
        ([], some ("element <" ++ top.Local ++ "> closed by </" ++ name.Local ++ ">"))
      else if top.Space ≠ name.Space then
        ([], some ("element <" ++ top.Local ++ "> in space " ++ top.Space
          ++ " closed by </" ++ name.Local ++ "> in space " ++ name.Space))
      else
        let r := translated opened1 outer rest lexErr
        (.EndElement (translate ns name true) :: r.1, r.2)
  | opened, ns, .CharData data :: rest, lexErr =>
    let r := translated opened ns rest lexErr
    (.CharData data :: r.1, r.2)
  | opened, ns, .Comment data :: rest, lexErr =>
    let r := translated opened ns rest lexErr
    (.Comment data :: r.1, r.2)
  | opened, ns, .ProcInst target inst :: rest, lexErr =>
    let r := translated opened ns rest lexErr
    (.ProcInst target inst :: r.1, r.2)
  | opened, ns, .Directive data :: rest, lexErr =>
    let r := translated opened ns rest lexErr
    (.Directive data :: r.1, r.2)

/-- Go `xml.NewDecoder` on a text whose raw tokens are `raw` and whose tokenizer
ends with `lexErr`: the decoder that hands out the translated tokens. -/
def NewTranslatingDecoder (raw : List Token) (lexErr : Option String) : Decoder :=
  NewDecoder (translated [] [] raw lexErr).1 (translated [] [] raw lexErr).2

end xml

namespace ssml

/-- The raw token without the attributes that are neither read by the parser of
its element nor name space declarations. -/
def stripOtherAttrs : xml.Token → xml.Token
  | .StartElement name attr =>
    .StartElement name
      (attr.filter (fun a => decide (a.Name.Local ∈ recognizedAttrs name.Local) || a.declares))
  | tok => tok

/-- The text `<speak xmlns="urn:x" version="1.0" xml:lang="en"><p>a</p></speak>`: a
document with a name space declaration on its root. -/
def declaredText : String :=
  "<speak xmlns=\"urn:x\" version=\"1.0\" xml:lang=\"en\"><p>a</p></speak>"

/-- The text `<speak version="1.0" xml:lang="en"><p>a</p></speak>`: the same document
without the declaration. -/
def undeclaredText : String :=
  "<speak version=\"1.0\" xml:lang=\"en\"><p>a</p></speak>"

end ssml

namespace xml

/-- The names under which `Token` has handed out the start elements of the open
elements `opened`, innermost first, when `ns` are the bindings in force. -/
def handedOut : List (Name × List (String × String)) → List (String × String) → List Name
  | [], _ => []
  | (name, outer) :: opened, ns => translate ns name true :: handedOut opened outer

/-- The raw token is not a start element that declares a name space or has the
prefix `xml` in its name. -/
def Token.undeclared : Token → Bool
  | .StartElement name attr =>
    decide (name.Space ≠ "xml") && attr.all (fun a => !a.declares)
  | _ => true

end xml

namespace ssml

/-- The text
`<speak xmlns="urn:x" version="1.0" id="x" xml:lang="en"><p class="c">a</p></speak>`:
the document of `declaredText` with two attributes that no parser reads. -/
def declaredTextOther : String :=
  "<speak xmlns=\"urn:x\" version=\"1.0\" id=\"x\" xml:lang=\"en\"><p class=\"c\">a</p></speak>"

end ssml

/-! ## Vocabulary of the serializer's contract -/

namespace ssml

mutual
/-- The item is, or holds at some depth, a value that is not one of the eleven
recognized variants. -/
def Node.hasOther : Node → Bool
  | .Text _ => false
  | .Audio _ c => hasOtherList c
  | .Break _ => false
  | .Emphasis _ c => hasOtherList c
  | .Paragraph _ c => hasOtherList c
  | .Phoneme _ c => hasOtherList c
  | .Prosody _ c => hasOtherList c
  | .Sentence _ c => hasOtherList c
  | .Sub _ c => hasOtherList c
  | .Voice _ c => hasOtherList c
  | .W _ c => hasOtherList c
  | .Other _ => true
/-- Some content list reachable from the list holds a value that is not one of
the recognized variants. -/
def hasOtherList : List Node → Bool
  | [] => false
  | item :: rest => item.hasOther || hasOtherList rest
end

end ssml

namespace ssml

/-- A document whose paragraph holds, after a text, a value of a type that the
serializer does not know (a `string`). -/
def otherDocument : Speak :=
  { XMLName := ⟨"", "speak"⟩, Version := "1.0", Lang := "en",
    Content := [.Paragraph ⟨⟨"", "p"⟩⟩ [.Text "a", .Other "string"]] }

end ssml

/-! ## Vocabulary of escaping -/

namespace html

/-- The characters after the literal `lit` at the start of `cs`, if `cs` starts
with it. -/
def stripLit : List Char → List Char → Option (List Char)
  | [], cs => some cs
  | _ :: _, [] => none
  | l :: lit, c :: cs => if l = c then stripLit lit cs else none

/-- The characters with each of the five entities `&amp;`, `&#39;`, `&lt;`,
`&gt;` and `&#34;` replaced by its character, from left to right; `fuel` bounds
the number of steps. -/
def replaceEntities : Nat → List Char → List Char
  | 0, _ => []
  | fuel + 1, cs =>
    match stripLit "&amp;".data cs with
    | some rest => '&' :: replaceEntities fuel rest
    | none =>
      match stripLit "&#39;".data cs with
      | some rest => Char.ofNat 39 :: replaceEntities fuel rest
      | none =>
        match stripLit "&lt;".data cs with
        | some rest => '<' :: replaceEntities fuel rest
        | none =>
          match stripLit "&gt;".data cs with
          | some rest => '>' :: replaceEntities fuel rest
          | none =>
            match stripLit "&#34;".data cs with
            | some rest => Char.ofNat 34 :: replaceEntities fuel rest
            | none =>
              match cs with
              | [] => []
              | c :: rest => c :: replaceEntities fuel rest

/-- The string with the five entities replaced by their characters. -/
def UnescapeEntities (s : String) : String :=
  String.mk (replaceEntities s.data.length s.data)

end html

namespace ssml

/-- A document with characters to escape: the version `1"0` and, in a paragraph,
the text `a<b & c`. -/
def escapingDocument : Speak :=
  { XMLName := ⟨"", "speak"⟩, Version := "1\"0", Lang := "",
    Content := [.Paragraph ⟨⟨"", "p"⟩⟩ [.Text "a<b & c"]] }

end ssml

/-! ## Vocabulary of self-closing emission -/

namespace ssml

/-- A document with an empty paragraph and an empty sentence. -/
def emptyContainers : Speak :=
  { XMLName := ⟨"", "speak"⟩, Version := "", Lang := "",
    Content := [.Paragraph ⟨⟨"", "p"⟩⟩ [], .Sentence ⟨⟨"", "s"⟩⟩ []] }

end ssml

/-! ## Vocabulary of indentation -/

namespace ssml

mutual
/-- The opening tags, closing tags, self-closing tags and escaped texts of an
item in the order in which they are written, each with the nesting depth of the
node it belongs to; the item itself is at depth `depth`. -/
def Markup.lines : Nat → Markup → List (Nat × List Char)
  | depth, .text c => [(depth, (html.EscapeString c).data)]
  | depth, .element tag attrs selfClosing content =>
    if content.isEmpty && selfClosing then [(depth, Piece.render (.startTag tag attrs true))]
    else
      (depth, Piece.render (.startTag tag attrs false))
        :: (linesList (depth + 1) content ++ [(depth, Piece.render (.endTag tag))])
  | _, .other => []
/-- The tags and texts of a content list whose items are at depth `depth`. -/
def linesList : Nat → List Markup → List (Nat × List Char)
  | _, [] => []
  | depth, item :: rest => item.lines depth ++ linesList depth rest
end

/-- The text of tags and texts laid out: in pretty mode each is preceded by two
spaces per level of its depth and followed by a line break; in compact mode
they are concatenated. -/
def layout (pretty : Bool) (ls : List (Nat × List Char)) : List Char :=
  ls.flatMap (fun l => if pretty then List.replicate (2 * l.1) ' ' ++ (l.2 ++ ['\n']) else l.2)

/-- A document with a text and a prosody element that holds a text and a break. -/
def layoutDocument : Speak :=
  { XMLName := ⟨"", "speak"⟩, Version := "1.0", Lang := "",
    Content := [.Text "Hi", .Prosody ⟨⟨"", "prosody"⟩, "fast", "", "", ""⟩
      [.Text "a", .Break ⟨⟨"", "break"⟩, "1s", ""⟩]] }

end ssml

/-! ## Go numbers

`int64` values (among them `time.Duration`) are integers kept in range by `wrap64`;
`float64` values are the IEEE 754 double-precision numbers, with round to nearest,
ties to even.  The sign of a zero is not modelled: no operation of the program
observes it. -/

/-- The `int64` that two's-complement arithmetic yields for the exact result `x`. -/
def wrap64 (x : Int) : Int :=
  (x + 2 ^ 63) % 2 ^ 64 - 2 ^ 63

/-- The `uint64` that unsigned arithmetic yields for the exact result `x`. -/
def wrapU64 (x : Nat) : Nat :=
  x % 2 ^ 64

/-- Go `float64`: the finite value `mant * 2 ^ exp`, an infinity, or a NaN. -/
inductive float64 where
  | finite (mant : Int) (exp : Int)
  | inf (negative : Bool)
  | nan
deriving DecidableEq, Repr

namespace float64

/-- The number of binary digits of `n`; `fuel` bounds the recursion. -/
def bitLength : Nat → Nat → Nat
  | 0, _ => 0
  | fuel + 1, n => if n = 0 then 0 else bitLength fuel (n / 2) + 1

/-- The largest `k` with `2 ^ k ≤ num / den`, for positive `num` and `den`. -/
def floorLog2 (num den : Nat) : Int :=
  let l : Int := (bitLength num num : Int) - (bitLength den den : Int)
  if (if 0 ≤ l then den * 2 ^ l.toNat ≤ num else den ≤ num * 2 ^ (-l).toNat) then l else l - 1

/-- The mantissa and exponent of the double nearest to the positive rational
`num / den`: the exponent is that of a 53-bit mantissa, but not below the
exponent -1074 of the subnormal numbers, and a tie goes to the even mantissa. -/
def roundPos (num den : Nat) : Nat × Int :=
  let e : Int := max (floorLog2 num den - 52) (-1074)
  let n := if 0 ≤ e then num else num * 2 ^ (-e).toNat
  let d := if 0 ≤ e then den * 2 ^ e.toNat else den
  let q := n / d
  let r := n % d
  (if d < 2 * r ∨ (2 * r = d ∧ q % 2 = 1) then q + 1 else q, e)

/-- The double nearest to the rational `num / den` (`den` positive); a value
that rounds to `2 ^ 1024` or more (a mantissa of at least 52 bits with an
exponent above 971, or the mantissa `2 ^ 53` with the exponent 971) overflows to
an infinity. -/
def round (num : Int) (den : Nat) : float64 :=
  if num = 0 then .finite 0 0
  else
    let (q, e) := roundPos num.natAbs den
    if 972 ≤ e ∨ (e = 971 ∧ 2 ^ 53 ≤ q) then .inf (decide (num < 0))
    else .finite (if num < 0 then -(q : Int) else q) e

/-- The conversion `float64(x)` of an integer. -/
def ofInt (x : Int) : float64 :=
  round x 1

/-- The value is zero. -/
def isZero : float64 → Bool
  | .finite m _ => decide (m = 0)
  | _ => false

/-- The value is negative. -/
def isNegative : float64 → Bool
  | .finite m _ => decide (m < 0)
  | .inf negative => negative
  | .nan => false

/-- The product `x * y` of two doubles. -/
def mul : float64 → float64 → float64
  | .finite m1 e1, .finite m2 e2 =>
    if 0 ≤ e1 + e2 then round (m1 * m2 * 2 ^ (e1 + e2).toNat) 1
    else round (m1 * m2) (2 ^ (-(e1 + e2)).toNat)
  | .nan, _ => .nan
  | _, .nan => .nan
  | x, y => if x.isZero || y.isZero then .nan else .inf (x.isNegative != y.isNegative)

/-- The quotient `x / y` of two doubles. -/
def div : float64 → float64 → float64
  | .finite m1 e1, .finite m2 e2 =>
    if m2 = 0 then (if m1 = 0 then .nan else .inf (decide (m1 < 0)))
    else
      let s : Int := if m2 < 0 then -m1 else m1
      if 0 ≤ e1 - e2 then round (s * 2 ^ (e1 - e2).toNat) m2.natAbs
      else round s (m2.natAbs * 2 ^ (-(e1 - e2)).toNat)
  | .nan, _ => .nan
  | _, .nan => .nan
  | .inf _, .inf _ => .nan
  | .inf negative, y => .inf (negative != y.isNegative)
  | .finite _ _, .inf _ => .finite 0 0

/-- The integer part of a finite double (rounding toward zero). -/
def truncate (mant exp : Int) : Int :=
  if 0 ≤ exp then mant * 2 ^ exp.toNat
  else if mant < 0 then -((mant.natAbs / 2 ^ (-exp).toNat : Nat) : Int)
  else ((mant.natAbs / 2 ^ (-exp).toNat : Nat) : Int)

end float64

/-- What the Go specification leaves to the implementation, and what lies outside
the part of the library that is modelled here. -/
structure Platform where
  /-- The `int64` that the conversion of a double yields when its integer part is
  not an `int64`, or when it is an infinity or a NaN. -/
  float64ToInt64 : float64 → Int
  /-- The result of `strconv.ParseFloat` for a text that is not a decimal number:
  a hexadecimal number, a number with underscores, an infinity, a NaN, or a
  text that it rejects. -/
  parseFloatOther : String → Except GoError float64

namespace float64

/-- The conversion `int64(x)` (also `time.Duration(x)`) of a double: its integer
part when that is an `int64`, and otherwise what the platform yields. -/
def toInt64 (lib : Platform) : float64 → Int
  | .finite m e =>
    if -(2 ^ 63) ≤ truncate m e ∧ truncate m e < 2 ^ 63 then truncate m e
    else wrap64 (lib.float64ToInt64 (.finite m e))
  | x => wrap64 (lib.float64ToInt64 x)

end float64
/-! ## `strings`, `strconv` and `time` -/

namespace strings

/-- Go `strings.HasSuffix`. -/
def HasSuffix (s suffix : String) : Bool :=
  decide (s.data.drop (s.data.length - suffix.data.length) = suffix.data
    ∧ suffix.data.length ≤ s.data.length)

/-- Go `strings.TrimSuffix`. -/
def TrimSuffix (s suffix : String) : String :=
  if HasSuffix s suffix then String.mk (s.data.take (s.data.length - suffix.data.length)) else s

end strings

namespace strconv

/-- The value of a decimal digit. -/
def digit (c : Char) : Option Nat :=
  if '0' ≤ c ∧ c ≤ '9' then some (c.toNat - '0'.toNat) else none

/-- The leading decimal digits of a text: their value after `acc`, their
number, and the rest of the text. -/
def digits : List Char → Nat → Nat × Nat × List Char
  | [], acc => (acc, 0, [])
  | c :: cs, acc =>
    match digit c with
    | none => (acc, 0, c :: cs)
    | some d =>
      let (value, count, rest) := digits cs (acc * 10 + d)
      (value, count + 1, rest)

/-- The decimal exponent that `readFloat` accumulates from the digits of an
exponent: it stops adding digits once the value has reached 10000. -/
def exponentDigits : List Char → Nat → Nat × Nat × List Char
  | [], acc => (acc, 0, [])
  | c :: cs, acc =>
    match digit c with
    | none => (acc, 0, c :: cs)
    | some d =>
      let (value, count, rest) := exponentDigits cs (if acc < 10000 then acc * 10 + d else acc)
      (value, count + 1, rest)

/-- An optional sign at the start of a text: whether it is a minus sign, and the
rest. -/
def sign : List Char → Bool × List Char
  | '+' :: cs => (false, cs)
  | '-' :: cs => (true, cs)
  | cs => (false, cs)

/-- The reading of a decimal floating-point number, `readFloat` in base 10: an
optional sign, digits with at most one decimal point among them, and an
optional exponent `e` or `E` with an optional sign and digits.  The result is
the sign, the digits as a number and the power of ten that scales it; `none`
when the text is not of this form. -/
def readDecimal (s : List Char) : Option (Bool × Nat × Int) :=
  let (negative, s1) := sign s
  let (ip, n1, s2) := digits s1 0
  let (mant, n2, s3) :=
    match s2 with
    | '.' :: rest => digits rest ip
    | _ => (ip, 0, s2)
  if n1 + n2 = 0 then none
  else
    match s3 with
    | [] => some (negative, mant, -(n2 : Int))
    | c :: s4 =>
      if c = 'e' ∨ c = 'E' then
        let (eneg, s5) := sign s4
        let (e, n3, s6) := exponentDigits s5 0
        if n3 = 0 then none
        else
          match s6 with
          | [] => some (negative, mant, (if eneg then -(e : Int) else e) - (n2 : Int))
          | _ :: _ => none
      else none

/-- A character that occurs in some text that `ParseFloat` accepts: a digit, a
sign, a point, an underscore, or a letter of a hexadecimal number, an exponent,
`infinity` or `nan`. -/
def floatChar (c : Char) : Bool :=
  "0123456789+-._abcdefxpintyABCDEFXPINTY".data.contains c

/-- A character of a decimal floating-point number: a digit, a sign, a point or
the letter of the exponent. -/
def decimalChar (c : Char) : Bool :=
  "0123456789+-.eE".data.contains c

/-- Go `strconv.ParseFloat(s, 64)`.  A decimal number yields the nearest double,
or the range error when that is an infinity.  A text that is not a decimal
number is a syntax error when it holds a character that no floating-point
number holds, and when it holds characters of decimal numbers only.  For the
other texts (hexadecimal numbers, numbers with underscores, infinities, NaNs
and what resembles them) the result is the platform's `parseFloatOther`.  The
texts of the errors are not modelled. -/
def ParseFloat (lib : Platform) (s : String) : Except GoError float64 :=
  match readDecimal s.data with
  | some (negative, mant, exp10) =>
    let m : Int := if negative then -(mant : Int) else mant
    match (if 0 ≤ exp10 then float64.round (m * 10 ^ exp10.toNat) 1
        else float64.round m (10 ^ (-exp10).toNat)) with
    | .inf _ => .error (.errorString "strconv.ParseFloat: value out of range")
    | f => .ok f
  | none =>
    if s.data.all floatChar ∧ ¬ s.data.all decimalChar then lib.parseFloatOther s
    else .error (.errorString "strconv.ParseFloat: invalid syntax")

end strconv

namespace time

/-- Go `time.Millisecond`, in nanoseconds. -/
def Millisecond : Int := 1000000

/-- Go `time.Second`, in nanoseconds. -/
def Second : Int := 1000000000

/-- Go `time.leadingInt`: the leading digits of a text as a `uint64` and the
rest, or `none` when the number exceeds `1 << 63`. -/
def leadingInt : List Char → Nat → Option (Nat × List Char)
  | [], x => some (x, [])
  | c :: cs, x =>
    match strconv.digit c with
    | none => some (x, c :: cs)
    | some d =>
      if 2 ^ 63 / 10 < x then none
      else if 2 ^ 63 < x * 10 + d then none
      else leadingInt cs (x * 10 + d)

/-- Go `time.leadingFraction`: the leading digits of a text as a number `x` with
the scale that makes `x / scale` the fraction, and the rest; digits that would
make `x` overflow are dropped. -/
def leadingFraction : List Char → Nat → float64 → Bool → Nat × float64 × List Char
  | [], x, scale, _ => (x, scale, [])
  | c :: cs, x, scale, overflow =>
    match strconv.digit c with
    | none => (x, scale, c :: cs)
    | some d =>
      if overflow then leadingFraction cs x scale true
      else if (2 ^ 63 - 1) / 10 < x then leadingFraction cs x scale true
      else if 2 ^ 63 < x * 10 + d then leadingFraction cs x scale true
      else leadingFraction cs (x * 10 + d) (scale.mul (.finite 10 0)) false

/-- Go `time.unitMap`: the units of a duration, in nanoseconds. -/
def unitMap (u : String) : Option Nat :=
  if u = "ns" then some 1
  else if u = "us" then some 1000
  else if u = String.mk [Char.ofNat 0xB5, 's'] then some 1000
  else if u = String.mk [Char.ofNat 0x3BC, 's'] then some 1000
  else if u = "ms" then some 1000000
  else if u = "s" then some 1000000000
  else if u = "m" then some 60000000000
  else if u = "h" then some 3600000000000
  else none

/-- The error of `time.ParseDuration`; its text is not modelled. -/
def invalidDuration : GoError :=
  .errorString "time: invalid duration"

/-- The loop of `time.ParseDuration` over the terms of a duration, each a number
with an optional fraction and a unit; `d` is the sum so far, a `uint64`. -/
def parseTerms (lib : Platform) : Nat → List Char → Nat → Except GoError Nat
  | 0, _, _ => .error invalidDuration
  | _ + 1, [], d => .ok d
  | fuel + 1, c :: cs, d =>
    if ¬ (c = '.' ∨ (strconv.digit c).isSome) then .error invalidDuration
    else
      match leadingInt (c :: cs) 0 with
      | none => .error invalidDuration
      | some (v, s1) =>
        let pre := decide (s1.length ≠ (c :: cs).length)
        let (f, scale, post, s2) :=
          match s1 with
          | '.' :: rest =>
            let (f, scale, s2) := leadingFraction rest 0 (.finite 1 0) false
            (f, scale, decide (s2.length ≠ rest.length), s2)
          | _ => (0, float64.finite 1 0, false, s1)
        if ¬ pre ∧ ¬ post then .error invalidDuration
        else
          let u := s2.takeWhile (fun c => ¬ (c = '.' ∨ (strconv.digit c).isSome))
          let s3 := s2.dropWhile (fun c => ¬ (c = '.' ∨ (strconv.digit c).isSome))
          if u = [] then .error invalidDuration
          else
            match unitMap (String.mk u) with
            | none => .error invalidDuration
            | some unit =>
              if 2 ^ 63 / unit < v then .error invalidDuration
              else
                let v1 := v * unit
                let v2 :=
                  if 0 < f then
                    wrapU64 (v1 + (float64.toInt64 lib
                      ((float64.ofInt f).mul ((float64.ofInt unit).div scale))).toNat)
                  else v1
                if 0 < f ∧ 2 ^ 63 < v2 then .error invalidDuration
                else
                  let d1 := wrapU64 (d + v2)
                  if 2 ^ 63 < d1 then .error invalidDuration
                  else parseTerms lib fuel s3 d1

/-- Go `time.ParseDuration`: a sequence of decimal numbers, each with an optional
fraction and a unit (`ns`, `us`, `ms`, `s`, `m`, `h`), after an optional sign. -/
def ParseDuration (lib : Platform) (s : String) : Except GoError Int :=
  let (negative, s1) := strconv.sign s.data
  if s1 = ['0'] then .ok 0
  else if s1 = [] then .error invalidDuration
  else
    match parseTerms lib (s1.length + 1) s1 0 with
    | .error err => .error err
    | .ok d =>
      if negative then .ok (wrap64 (-(wrap64 d)))
      else if 2 ^ 63 - 1 < d then .error invalidDuration
      else .ok d

end time
/-! ## The audio processor (`audio_processor.go`) -/

namespace ssml

/-- Go `len(s)` of a string: the number of bytes of its UTF-8 encoding. -/
def len (s : String) : Nat :=
  (s.data.map (fun c =>
    if c.toNat < 0x80 then 1 else if c.toNat < 0x800 then 2
    else if c.toNat < 0x10000 then 3 else 4)).sum

/-- Go `AudioProperties`. -/
structure AudioProperties where
  Rate : String
  Pitch : String
  Volume : String
  Voice : String
  Gender : String
  Language : String
  Emphasis : String
deriving DecidableEq, Repr

/-- Go `AudioSegment`; `Properties` is the value its pointer refers to, a copy
made for the segment. -/
structure AudioSegment where
  Text : String
  StartTime : Int
  Duration : Int
  Properties : AudioProperties
deriving DecidableEq, Repr

/-- Go `AudioInstruction`; its `Properties` pointer, which the processor never
sets, is `none`. -/
structure AudioInstruction where
  Type_ : String
  Position : Nat
  Duration : Int
  AudioFile : String
  Properties : Option AudioProperties
deriving DecidableEq, Repr

/-- Go `AudioProcessingResult`. -/
structure AudioProcessingResult where
  PlainText : String
  Segments : List AudioSegment
  Instructions : List AudioInstruction
  TotalDuration : Int
deriving DecidableEq, Repr

/-- Go `AudioProcessor`. -/
structure AudioProcessor where
  defaultProperties : AudioProperties
  charToTimeRatio : Int
deriving DecidableEq, Repr

/-- Go `NewAudioProcessor`. -/
def NewAudioProcessor : AudioProcessor :=
  { defaultProperties :=
      { Rate := "medium", Pitch := "medium", Volume := "medium", Voice := "default",
        Gender := "neutral", Language := "zh-CN", Emphasis := "none" },
    charToTimeRatio := 150 * time.Millisecond }

/-- Go `AudioProcessor.copyProperties`. -/
def AudioProcessor.copyProperties (_ap : AudioProcessor) (props : AudioProperties) :
    AudioProperties :=
  { Rate := props.Rate, Pitch := props.Pitch, Volume := props.Volume, Voice := props.Voice,
    Gender := props.Gender, Language := props.Language, Emphasis := props.Emphasis }

/-- Go `processingContext`.  The stack grows at the end of the list, as the Go
slice does.  `textPosition` is not reduced to a machine integer: it is the
length of `plainTextBuilder`, which is itself an `int`. -/
structure processingContext where
  processor : AudioProcessor
  result : AudioProcessingResult
  currentTime : Int
  textPosition : Nat
  propertyStack : List AudioProperties
  plainTextBuilder : String
deriving DecidableEq, Repr

/-- Go `processingContext.copyProperties`. -/
def processingContext.copyProperties (ctx : processingContext) (props : AudioProperties) :
    AudioProperties :=
  ctx.processor.copyProperties props

/-- Go `processingContext.getCurrentProperties`; `none` is the panic of the index
expression on an empty stack. -/
def processingContext.getCurrentProperties (ctx : processingContext) : Option AudioProperties :=
  match ctx.propertyStack.getLast? with
  | none => none
  | some props => some (ctx.copyProperties props)

/-- Go `processingContext.copyCurrentProperties`. -/
def processingContext.copyCurrentProperties (ctx : processingContext) :
    Option AudioProperties :=
  match ctx.propertyStack.getLast? with
  | none => none
  | some props => some (ctx.copyProperties props)

/-- Go `processingContext.pushProperties`. -/
def processingContext.pushProperties (ctx : processingContext) (props : AudioProperties) :
    processingContext :=
  { ctx with propertyStack := ctx.propertyStack ++ [props] }

/-- Go `processingContext.popProperties`. -/
def processingContext.popProperties (ctx : processingContext) : processingContext :=
  if ctx.propertyStack.length > 1 then
    { ctx with propertyStack := ctx.propertyStack.take (ctx.propertyStack.length - 1) }
  else ctx

/-- Go `processingContext.getRateMultiplier`. -/
def processingContext.getRateMultiplier (_ctx : processingContext) (lib : Platform)
    (rate : String) : float64 :=
  match rate with
  | "x-slow" => .finite 2 0
  | "slow" => .finite 3 (-1)
  | "medium" => .finite 1 0
  | "fast" => .finite 3 (-2)
  | "x-fast" => .finite 1 (-1)
  | _ =>
    if strings.HasSuffix rate "%" then
      match strconv.ParseFloat lib (strings.TrimSuffix rate "%") with
      | .ok val => val.div (.finite 100 0)
      | .error _ => .finite 1 0
    else .finite 1 0

/-- Go `processingContext.calculateTextDuration`. -/
def processingContext.calculateTextDuration (ctx : processingContext) (lib : Platform)
    (text : String) : Option Int :=
  let baseTime := wrap64 ((text.length : Int) * ctx.processor.charToTimeRatio)
  match ctx.getCurrentProperties with
  | none => none
  | some props =>
    let multiplier := ctx.getRateMultiplier lib props.Rate
    some (float64.toInt64 lib ((float64.ofInt baseTime).mul multiplier))

/-- Go `processingContext.parseDuration`. -/
def processingContext.parseDuration (_ctx : processingContext) (lib : Platform)
    (timeStr : String) : Except GoError Int :=
  let timeStr := strings.TrimSpace timeStr
  if strings.HasSuffix timeStr "ms" then
    let val := strings.TrimSuffix timeStr "ms"
    match strconv.ParseFloat lib val with
    | .ok ms => .ok (wrap64 (float64.toInt64 lib ms * time.Millisecond))
    | .error _ => time.ParseDuration lib timeStr
  else if strings.HasSuffix timeStr "s" then
    let val := strings.TrimSuffix timeStr "s"
    match strconv.ParseFloat lib val with
    | .ok s => .ok (float64.toInt64 lib (s.mul (float64.ofInt time.Second)))
    | .error _ => time.ParseDuration lib timeStr
  else time.ParseDuration lib timeStr

/-- Go `processingContext.addAutomaticBreak`. -/
def processingContext.addAutomaticBreak (ctx : processingContext) (duration : Int) :
    processingContext :=
  if (match ctx.result.Instructions.getLast? with
      | some lastInstruction =>
        decide (lastInstruction.Type_ = "auto_break"
          ∧ lastInstruction.Position = ctx.textPosition)
      | none => false) then ctx
  else
    let instruction : AudioInstruction :=
      { Type_ := "auto_break", Position := ctx.textPosition, Duration := duration,
        AudioFile := "", Properties := none }
    { ctx with
      result := { ctx.result with Instructions := ctx.result.Instructions ++ [instruction] }
      currentTime := wrap64 (ctx.currentTime + duration) }

/-- Go `processingContext.processText`, on the content of the text. -/
def processingContext.processText (ctx : processingContext) (lib : Platform) (text : String) :
    Option processingContext :=
  let content := strings.TrimSpace text
  if content = "" then some ctx
  else
    let plainTextBuilder := ctx.plainTextBuilder ++ content
    match ctx.calculateTextDuration lib content with
    | none => none
    | some duration =>
      match ctx.getCurrentProperties with
      | none => none
      | some props =>
        let segment : AudioSegment :=
          { Text := content, StartTime := ctx.currentTime, Duration := duration,
            Properties := props }
        some { ctx with
          plainTextBuilder := plainTextBuilder
          result := { ctx.result with Segments := ctx.result.Segments ++ [segment] }
          currentTime := wrap64 (ctx.currentTime + duration)
          textPosition := ctx.textPosition + len content }

/-- Go `processingContext.processBreak`. -/
def processingContext.processBreak (ctx : processingContext) (lib : Platform) (br : Break) :
    processingContext :=
  let duration : Int :=
    if br.Time ≠ "" then
      match ctx.parseDuration lib br.Time with
      | .ok d => d
      | .error _ => 0
    else if br.Strength ≠ "" then
      match br.Strength with
      | "none" => 0
      | "x-weak" => 100 * time.Millisecond
      | "weak" => 250 * time.Millisecond
      | "medium" => 500 * time.Millisecond
      | "strong" => 1 * time.Second
      | "x-strong" => 2 * time.Second
      | _ => 500 * time.Millisecond
    else 500 * time.Millisecond
  let instruction : AudioInstruction :=
    { Type_ := "break", Position := ctx.textPosition, Duration := duration, AudioFile := "",
      Properties := none }
  { ctx with
    result := { ctx.result with Instructions := ctx.result.Instructions ++ [instruction] }
    currentTime := wrap64 (ctx.currentTime + duration) }

/-- Go `processingContext.processAudio`; `loop` is the loop over `audio.Content`. -/
def processingContext.processAudio (ctx : processingContext) (audio : Audio)
    (loop : processingContext → Option processingContext) : Option processingContext :=
  let instruction : AudioInstruction :=
    { Type_ := "audio", Position := ctx.textPosition, Duration := 0, AudioFile := audio.Src,
      Properties := none }
  loop { ctx with
    result := { ctx.result with Instructions := ctx.result.Instructions ++ [instruction] } }

/-- Go `processingContext.processVoice`; `loop` is the loop over `voice.Content`. -/
def processingContext.processVoice (ctx : processingContext) (voice : Voice)
    (loop : processingContext → Option processingContext) : Option processingContext :=
  match ctx.copyCurrentProperties with
  | none => none
  | some newProps =>
    let newProps := if voice.Name ≠ "" then { newProps with Voice := voice.Name } else newProps
    let newProps :=
      if voice.Gender ≠ "" then { newProps with Gender := voice.Gender } else newProps
    let newProps :=
      if voice.Languages ≠ "" then { newProps with Language := voice.Languages } else newProps
    match loop (ctx.pushProperties newProps) with
    | none => none
    | some ctx => some ctx.popProperties

/-- Go `processingContext.processProsody`; `loop` is the loop over
`prosody.Content`. -/
def processingContext.processProsody (ctx : processingContext) (prosody : Prosody)
    (loop : processingContext → Option processingContext) : Option processingContext :=
  match ctx.copyCurrentProperties with
  | none => none
  | some newProps =>
    let newProps := if prosody.Rate ≠ "" then { newProps with Rate := prosody.Rate } else newProps
    let newProps :=
      if prosody.Pitch ≠ "" then { newProps with Pitch := prosody.Pitch } else newProps
    let newProps :=
      if prosody.Volume ≠ "" then { newProps with Volume := prosody.Volume } else newProps
    match loop (ctx.pushProperties newProps) with
    | none => none
    | some ctx => some ctx.popProperties

/-- Go `processingContext.processEmphasis`; `loop` is the loop over
`emphasis.Content`. -/
def processingContext.processEmphasis (ctx : processingContext) (emphasis : Emphasis)
    (loop : processingContext → Option processingContext) : Option processingContext :=
  match ctx.copyCurrentProperties with
  | none => none
  | some newProps =>
    let newProps := { newProps with Emphasis := emphasis.Level }
    match loop (ctx.pushProperties newProps) with
    | none => none
    | some ctx => some ctx.popProperties

/-- Go `processingContext.processPhoneme`; `loop` is the loop over
`phoneme.Content`. -/
def processingContext.processPhoneme (ctx : processingContext) (_phoneme : Phoneme)
    (loop : processingContext → Option processingContext) : Option processingContext :=
  loop ctx

/-- Go `processingContext.processSub`. -/
def processingContext.processSub (ctx : processingContext) (lib : Platform) (sub : Sub) :
    Option processingContext :=
  ctx.processText lib sub.Alias

/-- The three kinds of element that `processContainer` handles. -/
inductive ContainerKind where
  | Paragraph
  | Sentence
  | W
deriving DecidableEq, Repr

/-- Go `processingContext.processContainer`; `loop` is the loop over the content
of the element. -/
def processingContext.processContainer (ctx : processingContext) (kind : ContainerKind)
    (loop : processingContext → Option processingContext) : Option processingContext :=
  match kind with
  | .Paragraph =>
    match loop ctx with
    | none => none
    | some ctx => some (ctx.addAutomaticBreak (300 * time.Millisecond))
  | .Sentence =>
    match loop ctx with
    | none => none
    | some ctx => some (ctx.addAutomaticBreak (200 * time.Millisecond))
  | .W => loop ctx

mutual
/-- Go `processingContext.processContent` with the type switch of
`processElement`.  An item of another type is passed over (a pointer to a
`Text`, which only a tree built by hand can hold and which Go would process as
a text, is not represented). -/
def processingContext.processContent (lib : Platform) :
    processingContext → Node → Option processingContext
  | ctx, .Text content => ctx.processText lib content
  | ctx, .Break br => some (ctx.processBreak lib br)
  | ctx, .Audio audio content =>
    ctx.processAudio audio (fun c => processingContext.processContents lib c content)
  | ctx, .Voice voice content =>
    ctx.processVoice voice (fun c => processingContext.processContents lib c content)
  | ctx, .Prosody prosody content =>
    ctx.processProsody prosody (fun c => processingContext.processContents lib c content)
  | ctx, .Emphasis emphasis content =>
    ctx.processEmphasis emphasis (fun c => processingContext.processContents lib c content)
  | ctx, .Phoneme phoneme content =>
    ctx.processPhoneme phoneme (fun c => processingContext.processContents lib c content)
  | ctx, .Sub sub _ => ctx.processSub lib sub
  | ctx, .Paragraph _ content =>
    ctx.processContainer .Paragraph (fun c => processingContext.processContents lib c content)
  | ctx, .Sentence _ content =>
    ctx.processContainer .Sentence (fun c => processingContext.processContents lib c content)
  | ctx, .W _ content =>
    ctx.processContainer .W (fun c => processingContext.processContents lib c content)
  | ctx, .Other _ => some ctx
/-- A loop `for _, content := range ... { ctx.processContent(content) }`. -/
def processingContext.processContents (lib : Platform) :
    processingContext → List Node → Option processingContext
  | ctx, [] => some ctx
  | ctx, item :: rest =>
    match processingContext.processContent lib ctx item with
    | none => none
    | some ctx1 => processingContext.processContents lib ctx1 rest
end

/-- Go `AudioProcessor.ProcessSSML`; `none` is a panic.  The function returns no
error. -/
def AudioProcessor.ProcessSSML (ap : AudioProcessor) (lib : Platform) (speak : Speak) :
    Option AudioProcessingResult :=
  let result : AudioProcessingResult :=
    { PlainText := "", Segments := [], Instructions := [], TotalDuration := 0 }
  let ctx : processingContext :=
    { processor := ap, result := result, currentTime := 0, textPosition := 0,
      propertyStack := [ap.copyProperties ap.defaultProperties], plainTextBuilder := "" }
  match ctx.processContents lib speak.Content with
  | none => none
  | some ctx =>
    some { ctx.result with PlainText := ctx.plainTextBuilder, TotalDuration := ctx.currentTime }

end ssml
/-! ## Vocabulary of the numbers -/

namespace float64

/-- The double is finite and its value is the rational `x`. -/
def IsValue (f : float64) (x : ℚ) : Prop :=
  ∃ m e, f = .finite m e ∧ (m : ℚ) * (2 : ℚ) ^ e = x

end float64

/-! ## Vocabulary of the instruction deriver -/

namespace ssml

/-- A context of the default processor with only the default frame on the
stack. -/
def defaultContext (segments : List AudioSegment) (instructions : List AudioInstruction)
    (currentTime : Int) (textPosition : Nat) (plainText : String) : processingContext :=
  { processor := NewAudioProcessor,
    result := { PlainText := "", Segments := segments, Instructions := instructions,
                TotalDuration := 0 },
    currentTime := currentTime, textPosition := textPosition,
    propertyStack := [NewAudioProcessor.defaultProperties], plainTextBuilder := plainText }

/-- The document `<speak version="1.0" xml:lang="en-US">Hello<break time="1s"/>World</speak>`. -/
def helloWorld : Speak :=
  { XMLName := ⟨"", "speak"⟩, Version := "1.0", Lang := "en-US",
    Content := [.Text "Hello", .Break ⟨⟨"", "break"⟩, "1s", ""⟩, .Text "World"] }

end ssml

namespace ssml

/-- The context after a break instruction of the duration `duration` has been
added: the instruction is appended, with the cursor as its position, and the
duration is added to the accumulator in `int64` arithmetic; nothing else
changes. -/
def processingContext.afterBreak (ctx : processingContext) (duration : Int) :
    processingContext :=
  { ctx with
    result :=
      { ctx.result with
        Instructions := ctx.result.Instructions
          ++ [{ Type_ := "break", Position := ctx.textPosition, Duration := duration,
                AudioFile := "", Properties := none }] }
    currentTime := wrap64 (ctx.currentTime + duration) }

/-- A platform for the examples: the conversion of a double that is not an `int64`
yields the smallest `int64`, and the texts whose parsing is left to the platform
are rejected. -/
def samplePlatform : Platform :=
  { float64ToInt64 := fun _ => -(2 ^ 63),
    parseFloatOther := fun _ => .error (.errorString "strconv.ParseFloat: invalid syntax") }

end ssml

namespace ssml

/-- The frame that `processVoice` pushes over the frame `top`: the voice, gender
and language are those of the element where it sets them. -/
def voiceFrame (top : AudioProperties) (voice : Voice) : AudioProperties :=
  { top with
    Voice := if voice.Name ≠ "" then voice.Name else top.Voice
    Gender := if voice.Gender ≠ "" then voice.Gender else top.Gender
    Language := if voice.Languages ≠ "" then voice.Languages else top.Language }

/-- The frame that `processProsody` pushes over the frame `top`: the rate, pitch
and volume are those of the element where it sets them. -/
def prosodyFrame (top : AudioProperties) (prosody : Prosody) : AudioProperties :=
  { top with
    Rate := if prosody.Rate ≠ "" then prosody.Rate else top.Rate
    Pitch := if prosody.Pitch ≠ "" then prosody.Pitch else top.Pitch
    Volume := if prosody.Volume ≠ "" then prosody.Volume else top.Volume }

/-- The document
`<speak><voice gender="female"><prosody rate="fast">Hi</prosody></voice></speak>`. -/
def nestedVoice : Speak :=
  { XMLName := ⟨"", "speak"⟩, Version := "", Lang := "",
    Content :=
      [.Voice ⟨⟨"", "voice"⟩, "female", "", "", "", ""⟩
        [.Prosody ⟨⟨"", "prosody"⟩, "fast", "", "", ""⟩ [.Text "Hi"]]] }

end ssml

namespace ssml

/-- The context after an audio instruction for the source `src` has been added:
the instruction is appended, with the cursor as its position and the duration
0; nothing else changes. -/
def processingContext.afterAudio (ctx : processingContext) (src : String) :
    processingContext :=
  { ctx with
    result :=
      { ctx.result with
        Instructions := ctx.result.Instructions
          ++ [{ Type_ := "audio", Position := ctx.textPosition, Duration := 0,
                AudioFile := src, Properties := none }] } }

/-- The frame that `processEmphasis` pushes over the frame `top`: the emphasis is
the level of the element, whether it is set or empty. -/
def emphasisFrame (top : AudioProperties) (emphasis : Emphasis) : AudioProperties :=
  { top with Emphasis := emphasis.Level }

end ssml

namespace ssml

/-- The document
`<speak><emphasis level="strong"><emphasis>Hi</emphasis></emphasis></speak>`: an
emphasis without a level inside an emphasis with the level `strong`. -/
def emphasisInEmphasis : Speak :=
  { XMLName := ⟨"", "speak"⟩, Version := "", Lang := "",
    Content :=
      [.Emphasis ⟨⟨"", "emphasis"⟩, "strong"⟩
        [.Emphasis ⟨⟨"", "emphasis"⟩, ""⟩ [.Text "Hi"]]] }

end ssml

namespace ssml

/-- The context after a text with the trimmed content `content` has been
processed with the duration `duration` and the properties `props`: the content
is appended to the plain text, a segment that starts at the accumulator is
appended, the duration is added to the accumulator in `int64` arithmetic, and
the cursor advances by the number of bytes of the content. -/
def processingContext.afterText (ctx : processingContext) (content : String) (duration : Int)
    (props : AudioProperties) : processingContext :=
  { ctx with
    plainTextBuilder := ctx.plainTextBuilder ++ content
    result :=
      { ctx.result with
        Segments := ctx.result.Segments
          ++ [{ Text := content, StartTime := ctx.currentTime, Duration := duration,
                Properties := props }] }
    currentTime := wrap64 (ctx.currentTime + duration)
    textPosition := ctx.textPosition + len content }

/-- The context after an automatic break of the duration `duration` has been
added: the instruction is appended, with the cursor as its position, and the
duration is added to the accumulator in `int64` arithmetic. -/
def processingContext.afterAutoBreak (ctx : processingContext) (duration : Int) :
    processingContext :=
  { ctx with
    result :=
      { ctx.result with
        Instructions := ctx.result.Instructions
          ++ [{ Type_ := "auto_break", Position := ctx.textPosition, Duration := duration,
                AudioFile := "", Properties := none }] }
    currentTime := wrap64 (ctx.currentTime + duration) }

/-- The last instruction is an automatic break at the cursor. -/
def processingContext.autoBreakPending (ctx : processingContext) : Bool :=
  match ctx.result.Instructions.getLast? with
  | some lastInstruction =>
    decide (lastInstruction.Type_ = "auto_break" ∧ lastInstruction.Position = ctx.textPosition)
  | none => false

end ssml
namespace ssml

/-- The document `<speak>A<voice gender="female">B</voice>C</speak>`. -/
def voiceBetweenTexts : Speak :=
  { XMLName := ⟨"", "speak"⟩, Version := "", Lang := "",
    Content :=
      [.Text "A", .Voice ⟨⟨"", "voice"⟩, "female", "", "", "", ""⟩ [.Text "B"], .Text "C"] }

end ssml

namespace ssml

/-- Two instructions that follow one another in the list are automatic breaks
with the same position. -/
def repeatedAutoBreak : List AudioInstruction → Bool
  | [] => false
  | a :: rest =>
    (match rest with
      | [] => false
      | b :: _ =>
        decide (a.Type_ = "auto_break" ∧ b.Type_ = "auto_break" ∧ a.Position = b.Position))
      || repeatedAutoBreak rest

/-- The document `<speak><p><s>Hi</s><s></s></p><p></p></speak>`. -/
def pauses : Speak :=
  { XMLName := ⟨"", "speak"⟩, Version := "", Lang := "",
    Content :=
      [.Paragraph ⟨⟨"", "p"⟩⟩ [.Sentence ⟨⟨"", "s"⟩⟩ [.Text "Hi"], .Sentence ⟨⟨"", "s"⟩⟩ []],
        .Paragraph ⟨⟨"", "p"⟩⟩ []] }

end ssml

namespace ssml

mutual
/-- The item is a Paragraph or a Sentence, or holds one in content that the
processor walks through (the content of a Sub is not walked through). -/
def Node.hasPause : Node → Bool
  | .Text _ => false
  | .Audio _ c => hasPauseList c
  | .Break _ => false
  | .Emphasis _ c => hasPauseList c
  | .Paragraph _ _ => true
  | .Phoneme _ c => hasPauseList c
  | .Prosody _ c => hasPauseList c
  | .Sentence _ _ => true
  | .Sub _ _ => false
  | .Voice _ c => hasPauseList c
  | .W _ c => hasPauseList c
  | .Other _ => false
/-- One of the items is or holds a Paragraph or a Sentence. -/
def hasPauseList : List Node → Bool
  | [] => false
  | item :: rest => item.hasPause || hasPauseList rest
end

/-- The content `Hi<break time="1s"/>you` of a sentence. -/
def sentenceContent : List Node :=
  [.Text "Hi", .Break ⟨⟨"", "break"⟩, "1s", ""⟩, .Text "you"]

end ssml

namespace ssml

/-- The five rates that `getRateMultiplier` knows by name. -/
def namedRates : List String :=
  ["x-slow", "slow", "medium", "fast", "x-fast"]

/-- The document `<speak><prosody rate="35%">Hello</prosody></speak>`. -/
def percentRate : Speak :=
  { XMLName := ⟨"", "speak"⟩, Version := "", Lang := "",
    Content := [.Prosody ⟨⟨"", "prosody"⟩, "35%", "", "", ""⟩ [.Text "Hello"]] }

end ssml

namespace ssml

/-- The document `<speak>你好<break time="1s"/></speak>`. -/
def chineseBreak : Speak :=
  { XMLName := ⟨"", "speak"⟩, Version := "", Lang := "",
    Content := [.Text "你好", .Break ⟨⟨"", "break"⟩, "1s", ""⟩] }

/-- The positions of the instructions of a context are byte lengths of prefixes
of its plain text, and the cursor is the byte length of the plain text. -/
def processingContext.Positioned (ctx : processingContext) : Prop :=
  ctx.textPosition = len ctx.plainTextBuilder
    ∧ ∀ i ∈ ctx.result.Instructions,
        ∃ pre post : String, ctx.plainTextBuilder = pre ++ post ∧ i.Position = len pre

end ssml

namespace ssml

mutual
/-- The item with one item below it replaced: see `replaceAtList`. -/
def Node.replaceAt (f : Node → List Node) : Node → List Nat → Node
  | .Text t, _ => .Text t
  | .Audio a c, path => .Audio a (replaceAtList f c path)
  | .Break b, _ => .Break b
  | .Emphasis e c, path => .Emphasis e (replaceAtList f c path)
  | .Paragraph p c, path => .Paragraph p (replaceAtList f c path)
  | .Phoneme p c, path => .Phoneme p (replaceAtList f c path)
  | .Prosody p c, path => .Prosody p (replaceAtList f c path)
  | .Sentence s c, path => .Sentence s (replaceAtList f c path)
  | .Sub s c, path => .Sub s (replaceAtList f c path)
  | .Voice v c, path => .Voice v (replaceAtList f c path)
  | .W w c, path => .W w (replaceAtList f c path)
  | .Other x, _ => .Other x
/-- The content with the item at the path `path` replaced by the items that `f`
gives for it.  A path is the index of an item of the content, followed by the
path below that item; the content is left as it is when the path is empty or
leads to no item. -/
def replaceAtList (f : Node → List Node) : List Node → List Nat → List Node
  | [], _ => []
  | x :: xs, [] => x :: xs
  | x :: xs, 0 :: rest =>
    match rest with
    | [] => f x ++ xs
    | i :: rest => x.replaceAt f (i :: rest) :: xs
  | x :: xs, (n + 1) :: rest => x :: replaceAtList f xs (n :: rest)
end

end ssml
namespace ssml

/-- The Text leaf that holds the alias of a Sub, for a Sub; another item is left
as it is. -/
def Node.aliasText : Node → List Node
  | .Sub sub _ => [.Text sub.Alias]
  | item => [item]

/-- The Sub with the content `content` in place of its own, for a Sub; another
item is left as it is. -/
def Node.withSubContent (content : List Node) : Node → List Node
  | .Sub sub _ => [.Sub sub content]
  | item => [item]

end ssml

namespace ssml

mutual
/-- The texts that the processor takes from an item, in order: the trimmed
content of each Text and the trimmed alias of each Sub, where these are not
empty; the content of a Sub is not looked at. -/
def Node.texts : Node → List String
  | .Text t => if strings.TrimSpace t = "" then [] else [strings.TrimSpace t]
  | .Audio _ c => textsList c
  | .Break _ => []
  | .Emphasis _ c => textsList c
  | .Paragraph _ c => textsList c
  | .Phoneme _ c => textsList c
  | .Prosody _ c => textsList c
  | .Sentence _ c => textsList c
  | .Sub sub _ => if strings.TrimSpace sub.Alias = "" then [] else [strings.TrimSpace sub.Alias]
  | .Voice _ c => textsList c
  | .W _ c => textsList c
  | .Other _ => []
/-- The texts that the processor takes from the items of a content, in order. -/
def textsList : List Node → List String
  | [] => []
  | item :: rest => item.texts ++ textsList rest
end

/-- The texts one after the other, with nothing between them. -/
def joinTexts : List String → String
  | [] => ""
  | s :: rest => s ++ joinTexts rest

/-- The context `c` has the plain text and the segments of `ctx`, followed by
the texts `texts` and by one segment for each of them. -/
def processingContext.Grows (ctx c : processingContext) (texts : List String) : Prop :=
  c.plainTextBuilder = ctx.plainTextBuilder ++ joinTexts texts
    ∧ c.result.Segments.map (fun s => s.Text) = ctx.result.Segments.map (fun s => s.Text) ++ texts

end ssml

namespace ssml

/-- The content of a Phoneme or of a W, for one of these; another item is left
as it is. -/
def Node.unwrap : Node → List Node
  | .Phoneme _ content => content
  | .W _ content => content
  | item => [item]

/-- The document
`<speak>a<voice name="v"><w role="noun">b<phoneme ph="x">c</phoneme></w>d</voice></speak>`. -/
def wordInVoice : Speak :=
  { XMLName := ⟨"", "speak"⟩, Version := "", Lang := "",
    Content :=
      [.Text "a",
       .Voice ⟨⟨"", "voice"⟩, "", "", "", "v", ""⟩
         [.W ⟨⟨"", "w"⟩, "noun"⟩ [.Text "b", .Phoneme ⟨⟨"", "phoneme"⟩, "", "x"⟩ [.Text "c"]],
          .Text "d"]] }

end ssml

namespace ssml

/-- The tokens of
`<speak version="1.0" xml:lang="en"><break time="1s"><break time="2s"/>x</break>y</speak>`. -/
def nestedBreakTokens : List xml.Token :=
  [.StartElement ⟨"", "speak"⟩ [⟨⟨"", "version"⟩, "1.0"⟩, ⟨⟨"xml", "lang"⟩, "en"⟩],
   .StartElement ⟨"", "break"⟩ [⟨⟨"", "time"⟩, "1s"⟩],
   .StartElement ⟨"", "break"⟩ [⟨⟨"", "time"⟩, "2s"⟩], .EndElement ⟨"", "break"⟩,
   .CharData "x", .EndElement ⟨"", "break"⟩, .CharData "y", .EndElement ⟨"", "speak"⟩]

/-- A configuration that allows no unknown elements. -/
def knownOnlyConfig : ValidationConfig :=
  { DefaultValidationConfig with AllowUnknownElements := false }

/-- The state of the parser that has read `<speak>` and nothing else. -/
def Machine.inSpeak : Machine :=
  { Machine.init with
    speak := some { XMLName := ⟨"", "speak"⟩, Version := "", Lang := "", Content := [] } }

end ssml

namespace ssml

/-- The sum of the durations of the segments. -/
def segmentsDuration (segments : List AudioSegment) : Int :=
  (segments.map (fun s => s.Duration)).sum

/-- The sum of the durations of the instructions. -/
def instructionsDuration (instructions : List AudioInstruction) : Int :=
  (instructions.map (fun i => i.Duration)).sum

/-- The byte length of the texts of the first `k` segments, one after the other. -/
def bytesBefore (segments : List AudioSegment) (k : Nat) : Nat :=
  len (joinTexts ((segments.take k).map (fun s => s.Text)))

/-- The sum of the durations of the instructions whose position is at most `p`. -/
def durationUpTo (instructions : List AudioInstruction) (p : Nat) : Int :=
  instructionsDuration (instructions.filter (fun i => decide (i.Position ≤ p)))

/-- The sum of the durations of the instructions whose position is `p`. -/
def durationAt (instructions : List AudioInstruction) (p : Nat) : Int :=
  instructionsDuration (instructions.filter (fun i => decide (i.Position = p)))

/-- What holds of every context that the processing of a document reaches: the
plain text is the texts of the segments, which are trimmed; the cursor is its
byte length; the accumulator is the `int64` sum of all durations; the positions
of the instructions do not decrease, are at most the cursor and lie where a
segment ends; and each segment starts at the `int64` sum of the durations of
the segments before it and of the instructions up to the place where it
begins. -/
def processingContext.Sound (ctx : processingContext) : Prop :=
  ctx.plainTextBuilder = joinTexts (ctx.result.Segments.map (fun s => s.Text))
    ∧ ctx.textPosition = len ctx.plainTextBuilder
    ∧ (∀ s ∈ ctx.result.Segments, trimmed s.Text = true)
    ∧ ctx.currentTime
      = wrap64 (segmentsDuration ctx.result.Segments
          + instructionsDuration ctx.result.Instructions)
    ∧ (∀ i ∈ ctx.result.Instructions,
        ∃ k, k ≤ ctx.result.Segments.length ∧ i.Position = bytesBefore ctx.result.Segments k)
    ∧ (ctx.result.Instructions.map (fun i => i.Position)).Pairwise (fun a b => a ≤ b)
    ∧ (∀ i ∈ ctx.result.Instructions, i.Position ≤ ctx.textPosition)
    ∧ (∀ (k : Nat) (s : AudioSegment), ctx.result.Segments[k]? = some s →
        s.StartTime
          = wrap64 (segmentsDuration (ctx.result.Segments.take k)
              + durationUpTo ctx.result.Instructions (bytesBefore ctx.result.Segments k)))

end ssml

namespace ssml

mutual
/-- The texts that the processor takes from an item, each with the frame under
which it is processed when the top frame is `top`, in order: a Voice, a Prosody
and an Emphasis put their frame over `top` for their content, the other
elements pass `top` on. -/
def Node.framedTexts : Node → AudioProperties → List (String × AudioProperties)
  | .Text t, top => if strings.TrimSpace t = "" then [] else [(strings.TrimSpace t, top)]
  | .Audio _ c, top => framedTextsList c top
  | .Break _, _ => []
  | .Emphasis e c, top => framedTextsList c (emphasisFrame top e)
  | .Paragraph _ c, top => framedTextsList c top
  | .Phoneme _ c, top => framedTextsList c top
  | .Prosody p c, top => framedTextsList c (prosodyFrame top p)
  | .Sentence _ c, top => framedTextsList c top
  | .Sub sub _, top =>
    if strings.TrimSpace sub.Alias = "" then [] else [(strings.TrimSpace sub.Alias, top)]
  | .Voice v c, top => framedTextsList c (voiceFrame top v)
  | .W _ c, top => framedTextsList c top
  | .Other _, _ => []
/-- The texts of the items of a content with their frames, in order. -/
def framedTextsList : List Node → AudioProperties → List (String × AudioProperties)
  | [], _ => []
  | item :: rest, top => item.framedTexts top ++ framedTextsList rest top
end

mutual
/-- The item is a Voice, a Prosody or an Emphasis, or holds one in content that
the processor walks through. -/
def Node.hasFrame : Node → Bool
  | .Text _ => false
  | .Audio _ c => hasFrameList c
  | .Break _ => false
  | .Emphasis _ _ => true
  | .Paragraph _ c => hasFrameList c
  | .Phoneme _ c => hasFrameList c
  | .Prosody _ _ => true
  | .Sentence _ c => hasFrameList c
  | .Sub _ _ => false
  | .Voice _ _ => true
  | .W _ c => hasFrameList c
  | .Other _ => false
/-- One of the items is or holds a Voice, a Prosody or an Emphasis. -/
def hasFrameList : List Node → Bool
  | [] => false
  | item :: rest => item.hasFrame || hasFrameList rest
end

/-- The document `<speak version="1.1" xml:lang="en-US">Hi<p><voice gender="female">you</voice></p></speak>`. -/
def englishRoot : Speak :=
  { XMLName := ⟨"", "speak"⟩, Version := "1.1", Lang := "en-US",
    Content :=
      [.Text "Hi",
       .Paragraph ⟨⟨"", "p"⟩⟩ [.Voice ⟨⟨"", "voice"⟩, "female", "", "", "", ""⟩ [.Text "you"]]] }

end ssml

namespace ssml

/-- A Break inside `k` paragraphs nested one in the other. -/
def nestedBreak : Nat → Break → Node
  | 0, b => .Break b
  | k + 1, b => .Paragraph ⟨⟨"", "p"⟩⟩ [nestedBreak k b]

end ssml

/-! # Theorems -/

namespace xml

theorem Decoder.Token_ok {d : xml.Decoder} {t : xml.Token} {d1 : xml.Decoder}
    (h : d.Token = .ok (t, d1)) : d.input = t :: d1.input ∧ d1.lexErr = d.lexErr := by
  unfold Decoder.Token at h
  split at h
  · split at h
    · cases h
    · split at h <;> cases h
  · cases h; exact ⟨by assumption, rfl⟩
  · split at h
    · cases h
    · split at h
      · cases h
      · split at h
        · cases h
        · cases h; exact ⟨by assumption, rfl⟩
  · cases h; exact ⟨by assumption, rfl⟩

theorem Decoder.Token_length {d : xml.Decoder} {t : xml.Token} {d1 : xml.Decoder}
    (h : d.Token = .ok (t, d1)) : d1.input.length + 1 = d.input.length := by
  rw [(Decoder.Token_ok h).1]; simp

end xml

namespace ssml

theorem parseBreak_loop_ok (fuel : Nat) : ∀ (d d1 : xml.Decoder) (v : Unit),
    parseBreak.loop fuel d = .ok v d1 →
      d1.input.length < d.input.length ∧ d1.lexErr = d.lexErr := by
  induction fuel with
  | zero => intro d d1 v h; simp [parseBreak.loop] at h
  | succ n ih =>
    intro d d1 v h
    unfold parseBreak.loop at h
    split at h
    · cases h
    · rename_i name d2 hT
      have h1 := xml.Decoder.Token_length hT
      have h2 := (xml.Decoder.Token_ok hT).2
      split at h
      · cases h; exact ⟨by omega, h2⟩
      · have := ih _ _ _ h; exact ⟨by omega, by rw [this.2, h2]⟩
    · rename_i tk d2 _ hT
      have h1 := xml.Decoder.Token_length hT
      have h2 := (xml.Decoder.Token_ok hT).2
      have := ih _ _ _ h; exact ⟨by omega, by rw [this.2, h2]⟩

theorem skipElement_ok (fuel : Nat) : ∀ (d d1 : xml.Decoder) (tag : String) (v : Option Node),
    skipElement fuel d tag = .ok v d1 →
      d1.input.length < d.input.length ∧ d1.lexErr = d.lexErr ∧ v = none := by
  induction fuel with
  | zero => intro d d1 tag v h; simp [skipElement] at h
  | succ n ih =>
    intro d d1 tag v h
    unfold skipElement at h
    split at h
    · cases h
    · rename_i name d2 hT
      have h1 := xml.Decoder.Token_length hT
      have h2 := (xml.Decoder.Token_ok hT).2
      split at h
      · cases h; exact ⟨by omega, h2, rfl⟩
      · have := ih _ _ _ _ h; exact ⟨by omega, by rw [this.2.1, h2], this.2.2⟩
    · rename_i tk d2 _ hT
      have h1 := xml.Decoder.Token_length hT
      have h2 := (xml.Decoder.Token_ok hT).2
      have := ih _ _ _ _ h; exact ⟨by omega, by rw [this.2.1, h2], this.2.2⟩

end ssml

namespace ssml

/-- What a call of an element parser does after the dispatch of `parseElement`. -/
theorem parseElement_eq (cfg : ValidationConfig)
    (pc : xml.Decoder → String → Res (List Node)) (fuel : Nat) (d : xml.Decoder)
    (start : xml.Name) (attr : List xml.Attr) :
    parseElement cfg pc fuel d start attr =
      match elementKind cfg start attr with
      | .container elem =>
        (match pc d elem.tag with
          | .err err => .err err
          | .fuel => .fuel
          | .ok content d1 => .ok (some (elem.close content)) d1)
      | .breakElem b =>
        (match parseBreak.loop fuel d with
          | .err err => .err err
          | .fuel => .fuel
          | .ok _ d1 => .ok (some (Node.Break b)) d1)
      | .skip tagName => skipElement fuel d tagName
      | .unknown tagName => .err (.errorString ("unknown element: " ++ tagName)) := by
  unfold parseElement elementKind
  split
  all_goals first
    | rfl
    | (simp only [parseBreak]; cases parseBreak.loop fuel d <;> rfl)
    | (cases cfg.AllowUnknownElements <;> rfl)

end ssml

namespace ssml

theorem parseElement_ok (cfg : ValidationConfig)
    (pc : xml.Decoder → String → Res (List Node)) (fuel : Nat)
    (hpc : ∀ d tag c d1, pc d tag = .ok c d1 →
      d1.input.length < d.input.length ∧ d1.lexErr = d.lexErr)
    (d : xml.Decoder) (start : xml.Name) (attr : List xml.Attr) (v : Option Node)
    (d1 : xml.Decoder) (h : parseElement cfg pc fuel d start attr = .ok v d1) :
    d1.input.length < d.input.length ∧ d1.lexErr = d.lexErr := by
  rw [parseElement_eq] at h
  cases hk : elementKind cfg start attr with
  | container elem =>
    rw [hk] at h; simp only at h
    cases hp : pc d elem.tag with
    | err e => rw [hp] at h; cases h
    | fuel => rw [hp] at h; cases h
    | ok c d2 => rw [hp] at h; cases h; exact hpc _ _ _ _ hp
  | breakElem b =>
    rw [hk] at h; simp only at h
    cases hp : parseBreak.loop fuel d with
    | err e => rw [hp] at h; cases h
    | fuel => rw [hp] at h; cases h
    | ok c d2 => rw [hp] at h; cases h; exact parseBreak_loop_ok _ _ _ _ hp
  | skip tagName =>
    rw [hk] at h; simp only at h
    have := skipElement_ok _ _ _ _ _ h
    exact ⟨this.1, this.2.1⟩
  | unknown tagName => rw [hk] at h; cases h

theorem parseContent_loop_ok (cfg : ValidationConfig) (fuel : Nat) :
    ∀ (d : xml.Decoder) (p : String) (acc c : List Node) (d1 : xml.Decoder),
      parseContent.loop cfg fuel d p acc = .ok c d1 →
        d1.input.length < d.input.length ∧ d1.lexErr = d.lexErr := by
  induction fuel with
  | zero => intro d p acc c d1 h; simp [parseContent.loop] at h
  | succ n ih =>
    intro d p acc c d1 h
    rw [parseContent.loop] at h
    split at h
    · cases h
    · rename_i name attr d2 hT
      have h1 := xml.Decoder.Token_length hT
      have h2 := (xml.Decoder.Token_ok hT).2
      split at h
      · cases h
      · cases h
      · rename_i el d3 hE
        have h3 := parseElement_ok cfg _ n (fun d tag c d1 hh => ih d tag [] c d1 hh) _ _ _ _ _ hE
        have h4 := ih _ _ _ _ _ h
        exact ⟨by omega, by rw [h4.2, h3.2, h2]⟩
      · rename_i d3 hE
        have h3 := parseElement_ok cfg _ n (fun d tag c d1 hh => ih d tag [] c d1 hh) _ _ _ _ _ hE
        have h4 := ih _ _ _ _ _ h
        exact ⟨by omega, by rw [h4.2, h3.2, h2]⟩
    · rename_i data d2 hT
      have h1 := xml.Decoder.Token_length hT
      have h2 := (xml.Decoder.Token_ok hT).2
      simp only at h
      split at h
      · have h4 := ih _ _ _ _ _ h
        exact ⟨by omega, by rw [h4.2, h2]⟩
      · have h4 := ih _ _ _ _ _ h
        exact ⟨by omega, by rw [h4.2, h2]⟩
    · rename_i name d2 hT
      have h1 := xml.Decoder.Token_length hT
      have h2 := (xml.Decoder.Token_ok hT).2
      split at h
      · cases h; exact ⟨by omega, h2⟩
      · have h4 := ih _ _ _ _ _ h
        exact ⟨by omega, by rw [h4.2, h2]⟩
    · rename_i tk d2 _ _ _ hT
      have h1 := xml.Decoder.Token_length hT
      have h2 := (xml.Decoder.Token_ok hT).2
      have h4 := ih _ _ _ _ _ h
      exact ⟨by omega, by rw [h4.2, h2]⟩

end ssml

namespace ssml

theorem Machine.run_skipElement (cfg : ValidationConfig) (le : Option String) (tag : String)
    (fuel : Nat) : ∀ (input : List xml.Token) (stk : List xml.Name) (m : Machine) (sp : Speak),
      input.length < fuel → m.speak = some sp → m.skip = some (.unknown tag) →
      Machine.run cfg le input stk m =
        match skipElement fuel { input := input, lexErr := le, stk := stk } tag with
        | .ok _ d1 => Machine.run cfg le d1.input d1.stk (m.endSkip (.unknown tag))
        | .err e => m.stop e
        | .fuel => .fuel := by
  induction fuel with
  | zero => intro input stk m sp h; omega
  | succ n ih =>
    intro input stk m sp hlen hsp hsk
    cases input with
    | nil =>
      rw [Machine.run, skipElement]
      cases hT : xml.Decoder.Token { input := [], lexErr := le, stk := stk } with
      | error e => rfl
      | ok v => simp [xml.Decoder.Token] at hT; split at hT <;> [cases hT; (split at hT <;> cases hT)]
    | cons tok rest =>
      have hlen1 : rest.length < n := by simpa using hlen
      rw [Machine.run, skipElement]
      cases hT : xml.Decoder.Token { input := tok :: rest, lexErr := le, stk := stk } with
      | error e => rfl
      | ok v =>
        obtain ⟨t, d⟩ := v
        have hd := xml.Decoder.Token_ok hT
        simp only at hd
        obtain ⟨hd1, hd2⟩ := hd
        injection hd1 with ht hr
        subst ht
        obtain ⟨di, dl, ds⟩ := d
        simp only at hr hd2
        subst hr hd2
        simp only [Machine.step, hsp, hsk]
        cases tok with
        | EndElement name =>
          simp only [Skip.tag]
          by_cases hn : name.Local = tag
          · simp only [hn, if_true]
          · simp only [hn, if_false]
            exact ih _ _ _ _ hlen1 hsp hsk
        | _ => exact ih _ _ _ _ hlen1 hsp hsk

end ssml

namespace ssml

theorem Machine.run_parseBreak (cfg : ValidationConfig) (le : Option String) (b : Break)
    (fuel : Nat) : ∀ (input : List xml.Token) (stk : List xml.Name) (m : Machine) (sp : Speak),
      input.length < fuel → m.speak = some sp → m.skip = some (.breakElem b) →
      Machine.run cfg le input stk m =
        match parseBreak.loop fuel { input := input, lexErr := le, stk := stk } with
        | .ok _ d1 => Machine.run cfg le d1.input d1.stk (m.endSkip (.breakElem b))
        | .err e => m.stop e
        | .fuel => .fuel := by
  induction fuel with
  | zero => intro input stk m sp h; omega
  | succ n ih =>
    intro input stk m sp hlen hsp hsk
    cases input with
    | nil =>
      rw [Machine.run, parseBreak.loop]
      cases hT : xml.Decoder.Token { input := [], lexErr := le, stk := stk } with
      | error e => rfl
      | ok v => simp [xml.Decoder.Token] at hT; split at hT <;> [cases hT; (split at hT <;> cases hT)]
    | cons tok rest =>
      have hlen1 : rest.length < n := by simpa using hlen
      rw [Machine.run, parseBreak.loop]
      cases hT : xml.Decoder.Token { input := tok :: rest, lexErr := le, stk := stk } with
      | error e => rfl
      | ok v =>
        obtain ⟨t, d⟩ := v
        have hd := xml.Decoder.Token_ok hT
        simp only at hd
        obtain ⟨hd1, hd2⟩ := hd
        injection hd1 with ht hr
        subst ht
        obtain ⟨di, dl, ds⟩ := d
        simp only at hr hd2
        subst hr hd2
        simp only [Machine.step, hsp, hsk]
        cases tok with
        | EndElement name =>
          simp only [Skip.tag]
          by_cases hn : name.Local = "break"
          · simp only [hn, if_true]
          · simp only [hn, if_false]
            exact ih _ _ _ _ hlen1 hsp hsk
        | _ => exact ih _ _ _ _ hlen1 hsp hsk

theorem Machine.stop_speak (m : Machine) (sp : Speak) (h : m.speak = some sp) (e : GoError) :
    m.stop e = .returned
      { m.result with
        Errors := m.result.Errors ++ ["Error parsing speak element: " ++ e.Error] } e := by
  simp [Machine.stop, h]

theorem Machine.run_parseContent (cfg : ValidationConfig) (le : Option String)
    (fuel : Nat) : ∀ (input : List xml.Token) (stk : List xml.Name) (m : Machine) (sp : Speak),
      input.length < fuel → m.speak = some sp → m.skip = none →
      Machine.run cfg le input stk m =
        match parseContent.loop cfg fuel { input := input, lexErr := le, stk := stk }
            m.parentTag m.content with
        | .ok c d1 => Machine.run cfg le d1.input d1.stk (m.leave sp c)
        | .err e => m.stop e
        | .fuel => .fuel := by
  induction fuel with
  | zero => intro input stk m sp h; omega
  | succ n ih =>
    intro input stk m sp hlen hsp hsk
    obtain ⟨res, root, speak, frames, content, skip⟩ := m
    simp only at hsp hsk
    subst hsp hsk
    cases input with
    | nil =>
      rw [Machine.run, parseContent.loop]
      cases hT : xml.Decoder.Token { input := [], lexErr := le, stk := stk } with
      | error e => rfl
      | ok v => simp [xml.Decoder.Token] at hT; split at hT <;> [cases hT; (split at hT <;> cases hT)]
    | cons tok rest =>
      have hlen1 : rest.length < n := by simpa using hlen
      rw [Machine.run, parseContent.loop]
      cases hT : xml.Decoder.Token { input := tok :: rest, lexErr := le, stk := stk } with
      | error e => rfl
      | ok v =>
        obtain ⟨t, d⟩ := v
        have hd := xml.Decoder.Token_ok hT
        simp only at hd
        obtain ⟨hd1, hd2⟩ := hd
        injection hd1 with ht hr
        subst ht
        obtain ⟨di, dl, ds⟩ := d
        simp only at hr hd2
        subst hr hd2
        simp only [Machine.step]
        cases tok with
        | StartElement name attr =>
          simp only [parseElement_eq]
          cases hk : elementKind cfg name attr with
          | container elem =>
            simp only
            have h1 := ih rest ds
              { result := res, root := root, speak := some sp,
                frames := (elem, content) :: frames, content := [], skip := none } sp
              hlen1 rfl rfl
            rw [h1]
            simp only [Machine.parentTag]
            cases hp : parseContent.loop cfg n { input := rest, lexErr := dl, stk := ds } elem.tag [] with
            | err e => rfl
            | fuel => rfl
            | ok c d2 =>
              simp only
              have h2 := parseContent_loop_ok cfg n _ _ _ _ _ hp
              simp only at h2
              obtain ⟨d2i, d2l, d2s⟩ := d2
              simp only at h2
              obtain ⟨h2a, h2b⟩ := h2
              subst h2b
              have h3 := ih d2i d2s
                { result := res, root := root, speak := some sp,
                  frames := frames, content := content ++ [elem.close c], skip := none }
                sp (by omega) rfl rfl
              simp only [Machine.leave]
              rw [h3]
              rfl
          | breakElem b =>
            simp only
            have h1 := Machine.run_parseBreak cfg dl b n rest ds
              { result := res, root := root, speak := some sp,
                frames := frames, content := content, skip := some (.breakElem b) } sp
              hlen1 rfl rfl
            rw [h1]
            cases hp : parseBreak.loop n { input := rest, lexErr := dl, stk := ds } with
            | err e => rfl
            | fuel => rfl
            | ok c d2 =>
              simp only
              have h2 := parseBreak_loop_ok n _ _ _ hp
              obtain ⟨d2i, d2l, d2s⟩ := d2
              simp only at h2
              obtain ⟨h2a, h2b⟩ := h2
              subst h2b
              have h3 := ih d2i d2s
                { result := res, root := root, speak := some sp,
                  frames := frames, content := content ++ [Node.Break b], skip := none }
                sp (by omega) rfl rfl
              simp only [Machine.endSkip]
              rw [h3]
              rfl
          | skip tagName =>
            simp only
            have h1 := Machine.run_skipElement cfg dl tagName n rest ds
              { result := res, root := root, speak := some sp,
                frames := frames, content := content, skip := some (.unknown tagName) } sp
              hlen1 rfl rfl
            rw [h1]
            cases hp : skipElement n { input := rest, lexErr := dl, stk := ds } tagName with
            | err e => rfl
            | fuel => rfl
            | ok c d2 =>
              simp only
              have h2 := skipElement_ok n _ _ _ _ hp
              obtain ⟨d2i, d2l, d2s⟩ := d2
              simp only at h2
              obtain ⟨h2a, h2b, h2c⟩ := h2
              subst h2b h2c
              have h3 := ih d2i d2s
                { result := res, root := root, speak := some sp,
                  frames := frames, content := content, skip := none }
                sp (by omega) rfl rfl
              simp only [Machine.endSkip]
              rw [h3]
          | unknown tagName => rfl
        | EndElement name =>
          simp only
          by_cases hn : name.Local = Machine.parentTag
              { result := res, root := root, speak := some sp, frames := frames,
                content := content, skip := none }
          · simp only [if_pos hn]
          · simp only [if_neg hn]
            exact ih _ _ _ _ hlen1 rfl rfl
        | CharData data =>
          simp only
          by_cases hn : strings.TrimSpace data ≠ ""
          · simp only [if_pos hn]
            exact ih _ _
              { result := res, root := root, speak := some sp, frames := frames,
                content := content ++ [Node.Text (strings.TrimSpace data)], skip := none } _
              hlen1 rfl rfl
          · simp only [if_neg hn]
            exact ih _ _ _ _ hlen1 rfl rfl
        | _ => exact ih _ _ _ _ hlen1 rfl rfl

end ssml

namespace ssml

/-- The machine computes what the token loop of `ParseReader` computes, whenever
the recursion budget exceeds the number of tokens left. -/
theorem ParseReader_loop_eq_run (cfg : ValidationConfig) (le : Option String) (fuel : Nat) :
    ∀ (input : List xml.Token) (stk : List xml.Name) (result : ParseResult)
      (root : Option Speak), input.length < fuel →
      ParseReader.loop cfg fuel { input := input, lexErr := le, stk := stk } result root =
        Machine.run cfg le input stk
          { result := result, root := root, speak := none, frames := [], content := [],
            skip := none } := by
  induction fuel with
  | zero => intro input stk result root h; omega
  | succ n ih =>
    intro input stk result root hlen
    cases input with
    | nil =>
      rw [Machine.run, ParseReader.loop]
      cases hT : xml.Decoder.Token { input := [], lexErr := le, stk := stk } with
      | error e => cases e <;> rfl
      | ok v => simp [xml.Decoder.Token] at hT; split at hT <;> [cases hT; (split at hT <;> cases hT)]
    | cons tok rest =>
      have hlen1 : rest.length < n := by simpa using hlen
      rw [Machine.run, ParseReader.loop]
      cases hT : xml.Decoder.Token { input := tok :: rest, lexErr := le, stk := stk } with
      | error e => cases e <;> rfl
      | ok v =>
        obtain ⟨t, d⟩ := v
        have hd := xml.Decoder.Token_ok hT
        simp only at hd
        obtain ⟨hd1, hd2⟩ := hd
        injection hd1 with ht hr
        subst ht
        obtain ⟨di, dl, ds⟩ := d
        simp only at hr hd2
        subst hr hd2
        simp only [Machine.step]
        cases tok with
        | StartElement name attr =>
          simp only
          by_cases hn : name.Local = "speak"
          · simp only [if_pos hn, parseSpeak, parseContent]
            have h1 := Machine.run_parseContent cfg dl n rest ds
              { result := result, root := root,
                speak := some (attr.foldl parseSpeak.attr
                  { XMLName := name, Version := "", Lang := "", Content := [] }),
                frames := [], content := [], skip := none } _ hlen1 rfl rfl
            rw [h1]
            simp only [Machine.parentTag]
            cases hp : parseContent.loop cfg n { input := rest, lexErr := dl, stk := ds } "speak" [] with
            | err e => rfl
            | fuel => rfl
            | ok c d2 =>
              simp only
              have h2 := parseContent_loop_ok cfg n _ _ _ _ _ hp
              obtain ⟨d2i, d2l, d2s⟩ := d2
              simp only at h2
              obtain ⟨h2a, h2b⟩ := h2
              subst h2b
              rw [ih d2i d2s _ _ (by omega)]
              rfl
          · simp only [if_neg hn]
            exact ih _ _ _ _ hlen1
        | _ => exact ih _ _ _ _ hlen1

theorem Machine.stop_ne_fuel (m : Machine) (e : GoError) : m.stop e ≠ .fuel := by
  unfold Machine.stop
  split
  · split <;> simp
  · simp

theorem Machine.run_ne_fuel (cfg : ValidationConfig) (le : Option String) :
    ∀ (input : List xml.Token) (stk : List xml.Name) (m : Machine),
      Machine.run cfg le input stk m ≠ .fuel := by
  intro input
  induction input with
  | nil =>
    intro stk m
    rw [Machine.run]
    cases hT : xml.Decoder.Token { input := [], lexErr := le, stk := stk } with
    | error e => exact Machine.stop_ne_fuel m e
    | ok v => simp [xml.Decoder.Token] at hT; split at hT <;> [cases hT; (split at hT <;> cases hT)]
  | cons tok rest ih =>
    intro stk m
    rw [Machine.run]
    cases hT : xml.Decoder.Token { input := tok :: rest, lexErr := le, stk := stk } with
    | error e => exact Machine.stop_ne_fuel m e
    | ok v =>
      obtain ⟨t, d⟩ := v
      simp only
      cases hs : m.step cfg t with
      | error r => simp
      | ok m1 => exact ih _ _

/-- The function `ParseReader`, read off the machine. -/
theorem ParseReader_eq_run (cfg : ValidationConfig) (d : xml.Decoder) :
    ParseReader cfg d =
      match Machine.run cfg d.lexErr d.input d.stk Machine.init with
      | .fuel => none
      | .returned result err => some (result, some err)
      | .done result none =>
        some ({ result with Errors := result.Errors ++ ["No valid SSML root element found"] },
          some (.errorString "no valid SSML root element found"))
      | .done result (some root) => some (validate cfg root { result with Root := some root }) := by
  obtain ⟨input, le, stk⟩ := d
  unfold ParseReader
  rw [ParseReader_loop_eq_run cfg le _ input stk _ _ (Nat.lt_succ_self _)]
  rfl

/-- The recursion budget that `ParseReader` supplies never runs out: the function
always returns a result. -/
theorem ParseReader_total (cfg : ValidationConfig) (d : xml.Decoder) :
    ∃ r, ParseReader cfg d = some r := by
  rw [ParseReader_eq_run]
  have h := Machine.run_ne_fuel cfg d.lexErr d.input d.stk Machine.init
  cases hr : Machine.run cfg d.lexErr d.input d.stk Machine.init with
  | fuel => exact absurd hr h
  | returned result err => exact ⟨_, rfl⟩
  | done result root => cases root <;> exact ⟨_, rfl⟩

end ssml

namespace xml

theorem Decoder.Token_cons (tok : xml.Token) (rest : List xml.Token) (le : Option String)
    (stk : List Name) :
    Decoder.Token { input := tok :: rest, lexErr := le, stk := stk } =
      match nestStep stk tok with
      | .error e => .error e
      | .ok stk1 => .ok (tok, { input := rest, lexErr := le, stk := stk1 }) := by
  cases tok with
  | EndElement name =>
    cases stk with
    | nil => rfl
    | cons top stk1 =>
      simp only [Decoder.Token, nestStep]
      split
      · rfl
      · split <;> rfl
  | _ => rfl

theorem Decoder.Token_nil (le : Option String) (stk : List Name) :
    ∃ e, Decoder.Token { input := [], lexErr := le, stk := stk } = .error e
      ∧ (e = .EOF ↔ le = none ∧ stk = []) := by
  cases le with
  | some msg => exact ⟨_, rfl, by simp⟩
  | none =>
    cases stk with
    | nil => exact ⟨_, rfl, by simp⟩
    | cons a b => exact ⟨_, rfl, by simp⟩

theorem openAfter_append (a b : List xml.Token) : ∀ stk,
    openAfter (a ++ b) stk = (openAfter a stk).bind (openAfter b) := by
  induction a with
  | nil => intro stk; rfl
  | cons tok rest ih =>
    intro stk
    simp only [List.cons_append, openAfter]
    cases nestStep stk tok with
    | error e => rfl
    | ok s => exact ih s

end xml

namespace ssml

theorem Machine.run_cons (cfg : ValidationConfig) (le : Option String) (tok : xml.Token)
    (rest : List xml.Token) (stk : List xml.Name) (m : Machine) :
    Machine.run cfg le (tok :: rest) stk m =
      match xml.nestStep stk tok with
      | .error e => m.stop e
      | .ok stk1 =>
        match m.step cfg tok with
        | .error (result, err) => .returned result err
        | .ok m1 => Machine.run cfg le rest stk1 m1 := by
  rw [Machine.run, xml.Decoder.Token_cons]
  cases xml.nestStep stk tok <;> rfl

theorem Machine.run_nil (cfg : ValidationConfig) (le : Option String)
    (stk : List xml.Name) (m : Machine) :
    ∃ e, Machine.run cfg le [] stk m = m.stop e ∧ (e = .EOF ↔ le = none ∧ stk = []) := by
  obtain ⟨e, he, h⟩ := xml.Decoder.Token_nil le stk
  exact ⟨e, by rw [Machine.run, he], h⟩

theorem Machine.feed_cons (cfg : ValidationConfig) (tok : xml.Token)
    (rest : List xml.Token) (stk : List xml.Name) (m : Machine) :
    Machine.feed cfg (tok :: rest) stk m =
      match xml.nestStep stk tok with
      | .error _ => none
      | .ok stk1 =>
        match m.step cfg tok with
        | .error _ => none
        | .ok m1 => Machine.feed cfg rest stk1 m1 := by
  rw [Machine.feed, xml.Decoder.Token_cons]
  cases xml.nestStep stk tok <;> rfl

theorem Machine.feed_append (cfg : ValidationConfig) (a b : List xml.Token) :
    ∀ (stk : List xml.Name) (m : Machine),
      Machine.feed cfg (a ++ b) stk m =
        (Machine.feed cfg a stk m).bind (fun s => Machine.feed cfg b s.1 s.2) := by
  induction a with
  | nil => intro stk m; rfl
  | cons tok rest ih =>
    intro stk m
    simp only [List.cons_append, Machine.feed_cons]
    cases xml.nestStep stk tok with
    | error e => rfl
    | ok s =>
      simp only
      cases m.step cfg tok with
      | error e => rfl
      | ok m1 => exact ih s m1

theorem Machine.run_append (cfg : ValidationConfig) (le : Option String)
    (a b : List xml.Token) : ∀ (stk stk1 : List xml.Name) (m m1 : Machine),
      Machine.feed cfg a stk m = some (stk1, m1) →
        Machine.run cfg le (a ++ b) stk m = Machine.run cfg le b stk1 m1 := by
  induction a with
  | nil => intro stk stk1 m m1 h; simp only [Machine.feed] at h; cases h; rfl
  | cons tok rest ih =>
    intro stk stk1 m m1 h
    rw [Machine.feed_cons] at h
    simp only [List.cons_append, Machine.run_cons]
    cases hn : xml.nestStep stk tok with
    | error e => rw [hn] at h; cases h
    | ok s =>
      rw [hn] at h
      simp only at h ⊢
      cases hs : m.step cfg tok with
      | error e => rw [hs] at h; cases h
      | ok m2 => rw [hs] at h; exact ih _ _ _ _ h

theorem Machine.feed_openAfter (cfg : ValidationConfig) (a : List xml.Token) :
    ∀ (stk stk1 : List xml.Name) (m m1 : Machine),
      Machine.feed cfg a stk m = some (stk1, m1) → xml.openAfter a stk = some stk1 := by
  induction a with
  | nil => intro stk stk1 m m1 h; simp only [Machine.feed] at h; cases h; rfl
  | cons tok rest ih =>
    intro stk stk1 m m1 h
    rw [Machine.feed_cons] at h
    rw [xml.openAfter]
    cases hn : xml.nestStep stk tok with
    | error e => rw [hn] at h; cases h
    | ok s =>
      rw [hn] at h
      simp only at h ⊢
      cases hs : m.step cfg tok with
      | error e => rw [hs] at h; cases h
      | ok m2 => rw [hs] at h; exact ih _ _ _ _ h

end ssml

namespace xml

theorem nestStep_ne_EOF (stk : List Name) (tok : xml.Token) :
    nestStep stk tok ≠ .error .EOF := by
  cases tok with
  | EndElement name =>
    cases stk with
    | nil => simp [nestStep]
    | cons top stk1 =>
      simp only [nestStep]
      split
      · simp
      · split <;> simp
  | _ => simp [nestStep]

end xml

namespace ssml

theorem Machine.step_ok_result (cfg : ValidationConfig) (m m1 : Machine) (tok : xml.Token)
    (h : m.step cfg tok = .ok m1) :
    m1.result.Root = m.result.Root ∧ m1.result.Errors = m.result.Errors := by
  unfold Machine.step at h
  split at h
  · split at h
    · split at h <;> (cases h; exact ⟨rfl, rfl⟩)
    · cases h; exact ⟨rfl, rfl⟩
  · split at h
    · split at h
      · rename_i sk _ _
        split at h
        · have h1 := Except.ok.inj h
          subst h1
          unfold Machine.endSkip
          split <;> exact ⟨rfl, rfl⟩
        · cases h; exact ⟨rfl, rfl⟩
      · cases h; exact ⟨rfl, rfl⟩
    · split at h
      · split at h
        · cases h; exact ⟨rfl, rfl⟩
        · cases h; exact ⟨rfl, rfl⟩
        · cases h; exact ⟨rfl, rfl⟩
        · cases h
      · split at h <;> (cases h; exact ⟨rfl, rfl⟩)
      · split at h
        · cases h
          unfold Machine.leave
          split <;> exact ⟨rfl, rfl⟩
        · cases h; exact ⟨rfl, rfl⟩
      · cases h; exact ⟨rfl, rfl⟩

theorem Machine.step_error_result (cfg : ValidationConfig) (m : Machine) (tok : xml.Token)
    (r : ParseResult) (e : GoError) (h : m.step cfg tok = .error (r, e)) :
    r.Root = m.result.Root ∧ r.Warnings = m.result.Warnings
      ∧ r.Errors = m.result.Errors ++ ["Error parsing speak element: " ++ e.Error] := by
  unfold Machine.step at h
  split at h
  · split at h
    · split at h <;> cases h
    · cases h
  · split at h
    · split at h
      · split at h <;> cases h
      · cases h
    · split at h
      · split at h
        · cases h
        · cases h
        · cases h
        · cases h; exact ⟨rfl, rfl, rfl⟩
      · split at h <;> cases h
      · split at h <;> cases h
      · cases h

theorem Machine.feed_result (cfg : ValidationConfig) (a : List xml.Token) :
    ∀ (stk stk1 : List xml.Name) (m m1 : Machine),
      Machine.feed cfg a stk m = some (stk1, m1) →
        m1.result.Root = m.result.Root ∧ m1.result.Errors = m.result.Errors := by
  induction a with
  | nil => intro stk stk1 m m1 h; simp only [Machine.feed] at h; cases h; exact ⟨rfl, rfl⟩
  | cons tok rest ih =>
    intro stk stk1 m m1 h
    rw [Machine.feed_cons] at h
    cases hn : xml.nestStep stk tok with
    | error e => rw [hn] at h; cases h
    | ok s =>
      rw [hn] at h
      simp only at h
      cases hs : m.step cfg tok with
      | error e => rw [hs] at h; cases h
      | ok m2 =>
        rw [hs] at h
        have h1 := ih _ _ _ _ h
        have h2 := Machine.step_ok_result cfg _ _ _ hs
        exact ⟨h1.1.trans h2.1, h1.2.trans h2.2⟩

/-- However the token loop ends, it ends in one of two ways.  It returns with an
error, having appended exactly one message to `Errors` and leaving `Root` as it
was; or the decoder has delivered every token and reached a clean end of input,
and the loop is left with `Errors` and `Root` untouched. -/
theorem Machine.run_cases (cfg : ValidationConfig) (le : Option String)
    (input : List xml.Token) : ∀ (stk : List xml.Name) (m : Machine),
      (∃ r e, Machine.run cfg le input stk m = .returned r e
          ∧ r.Root = m.result.Root ∧ ∃ msg, r.Errors = m.result.Errors ++ [msg])
      ∨ (∃ r root, Machine.run cfg le input stk m = .done r root
          ∧ r.Root = m.result.Root ∧ r.Errors = m.result.Errors
          ∧ le = none ∧ xml.openAfter input stk = some []) := by
  induction input with
  | nil =>
    intro stk m
    obtain ⟨e, he, hE⟩ := Machine.run_nil cfg le stk m
    rw [he]
    unfold Machine.stop
    cases hsp : m.speak with
    | none =>
      simp only
      cases e with
      | EOF =>
        right
        have := hE.mp rfl
        exact ⟨_, _, rfl, rfl, rfl, this.1, by rw [this.2]; rfl⟩
      | SyntaxError msg => left; exact ⟨_, _, rfl, rfl, _, rfl⟩
      | errorString s => left; exact ⟨_, _, rfl, rfl, _, rfl⟩
    | some sp => left; exact ⟨_, _, rfl, rfl, _, rfl⟩
  | cons tok rest ih =>
    intro stk m
    rw [Machine.run_cons, xml.openAfter]
    cases hn : xml.nestStep stk tok with
    | error e =>
      left
      simp only
      unfold Machine.stop
      cases hsp : m.speak with
      | none =>
        simp only
        cases e with
        | EOF => exact absurd hn (xml.nestStep_ne_EOF stk tok)
        | SyntaxError msg => exact ⟨_, _, rfl, rfl, _, rfl⟩
        | errorString s => exact ⟨_, _, rfl, rfl, _, rfl⟩
      | some sp => exact ⟨_, _, rfl, rfl, _, rfl⟩
    | ok s =>
      simp only
      cases hs : m.step cfg tok with
      | error re =>
        obtain ⟨r, e⟩ := re
        left
        have h := Machine.step_error_result cfg _ _ _ _ hs
        exact ⟨_, _, rfl, h.1, _, h.2.2⟩
      | ok m1 =>
        have h := Machine.step_ok_result cfg _ _ _ hs
        simp only
        rcases ih s m1 with ⟨r, e, h1, h2, msg, h3⟩ | ⟨r, root, h1, h2, h3, h4⟩
        · left; exact ⟨r, e, h1, h2.trans h.1, msg, by rw [h3, h.2]⟩
        · right; exact ⟨r, root, h1, h2.trans h.1, h3.trans h.2, h4⟩

end ssml

namespace xml

theorem openAfter_reaches (rest : List xml.Token) : ∀ (top s0 s1 : List Name),
    openAfter rest (top ++ s0) = some s1 →
      (∃ top1, s1 = top1 ++ s0 ∧ top1 ≠ [])
        ∨ ∃ k, openAfter (rest.take k) (top ++ s0) = some s0 := by
  induction rest with
  | nil =>
    intro top s0 s1 h
    simp only [openAfter] at h
    cases h
    cases top with
    | nil => right; exact ⟨0, rfl⟩
    | cons t top1 => left; exact ⟨t :: top1, rfl, by simp⟩
  | cons tok rest ih =>
    intro top s0 s1 h
    cases top with
    | nil => right; exact ⟨0, rfl⟩
    | cons t top1 =>
      rw [openAfter] at h
      cases hn : nestStep (t :: top1 ++ s0) tok with
      | error e => rw [hn] at h; cases h
      | ok s =>
        rw [hn] at h
        simp only at h
        have key : ∃ top2, s = top2 ++ s0 := by
          cases tok with
          | StartElement name attr =>
            simp only [nestStep] at hn
            cases hn
            exact ⟨name :: t :: top1, rfl⟩
          | EndElement name =>
            simp only [nestStep, List.cons_append] at hn
            split at hn
            · cases hn
            · split at hn
              · cases hn
              · cases hn; exact ⟨top1, rfl⟩
          | CharData data => simp only [nestStep] at hn; cases hn; exact ⟨t :: top1, rfl⟩
          | Comment data => simp only [nestStep] at hn; cases hn; exact ⟨t :: top1, rfl⟩
          | ProcInst a b => simp only [nestStep] at hn; cases hn; exact ⟨t :: top1, rfl⟩
          | Directive data => simp only [nestStep] at hn; cases hn; exact ⟨t :: top1, rfl⟩
        obtain ⟨top2, rfl⟩ := key
        rcases ih top2 s0 s1 h with h1 | ⟨k, hk⟩
        · left; exact h1
        · right
          refine ⟨k + 1, ?_⟩
          rw [List.take_succ_cons, openAfter, hn]
          exact hk

end xml

namespace ssml

/-- Whenever the decoder cannot deliver the whole input and then a clean end of
input, `ParseReader` returns an error, no root and exactly one message. -/
theorem ParseReader_of_not_clean (cfg : ValidationConfig) (input : List xml.Token)
    (le : Option String) (h : ¬ (le = none ∧ xml.openAfter input [] = some [])) :
    ∃ result err, ParseReader cfg (xml.NewDecoder input le) = some (result, some err)
      ∧ result.Root = none ∧ ∃ msg, result.Errors = [msg] := by
  rw [ParseReader_eq_run]
  simp only [xml.NewDecoder]
  rcases Machine.run_cases cfg le input [] Machine.init with
    ⟨r, e, h1, h2, msg, h3⟩ | ⟨r, root, h1, h2, h3, h4, h5⟩
  · rw [h1]
    exact ⟨r, e, rfl, h2, msg, h3⟩
  · exact absurd ⟨h4, h5⟩ h

/-- C8 (malformed or unterminated markup).  For every configuration and every
token stream in which an element, the speak element in particular, is opened
and its matching end tag is never delivered, because the input ends or the
tokenizer reports an error first, `ParseReader` returns an error, the result has
no root, and `Errors` holds exactly one message.  Here `pre` are the tokens
before the start tag and `rest` the tokens after it; the matching end tag would
be the token at which the decoder's open elements are back to those before the
start tag. -/
theorem ParseReader_unterminated (cfg : ValidationConfig) (le : Option String)
    (pre rest : List xml.Token) (name : xml.Name) (attr : List xml.Attr)
    (hopen : ∀ s0, xml.openAfter pre [] = some s0 →
      ∀ k, xml.openAfter (rest.take k) (name :: s0) ≠ some s0) :
    ∃ result err,
      ParseReader cfg (xml.NewDecoder (pre ++ .StartElement name attr :: rest) le)
          = some (result, some err)
        ∧ result.Root = none ∧ result.Errors.length = 1 := by
  have key : ¬ (le = none
      ∧ xml.openAfter (pre ++ .StartElement name attr :: rest) [] = some []) := by
    rintro ⟨-, h⟩
    rw [xml.openAfter_append] at h
    cases hp : xml.openAfter pre [] with
    | none => rw [hp] at h; cases h
    | some s0 =>
      rw [hp] at h
      simp only [Option.bind, xml.openAfter, xml.nestStep] at h
      rcases xml.openAfter_reaches rest [name] s0 [] h with ⟨top1, h1, h2⟩ | ⟨k, hk⟩
      · cases top1 with
        | nil => exact h2 rfl
        | cons a b => cases h1
      · exact hopen s0 hp k hk
  obtain ⟨result, err, h1, h2, msg, h3⟩ := ParseReader_of_not_clean cfg _ le key
  exact ⟨result, err, h1, h2, by rw [h3]; rfl⟩

end ssml

namespace ssml

/-- C8 at the input of the test `TestParseInvalidSSML`: the speak element of
`<speak><unclosed>` is never closed. -/
theorem ParseReader_unterminated_witness :
    (∀ s0, xml.openAfter [] [] = some s0 →
      ∀ k, xml.openAfter (([.StartElement ⟨"", "unclosed"⟩ []] : List xml.Token).take k)
        (⟨"", "speak"⟩ :: s0) ≠ some s0)
    ∧ ∃ result err,
      ParseReader DefaultValidationConfig
          (xml.NewDecoder ([] ++ .StartElement ⟨"", "speak"⟩ []
            :: [.StartElement ⟨"", "unclosed"⟩ []]) none)
          = some (result, some err)
        ∧ result.Root = none ∧ result.Errors.length = 1 :=
  have h : ∀ s0, xml.openAfter [] [] = some s0 →
      ∀ k, xml.openAfter (([.StartElement ⟨"", "unclosed"⟩ []] : List xml.Token).take k)
        (⟨"", "speak"⟩ :: s0) ≠ some s0 := by
    intro s0 h0 k
    simp only [xml.openAfter] at h0
    cases h0
    rcases k with _ | k <;> simp [xml.openAfter, xml.nestStep]
  ⟨h, ParseReader_unterminated DefaultValidationConfig none [] _ ⟨"", "speak"⟩ [] h⟩

end ssml

namespace ssml

theorem Machine.step_top (cfg : ValidationConfig) (m : Machine) (tok : xml.Token)
    (hsp : m.speak = none)
    (hno : ∀ name attr, tok = .StartElement name attr → name.Local ≠ "speak") :
    m.step cfg tok = .ok
      { m with result := { m.result with Warnings := m.result.Warnings ++ rootWarnings [tok] } } := by
  obtain ⟨res, root, speak, frames, content, skip⟩ := m
  simp only at hsp
  subst hsp
  cases tok with
  | StartElement name attr =>
    have := hno name attr rfl
    simp [Machine.step, this, rootWarnings]
  | _ => simp [Machine.step, rootWarnings]

/-- The token loop on an input without a speak start tag: at a clean end of input
it is left without a root, otherwise it returns the decoder's error. -/
theorem Machine.run_no_speak (cfg : ValidationConfig) (le : Option String)
    (input : List xml.Token) : ∀ (stk : List xml.Name) (m : Machine),
      m.speak = none →
      (∀ name attr, xml.Token.StartElement name attr ∈ input → name.Local ≠ "speak") →
      ((le = none ∧ xml.openAfter input stk = some []) →
        Machine.run cfg le input stk m =
          .done { m.result with Warnings := m.result.Warnings ++ rootWarnings input } m.root)
      ∧ (¬ (le = none ∧ xml.openAfter input stk = some []) →
        ∃ ws e, Machine.run cfg le input stk m =
          .returned { Root := m.result.Root, Warnings := ws,
                      Errors := m.result.Errors ++ ["XML parsing error: " ++ e.Error] } e) := by
  induction input with
  | nil =>
    intro stk m hsp _
    obtain ⟨e, he, hE⟩ := Machine.run_nil cfg le stk m
    rw [he]
    simp only [Machine.stop, hsp, xml.openAfter, rootWarnings, List.filterMap_nil,
      List.append_nil, Option.some.injEq]
    constructor
    · intro h
      rw [hE.mpr h]
    · intro h
      cases e with
      | EOF => exact absurd (hE.mp rfl) h
      | SyntaxError msg => exact ⟨_, _, rfl⟩
      | errorString s => exact ⟨_, _, rfl⟩
  | cons tok rest ih =>
    intro stk m hsp hno
    rw [Machine.run_cons, xml.openAfter]
    cases hn : xml.nestStep stk tok with
    | error e =>
      simp only [Machine.stop, hsp]
      constructor
      · rintro ⟨-, h⟩; cases h
      · intro _
        cases e with
        | EOF => exact absurd hn (xml.nestStep_ne_EOF stk tok)
        | SyntaxError msg => exact ⟨_, _, rfl⟩
        | errorString s => exact ⟨_, _, rfl⟩
    | ok s =>
      have hs := Machine.step_top cfg m tok hsp
        (fun name attr h => hno name attr (by rw [h]; exact List.mem_cons_self _ _))
      rw [hs]
      simp only
      have h1 := ih s
        { m with result := { m.result with Warnings := m.result.Warnings ++ rootWarnings [tok] } }
        hsp (fun name attr h => hno name attr (List.mem_cons_of_mem _ h))
      simp only at h1
      have hw : rootWarnings (tok :: rest) = rootWarnings [tok] ++ rootWarnings rest := by
        simp only [rootWarnings]
        rw [← List.filterMap_append]
        rfl
      rw [hw, ← List.append_assoc]
      exact h1

/-- C6, as amended (missing root).  For every configuration and every token
stream that contains no start tag named speak, the empty input included,
`ParseReader` returns an error and the result has no root.  When the tokenizer
delivers the stream to a clean end of input, `Errors` is exactly the message
`No valid SSML root element found`; when the tokenizer reports an error, the
loop returns at once and `Errors` holds the `XML parsing error` message of that
error instead. -/
theorem ParseReader_missing_root (cfg : ValidationConfig) (input : List xml.Token)
    (le : Option String)
    (hno : ∀ name attr, xml.Token.StartElement name attr ∈ input → name.Local ≠ "speak") :
    ∃ result err, ParseReader cfg (xml.NewDecoder input le) = some (result, some err)
      ∧ result.Root = none
      ∧ ((le = none ∧ xml.openAfter input [] = some []) →
          result.Errors = ["No valid SSML root element found"])
      ∧ (¬ (le = none ∧ xml.openAfter input [] = some []) →
          result.Errors = ["XML parsing error: " ++ err.Error]) := by
  rw [ParseReader_eq_run]
  simp only [xml.NewDecoder]
  obtain ⟨h1, h2⟩ := Machine.run_no_speak cfg le input [] Machine.init rfl hno
  by_cases hc : le = none ∧ xml.openAfter input [] = some []
  · rw [h1 hc]
    exact ⟨_, _, rfl, rfl, fun _ => rfl, fun h => absurd hc h⟩
  · obtain ⟨ws, e, h3⟩ := h2 hc
    rw [h3]
    exact ⟨_, _, rfl, rfl, fun h => absurd h hc, fun _ => rfl⟩

/-- C6 at the empty input and at the test input `<invalid>content</invalid>`. -/
theorem ParseReader_missing_root_witness :
    (∃ result err, ParseReader DefaultValidationConfig (xml.NewDecoder [] none)
        = some (result, some err)
      ∧ result.Root = none
      ∧ ((none = (none : Option String) ∧ xml.openAfter [] [] = some []) →
          result.Errors = ["No valid SSML root element found"])
      ∧ (¬ (none = (none : Option String) ∧ xml.openAfter [] [] = some []) →
          result.Errors = ["XML parsing error: " ++ err.Error]))
    ∧ ParseReader DefaultValidationConfig
        (xml.NewDecoder [.StartElement ⟨"", "invalid"⟩ [], .CharData "content",
          .EndElement ⟨"", "invalid"⟩] none)
      = some ({ Root := none, Warnings := ["Root element should be 'speak', found 'invalid'"],
                Errors := ["No valid SSML root element found"] },
          some (.errorString "no valid SSML root element found")) :=
  ⟨ParseReader_missing_root DefaultValidationConfig [] none (by simp), rfl⟩

/-- C6, counterexample.  The token stream of `<invalid>` contains no start tag
named speak, and `Errors` does not contain `No valid SSML root element found`:
the decoder reports the unclosed element and the loop returns with that
error. -/
theorem ParseReader_missing_root_counterexample :
    ParseReader DefaultValidationConfig (xml.NewDecoder [.StartElement ⟨"", "invalid"⟩ []] none)
      = some ({ Root := none, Warnings := ["Root element should be 'speak', found 'invalid'"],
                Errors := ["XML parsing error: XML syntax error: unexpected EOF"] },
          some (.SyntaxError "unexpected EOF"))
    ∧ "No valid SSML root element found"
        ∉ ["XML parsing error: XML syntax error: unexpected EOF"] :=
  ⟨rfl, by decide⟩

end ssml

namespace ssml

theorem rootWarnings_misc (pro : List xml.Token) (hpro : ∀ t ∈ pro, t.isMisc = true) :
    rootWarnings pro = [] := by
  induction pro with
  | nil => rfl
  | cons t rest ih =>
    have h1 := hpro t (List.mem_cons_self _ _)
    have h2 := ih (fun t h => hpro t (List.mem_cons_of_mem _ h))
    cases t <;> simp_all [rootWarnings, xml.Token.isMisc]

/-- C7, as amended (root must be speak).  For every configuration and every
well-formed document whose outermost element is not named speak and that has no
speak start tag inside it, `ParseReader` returns an error: the result has no
root, `Errors` is `No valid SSML root element found`, and `Warnings` starts with
the warning about the root element found.  (A speak element nested in a root of
another name is not an error: it is parsed as the document's root, see the
counterexample.) -/
theorem ParseReader_root_not_speak (cfg : ValidationConfig) (pro rest : List xml.Token)
    (name : xml.Name) (attr : List xml.Attr)
    (hwf : xml.openAfter (pro ++ .StartElement name attr :: rest) [] = some [])
    (hpro : ∀ t ∈ pro, t.isMisc = true)
    (hname : name.Local ≠ "speak")
    (hno : ∀ n a, xml.Token.StartElement n a ∈ rest → n.Local ≠ "speak") :
    ParseReader cfg (xml.NewDecoder (pro ++ .StartElement name attr :: rest) none)
      = some ({ Root := none,
                Warnings := ("Root element should be 'speak', found '" ++ name.Local ++ "'")
                  :: rootWarnings rest,
                Errors := ["No valid SSML root element found"] },
          some (.errorString "no valid SSML root element found")) := by
  rw [ParseReader_eq_run]
  simp only [xml.NewDecoder]
  have hall : ∀ n a, xml.Token.StartElement n a ∈ pro ++ .StartElement name attr :: rest →
      n.Local ≠ "speak" := by
    intro n a h
    rcases List.mem_append.mp h with h | h
    · have := hpro _ h
      simp [xml.Token.isMisc] at this
    · rcases List.mem_cons.mp h with h | h
      · cases h; exact hname
      · exact hno n a h
  have h1 := (Machine.run_no_speak cfg none _ [] Machine.init rfl hall).1 ⟨rfl, hwf⟩
  rw [h1]
  have hw : rootWarnings (pro ++ .StartElement name attr :: rest)
      = ("Root element should be 'speak', found '" ++ name.Local ++ "'") :: rootWarnings rest := by
    have := rootWarnings_misc pro hpro
    simp only [rootWarnings, List.filterMap_append, List.filterMap_cons] at this ⊢
    rw [this]
    rfl
  rw [hw]
  rfl

/-- C7 at the test input `<?xml version="1.0"?><invalid>content</invalid>`. -/
theorem ParseReader_root_not_speak_witness :
    ParseReader DefaultValidationConfig
        (xml.NewDecoder ([.ProcInst "xml" "version=\"1.0\""]
          ++ .StartElement ⟨"", "invalid"⟩ []
            :: [.CharData "content", .EndElement ⟨"", "invalid"⟩]) none)
      = some ({ Root := none,
                Warnings := ("Root element should be 'speak', found '" ++ "invalid" ++ "'")
                  :: rootWarnings [.CharData "content", .EndElement ⟨"", "invalid"⟩],
                Errors := ["No valid SSML root element found"] },
          some (.errorString "no valid SSML root element found")) :=
  ParseReader_root_not_speak DefaultValidationConfig [.ProcInst "xml" "version=\"1.0\""]
    [.CharData "content", .EndElement ⟨"", "invalid"⟩] ⟨"", "invalid"⟩ [] rfl (by decide)
    (by decide) (by simp)

/-- C7, counterexample.  The well-formed document
`<a><speak version="1.0" xml:lang="en">x</speak></a>` has the root `a`, yet
`ParseReader` returns no error: the loop records a warning for `a` and takes the
speak element inside it as the root. -/
theorem ParseReader_root_not_speak_counterexample :
    ParseReader DefaultValidationConfig
        (xml.NewDecoder
          [.StartElement ⟨"", "a"⟩ [],
           .StartElement ⟨"", "speak"⟩ [⟨⟨"", "version"⟩, "1.0"⟩, ⟨⟨"xml", "lang"⟩, "en"⟩],
           .CharData "x", .EndElement ⟨"", "speak"⟩, .EndElement ⟨"", "a"⟩] none)
      = some ({ Root := some { XMLName := ⟨"", "speak"⟩, Version := "1.0", Lang := "en",
                               Content := [Node.Text "x"] },
                Warnings := ["Root element should be 'speak', found 'a'"],
                Errors := [] },
          none) :=
  rfl

end ssml

namespace ssml

theorem elementKind_unrecognized (cfg : ValidationConfig) (name : xml.Name)
    (attr : List xml.Attr) (h : name.Local ∉ recognizedTags) :
    elementKind cfg name attr =
      if !cfg.AllowUnknownElements then .unknown name.Local else .skip name.Local := by
  unfold elementKind
  split
  all_goals first
    | rfl
    | (rename_i heq; rw [heq] at h; simp [recognizedTags] at h)

theorem Machine.feed_skip (cfg : ValidationConfig) (mid : List xml.Token) :
    ∀ (stk stk1 : List xml.Name) (m : Machine) (sp : Speak) (sk : Skip),
      m.speak = some sp → m.skip = some sk →
      (∀ n, xml.Token.EndElement n ∈ mid → n.Local ≠ sk.tag) →
      xml.openAfter mid stk = some stk1 →
      Machine.feed cfg mid stk m = some (stk1, m) := by
  induction mid with
  | nil => intro stk stk1 m sp sk _ _ _ h; simp only [xml.openAfter] at h; cases h; rfl
  | cons tok rest ih =>
    intro stk stk1 m sp sk hsp hsk hno h
    rw [xml.openAfter] at h
    rw [Machine.feed_cons]
    cases hn : xml.nestStep stk tok with
    | error e => rw [hn] at h; cases h
    | ok s =>
      rw [hn] at h
      simp only at h ⊢
      have hs : m.step cfg tok = .ok m := by
        cases tok with
        | EndElement n =>
          have := hno n (List.mem_cons_self _ _)
          simp [Machine.step, hsp, hsk, this]
        | _ => simp [Machine.step, hsp, hsk]
      rw [hs]
      exact ih _ _ _ _ _ hsp hsk (fun n hmem => hno n (List.mem_cons_of_mem _ hmem)) h

/-- The content loop skips an unrecognized element that contains no end tag of its
own name: after its end tag the parser is in the state it was in before its
start tag. -/
theorem Machine.feed_unknown_element (cfg : ValidationConfig) (stk : List xml.Name)
    (m : Machine) (name : xml.Name) (attr : List xml.Attr) (mid : List xml.Token)
    (hallow : cfg.AllowUnknownElements = true)
    (hsp : m.speak ≠ none) (hsk : m.skip = none)
    (hname : name.Local ∉ recognizedTags)
    (hmid : ∀ n, xml.Token.EndElement n ∈ mid → n.Local ≠ name.Local)
    (hwf : xml.openAfter mid (name :: stk) = some (name :: stk)) :
    Machine.feed cfg (.StartElement name attr :: (mid ++ [.EndElement name])) stk m
      = some (stk, m) := by
  obtain ⟨res, root, speak, frames, content, skip⟩ := m
  simp only at hsp hsk
  subst hsk
  cases speak with
  | none => exact absurd rfl hsp
  | some sp =>
    rw [Machine.feed_cons]
    simp only [xml.nestStep, Machine.step, elementKind_unrecognized cfg name attr hname, hallow,
      Bool.not_true, Bool.false_eq_true, if_false]
    rw [Machine.feed_append,
      Machine.feed_skip cfg mid (name :: stk) (name :: stk) _ sp (.unknown name.Local) rfl rfl
        hmid hwf]
    simp only [Option.bind]
    rw [Machine.feed_cons]
    simp [xml.nestStep, Machine.step, Skip.tag, Machine.endSkip, Machine.feed]

/-- C5, the code at the failing input.  With unknown elements allowed, the
document `<speak version="1.0" xml:lang="en"><u><u>a</u>b</u>c</speak>` is
parsed into the content `b`, `c`: `skipElement` stops at the end tag of the
inner `u`, so the text `b`, which lies inside the outer `u`, becomes a node. -/
theorem skipElement_stops_at_inner_end_tag :
    ParseReader DefaultValidationConfig
        (xml.NewDecoder
          [.StartElement ⟨"", "speak"⟩ [⟨⟨"", "version"⟩, "1.0"⟩, ⟨⟨"xml", "lang"⟩, "en"⟩],
           .StartElement ⟨"", "u"⟩ [], .StartElement ⟨"", "u"⟩ [], .CharData "a",
           .EndElement ⟨"", "u"⟩, .CharData "b", .EndElement ⟨"", "u"⟩, .CharData "c",
           .EndElement ⟨"", "speak"⟩] none)
      = some ({ Root := some { XMLName := ⟨"", "speak"⟩, Version := "1.0", Lang := "en",
                               Content := [Node.Text "b", Node.Text "c"] },
                Warnings := [], Errors := [] },
          none) :=
  rfl

end ssml

namespace ssml

/-- C3, as amended (unknown element, allowed).  With `AllowUnknownElements =
true`, take any well-formed unrecognized element that contains no end tag of its
own name (hence no element of the same tag name), and suppose that its start tag
is read by `parseContent`, that is, after the tokens `pre` before it the parser
is inside a speak element and reading the content of speak or of a recognized
container, not skipping (`hpos`, `hsp`, `hsk`).  Then `ParseReader` returns
exactly what it returns for the token stream with the element's start tag, end
tag and every token between them removed: the same tree, warnings, errors and
error. -/
theorem ParseReader_skips_unknown_element (cfg : ValidationConfig) (le : Option String)
    (pre mid post : List xml.Token) (stk : List xml.Name) (m : Machine)
    (name : xml.Name) (attr : List xml.Attr)
    (hallow : cfg.AllowUnknownElements = true)
    (hpos : Machine.feed cfg pre [] Machine.init = some (stk, m))
    (hsp : m.speak ≠ none) (hsk : m.skip = none)
    (hname : name.Local ∉ recognizedTags)
    (hmid : ∀ n, xml.Token.EndElement n ∈ mid → n.Local ≠ name.Local)
    (hwf : xml.openAfter mid (name :: stk) = some (name :: stk)) :
    ParseReader cfg
        (xml.NewDecoder (pre ++ .StartElement name attr :: (mid ++ .EndElement name :: post)) le)
      = ParseReader cfg (xml.NewDecoder (pre ++ post) le) := by
  rw [ParseReader_eq_run, ParseReader_eq_run]
  simp only [xml.NewDecoder]
  rw [Machine.run_append cfg le pre _ [] stk _ m hpos,
    Machine.run_append cfg le pre _ [] stk _ m hpos]
  have h1 : xml.Token.StartElement name attr :: (mid ++ .EndElement name :: post)
      = (.StartElement name attr :: (mid ++ [.EndElement name])) ++ post := by simp
  rw [h1, Machine.run_append cfg le _ post stk stk m m
    (Machine.feed_unknown_element cfg stk m name attr mid hallow hsp hsk hname hmid hwf)]

/-- C3 at the document of the test `TestParseUnknownElements`:
`<speak version="1.0" xml:lang="zh-CN"><unknown>content</unknown>Hello World</speak>`
is parsed like the document without the unknown element. -/
theorem ParseReader_skips_unknown_element_witness :
    ParseReader DefaultValidationConfig
        (xml.NewDecoder
          ([.StartElement ⟨"", "speak"⟩ [⟨⟨"", "version"⟩, "1.0"⟩, ⟨⟨"xml", "lang"⟩, "zh-CN"⟩]]
            ++ .StartElement ⟨"", "unknown"⟩ []
              :: ([.CharData "content"] ++ .EndElement ⟨"", "unknown"⟩
                :: [.CharData "Hello World", .EndElement ⟨"", "speak"⟩])) none)
      = ParseReader DefaultValidationConfig
        (xml.NewDecoder
          ([.StartElement ⟨"", "speak"⟩ [⟨⟨"", "version"⟩, "1.0"⟩, ⟨⟨"xml", "lang"⟩, "zh-CN"⟩]]
            ++ [.CharData "Hello World", .EndElement ⟨"", "speak"⟩]) none) :=
  ParseReader_skips_unknown_element DefaultValidationConfig none
    [.StartElement ⟨"", "speak"⟩ [⟨⟨"", "version"⟩, "1.0"⟩, ⟨⟨"xml", "lang"⟩, "zh-CN"⟩]]
    [.CharData "content"] [.CharData "Hello World", .EndElement ⟨"", "speak"⟩]
    [⟨"", "speak"⟩]
    { result := { Root := none, Warnings := [], Errors := [] }, root := none,
      speak := some { XMLName := ⟨"", "speak"⟩, Version := "1.0", Lang := "zh-CN", Content := [] },
      frames := [], content := [], skip := none }
    ⟨"", "unknown"⟩ [] rfl rfl (by simp) rfl (by decide) (by simp) rfl

/-- C3, counterexample.  In the well-formed document
`<p><u><speak>hi</speak></u></p>` the unrecognized element `u` is a child of
the recognized container `p` and contains no element named `u`.  With unknown
elements allowed the document is parsed into a tree (the speak element inside
`u`), whereas the token stream without the element `u`, `<p></p>`, yields no
tree at all: outside a speak element nothing is skipped. -/
theorem ParseReader_skips_unknown_element_counterexample :
    ParseReader DefaultValidationConfig
        (xml.NewDecoder
          [.StartElement ⟨"", "p"⟩ [], .StartElement ⟨"", "u"⟩ [],
           .StartElement ⟨"", "speak"⟩ [], .CharData "hi", .EndElement ⟨"", "speak"⟩,
           .EndElement ⟨"", "u"⟩, .EndElement ⟨"", "p"⟩] none)
      = some ({ Root := some { XMLName := ⟨"", "speak"⟩, Version := "", Lang := "",
                               Content := [Node.Text "hi"] },
                Warnings := ["Root element should be 'speak', found 'p'",
                  "Root element should be 'speak', found 'u'",
                  "SSML version not specified", "Language not specified"],
                Errors := [] },
          none)
    ∧ ParseReader DefaultValidationConfig
        (xml.NewDecoder [.StartElement ⟨"", "p"⟩ [], .EndElement ⟨"", "p"⟩] none)
      = some ({ Root := none,
                Warnings := ["Root element should be 'speak', found 'p'"],
                Errors := ["No valid SSML root element found"] },
          some (.errorString "no valid SSML root element found")) :=
  ⟨rfl, rfl⟩

/-- C4, as amended (unknown element, disallowed).  With `AllowUnknownElements =
false`, whatever `StrictMode` and `MaxNestingDepth` are: when the start tag of
an element whose tag is not one of the ten recognized ones is read by
`parseContent`, that is, after the tokens `pre` before it the parser is inside a
speak element and reading the content of speak or of a recognized container, not
skipping to the end tag of a break (`hpos`, `hsp`, `hsk`), then `ParseReader`
returns the error `unknown element`, no root, and that one message in
`Errors`. -/
theorem ParseReader_unknown_element_disallowed (cfg : ValidationConfig)
    (le : Option String) (pre rest : List xml.Token) (stk : List xml.Name) (m : Machine)
    (name : xml.Name) (attr : List xml.Attr)
    (hallow : cfg.AllowUnknownElements = false)
    (hpos : Machine.feed cfg pre [] Machine.init = some (stk, m))
    (hsp : m.speak ≠ none) (hsk : m.skip = none)
    (hname : name.Local ∉ recognizedTags) :
    ∃ result,
      ParseReader cfg (xml.NewDecoder (pre ++ .StartElement name attr :: rest) le)
          = some (result, some (.errorString ("unknown element: " ++ name.Local)))
        ∧ result.Root = none
        ∧ result.Errors = ["Error parsing speak element: unknown element: " ++ name.Local] := by
  rw [ParseReader_eq_run]
  simp only [xml.NewDecoder]
  rw [Machine.run_append cfg le pre _ [] stk _ m hpos, Machine.run_cons]
  have hres := Machine.feed_result cfg pre _ _ _ _ hpos
  obtain ⟨res, root, speak, frames, content, skip⟩ := m
  simp only at hsp hsk hres
  subst hsk
  cases speak with
  | none => exact absurd rfl hsp
  | some sp =>
    simp only [xml.nestStep, Machine.step, elementKind_unrecognized cfg name attr hname, hallow,
      Bool.not_false, if_true]
    refine ⟨_, rfl, hres.1, ?_⟩
    simp only [hres.2, Machine.init, List.nil_append, GoError.Error]
    rw [← String.append_assoc]
    rfl

/-- C4 at the document of the test `TestParseUnknownElements`:
`<speak version="1.0" xml:lang="zh-CN"><unknown>content</unknown>Hello World</speak>`
is rejected when unknown elements are not allowed. -/
theorem ParseReader_unknown_element_disallowed_witness :
    ∃ result,
      ParseReader { StrictMode := false, AllowUnknownElements := false, MaxNestingDepth := 10,
                    MaxDuration := 0 }
          (xml.NewDecoder
            ([.StartElement ⟨"", "speak"⟩ [⟨⟨"", "version"⟩, "1.0"⟩, ⟨⟨"xml", "lang"⟩, "zh-CN"⟩]]
              ++ .StartElement ⟨"", "unknown"⟩ []
                :: [.CharData "content", .EndElement ⟨"", "unknown"⟩,
                    .CharData "Hello World", .EndElement ⟨"", "speak"⟩]) none)
          = some (result, some (.errorString ("unknown element: " ++ "unknown")))
        ∧ result.Root = none
        ∧ result.Errors = ["Error parsing speak element: unknown element: " ++ "unknown"] :=
  ParseReader_unknown_element_disallowed _ none
    [.StartElement ⟨"", "speak"⟩ [⟨⟨"", "version"⟩, "1.0"⟩, ⟨⟨"xml", "lang"⟩, "zh-CN"⟩]]
    _ [⟨"", "speak"⟩]
    { result := { Root := none, Warnings := [], Errors := [] }, root := none,
      speak := some { XMLName := ⟨"", "speak"⟩, Version := "1.0", Lang := "zh-CN", Content := [] },
      frames := [], content := [], skip := none }
    ⟨"", "unknown"⟩ [] rfl rfl (by simp) rfl (by decide)

/-- C4, counterexample.  With `AllowUnknownElements = false`, the document
`<speak version="1.0" xml:lang="en"><break><p><u></u></p></break></speak>`,
in which the element `u` is a child of the recognized container `p`, is
accepted: `parseBreak` reads up to `</break>` without looking at the tokens, so
`parseElement` never sees `u`. -/
theorem ParseReader_unknown_element_disallowed_counterexample :
    ParseReader { StrictMode := false, AllowUnknownElements := false, MaxNestingDepth := 10,
                  MaxDuration := 0 }
        (xml.NewDecoder
          [.StartElement ⟨"", "speak"⟩ [⟨⟨"", "version"⟩, "1.0"⟩, ⟨⟨"xml", "lang"⟩, "en"⟩],
           .StartElement ⟨"", "break"⟩ [], .StartElement ⟨"", "p"⟩ [],
           .StartElement ⟨"", "u"⟩ [], .EndElement ⟨"", "u"⟩, .EndElement ⟨"", "p"⟩,
           .EndElement ⟨"", "break"⟩, .EndElement ⟨"", "speak"⟩] none)
      = some ({ Root := some { XMLName := ⟨"", "speak"⟩, Version := "1.0", Lang := "en",
                               Content := [Node.Break
                                 { XMLName := ⟨"", "break"⟩, Time := "", Strength := "" }] },
                Warnings := [], Errors := [] },
          none) :=
  rfl

end ssml

namespace ssml

mutual
theorem validateNestingDepth_item_eq (cfg : ValidationConfig) :
    ∀ (item : Node) (depth : Int) (result : ParseResult), depth ≤ cfg.MaxNestingDepth →
      validateNestingDepth.item cfg item depth result =
        if depth + item.elemDepth > cfg.MaxNestingDepth then
          ({ result with Errors := result.Errors ++ [(nestingError cfg).Error] },
            some (nestingError cfg))
        else (result, none)
  | .Text _, depth, result, h => by
    simp only [validateNestingDepth.item, Node.elemDepth]
    rw [if_neg]; omega
  | .Other _, depth, result, h => by
    simp only [validateNestingDepth.item, Node.elemDepth]
    rw [if_neg]; omega
  | .Break _, depth, result, h => by
    simp only [validateNestingDepth.item, Node.elemDepth, validateNestingDepth.check]
    push_cast
    rfl
  | .Audio _ c, depth, result, h => by
    simp only [validateNestingDepth.item, Node.elemDepth, validateNestingDepth.check]
    by_cases hd : depth + 1 > cfg.MaxNestingDepth
    · rw [if_pos hd, if_pos]; push_cast; omega
    · rw [if_neg hd, validateNestingDepth_loop_eq cfg c (depth + 1) result (by omega)]
      push_cast
      simp only [add_assoc]
  | .Emphasis _ c, depth, result, h => by
    simp only [validateNestingDepth.item, Node.elemDepth, validateNestingDepth.check]
    by_cases hd : depth + 1 > cfg.MaxNestingDepth
    · rw [if_pos hd, if_pos]; push_cast; omega
    · rw [if_neg hd, validateNestingDepth_loop_eq cfg c (depth + 1) result (by omega)]
      push_cast
      simp only [add_assoc]
  | .Paragraph _ c, depth, result, h => by
    simp only [validateNestingDepth.item, Node.elemDepth, validateNestingDepth.check]
    by_cases hd : depth + 1 > cfg.MaxNestingDepth
    · rw [if_pos hd, if_pos]; push_cast; omega
    · rw [if_neg hd, validateNestingDepth_loop_eq cfg c (depth + 1) result (by omega)]
      push_cast
      simp only [add_assoc]
  | .Phoneme _ c, depth, result, h => by
    simp only [validateNestingDepth.item, Node.elemDepth, validateNestingDepth.check]
    by_cases hd : depth + 1 > cfg.MaxNestingDepth
    · rw [if_pos hd, if_pos]; push_cast; omega
    · rw [if_neg hd, validateNestingDepth_loop_eq cfg c (depth + 1) result (by omega)]
      push_cast
      simp only [add_assoc]
  | .Prosody _ c, depth, result, h => by
    simp only [validateNestingDepth.item, Node.elemDepth, validateNestingDepth.check]
    by_cases hd : depth + 1 > cfg.MaxNestingDepth
    · rw [if_pos hd, if_pos]; push_cast; omega
    · rw [if_neg hd, validateNestingDepth_loop_eq cfg c (depth + 1) result (by omega)]
      push_cast
      simp only [add_assoc]
  | .Sentence _ c, depth, result, h => by
    simp only [validateNestingDepth.item, Node.elemDepth, validateNestingDepth.check]
    by_cases hd : depth + 1 > cfg.MaxNestingDepth
    · rw [if_pos hd, if_pos]; push_cast; omega
    · rw [if_neg hd, validateNestingDepth_loop_eq cfg c (depth + 1) result (by omega)]
      push_cast
      simp only [add_assoc]
  | .Sub _ c, depth, result, h => by
    simp only [validateNestingDepth.item, Node.elemDepth, validateNestingDepth.check]
    by_cases hd : depth + 1 > cfg.MaxNestingDepth
    · rw [if_pos hd, if_pos]; push_cast; omega
    · rw [if_neg hd, validateNestingDepth_loop_eq cfg c (depth + 1) result (by omega)]
      push_cast
      simp only [add_assoc]
  | .Voice _ c, depth, result, h => by
    simp only [validateNestingDepth.item, Node.elemDepth, validateNestingDepth.check]
    by_cases hd : depth + 1 > cfg.MaxNestingDepth
    · rw [if_pos hd, if_pos]; push_cast; omega
    · rw [if_neg hd, validateNestingDepth_loop_eq cfg c (depth + 1) result (by omega)]
      push_cast
      simp only [add_assoc]
  | .W _ c, depth, result, h => by
    simp only [validateNestingDepth.item, Node.elemDepth, validateNestingDepth.check]
    by_cases hd : depth + 1 > cfg.MaxNestingDepth
    · rw [if_pos hd, if_pos]; push_cast; omega
    · rw [if_neg hd, validateNestingDepth_loop_eq cfg c (depth + 1) result (by omega)]
      push_cast
      simp only [add_assoc]
theorem validateNestingDepth_loop_eq (cfg : ValidationConfig) :
    ∀ (content : List Node) (depth : Int) (result : ParseResult), depth ≤ cfg.MaxNestingDepth →
      validateNestingDepth.loop cfg content depth result =
        if depth + elemDepth content > cfg.MaxNestingDepth then
          ({ result with Errors := result.Errors ++ [(nestingError cfg).Error] },
            some (nestingError cfg))
        else (result, none)
  | [], depth, result, h => by
    simp only [validateNestingDepth.loop, elemDepth]
    rw [if_neg]; push_cast; omega
  | item :: rest, depth, result, h => by
    simp only [validateNestingDepth.loop, elemDepth]
    rw [validateNestingDepth_item_eq cfg item depth result h]
    by_cases hd : depth + item.elemDepth > cfg.MaxNestingDepth
    · rw [if_pos hd, if_pos]
      push_cast
      omega
    · rw [if_neg hd]
      simp only
      rw [validateNestingDepth_loop_eq cfg rest depth result h]
      by_cases hr : depth + elemDepth rest > cfg.MaxNestingDepth
      · rw [if_pos hr, if_pos]; push_cast; omega
      · rw [if_neg hr, if_neg]; push_cast; omega
end

/-- The nesting check in closed form: it fails, with one message, exactly when
`depth` plus the nesting depth of the content exceeds `MaxNestingDepth`. -/
theorem validateNestingDepth_eq (cfg : ValidationConfig) (content : List Node) (depth : Int)
    (result : ParseResult) :
    validateNestingDepth cfg content depth result =
      if depth + elemDepth content > cfg.MaxNestingDepth then
        ({ result with Errors := result.Errors ++ [(nestingError cfg).Error] },
          some (nestingError cfg))
      else (result, none) := by
  unfold validateNestingDepth validateNestingDepth.check
  by_cases hd : depth > cfg.MaxNestingDepth
  · rw [if_pos hd, if_pos]; omega
  · rw [if_neg hd, validateNestingDepth_loop_eq cfg content depth result (by omega)]

end ssml

namespace ssml

theorem elemDepth_emphasisTree (attrs : List (List xml.Attr)) (text : String) :
    elemDepth (emphasisTree attrs text) = attrs.length := by
  induction attrs with
  | nil =>
    simp only [emphasisTree, List.length_nil]
    split <;> simp [elemDepth, Node.elemDepth]
  | cons a rest ih =>
    simp only [emphasisTree, elemDepth, Node.elemDepth, ih, List.length_cons]
    omega

theorem Machine.feed_nestedEmphasis (cfg : ValidationConfig) (text : String)
    (attrs : List (List xml.Attr)) :
    ∀ (stk : List xml.Name) (res : ParseResult) (root : Option Speak) (sp : Speak)
      (frames : List (Open × List Node)) (content : List Node),
      Machine.feed cfg (nestedEmphasis attrs text) stk
          { result := res, root := root, speak := some sp, frames := frames,
            content := content, skip := none }
        = some (stk,
          { result := res, root := root, speak := some sp, frames := frames,
            content := content ++ emphasisTree attrs text, skip := none }) := by
  induction attrs with
  | nil =>
    intro stk res root sp frames content
    simp only [nestedEmphasis, emphasisTree, Machine.feed_cons, xml.nestStep, Machine.step]
    by_cases h : strings.TrimSpace text ≠ ""
    · simp only [if_pos h, Machine.feed]
    · simp only [if_neg h, Machine.feed, List.append_nil]
  | cons a rest ih =>
    intro stk res root sp frames content
    simp only [nestedEmphasis, emphasisTree]
    rw [Machine.feed_cons]
    simp only [xml.nestStep, Machine.step, elementKind]
    rw [Machine.feed_append, ih]
    simp only [Option.bind]
    rw [Machine.feed_cons]
    simp [xml.nestStep, Machine.step, Machine.parentTag, Open.tag, Machine.leave, Open.close,
      Machine.feed]

/-- What the token loop makes of the document of `TestParseNestingDepth`. -/
theorem Machine.run_emphasisDocument (cfg : ValidationConfig) (version lang : String)
    (attrs : List (List xml.Attr)) (text : String) :
    Machine.run cfg none (emphasisDocument version lang attrs text) [] Machine.init
      = .done { Root := none, Warnings := [], Errors := [] }
          (some { XMLName := ⟨"", "speak"⟩, Version := version, Lang := lang,
                  Content := emphasisTree attrs text }) := by
  unfold emphasisDocument
  rw [Machine.run_append cfg none
    [.ProcInst "xml" "version=\"1.0\" encoding=\"UTF-8\"",
     .StartElement ⟨"", "speak"⟩ [⟨⟨"", "version"⟩, version⟩, ⟨⟨"xml", "lang"⟩, lang⟩]]
    _ [] [⟨"", "speak"⟩] Machine.init
    { result := { Root := none, Warnings := [], Errors := [] }, root := none,
      speak := some { XMLName := ⟨"", "speak"⟩, Version := version, Lang := lang, Content := [] },
      frames := [], content := [], skip := none } rfl]
  rw [Machine.run_append cfg none _ _ _ _ _ _ (Machine.feed_nestedEmphasis cfg text attrs _ _ _ _ _ _)]
  rfl

/-- C2 (depth enforcement).  For every number `N` of emphasis elements nested one
inside the other around a single text (one element for each attribute list in
`attrs`, so `N = attrs.length`) in a speak element with a version and a language,
and for every `MaxNestingDepth` (negative values included), the document is parsed
successfully, that is `ParseReader` returns no error, if and only if
`MaxNestingDepth ≥ N`.  The version and the language are any strings, non-empty
when `StrictMode` is set; the other settings are arbitrary. -/
theorem ParseReader_nesting_depth (cfg : ValidationConfig) (version lang : String)
    (attrs : List (List xml.Attr)) (text : String)
    (hstrict : cfg.StrictMode = true → version ≠ "" ∧ lang ≠ "") :
    (∃ result, ParseReader cfg (xml.NewDecoder (emphasisDocument version lang attrs text) none)
        = some (result, none))
      ↔ (attrs.length : Int) ≤ cfg.MaxNestingDepth := by
  rw [ParseReader_eq_run]
  simp only [xml.NewDecoder]
  rw [Machine.run_emphasisDocument]
  simp only [validate, basicValidation, strictValidation, validateNestingDepth_eq,
    elemDepth_emphasisTree, zero_add]
  by_cases hs : cfg.StrictMode = true
  · obtain ⟨hv, hl⟩ := hstrict hs
    simp only [hs, if_true, hv, hl, if_false]
    by_cases hd : (attrs.length : Int) > cfg.MaxNestingDepth
    · simp only [if_pos hd]
      constructor
      · rintro ⟨r, h⟩; simp at h
      · intro h; omega
    · simp only [if_neg hd]
      exact ⟨fun _ => by omega, fun _ => ⟨_, rfl⟩⟩
  · simp only [hs, Bool.false_eq_true, if_false]
    by_cases hd : (attrs.length : Int) > cfg.MaxNestingDepth
    · simp only [if_pos hd]
      constructor
      · rintro ⟨r, h⟩; simp at h
      · intro h; omega
    · simp only [if_neg hd]
      exact ⟨fun _ => by omega, fun _ => ⟨_, rfl⟩⟩

/-- C2 at the test's input: 15 nested emphasis elements are rejected with
`MaxNestingDepth = 10`. -/
theorem ParseReader_nesting_depth_witness :
    ((∃ result,
        ParseReader { StrictMode := false, AllowUnknownElements := false, MaxNestingDepth := 10,
                      MaxDuration := 0 }
            (xml.NewDecoder (emphasisDocument "1.0" "zh-CN"
              (List.replicate 15 [⟨⟨"", "level"⟩, "moderate"⟩]) "深度嵌套内容") none)
          = some (result, none))
      ↔ (((List.replicate 15 [(⟨⟨"", "level"⟩, "moderate"⟩ : xml.Attr)]).length : Int) ≤ 10))
    ∧ ¬ (((List.replicate 15 [(⟨⟨"", "level"⟩, "moderate"⟩ : xml.Attr)]).length : Int) ≤ 10) :=
  ⟨ParseReader_nesting_depth _ "1.0" "zh-CN" _ _ (by simp), by decide⟩

end ssml

namespace ssml

theorem Machine.step_congr (cfg cfg1 : ValidationConfig)
    (h : cfg.AllowUnknownElements = cfg1.AllowUnknownElements) (m : Machine) (tok : xml.Token) :
    m.step cfg tok = m.step cfg1 tok := by
  have hk : ∀ name attr, elementKind cfg name attr = elementKind cfg1 name attr := by
    intro name attr
    unfold elementKind
    rw [h]
  unfold Machine.step
  simp only [hk]

/-- The token loop consults the configuration only for `AllowUnknownElements`. -/
theorem Machine.run_congr (cfg cfg1 : ValidationConfig)
    (h : cfg.AllowUnknownElements = cfg1.AllowUnknownElements) (le : Option String)
    (input : List xml.Token) : ∀ (stk : List xml.Name) (m : Machine),
      Machine.run cfg le input stk m = Machine.run cfg1 le input stk m := by
  induction input with
  | nil => intro stk m; rw [Machine.run, Machine.run]
  | cons tok rest ih =>
    intro stk m
    rw [Machine.run_cons, Machine.run_cons, Machine.step_congr cfg cfg1 h]
    cases xml.nestStep stk tok with
    | error e => rfl
    | ok s =>
      simp only
      cases m.step cfg1 tok with
      | error e => rfl
      | ok m1 => exact ih s m1

/-- A result of `ParseReader` has a root exactly when the token loop ended at a
clean end of input with a speak element parsed; the result is then what `validate`
makes of that root. -/
theorem ParseReader_root (cfg : ValidationConfig) (d : xml.Decoder) (r : ParseResult)
    (e : Option GoError) (root : Speak)
    (h : ParseReader cfg d = some (r, e)) (hroot : r.Root = some root) :
    ∃ ws, Machine.run cfg d.lexErr d.input d.stk Machine.init
        = .done { Root := none, Warnings := ws, Errors := [] } (some root)
      ∧ validate cfg root { Root := some root, Warnings := ws, Errors := [] } = (r, e) := by
  rw [ParseReader_eq_run] at h
  rcases Machine.run_cases cfg d.lexErr d.input d.stk Machine.init with
    ⟨r1, e1, h1, h2, msg, h3⟩ | ⟨r1, root1, h1, h2, h3, h4, h5⟩
  · rw [h1] at h
    simp only [Option.some.injEq, Prod.mk.injEq] at h
    rw [← h.1, h2] at hroot
    cases hroot
  · rw [h1] at h
    obtain ⟨rr, rw_, re⟩ := r1
    simp only [Machine.init] at h2 h3
    subst h2 h3
    cases root1 with
    | none =>
      simp only [Option.some.injEq, Prod.mk.injEq] at h
      rw [← h.1] at hroot
      cases hroot
    | some root1 =>
      simp only [Option.some.injEq] at h
      have hr : (validate cfg root1 { Root := some root1, Warnings := rw_, Errors := [] }).1.Root
          = some root1 := by
        simp only [validate, basicValidation, strictValidation, validateNestingDepth_eq]
        split
        · split
          · rfl
          · split
            · rfl
            · split <;> rfl
        · split <;> split <;> split <;> rfl
      rw [h] at hr
      simp only at hr
      rw [hroot] at hr
      cases hr
      exact ⟨rw_, h1, h⟩

/-- C9 (strict mode).  Take a document that is otherwise well formed, that is, one
for which the parser with the same settings but `StrictMode = false` builds the
root `root`.  With `StrictMode = true`: if the root's version is empty,
`ParseReader` returns the error `SSML version is required` and `Errors` is that
one message (the version is checked first, whatever the language); otherwise, if
its language is empty, it returns `language is required` with that one message;
and when both are present it returns exactly what the non-strict parser returns,
which is an error only when the nesting depth of the content exceeds
`MaxNestingDepth`. -/
theorem ParseReader_strict_mode (cfg : ValidationConfig) (d : xml.Decoder)
    (r0 : ParseResult) (e0 : Option GoError) (root : Speak)
    (hstrict : cfg.StrictMode = true)
    (hdoc : ParseReader { cfg with StrictMode := false } d = some (r0, e0))
    (hroot : r0.Root = some root) :
    (root.Version = "" →
      ∃ r, ParseReader cfg d = some (r, some (.errorString "SSML version is required"))
        ∧ r.Errors = ["SSML version is required in strict mode"])
    ∧ (root.Version ≠ "" → root.Lang = "" →
      ∃ r, ParseReader cfg d = some (r, some (.errorString "language is required"))
        ∧ r.Errors = ["Language is required in strict mode"])
    ∧ (root.Version ≠ "" → root.Lang ≠ "" →
      ParseReader cfg d = some (r0, e0)
        ∧ (e0 = none ↔ (elemDepth root.Content : Int) ≤ cfg.MaxNestingDepth)
        ∧ (e0 ≠ none → e0 = some (nestingError cfg)
            ∧ r0.Errors = [(nestingError cfg).Error])) := by
  obtain ⟨ws, hrun, hval⟩ := ParseReader_root _ d r0 e0 root hdoc hroot
  rw [Machine.run_congr { cfg with StrictMode := false } cfg rfl] at hrun
  have hP : ParseReader cfg d
      = some (validate cfg root { Root := some root, Warnings := ws, Errors := [] }) := by
    rw [ParseReader_eq_run, hrun]
  rw [hP]
  simp only [validate, hstrict, if_true, strictValidation]
  simp only [validate, Bool.false_eq_true, if_false, basicValidation,
    validateNestingDepth_eq, zero_add] at hval
  refine ⟨?_, ?_, ?_⟩
  · intro hv
    simp only [hv, if_true]
    exact ⟨_, rfl, rfl⟩
  · intro hv hl
    simp only [hv, hl, if_true, if_false]
    exact ⟨_, rfl, rfl⟩
  · intro hv hl
    simp only [hv, hl, if_false, validateNestingDepth_eq, zero_add] at hval ⊢
    have hn : nestingError { cfg with StrictMode := false } = nestingError cfg := rfl
    rw [hn] at hval
    by_cases hd : (elemDepth root.Content : Int) > cfg.MaxNestingDepth
    · simp only [if_pos hd] at hval ⊢
      simp only [Prod.mk.injEq] at hval
      obtain ⟨h1, h2⟩ := hval
      subst h1 h2
      refine ⟨rfl, ?_, fun _ => ⟨rfl, rfl⟩⟩
      constructor
      · intro h; cases h
      · intro h; omega
    · simp only [if_neg hd] at hval ⊢
      simp only [Prod.mk.injEq] at hval
      obtain ⟨h1, h2⟩ := hval
      subst h1 h2
      refine ⟨rfl, ?_, fun h => absurd rfl h⟩
      exact ⟨fun _ => by omega, fun _ => rfl⟩

end ssml

namespace ssml

/-- C9 at the input of the test `TestParseStrictMode`: the document
`<speak xml:lang="zh-CN">Hello World</speak>` has no version and is rejected in
strict mode. -/
theorem ParseReader_strict_mode_witness :
    ∃ r,
      ParseReader { StrictMode := true, AllowUnknownElements := false, MaxNestingDepth := 10,
                    MaxDuration := 0 }
          (xml.NewDecoder
            [.ProcInst "xml" "version=\"1.0\" encoding=\"UTF-8\"", .CharData "\n",
             .StartElement ⟨"", "speak"⟩ [⟨⟨"xml", "lang"⟩, "zh-CN"⟩],
             .CharData "\n    Hello World\n", .EndElement ⟨"", "speak"⟩] none)
        = some (r, some (.errorString "SSML version is required"))
      ∧ r.Errors = ["SSML version is required in strict mode"] :=
  (ParseReader_strict_mode
    { StrictMode := true, AllowUnknownElements := false, MaxNestingDepth := 10, MaxDuration := 0 }
    (xml.NewDecoder
      [.ProcInst "xml" "version=\"1.0\" encoding=\"UTF-8\"", .CharData "\n",
       .StartElement ⟨"", "speak"⟩ [⟨⟨"xml", "lang"⟩, "zh-CN"⟩],
       .CharData "\n    Hello World\n", .EndElement ⟨"", "speak"⟩] none)
    { Root := some { XMLName := ⟨"", "speak"⟩, Version := "", Lang := "zh-CN",
                     Content := [Node.Text "Hello World"] },
      Warnings := ["SSML version not specified"], Errors := [] }
    none
    { XMLName := ⟨"", "speak"⟩, Version := "", Lang := "zh-CN",
      Content := [Node.Text "Hello World"] }
    rfl rfl rfl).1 rfl

end ssml

namespace ssml

theorem elementKind_container_tag (cfg : ValidationConfig) (name : xml.Name)
    (attr : List xml.Attr) (elem : Open) (h : elementKind cfg name attr = .container elem) :
    elem.tag = name.Local := by
  unfold elementKind at h
  split at h
  all_goals first
    | (rename_i heq; cases h; rw [heq]; rfl)
    | (split at h <;> cases h)
    | cases h

theorem elementKind_breakElem_tag (cfg : ValidationConfig) (name : xml.Name)
    (attr : List xml.Attr) (b : Break) (h : elementKind cfg name attr = .breakElem b) :
    name.Local = "break" := by
  unfold elementKind at h
  split at h
  all_goals first
    | (rename_i heq; cases h; exact heq)
    | (split at h <;> cases h)
    | cases h

theorem elementKind_skip_tag (cfg : ValidationConfig) (name : xml.Name)
    (attr : List xml.Attr) (tagName : String) (h : elementKind cfg name attr = .skip tagName) :
    tagName = name.Local := by
  unfold elementKind at h
  split at h
  all_goals first
    | cases h
    | (split at h <;> cases h; rfl)

theorem nestStep_end_self (name : xml.Name) (stk : List xml.Name) :
    xml.nestStep (name :: stk) (.EndElement name) = .ok stk := by
  simp [xml.nestStep]

/-- The content loop builds from a well-formed sequence of children exactly the
nodes that `Content` assigns to it, and is then ready for the next token. -/
theorem Machine.feed_content (cfg : ValidationConfig) (toks : List xml.Token)
    (nodes : List Node) (h : Content cfg toks nodes) :
    ∀ (stk : List xml.Name) (res : ParseResult) (root : Option Speak) (sp : Speak)
      (frames : List (Open × List Node)) (content : List Node),
      Machine.feed cfg toks stk
          { result := res, root := root, speak := some sp, frames := frames,
            content := content, skip := none }
        = some (stk,
          { result := res, root := root, speak := some sp, frames := frames,
            content := content ++ nodes, skip := none }) := by
  induction h with
  | nil => intro stk res root sp frames content; simp [Machine.feed]
  | text data rest nodes _ ih =>
    intro stk res root sp frames content
    rw [Machine.feed_cons]
    simp only [xml.nestStep, Machine.step]
    by_cases hd : strings.TrimSpace data ≠ ""
    · simp only [if_pos hd, ih, List.append_assoc]
    · simp only [if_neg hd, ih, List.nil_append]
  | comment data rest nodes _ ih =>
    intro stk res root sp frames content
    rw [Machine.feed_cons]
    simp only [xml.nestStep, Machine.step, ih]
  | procInst target inst rest nodes _ ih =>
    intro stk res root sp frames content
    rw [Machine.feed_cons]
    simp only [xml.nestStep, Machine.step, ih]
  | directive data rest nodes _ ih =>
    intro stk res root sp frames content
    rw [Machine.feed_cons]
    simp only [xml.nestStep, Machine.step, ih]
  | container name attr elem body inner rest nodes hk _ _ ihb ihr =>
    intro stk res root sp frames content
    rw [Machine.feed_cons]
    simp only [xml.nestStep, Machine.step, hk]
    rw [Machine.feed_append, ihb]
    simp only [Option.bind]
    rw [Machine.feed_cons, nestStep_end_self]
    simp only [Machine.step, Machine.parentTag, elementKind_container_tag cfg name attr elem hk,
      if_true, Machine.leave, List.nil_append]
    rw [ihr]
    simp
  | breakElem name attr b mid rest nodes hk hbal hmid _ ihr =>
    intro stk res root sp frames content
    rw [Machine.feed_cons]
    simp only [xml.nestStep, Machine.step, hk]
    rw [Machine.feed_append,
      Machine.feed_skip cfg mid (name :: stk) (name :: stk) _ sp (.breakElem b) rfl rfl hmid
        (hbal _)]
    simp only [Option.bind]
    rw [Machine.feed_cons, nestStep_end_self]
    simp only [Machine.step, Skip.tag, elementKind_breakElem_tag cfg name attr b hk, if_true,
      Machine.endSkip]
    rw [ihr]
    simp
  | skipped name attr tagName mid rest nodes hk hbal hmid _ ihr =>
    intro stk res root sp frames content
    rw [Machine.feed_cons]
    simp only [xml.nestStep, Machine.step, hk]
    rw [Machine.feed_append,
      Machine.feed_skip cfg mid (name :: stk) (name :: stk) _ sp (.unknown tagName) rfl rfl hmid
        (hbal _)]
    simp only [Option.bind]
    rw [Machine.feed_cons, nestStep_end_self]
    simp only [Machine.step, Skip.tag, elementKind_skip_tag cfg name attr tagName hk, if_true,
      Machine.endSkip]
    rw [ihr]

end ssml

namespace ssml

theorem Machine.feed_misc_top (cfg : ValidationConfig) (pro : List xml.Token) :
    ∀ (stk : List xml.Name) (m : Machine), m.speak = none →
      (∀ t ∈ pro, t.isMisc = true) → Machine.feed cfg pro stk m = some (stk, m) := by
  induction pro with
  | nil => intro stk m _ _; rfl
  | cons t rest ih =>
    intro stk m hsp hpro
    have h1 := hpro t (List.mem_cons_self _ _)
    have h2 := ih stk m hsp (fun t h => hpro t (List.mem_cons_of_mem _ h))
    rw [Machine.feed_cons]
    cases t <;> simp_all [xml.Token.isMisc, xml.nestStep, Machine.step]

/-- What the token loop makes of a well-formed document whose only element at the
top level is a speak element with well-formed content. -/
theorem Machine.run_document (cfg : ValidationConfig) (pro body epi : List xml.Token)
    (name : xml.Name) (attr : List xml.Attr) (nodes : List Node)
    (hname : name.Local = "speak")
    (hpro : ∀ t ∈ pro, t.isMisc = true) (hepi : ∀ t ∈ epi, t.isMisc = true)
    (hbody : Content cfg body nodes) :
    Machine.run cfg none (pro ++ .StartElement name attr :: (body ++ .EndElement name :: epi))
        [] Machine.init
      = .done { Root := none, Warnings := [], Errors := [] }
          (some { attr.foldl parseSpeak.attr
                    { XMLName := name, Version := "", Lang := "", Content := [] } with
                  Content := nodes }) := by
  rw [Machine.run_append cfg none pro _ [] [] _ _
    (Machine.feed_misc_top cfg pro [] Machine.init rfl hpro)]
  rw [Machine.run_cons]
  simp only [xml.nestStep, Machine.step, Machine.init, hname, if_true]
  rw [Machine.run_append cfg none body _ _ _ _ _
    (Machine.feed_content cfg body nodes hbody _ _ _ _ _ _)]
  rw [Machine.run_cons, nestStep_end_self]
  simp only [Machine.step, Machine.parentTag, hname, if_true, Machine.leave, List.nil_append]
  have he := Machine.run_append cfg none epi [] [] []
    { result := { Root := none, Warnings := [], Errors := [] },
      root := some { attr.foldl parseSpeak.attr
                { XMLName := name, Version := "", Lang := "", Content := [] } with
              Content := nodes },
      speak := none, frames := [], content := [], skip := none } _
    (Machine.feed_misc_top cfg epi [] _ rfl hepi)
  rw [List.append_nil] at he
  rw [he]
  rfl

/-- C10, as amended (non-strict mode).  With `StrictMode = false`, take a
well-formed document whose root is speak: a speak element between tokens that
are no tags, whose content is a well-formed sequence of children that the parser
accepts (`Content`: recognized elements, and unrecognized ones only when
`AllowUnknownElements` lets them be skipped), and whose parsed content `nodes`
nests no deeper than `MaxNestingDepth`.  Then `ParseReader` succeeds: it returns
no error, the root with the parsed content, an empty `Errors`, and `Warnings` is
exactly `SSML version not specified` if the version is empty followed by
`Language not specified` if the language is empty. -/
theorem ParseReader_non_strict (cfg : ValidationConfig) (pro body epi : List xml.Token)
    (name : xml.Name) (attr : List xml.Attr) (nodes : List Node)
    (hstrict : cfg.StrictMode = false)
    (hname : name.Local = "speak")
    (hpro : ∀ t ∈ pro, t.isMisc = true) (hepi : ∀ t ∈ epi, t.isMisc = true)
    (hbody : Content cfg body nodes)
    (hdepth : (elemDepth nodes : Int) ≤ cfg.MaxNestingDepth) :
    ParseReader cfg
        (xml.NewDecoder (pro ++ .StartElement name attr :: (body ++ .EndElement name :: epi))
          none)
      = some
        ({ Root := some { attr.foldl parseSpeak.attr
                            { XMLName := name, Version := "", Lang := "", Content := [] } with
                          Content := nodes },
           Warnings :=
             (if (attr.foldl parseSpeak.attr
                    { XMLName := name, Version := "", Lang := "", Content := [] }).Version = ""
               then ["SSML version not specified"] else [])
             ++ (if (attr.foldl parseSpeak.attr
                    { XMLName := name, Version := "", Lang := "", Content := [] }).Lang = ""
               then ["Language not specified"] else []),
           Errors := [] },
          none) := by
  rw [ParseReader_eq_run]
  simp only [xml.NewDecoder]
  rw [Machine.run_document cfg pro body epi name attr nodes hname hpro hepi hbody]
  simp only [validate, hstrict, Bool.false_eq_true, if_false, basicValidation,
    validateNestingDepth_eq, zero_add]
  rw [if_neg (by omega)]
  congr 2
  split <;> split <;> rfl

end ssml

namespace ssml

/-- C10 at the document of the test `TestParseBasicSSML`:
`<speak version="1.0" xml:lang="zh-CN"> Hello World </speak>` after the XML
declaration is accepted with one text node and no warning. -/
theorem ParseReader_non_strict_witness :
    ParseReader DefaultValidationConfig
        (xml.NewDecoder
          ([.ProcInst "xml" "version=\"1.0\" encoding=\"UTF-8\"", .CharData "\n"]
            ++ .StartElement ⟨"", "speak"⟩ [⟨⟨"", "version"⟩, "1.0"⟩, ⟨⟨"xml", "lang"⟩, "zh-CN"⟩]
              :: ([.CharData "\n    Hello World\n"] ++ .EndElement ⟨"", "speak"⟩ :: [])) none)
      = some
        ({ Root := some { XMLName := ⟨"", "speak"⟩, Version := "1.0", Lang := "zh-CN",
                          Content := [Node.Text "Hello World"] },
           Warnings := [], Errors := [] },
          none) :=
  ParseReader_non_strict DefaultValidationConfig
    [.ProcInst "xml" "version=\"1.0\" encoding=\"UTF-8\"", .CharData "\n"]
    [.CharData "\n    Hello World\n"] []
    ⟨"", "speak"⟩ [⟨⟨"", "version"⟩, "1.0"⟩, ⟨⟨"xml", "lang"⟩, "zh-CN"⟩]
    [Node.Text "Hello World"] rfl rfl (by decide) (by simp)
    (Content.text "\n    Hello World\n" [] [] Content.nil) (by decide)

/-- C10, counterexample.  With `StrictMode = false` and `AllowUnknownElements =
false` (the second configuration of the test `TestParseUnknownElements`), the
well-formed document
`<speak version="1.0" xml:lang="zh-CN"><unknown>content</unknown>Hello World</speak>`,
whose root is speak and whose nesting is within `MaxNestingDepth = 10`, is
rejected: `ParseReader` returns an error and `Errors` is not empty. -/
theorem ParseReader_non_strict_counterexample :
    ParseReader { StrictMode := false, AllowUnknownElements := false, MaxNestingDepth := 10,
                  MaxDuration := 0 }
        (xml.NewDecoder
          [.StartElement ⟨"", "speak"⟩ [⟨⟨"", "version"⟩, "1.0"⟩, ⟨⟨"xml", "lang"⟩, "zh-CN"⟩],
           .StartElement ⟨"", "unknown"⟩ [], .CharData "content",
           .EndElement ⟨"", "unknown"⟩, .CharData "Hello World",
           .EndElement ⟨"", "speak"⟩] none)
      = some ({ Root := none, Warnings := [],
                Errors := ["Error parsing speak element: unknown element: unknown"] },
          some (.errorString "unknown element: unknown")) :=
  rfl

end ssml

namespace ssml

theorem append_data (b t : String) : b ++ t = String.mk (b.data ++ t.data) := by
  apply String.ext; simp

theorem mk_data (l : List Char) : (String.mk l).data = l := rfl

theorem NewSerializer_Pretty (pretty : Bool) : (NewSerializer pretty).Pretty = pretty := rfl

theorem writeIndent_data (pretty : Bool) (b : String) (depth : Nat) :
    (NewSerializer pretty).writeIndent b depth
      = String.mk (b.data ++ indentChars pretty depth) := by
  unfold Serializer.writeIndent NewSerializer indentChars
  cases pretty
  · simp
  · simp only [if_true]
    induction depth generalizing b with
    | zero => simp
    | succ n ih =>
      rw [List.replicate_succ, List.foldl_cons, ih, append_data, mk_data, List.replicate_succ,
        List.flatten_cons, List.append_assoc]

theorem attr_data (s : Serializer) (b name value lit : String)
    (hlit : lit.data = ' ' :: (name.data ++ "=\"".data)) :
    (if value ≠ "" then b ++ (lit ++ s.escapeString value ++ "\"") else b)
      = String.mk (b.data ++ renderAttr (name, value)) := by
  unfold renderAttr Serializer.escapeString
  by_cases h : value = ""
  · simp [h]
  · simp only [ne_eq, h, not_false_eq_true, if_true, append_data, mk_data,
      hlit, List.cons_append, List.append_assoc]

theorem newline_data (pretty : Bool) (b : String) :
    (if (NewSerializer pretty).Pretty = true then b ++ "\n" else b)
      = String.mk (b.data ++ newlineChars pretty) := by
  cases pretty
  · simp [NewSerializer, newlineChars]
  · simp [NewSerializer, newlineChars, append_data]

end ssml
namespace ssml

theorem serializeAudio_eq (pretty : Bool) (l : List Char) (a : Audio) (c : List Node)
    (depth : Nat) (k : String → Except GoError String) (inner : List Char)
    (hk : ∀ l1, k (String.mk l1) = .ok (String.mk (l1 ++ inner))) :
    (NewSerializer pretty).serializeAudio (String.mk l) a c depth k
      = .ok (String.mk (l ++ elementChars pretty depth "audio"
          [("src", a.Src)]
          (if c.length = 0 then none else some inner))) := by
  simp only [Serializer.serializeAudio, writeIndent_data, elementChars,
    attr_data _ _ "src" _ " src=\"" rfl, newline_data, hk]
  by_cases hc : c.length = 0 <;>
  simp only [hc, if_true, if_false, append_data, mk_data, List.flatMap_cons, List.flatMap_nil,
    List.append_assoc, List.append_nil, List.cons_append, List.singleton_append, List.nil_append]

theorem serializeEmphasis_eq (pretty : Bool) (l : List Char) (a : Emphasis) (c : List Node)
    (depth : Nat) (k : String → Except GoError String) (inner : List Char)
    (hk : ∀ l1, k (String.mk l1) = .ok (String.mk (l1 ++ inner))) :
    (NewSerializer pretty).serializeEmphasis (String.mk l) a c depth k
      = .ok (String.mk (l ++ elementChars pretty depth "emphasis"
          [("level", a.Level)]
          (if c.length = 0 then none else some inner))) := by
  simp only [Serializer.serializeEmphasis, writeIndent_data, elementChars,
    attr_data _ _ "level" _ " level=\"" rfl, newline_data, hk]
  by_cases hc : c.length = 0 <;>
  simp only [hc, if_true, if_false, append_data, mk_data, List.flatMap_cons, List.flatMap_nil,
    List.append_assoc, List.append_nil, List.cons_append, List.singleton_append, List.nil_append]

theorem serializePhoneme_eq (pretty : Bool) (l : List Char) (a : Phoneme) (c : List Node)
    (depth : Nat) (k : String → Except GoError String) (inner : List Char)
    (hk : ∀ l1, k (String.mk l1) = .ok (String.mk (l1 ++ inner))) :
    (NewSerializer pretty).serializePhoneme (String.mk l) a c depth k
      = .ok (String.mk (l ++ elementChars pretty depth "phoneme"
          [("alphabet", a.Alphabet), ("ph", a.Ph)]
          (if c.length = 0 then none else some inner))) := by
  simp only [Serializer.serializePhoneme, writeIndent_data, elementChars,
    attr_data _ _ "alphabet" _ " alphabet=\"" rfl, attr_data _ _ "ph" _ " ph=\"" rfl, newline_data, hk]
  by_cases hc : c.length = 0 <;>
  simp only [hc, if_true, if_false, append_data, mk_data, List.flatMap_cons, List.flatMap_nil,
    List.append_assoc, List.append_nil, List.cons_append, List.singleton_append, List.nil_append]

theorem serializeProsody_eq (pretty : Bool) (l : List Char) (a : Prosody) (c : List Node)
    (depth : Nat) (k : String → Except GoError String) (inner : List Char)
    (hk : ∀ l1, k (String.mk l1) = .ok (String.mk (l1 ++ inner))) :
    (NewSerializer pretty).serializeProsody (String.mk l) a c depth k
      = .ok (String.mk (l ++ elementChars pretty depth "prosody"
          [("rate", a.Rate), ("pitch", a.Pitch), ("range", a.Range), ("volume", a.Volume)]
          (if c.length = 0 then none else some inner))) := by
  simp only [Serializer.serializeProsody, writeIndent_data, elementChars,
    attr_data _ _ "rate" _ " rate=\"" rfl, attr_data _ _ "pitch" _ " pitch=\"" rfl, attr_data _ _ "range" _ " range=\"" rfl, attr_data _ _ "volume" _ " volume=\"" rfl, newline_data, hk]
  by_cases hc : c.length = 0 <;>
  simp only [hc, if_true, if_false, append_data, mk_data, List.flatMap_cons, List.flatMap_nil,
    List.append_assoc, List.append_nil, List.cons_append, List.singleton_append, List.nil_append]

theorem serializeSub_eq (pretty : Bool) (l : List Char) (a : Sub) (c : List Node)
    (depth : Nat) (k : String → Except GoError String) (inner : List Char)
    (hk : ∀ l1, k (String.mk l1) = .ok (String.mk (l1 ++ inner))) :
    (NewSerializer pretty).serializeSub (String.mk l) a c depth k
      = .ok (String.mk (l ++ elementChars pretty depth "sub"
          [("alias", a.Alias)]
          (if c.length = 0 then none else some inner))) := by
  simp only [Serializer.serializeSub, writeIndent_data, elementChars,
    attr_data _ _ "alias" _ " alias=\"" rfl, newline_data, hk]
  by_cases hc : c.length = 0 <;>
  simp only [hc, if_true, if_false, append_data, mk_data, List.flatMap_cons, List.flatMap_nil,
    List.append_assoc, List.append_nil, List.cons_append, List.singleton_append, List.nil_append]

theorem serializeVoice_eq (pretty : Bool) (l : List Char) (a : Voice) (c : List Node)
    (depth : Nat) (k : String → Except GoError String) (inner : List Char)
    (hk : ∀ l1, k (String.mk l1) = .ok (String.mk (l1 ++ inner))) :
    (NewSerializer pretty).serializeVoice (String.mk l) a c depth k
      = .ok (String.mk (l ++ elementChars pretty depth "voice"
          [("gender", a.Gender), ("age", a.Age), ("variant", a.Variant), ("name", a.Name), ("xml:lang", a.Languages)]
          (if c.length = 0 then none else some inner))) := by
  simp only [Serializer.serializeVoice, writeIndent_data, elementChars,
    attr_data _ _ "gender" _ " gender=\"" rfl, attr_data _ _ "age" _ " age=\"" rfl, attr_data _ _ "variant" _ " variant=\"" rfl, attr_data _ _ "name" _ " name=\"" rfl, attr_data _ _ "xml:lang" _ " xml:lang=\"" rfl, newline_data, hk]
  by_cases hc : c.length = 0 <;>
  simp only [hc, if_true, if_false, append_data, mk_data, List.flatMap_cons, List.flatMap_nil,
    List.append_assoc, List.append_nil, List.cons_append, List.singleton_append, List.nil_append]

theorem serializeW_eq (pretty : Bool) (l : List Char) (a : W) (c : List Node)
    (depth : Nat) (k : String → Except GoError String) (inner : List Char)
    (hk : ∀ l1, k (String.mk l1) = .ok (String.mk (l1 ++ inner))) :
    (NewSerializer pretty).serializeW (String.mk l) a c depth k
      = .ok (String.mk (l ++ elementChars pretty depth "w"
          [("role", a.Role)]
          (if c.length = 0 then none else some inner))) := by
  simp only [Serializer.serializeW, writeIndent_data, elementChars,
    attr_data _ _ "role" _ " role=\"" rfl, newline_data, hk]
  by_cases hc : c.length = 0 <;>
  simp only [hc, if_true, if_false, append_data, mk_data, List.flatMap_cons, List.flatMap_nil,
    List.append_assoc, List.append_nil, List.cons_append, List.singleton_append, List.nil_append]

theorem serializeParagraph_eq (pretty : Bool) (l : List Char)
    (depth : Nat) (k : String → Except GoError String) (inner : List Char)
    (hk : ∀ l1, k (String.mk l1) = .ok (String.mk (l1 ++ inner))) :
    (NewSerializer pretty).serializeParagraph (String.mk l) depth k
      = .ok (String.mk (l ++ elementChars pretty depth "p" [] (some inner))) := by
  simp only [Serializer.serializeParagraph, writeIndent_data, elementChars, newline_data, hk]
  simp only [append_data, mk_data, List.flatMap_cons, List.flatMap_nil,
    List.append_assoc, List.append_nil, List.cons_append, List.singleton_append, List.nil_append]

theorem serializeSentence_eq (pretty : Bool) (l : List Char)
    (depth : Nat) (k : String → Except GoError String) (inner : List Char)
    (hk : ∀ l1, k (String.mk l1) = .ok (String.mk (l1 ++ inner))) :
    (NewSerializer pretty).serializeSentence (String.mk l) depth k
      = .ok (String.mk (l ++ elementChars pretty depth "s" [] (some inner))) := by
  simp only [Serializer.serializeSentence, writeIndent_data, elementChars, newline_data, hk]
  simp only [append_data, mk_data, List.flatMap_cons, List.flatMap_nil,
    List.append_assoc, List.append_nil, List.cons_append, List.singleton_append, List.nil_append]

theorem serializeBreak_eq (pretty : Bool) (l : List Char) (a : Break) (depth : Nat) :
    (NewSerializer pretty).serializeBreak (String.mk l) a depth
      = .ok (String.mk (l ++ elementChars pretty depth "break"
          [("time", a.Time), ("strength", a.Strength)] none)) := by
  simp only [Serializer.serializeBreak, writeIndent_data, elementChars,
    attr_data _ _ "time" _ " time=\"" rfl, attr_data _ _ "strength" _ " strength=\"" rfl,
    newline_data]
  simp only [append_data, mk_data, List.flatMap_cons, List.flatMap_nil,
    List.append_assoc, List.append_nil, List.cons_append, List.singleton_append, List.nil_append]

theorem serializeSpeak_eq (pretty : Bool) (l : List Char) (speak : Speak)
    (inner : List Char)
    (hk : ∀ l1, (NewSerializer pretty).serializeContent (String.mk l1) speak.Content (0 + 1)
      = .ok (String.mk (l1 ++ inner))) :
    (NewSerializer pretty).serializeSpeak (String.mk l) speak 0
      = .ok (String.mk (l ++ elementChars pretty 0 "speak"
          [("version", speak.Version), ("xml:lang", speak.Lang)]
          (if speak.Content.length = 0 then none else some inner))) := by
  simp only [Serializer.serializeSpeak, writeIndent_data, elementChars,
    attr_data _ _ "version" _ " version=\"" rfl, attr_data _ _ "xml:lang" _ " xml:lang=\"" rfl,
    newline_data, hk]
  by_cases hc : speak.Content.length = 0 <;>
  simp only [hc, if_true, if_false, append_data, mk_data, List.flatMap_cons, List.flatMap_nil,
    List.append_assoc, List.append_nil, List.cons_append, List.singleton_append, List.nil_append]

end ssml
namespace ssml

theorem render_append (a b : List Piece) : render (a ++ b) = render a ++ render b := by
  simp [render]

theorem render_cons (p : Piece) (ps : List Piece) : render (p :: ps) = p.render ++ render ps := by
  simp [render]

theorem render_nil : render [] = [] := rfl

theorem escape_indentChars (pretty : Bool) (depth : Nat) :
    (indentChars pretty depth).flatMap html.escapeChar = indentChars pretty depth := by
  unfold indentChars
  cases pretty
  · rfl
  · simp only [if_true]
    induction depth with
    | zero => rfl
    | succ n ih =>
      rw [List.replicate_succ, List.flatten_cons, List.flatMap_append, ih]
      rfl

theorem escape_newlineChars (pretty : Bool) :
    (newlineChars pretty).flatMap html.escapeChar = newlineChars pretty := by
  cases pretty <;> rfl

theorem markupList_isEmpty (c : List Node) : (markupList c).isEmpty = decide (c.length = 0) := by
  cases c <;> simp [markupList]

theorem render_pieces_element (pretty : Bool) (depth : Nat) (tag : String)
    (attrs : List (String × String)) (selfClosing : Bool) (content : List Markup) :
    render ((Markup.element tag attrs selfClosing content).pieces pretty depth)
      = elementChars pretty depth tag attrs
          (if (content.isEmpty && selfClosing) = true then none
            else some (render (piecesList pretty (depth + 1) content))) := by
  unfold Markup.pieces elementChars
  by_cases h : (content.isEmpty && selfClosing) = true
  · simp only [h, if_true, render_cons, render_nil, Piece.render, escape_indentChars,
      escape_newlineChars, List.append_nil, List.append_assoc, List.cons_append]
  · simp only [h, if_false, render_cons, render_nil, render_append, Piece.render,
      escape_indentChars, escape_newlineChars, List.append_nil, List.append_assoc,
      List.cons_append, Bool.false_eq_true, List.nil_append]

mutual
theorem serializeItem_eq (pretty : Bool) :
    ∀ (item : Node) (l : List Char) (depth : Nat), item.markup.known = true →
      (NewSerializer pretty).serializeItem (String.mk l) item depth
        = .ok (String.mk (l ++ render (item.markup.pieces pretty depth)))
  | .Text c, l, depth, _ => by
    simp only [Serializer.serializeItem, writeIndent_data, newline_data,
      Serializer.escapeString, html.EscapeString]
    simp only [append_data, mk_data, Node.markup,
      Markup.pieces, render_cons, render_nil, Piece.render, List.flatMap_append,
      escape_indentChars, escape_newlineChars, List.append_assoc, List.append_nil]
  | .Audio a c, l, depth, h => by
    simp only [Node.markup, Markup.known] at h
    rw [Serializer.serializeItem, serializeAudio_eq pretty l a c depth _ _
      (fun l1 => serializeContent_eq pretty c l1 (depth + 1) h)]
    simp only [Node.markup, render_pieces_element, markupList_isEmpty, Bool.and_true,
      decide_eq_true_eq]
  | .Break b, l, depth, _ => by
    rw [Serializer.serializeItem, serializeBreak_eq]
    simp only [Node.markup, render_pieces_element, List.isEmpty, Bool.and_true, if_true]
  | .Emphasis a c, l, depth, h => by
    simp only [Node.markup, Markup.known] at h
    rw [Serializer.serializeItem, serializeEmphasis_eq pretty l a c depth _ _
      (fun l1 => serializeContent_eq pretty c l1 (depth + 1) h)]
    simp only [Node.markup, render_pieces_element, markupList_isEmpty, Bool.and_true,
      decide_eq_true_eq]
  | .Paragraph a c, l, depth, h => by
    simp only [Node.markup, Markup.known] at h
    rw [Serializer.serializeItem, serializeParagraph_eq pretty l depth _ _
      (fun l1 => serializeContent_eq pretty c l1 (depth + 1) h)]
    simp only [Node.markup, render_pieces_element, Bool.and_false, Bool.false_eq_true, if_false]
  | .Phoneme a c, l, depth, h => by
    simp only [Node.markup, Markup.known] at h
    rw [Serializer.serializeItem, serializePhoneme_eq pretty l a c depth _ _
      (fun l1 => serializeContent_eq pretty c l1 (depth + 1) h)]
    simp only [Node.markup, render_pieces_element, markupList_isEmpty, Bool.and_true,
      decide_eq_true_eq]
  | .Prosody a c, l, depth, h => by
    simp only [Node.markup, Markup.known] at h
    rw [Serializer.serializeItem, serializeProsody_eq pretty l a c depth _ _
      (fun l1 => serializeContent_eq pretty c l1 (depth + 1) h)]
    simp only [Node.markup, render_pieces_element, markupList_isEmpty, Bool.and_true,
      decide_eq_true_eq]
  | .Sentence a c, l, depth, h => by
    simp only [Node.markup, Markup.known] at h
    rw [Serializer.serializeItem, serializeSentence_eq pretty l depth _ _
      (fun l1 => serializeContent_eq pretty c l1 (depth + 1) h)]
    simp only [Node.markup, render_pieces_element, Bool.and_false, Bool.false_eq_true, if_false]
  | .Sub a c, l, depth, h => by
    simp only [Node.markup, Markup.known] at h
    rw [Serializer.serializeItem, serializeSub_eq pretty l a c depth _ _
      (fun l1 => serializeContent_eq pretty c l1 (depth + 1) h)]
    simp only [Node.markup, render_pieces_element, markupList_isEmpty, Bool.and_true,
      decide_eq_true_eq]
  | .Voice a c, l, depth, h => by
    simp only [Node.markup, Markup.known] at h
    rw [Serializer.serializeItem, serializeVoice_eq pretty l a c depth _ _
      (fun l1 => serializeContent_eq pretty c l1 (depth + 1) h)]
    simp only [Node.markup, render_pieces_element, markupList_isEmpty, Bool.and_true,
      decide_eq_true_eq]
  | .W a c, l, depth, h => by
    simp only [Node.markup, Markup.known] at h
    rw [Serializer.serializeItem, serializeW_eq pretty l a c depth _ _
      (fun l1 => serializeContent_eq pretty c l1 (depth + 1) h)]
    simp only [Node.markup, render_pieces_element, markupList_isEmpty, Bool.and_true,
      decide_eq_true_eq]
  | .Other _, _, _, h => by simp [Node.markup, Markup.known] at h
theorem serializeContent_eq (pretty : Bool) :
    ∀ (c : List Node) (l : List Char) (depth : Nat), knownList (markupList c) = true →
      (NewSerializer pretty).serializeContent (String.mk l) c depth
        = .ok (String.mk (l ++ render (piecesList pretty depth (markupList c))))
  | [], l, depth, _ => by
    simp [Serializer.serializeContent, markupList, piecesList, render_nil]
  | item :: rest, l, depth, h => by
    simp only [markupList, knownList, Bool.and_eq_true] at h
    simp only [Serializer.serializeContent, serializeItem_eq pretty item l depth h.1,
      serializeContent_eq pretty rest _ depth h.2, markupList, piecesList, render_append,
      List.append_assoc]
end

end ssml

namespace xml

theorem takeWhile_append_stop {α : Type} (p : α → Bool) (s : List α) (c : α) (rest : List α)
    (hs : ∀ x ∈ s, p x = true) (hc : p c = false) :
    (s ++ c :: rest).takeWhile p = s := by
  induction s with
  | nil => simp [List.takeWhile, hc]
  | cons a s ih =>
    have ha := hs a (List.mem_cons_self _ _)
    simp only [List.cons_append, List.takeWhile_cons, ha, if_true]
    rw [ih (fun x hx => hs x (List.mem_cons_of_mem _ hx))]

theorem dropWhile_append_stop {α : Type} (p : α → Bool) (s : List α) (c : α) (rest : List α)
    (hs : ∀ x ∈ s, p x = true) (hc : p c = false) :
    (s ++ c :: rest).dropWhile p = c :: rest := by
  induction s with
  | nil => simp [List.dropWhile, hc]
  | cons a s ih =>
    have ha := hs a (List.mem_cons_self _ _)
    simp only [List.cons_append, List.dropWhile_cons, ha, if_true]
    rw [ih (fun x hx => hs x (List.mem_cons_of_mem _ hx))]

theorem isNameByte_lt (c : Char) (h : isNameByte c = true) : c.toNat < 128 := by
  unfold isNameByte at h
  simp only [Bool.or_eq_true, Bool.and_eq_true, decide_eq_true_eq] at h
  rcases h with (((((h | h) | h) | h) | h) | h) | h
  · omega
  · omega
  · omega
  · subst h; decide
  · subst h; decide
  · subst h; decide
  · subst h; decide

theorem goodName_ne_nil (s : List Char) (h : goodName s = true) : s ≠ [] := by
  intro hs
  subst hs
  simp [goodName, isName] at h

theorem name_good (expected : String) (s : List Char) (c : Char) (rest : List Char)
    (hs : goodName s = true) (hc : isNameChar c = false) :
    name expected (s ++ c :: rest) = .ok (s, c :: rest) := by
  have hne := goodName_ne_nil s hs
  simp only [goodName, Bool.and_eq_true, List.all_eq_true, decide_eq_true_eq] at hs
  obtain ⟨⟨hall, hname⟩, _⟩ := hs
  have hchar : ∀ x ∈ s, isNameChar x = true := by
    intro x hx
    simp [isNameChar, hall x hx]
  unfold name
  simp only [takeWhile_append_stop isNameChar s c rest hchar hc,
    dropWhile_append_stop isNameChar s c rest hchar hc]
  rw [if_neg (by simp), if_neg hne, if_neg (by simp)]
  have hany : s.any (fun c => decide (128 ≤ c.toNat)) = false := by
    rw [List.any_eq_false]
    intro x hx
    have := isNameByte_lt x (hall x hx)
    simp only [decide_eq_true_eq]
    omega
  rw [hany, hname]
  rfl

theorem nsname_good (expected : String) (s : List Char) (c : Char) (rest : List Char)
    (hs : goodName s = true) (hc : isNameChar c = false) :
    nsname expected (s ++ c :: rest) = .ok (splitName s, c :: rest) := by
  unfold nsname
  rw [name_good expected s c rest hs hc]
  simp only [goodName, Bool.and_eq_true, decide_eq_true_eq] at hs
  simp only
  rw [if_neg (by omega)]

end xml
namespace xml

theorem consText_ok (c : Char) (data rest : List Char) :
    consText c (.ok (data, rest)) = .ok (c :: data, rest) := rfl

theorem text_entity (q : Option Char) (hq : q = none ∨ q = some (Char.ofNat 34))
    (b0 b1 c : Char) (rest : List Char)
    (hc : c = '&' ∨ c = Char.ofNat 39 ∨ c = '<' ∨ c = '>' ∨ c = Char.ofNat 34) :
    text q b0 b1 none (html.escapeChar c ++ rest)
      = consText c (text q (Char.ofNat 0) (Char.ofNat 0) none rest) := by
  rcases hq with hq | hq <;> subst hq <;>
  rcases hc with hc | hc | hc | hc | hc <;> subst hc <;>
  simp [html.escapeChar, text, entityText, entity, charRef, digitValue]

end xml
namespace xml

theorem text_plain (q : Option Char) (hq : q = none ∨ q = some (Char.ofNat 34))
    (b0 b1 c : Char) (rest : List Char)
    (hc : ¬ (c = '&' ∨ c = Char.ofNat 39 ∨ c = '<' ∨ c = '>' ∨ c = Char.ofNat 34)) :
    text q b0 b1 none (c :: rest)
      = if c = '\r' then consText '\n' (text q b1 c none rest)
        else if b1 = '\r' ∧ c = '\n' then text q b1 c none rest
        else consText c (text q b1 c none rest) := by
  simp only [not_or] at hc
  obtain ⟨h1, h2, h3, h4, h5⟩ := hc
  have hq1 : q ≠ some c := by
    rcases hq with hq | hq <;> subst hq
    · simp
    · intro h; exact h5 (Option.some.inj h).symm
  rw [text]
  rw [if_neg (by simp [h4]), if_neg h3, if_neg hq1, if_neg h1]

theorem escapeChar_plain (c : Char)
    (hc : ¬ (c = '&' ∨ c = Char.ofNat 39 ∨ c = '<' ∨ c = '>' ∨ c = Char.ofNat 34)) :
    html.escapeChar c = [c] := by
  simp only [not_or] at hc
  obtain ⟨h1, h2, h3, h4, h5⟩ := hc
  simp [html.escapeChar, h1, h2, h3, h4, h5]

theorem text_escape (q : Option Char) (hq : q = none ∨ q = some (Char.ofNat 34))
    (tail : List Char) (R : List Char × List Char)
    (hR : ∀ b0 b1, text q b0 b1 none tail = .ok R) :
    ∀ (x : List Char) (b0 b1 : Char),
      text q b0 b1 none (x.flatMap html.escapeChar ++ tail)
        = .ok (normalize (b1 == '\r') x ++ R.1, R.2) := by
  intro x
  induction x with
  | nil => intro b0 b1; simp [normalize, hR]
  | cons c x ih =>
    intro b0 b1
    rw [List.flatMap_cons, List.append_assoc]
    by_cases hc : c = '&' ∨ c = Char.ofNat 39 ∨ c = '<' ∨ c = '>' ∨ c = Char.ofNat 34
    · rw [text_entity q hq b0 b1 c _ hc, ih, consText_ok]
      have h1 : c ≠ '\r' := by
        rcases hc with hc | hc | hc | hc | hc <;> subst hc <;> decide
      have h2 : c ≠ '\n' := by
        rcases hc with hc | hc | hc | hc | hc <;> subst hc <;> decide
      simp [normalize, h1, h2]
    · rw [escapeChar_plain c hc, List.singleton_append, text_plain q hq b0 b1 c _ hc]
      by_cases hr : c = '\r'
      · subst hr
        rw [if_pos rfl, ih, consText_ok]
        simp [normalize]
      · rw [if_neg hr]
        by_cases hn : b1 = '\r' ∧ c = '\n'
        · rw [if_pos hn, ih]
          obtain ⟨hn1, hn2⟩ := hn
          subst hn1 hn2
          simp [normalize]
        · rw [if_neg hn, ih, consText_ok]
          have h3 : (c == '\r') = false := by simp [hr]
          rw [h3]
          have h4 : ((b1 == '\r') && decide (c = '\n')) = false := by
            simp only [Bool.and_eq_false_imp, beq_iff_eq, decide_eq_false_iff_not]
            intro h5 h6
            exact hn ⟨h5, h6⟩
          simp [normalize, hr, h4]

end xml
namespace xml

theorem normalize_range (x : List Char) : ∀ (cr : Bool),
    x.all isInCharacterRange = true → (normalize cr x).all isInCharacterRange = true := by
  induction x with
  | nil => intro cr _; rfl
  | cons c x ih =>
    intro cr h
    simp only [List.all_cons, Bool.and_eq_true] at h
    unfold normalize
    split_ifs
    · simp only [List.all_cons, Bool.and_eq_true]
      exact ⟨by decide, ih _ h.2⟩
    · exact ih _ h.2
    · simp only [List.all_cons, Bool.and_eq_true]
      exact ⟨h.1, ih _ h.2⟩

theorem textData_escape (q : Option Char) (hq : q = none ∨ q = some (Char.ofNat 34))
    (tail : List Char) (rest : List Char)
    (hR : ∀ b0 b1, text q b0 b1 none tail = .ok ([], rest))
    (x : List Char) (hx : x.all isInCharacterRange = true) :
    textData q (x.flatMap html.escapeChar ++ tail)
      = .ok (String.mk (normalize false x), rest) := by
  unfold textData
  rw [text_escape q hq tail _ hR]
  have h : (Char.ofNat 0 == '\r') = false := by decide
  simp only [h, List.append_nil]
  rw [if_pos (normalize_range x false hx)]

theorem textData_end (x : List Char) (hx : x.all isInCharacterRange = true) :
    textData none (x.flatMap html.escapeChar) = .ok (String.mk (normalize false x), []) := by
  have h := textData_escape none (Or.inl rfl) [] [] (fun _ _ => rfl) x hx
  rw [List.append_nil] at h
  exact h

theorem textData_tag (x : List Char) (hx : x.all isInCharacterRange = true)
    (rest : List Char) :
    textData none (x.flatMap html.escapeChar ++ '<' :: rest)
      = .ok (String.mk (normalize false x), '<' :: rest) :=
  textData_escape none (Or.inl rfl) _ _ (fun b0 b1 => by simp [text]) x hx

theorem attrval_escape (x : List Char) (hx : x.all isInCharacterRange = true)
    (rest : List Char) :
    attrval (Char.ofNat 34 :: (x.flatMap html.escapeChar ++ Char.ofNat 34 :: rest))
      = .ok (String.mk (normalize false x), rest) := by
  simp only [attrval, true_or, if_true]
  exact textData_escape _ (Or.inr rfl) _ _ (fun b0 b1 => by simp [text]) x hx

end xml
namespace xml

theorem goodName_head (s : List Char) (h : goodName s = true) :
    ∃ c s1, s = c :: s1 ∧ isSpaceByte c = false ∧ c ≠ '/' ∧ c ≠ '>' := by
  cases s with
  | nil => simp [goodName, isName] at h
  | cons c s1 =>
    refine ⟨c, s1, rfl, ?_⟩
    simp only [goodName, isName, Bool.and_eq_true, Bool.or_eq_true, decide_eq_true_eq] at h
    obtain ⟨⟨_, h⟩, _⟩ := h
    rcases h with ((h | h) | h) | h
    · refine ⟨?_, ?_, ?_⟩
      · simp only [isSpaceByte, Bool.or_eq_false_iff, decide_eq_false_iff_not]
        refine ⟨⟨⟨?_, ?_⟩, ?_⟩, ?_⟩ <;> (intro hc; subst hc; revert h; decide)
      · intro hc; subst hc; revert h; decide
      · intro hc; subst hc; revert h; decide
    · refine ⟨?_, ?_, ?_⟩
      · simp only [isSpaceByte, Bool.or_eq_false_iff, decide_eq_false_iff_not]
        refine ⟨⟨⟨?_, ?_⟩, ?_⟩, ?_⟩ <;> (intro hc; subst hc; revert h; decide)
      · intro hc; subst hc; revert h; decide
      · intro hc; subst hc; revert h; decide
    · subst h; exact ⟨by decide, by decide, by decide⟩
    · subst h; exact ⟨by decide, by decide, by decide⟩

end xml

namespace ssml

open xml in
theorem attrs_render (tailc : List Char) (empty : Bool) (rest : List Char)
    (htail : ∀ fuel acc, xml.attrs (fuel + 1) tailc acc = .ok (acc, empty, rest)) :
    ∀ (as : List (String × String)) (fuel : Nat) (acc : List xml.Attr),
      as.all (fun a => xml.goodName a.1.data && a.2.data.all xml.isInCharacterRange) = true →
      (as.flatMap renderAttr).length < fuel →
      xml.attrs fuel (as.flatMap renderAttr ++ tailc) acc
        = .ok (acc ++ attrTokens as, empty, rest) := by
  intro as
  induction as with
  | nil =>
    intro fuel acc _ hf
    cases fuel with
    | zero => simp at hf
    | succ n => simp [attrTokens, htail]
  | cons a as ih =>
    intro fuel acc hv hf
    simp only [List.all_cons, Bool.and_eq_true] at hv
    obtain ⟨⟨hn, hval⟩, hv⟩ := hv
    rw [List.flatMap_cons] at hf ⊢
    by_cases ha : a.2 = ""
    · have hr : renderAttr a = [] := by simp [renderAttr, ha]
      rw [hr, List.nil_append] at hf ⊢
      rw [ih fuel acc hv hf]
      simp [attrTokens, ha]
    · have hr : renderAttr a = ' ' :: (a.1.data ++ ("=\"".data
          ++ ((html.EscapeString a.2).data ++ "\"".data))) := by simp [renderAttr, ha]
      rw [hr] at hf ⊢
      cases fuel with
      | zero => simp at hf
      | succ n =>
        obtain ⟨c, s1, hs, hc1, hc2, hc3⟩ := goodName_head _ hn
        have hin : (' ' :: (a.1.data ++ ("=\"".data ++ ((html.EscapeString a.2).data
            ++ "\"".data))) ++ (as.flatMap renderAttr ++ tailc))
            = ' ' :: (a.1.data ++ '=' :: Char.ofNat 34 :: (a.2.data.flatMap html.escapeChar
              ++ Char.ofNat 34 :: (as.flatMap renderAttr ++ tailc))) := by
          simp [html.EscapeString]
        rw [List.append_assoc, hin, xml.attrs]
        have hsp : xml.space (' ' :: (a.1.data ++ '=' :: Char.ofNat 34
            :: (a.2.data.flatMap html.escapeChar
              ++ Char.ofNat 34 :: (as.flatMap renderAttr ++ tailc))))
            = c :: (s1 ++ '=' :: Char.ofNat 34 :: (a.2.data.flatMap html.escapeChar
              ++ Char.ofNat 34 :: (as.flatMap renderAttr ++ tailc))) := by
          rw [hs]
          simp [xml.space, List.dropWhile, hc1]
          rfl
        rw [hsp]
        simp only
        rw [if_neg hc2, if_neg hc3]
        have hns := xml.nsname_good "expected attribute name in element" a.1.data '='
          (Char.ofNat 34 :: (a.2.data.flatMap html.escapeChar
              ++ Char.ofNat 34 :: (as.flatMap renderAttr ++ tailc))) hn (by decide)
        rw [hs] at hns
        rw [List.cons_append] at hns
        rw [hns]
        simp only
        have hsp2 : ∀ r, xml.space ('=' :: r) = '=' :: r := by
          intro r; simp [xml.space, List.dropWhile]; rfl
        have hsp3 : ∀ r, xml.space (Char.ofNat 34 :: r) = Char.ofNat 34 :: r := by
          intro r; simp [xml.space, List.dropWhile]; rfl
        rw [hsp2]
        simp only [ne_eq, not_true_eq_false, if_false]
        rw [hsp3, xml.attrval_escape _ hval]
        simp only
        rw [ih n _ hv (by simp at hf ⊢; omega)]
        simp [attrTokens, ha, hs]

end ssml
namespace ssml

theorem escape_head (c : Char) (x : List Char) :
    ∃ b r, (c :: x).flatMap html.escapeChar = b :: r ∧ b ≠ '<' := by
  rw [List.flatMap_cons]
  by_cases hc : c = '&' ∨ c = Char.ofNat 39 ∨ c = '<' ∨ c = '>' ∨ c = Char.ofNat 34
  · rcases hc with hc | hc | hc | hc | hc <;> subst hc <;>
      exact ⟨'&', _, rfl, by decide⟩
  · rw [xml.escapeChar_plain c hc]
    simp only [not_or] at hc
    exact ⟨c, _, rfl, hc.2.2.1⟩

theorem tokens_text_cons (n : Nat) (b : Char) (rest : List Char) (h : b ≠ '<') :
    xml.tokens (n + 1) (b :: rest)
      = match xml.textData none (b :: rest) with
        | .error e => ([], some e)
        | .ok (data, rest1) => xml.consToken (.CharData data) (xml.tokens n rest1) := by
  simp only [xml.tokens, h, ne_eq, not_false_eq_true, if_true]

theorem tokens_end_cons (n : Nat) (rest1 : List Char) :
    xml.tokens (n + 1) ('<' :: '/' :: rest1)
      = match xml.nsname "expected element name after </" rest1 with
        | .error e => ([], some e)
        | .ok (nm, rest2) =>
          match xml.space rest2 with
          | [] => ([], some "unexpected EOF")
          | b2 :: rest3 =>
            if b2 ≠ '>' then
              ([], some ("invalid characters between </" ++ nm.Local ++ " and >"))
            else xml.consToken (.EndElement nm) (xml.tokens n rest3) := by
  simp only [xml.tokens, ne_eq, not_true_eq_false, if_false, if_true]

theorem tokens_start_cons (n : Nat) (b1 : Char) (rest1 : List Char)
    (h1 : b1 ≠ '/') (h2 : b1 ≠ '?') (h3 : b1 ≠ '!') :
    xml.tokens (n + 1) ('<' :: b1 :: rest1)
      = match xml.nsname "expected element name after <" (b1 :: rest1) with
        | .error e => ([], some e)
        | .ok (nm, rest2) =>
          match xml.attrs (rest2.length + 1) rest2 [] with
          | .error e => ([], some e)
          | .ok (attr, empty, rest3) =>
            if empty then
              xml.consToken (.StartElement nm attr)
                (xml.consToken (.EndElement nm) (xml.tokens n rest3))
            else xml.consToken (.StartElement nm attr) (xml.tokens n rest3) := by
  simp only [xml.tokens, ne_eq, not_true_eq_false, if_false, h1, h2, h3]

theorem tokens_text (pending : List Char) (hne : pending ≠ [])
    (hv : pending.all xml.isInCharacterRange = true) (n : Nat) (tail : List Char)
    (htail : tail = [] ∨ ∃ r, tail = '<' :: r) :
    xml.tokens (n + 1) (pending.flatMap html.escapeChar ++ tail)
      = xml.consToken (.CharData (String.mk (xml.normalize false pending)))
          (xml.tokens n tail) := by
  have htd : xml.textData none (pending.flatMap html.escapeChar ++ tail)
      = .ok (String.mk (xml.normalize false pending), tail) := by
    rcases htail with h | ⟨r, h⟩
    · subst h
      rw [List.append_nil]
      exact xml.textData_end pending hv
    · subst h
      exact xml.textData_tag pending hv r
  cases pending with
  | nil => exact absurd rfl hne
  | cons c x =>
    obtain ⟨b, r, hb, hlt⟩ := escape_head c x
    rw [hb] at htd ⊢
    rw [List.cons_append] at htd ⊢
    rw [tokens_text_cons n b _ hlt, htd]

theorem attrs_head (as : List (String × String)) (c : Char) (tail : List Char)
    (hc : xml.isNameChar c = false) :
    ∃ b r, as.flatMap renderAttr ++ c :: tail = b :: r ∧ xml.isNameChar b = false := by
  induction as with
  | nil => exact ⟨c, tail, rfl, hc⟩
  | cons a as ih =>
    rw [List.flatMap_cons]
    by_cases ha : a.2 = ""
    · have hr : renderAttr a = [] := by simp [renderAttr, ha]
      rw [hr, List.nil_append]
      exact ih
    · have hr : renderAttr a = ' ' :: (a.1.data ++ ("=\"".data
          ++ ((html.EscapeString a.2).data ++ "\"".data))) := by simp [renderAttr, ha]
      rw [hr]
      exact ⟨' ', _, rfl, by decide⟩

theorem tokens_endTag (tag : String) (hv : xml.goodName tag.data = true) (n : Nat)
    (tail : List Char) :
    xml.tokens (n + 1) ((Piece.endTag tag).render ++ tail)
      = xml.consToken (.EndElement (xml.splitName tag.data)) (xml.tokens n tail) := by
  have h : (Piece.endTag tag).render ++ tail = '<' :: '/' :: (tag.data ++ '>' :: tail) := by
    simp [Piece.render]
  rw [h, tokens_end_cons]
  rw [xml.nsname_good _ tag.data '>' tail hv (by decide)]
  have hsp : xml.space ('>' :: tail) = '>' :: tail := by
    simp [xml.space, List.dropWhile]; rfl
  simp only [hsp, ne_eq, not_true_eq_false, if_false]

theorem tokens_startTag (tag : String) (attrs : List (String × String)) (empty : Bool)
    (hv : (Piece.startTag tag attrs empty).valid = true) (n : Nat) (tail : List Char) :
    xml.tokens (n + 1) ((Piece.startTag tag attrs empty).render ++ tail)
      = xml.consToken (.StartElement (xml.splitName tag.data) (attrTokens attrs))
          (if empty then
            xml.consToken (.EndElement (xml.splitName tag.data)) (xml.tokens n tail)
           else xml.tokens n tail) := by
  simp only [Piece.valid, Bool.and_eq_true] at hv
  obtain ⟨hn, hat⟩ := hv
  obtain ⟨c, s1, hs, hc1, hc2, hc3⟩ := xml.goodName_head _ hn
  obtain ⟨c1, tailc, hclose, hc1n, htailc⟩ : ∃ c1 tailc,
      (if empty then "/>".data else ">".data) ++ tail = c1 :: tailc
        ∧ xml.isNameChar c1 = false
        ∧ ∀ fuel acc, xml.attrs (fuel + 1) (c1 :: tailc) acc = .ok (acc, empty, tail) := by
    cases empty
    · refine ⟨'>', tail, rfl, by decide, ?_⟩
      intro fuel acc
      simp [xml.attrs, xml.space, List.dropWhile]
      rfl
    · refine ⟨'/', '>' :: tail, rfl, by decide, ?_⟩
      intro fuel acc
      simp [xml.attrs, xml.space, List.dropWhile]
      rfl
  have h : (Piece.startTag tag attrs empty).render ++ tail
      = '<' :: (tag.data ++ (attrs.flatMap renderAttr ++ c1 :: tailc)) := by
    simp only [Piece.render, List.cons_append, List.append_assoc, hclose]
  obtain ⟨b, r, hbr, hb⟩ := attrs_head attrs c1 tailc hc1n
  rw [h]
  have hq : c ≠ '?' ∧ c ≠ '!' := by
    simp only [xml.goodName, hs, xml.isName, Bool.and_eq_true, Bool.or_eq_true,
      decide_eq_true_eq] at hn
    obtain ⟨⟨_, hn⟩, _⟩ := hn
    constructor <;> (intro hc; subst hc; revert hn; decide)
  have hns := xml.nsname_good "expected element name after <" tag.data b r hn hb
  rw [hbr, hs, List.cons_append]
  rw [hs, List.cons_append] at hns
  rw [tokens_start_cons n c _ hc2 hq.1 hq.2, hns]
  simp only
  rw [← hbr, attrs_render (c1 :: tailc) empty tail htailc attrs _ [] hat (by simp; omega)]
  cases empty <;> simp

end ssml
namespace ssml

theorem escape_length (x : List Char) : x.length ≤ (x.flatMap html.escapeChar).length := by
  induction x with
  | nil => simp
  | cons c x ih =>
    rw [List.flatMap_cons, List.length_append, List.length_cons]
    have : 1 ≤ (html.escapeChar c).length := by
      unfold html.escapeChar
      split_ifs <;> simp
    omega

theorem flush_nil : flush [] = [] := rfl

theorem flush_ne_nil (pending : List Char) (h : pending ≠ []) :
    flush pending = [.CharData (String.mk (xml.normalize false pending))] := by
  simp [flush, h]

/-- The tokens that the decoder reads from a tag, and whether the piece is one. -/
theorem tokens_tag (p : Piece) (hv : p.valid = true) (n : Nat) (tail : List Char) :
    match p with
    | .text _ => True
    | .startTag tag attrs empty =>
      xml.tokens (n + 1) (p.render ++ tail)
        = (.StartElement (xml.splitName tag.data) (attrTokens attrs)
            :: ((if empty then [.EndElement (xml.splitName tag.data)] else [])
              ++ (xml.tokens n tail).1), (xml.tokens n tail).2)
    | .endTag tag =>
      xml.tokens (n + 1) (p.render ++ tail)
        = (.EndElement (xml.splitName tag.data) :: (xml.tokens n tail).1, (xml.tokens n tail).2) := by
  cases p with
  | text cs => trivial
  | startTag tag attrs empty =>
    simp only
    rw [tokens_startTag tag attrs empty hv]
    cases empty <;> rfl
  | endTag tag =>
    simp only
    rw [tokens_endTag tag hv]
    rfl

theorem tokens_render : ∀ (ps : List Piece) (pending : List Char) (fuel : Nat),
    ps.all Piece.valid = true → pending.all xml.isInCharacterRange = true →
    (pending.flatMap html.escapeChar ++ render ps).length < fuel →
    xml.tokens fuel (pending.flatMap html.escapeChar ++ render ps)
      = ((scan pending ps).1 ++ flush (scan pending ps).2, none) := by
  intro ps
  induction ps with
  | nil =>
    intro pending fuel _ hp hf
    rw [render_nil, List.append_nil] at hf ⊢
    simp only [scan, List.nil_append]
    cases fuel with
    | zero => simp at hf
    | succ n =>
      by_cases hne : pending = []
      · subst hne; rfl
      · have h := tokens_text pending hne hp n [] (Or.inl rfl)
        rw [List.append_nil] at h
        rw [h, flush_ne_nil pending hne]
        have hl := escape_length pending
        have : 0 < pending.length := List.length_pos.mpr hne
        cases n with
        | zero => omega
        | succ m => rfl
  | cons p ps ih =>
    intro pending fuel hv hp hf
    simp only [List.all_cons, Bool.and_eq_true] at hv
    obtain ⟨hpv, hv⟩ := hv
    rw [render_cons] at hf ⊢
    cases p with
    | text cs =>
      have hcs : (pending ++ cs).all xml.isInCharacterRange = true := by
        simp only [Piece.valid] at hpv
        simp only [List.all_append, hp, hpv, Bool.and_self]
      have he : pending.flatMap html.escapeChar ++ ((Piece.text cs).render ++ render ps)
          = (pending ++ cs).flatMap html.escapeChar ++ render ps := by
        simp [Piece.render]
      rw [he] at hf ⊢
      rw [ih (pending ++ cs) fuel hv hcs hf]
      rfl
    | startTag tag attrs empty =>
      have hlen : 1 ≤ ((Piece.startTag tag attrs empty).render).length := by
        simp [Piece.render]
      by_cases hne : pending = []
      · subst hne
        simp only [List.flatMap_nil, List.nil_append, List.all_nil] at hf ⊢
        cases fuel with
        | zero => simp at hf
        | succ n =>
          have h := tokens_tag (.startTag tag attrs empty) hpv n (render ps)
          simp only at h
          rw [h]
          have h2 := ih [] n hv rfl (by
            simp only [List.flatMap_nil, List.nil_append]
            rw [List.length_append] at hf
            omega)
          simp only [List.flatMap_nil, List.nil_append] at h2
          rw [h2]
          simp [scan, flush_nil]
      · have hl := escape_length pending
        have hpos : 0 < pending.length := List.length_pos.mpr hne
        rw [List.length_append, List.length_append] at hf
        cases fuel with
        | zero => omega
        | succ n =>
          cases n with
          | zero => omega
          | succ m =>
            rw [tokens_text pending hne hp (m + 1) _ (Or.inr ⟨_, by
              rw [Piece.render, List.cons_append]⟩)]
            have h := tokens_tag (.startTag tag attrs empty) hpv m (render ps)
            simp only at h
            rw [h]
            have h2 := ih [] m hv rfl (by
              simp only [List.flatMap_nil, List.nil_append]
              omega)
            simp only [List.flatMap_nil, List.nil_append] at h2
            rw [h2]
            simp [scan, flush_ne_nil pending hne, xml.consToken]
    | endTag tag =>
      have hlen : 1 ≤ ((Piece.endTag tag).render).length := by
        simp [Piece.render]
      by_cases hne : pending = []
      · subst hne
        simp only [List.flatMap_nil, List.nil_append, List.all_nil] at hf ⊢
        cases fuel with
        | zero => simp at hf
        | succ n =>
          have h := tokens_tag (.endTag tag) hpv n (render ps)
          simp only at h
          rw [h]
          have h2 := ih [] n hv rfl (by
            simp only [List.flatMap_nil, List.nil_append]
            rw [List.length_append] at hf
            omega)
          simp only [List.flatMap_nil, List.nil_append] at h2
          rw [h2]
          simp [scan, flush_nil]
      · have hl := escape_length pending
        have hpos : 0 < pending.length := List.length_pos.mpr hne
        rw [List.length_append, List.length_append] at hf
        cases fuel with
        | zero => omega
        | succ n =>
          cases n with
          | zero => omega
          | succ m =>
            rw [tokens_text pending hne hp (m + 1) _ (Or.inr ⟨_, by
              rw [Piece.render]; rfl⟩)]
            have h := tokens_tag (.endTag tag) hpv m (render ps)
            simp only at h
            rw [h]
            have h2 := ih [] m hv rfl (by
              simp only [List.flatMap_nil, List.nil_append]
              omega)
            simp only [List.flatMap_nil, List.nil_append] at h2
            rw [h2]
            simp [scan, flush_ne_nil pending hne, xml.consToken]

end ssml

namespace ssml

theorem dropWhile_ne_nil {α : Type} (p : α → Bool) (l : List α) :
    l.dropWhile p ≠ [] ↔ ∃ x ∈ l, p x = false := by
  induction l with
  | nil => simp
  | cons a l ih =>
    rw [List.dropWhile_cons]
    by_cases h : p a = true
    · simp only [h, if_true, ih, List.mem_cons]
      constructor
      · rintro ⟨x, hx, hp⟩; exact ⟨x, Or.inr hx, hp⟩
      · rintro ⟨x, hx | hx, hp⟩
        · subst hx; rw [h] at hp; cases hp
        · exact ⟨x, hx, hp⟩
    · simp only [h, if_false]
      simp only [Bool.not_eq_true] at h
      constructor
      · intro _; exact ⟨a, List.mem_cons_self _ _, h⟩
      · intro _; simp

theorem trimChars_ne_nil (cs : List Char) : strings.trimChars cs ≠ [] ↔ solid cs = true := by
  unfold strings.trimChars solid
  rw [Ne, List.reverse_eq_nil_iff, ← Ne, dropWhile_ne_nil]
  simp only [List.mem_reverse, List.any_eq_true, Bool.not_eq_true']
  constructor
  · rintro ⟨x, hx, hp⟩
    exact ⟨x, (List.dropWhile_suffix _).subset hx, hp⟩
  · rintro ⟨x, hx, hp⟩
    have h := (dropWhile_ne_nil unicode.IsSpace cs).mpr ⟨x, hx, hp⟩
    cases hd : cs.dropWhile unicode.IsSpace with
    | nil => exact absurd hd h
    | cons a l =>
      refine ⟨a, List.mem_cons_self _ _, ?_⟩
      have := List.head_dropWhile_not unicode.IsSpace cs h
      simp only [hd, List.head_cons] at this
      simpa using this

theorem TrimSpace_ne_empty (s : String) : strings.TrimSpace s ≠ "" ↔ solid s.data = true := by
  rw [← trimChars_ne_nil]
  unfold strings.TrimSpace
  constructor
  · intro h h1; apply h; rw [h1]
  · intro h h1; apply h
    have := congrArg String.data h1
    exact this

theorem solid_normalize (x : List Char) : ∀ (cr : Bool),
    solid (xml.normalize cr x) = solid x := by
  induction x with
  | nil => intro cr; rfl
  | cons c x ih =>
    intro cr
    unfold xml.normalize
    unfold solid at ih ⊢
    split_ifs with h1 h2
    · subst h1
      simp only [List.any_cons, ih]
      rfl
    · simp only [Bool.and_eq_true, decide_eq_true_eq] at h2
      obtain ⟨_, h2⟩ := h2
      subst h2
      simp only [List.any_cons, ih]
      rfl
    · simp only [List.any_cons, ih]

theorem solid_append (a b : List Char) : solid (a ++ b) = (solid a || solid b) := by
  simp [solid]

theorem solid_indentChars (pretty : Bool) (depth : Nat) :
    solid (indentChars pretty depth) = false := by
  unfold indentChars
  cases pretty
  · rfl
  · simp only [if_true]
    induction depth with
    | zero => rfl
    | succ n ih =>
      rw [List.replicate_succ, List.flatten_cons, solid_append, ih]
      rfl

theorem solid_newlineChars (pretty : Bool) : solid (newlineChars pretty) = false := by
  cases pretty <;> rfl

end ssml

namespace ssml

theorem Content_append (cfg : ValidationConfig) (a : List xml.Token) (na : List Node)
    (ha : Content cfg a na) (b : List xml.Token) (nb : List Node) (hb : Content cfg b nb) :
    Content cfg (a ++ b) (na ++ nb) := by
  induction ha with
  | nil => exact hb
  | text data rest nodes _ ih =>
    rw [List.cons_append, List.append_assoc]
    exact Content.text data _ _ ih
  | comment data rest nodes _ ih => exact Content.comment data _ _ ih
  | procInst target inst rest nodes _ ih => exact Content.procInst target inst _ _ ih
  | directive data rest nodes _ ih => exact Content.directive data _ _ ih
  | container name attr elem body inner rest nodes hk hbody _ _ ih =>
    rw [List.cons_append, List.append_assoc, List.cons_append, List.cons_append]
    exact Content.container name attr elem body inner _ _ hk hbody ih
  | breakElem name attr b mid rest nodes hk hbal hmid _ ih =>
    rw [List.cons_append, List.append_assoc, List.cons_append, List.cons_append]
    exact Content.breakElem name attr b mid _ _ hk hbal hmid ih
  | skipped name attr tagName mid rest nodes hk hbal hmid _ ih =>
    rw [List.cons_append, List.append_assoc, List.cons_append]
    exact Content.skipped name attr tagName mid _ _ hk hbal hmid ih

theorem Content_flush (cfg : ValidationConfig) (pending : List Char) :
    Content cfg (flush pending) (textNodes pending) := by
  unfold flush textNodes
  by_cases hp : pending = []
  · subst hp
    exact Content.nil
  · rw [if_neg hp]
    have h := Content.text (String.mk (xml.normalize false pending)) [] [] (@Content.nil cfg)
    rw [List.append_nil] at h
    have hiff := TrimSpace_ne_empty (String.mk (xml.normalize false pending))
    rw [mk_data, solid_normalize] at hiff
    by_cases hs : solid pending = true
    · rw [if_pos hs]
      rw [if_pos (hiff.mpr hs)] at h
      exact h
    · rw [if_neg hs]
      rw [if_neg (fun hc => hs (hiff.mp hc))] at h
      exact h

theorem scan_append (a b : List Piece) : ∀ (pending : List Char),
    scan pending (a ++ b)
      = ((scan pending a).1 ++ (scan (scan pending a).2 b).1, (scan (scan pending a).2 b).2) := by
  induction a with
  | nil => intro pending; simp [scan]
  | cons p a ih =>
    intro pending
    cases p with
    | text cs => simp only [List.cons_append, scan]; exact ih _
    | startTag tag attrs empty =>
      simp only [List.cons_append, scan, List.append_eq, ih, List.append_assoc]
    | endTag tag =>
      simp only [List.cons_append, scan, List.append_eq, ih, List.append_assoc]

/-- The tokens of an element written with start tag, body and end tag. -/
theorem scan_element (pretty : Bool) (depth : Nat) (tag : String)
    (attrs : List (String × String)) (body : List Piece) (pending : List Char) :
    scan pending
        ([.text (indentChars pretty depth), .startTag tag attrs false,
            .text (newlineChars pretty)]
          ++ (body ++ [.text (indentChars pretty depth), .endTag tag,
            .text (newlineChars pretty)]))
      = (flush (pending ++ indentChars pretty depth)
          ++ (.StartElement (xml.splitName tag.data) (attrTokens attrs)
            :: (((scan (newlineChars pretty) body).1
                ++ flush ((scan (newlineChars pretty) body).2 ++ indentChars pretty depth))
              ++ .EndElement (xml.splitName tag.data) :: [])),
          newlineChars pretty) := by
  simp only [List.cons_append, List.nil_append, scan, List.append_eq, scan_append,
    List.append_assoc, List.append_nil, Bool.false_eq_true, if_false]

/-- The tokens of an element written as a self-closing tag. -/
theorem scan_empty_element (pretty : Bool) (depth : Nat) (tag : String)
    (attrs : List (String × String)) (pending : List Char) :
    scan pending
        [.text (indentChars pretty depth), .startTag tag attrs true,
          .text (newlineChars pretty)]
      = (flush (pending ++ indentChars pretty depth)
          ++ (.StartElement (xml.splitName tag.data) (attrTokens attrs)
            :: ([] ++ .EndElement (xml.splitName tag.data) :: [])),
          newlineChars pretty) := by
  simp only [scan, List.nil_append, if_true, List.append_nil, List.singleton_append]

theorem elementKind_containerTags (cfg : ValidationConfig) (tag : String)
    (h : tag ∈ containerTags) (attr : List xml.Attr) :
    ∃ elem, elementKind cfg (xml.splitName tag.data) attr = .container elem := by
  simp only [containerTags, List.mem_cons, List.mem_singleton, List.not_mem_nil, or_false] at h
  rcases h with h | h | h | h | h | h | h | h | h <;> subst h <;> exact ⟨_, rfl⟩

theorem elementKind_break (cfg : ValidationConfig) (attr : List xml.Attr) :
    ∃ b, elementKind cfg (xml.splitName "break".data) attr = .breakElem b :=
  ⟨_, rfl⟩

theorem elemDepth_append (a b : List Node) :
    elemDepth (a ++ b) = max (elemDepth a) (elemDepth b) := by
  induction a with
  | nil => simp [elemDepth]
  | cons x a ih => simp only [List.cons_append, elemDepth, List.append_eq, ih, max_assoc]

theorem elemDepth_textNodes (pending : List Char) : elemDepth (textNodes pending) = 0 := by
  unfold textNodes
  split <;> simp [elemDepth, Node.elemDepth]

theorem elemDepth_close (elem : Open) (c : List Node) :
    (elem.close c).elemDepth = 1 + elemDepth c := by
  cases elem <;> rfl

theorem length_textNodes (pending : List Char) :
    (textNodes pending).length = if solid pending then 1 else 0 := by
  unfold textNodes
  split <;> rfl

end ssml
namespace ssml

theorem solid_pending_indent (pretty : Bool) (depth : Nat) (pending : List Char) :
    solid (pending ++ indentChars pretty depth) = solid pending := by
  rw [solid_append, solid_indentChars, Bool.or_false]

theorem Content_empty_element (cfg : ValidationConfig) (tag : String)
    (attrs : List xml.Attr)
    (h : tag ∈ containerTags ∨ tag = "break") :
    ∃ node : Node, Content cfg
        (.StartElement (xml.splitName tag.data) attrs
          :: ([] ++ .EndElement (xml.splitName tag.data) :: [])) [node]
      ∧ node.elemDepth = 1 := by
  rcases h with h | h
  · obtain ⟨elem, hk⟩ := elementKind_containerTags cfg tag h attrs
    exact ⟨elem.close [], Content.container _ _ elem [] [] [] [] hk Content.nil Content.nil,
      by rw [elemDepth_close]; rfl⟩
  · subst h
    obtain ⟨b, hk⟩ := elementKind_break cfg attrs
    exact ⟨Node.Break b,
      Content.breakElem _ _ b [] [] [] hk (fun _ => rfl) (fun _ hn => by cases hn) Content.nil,
      rfl⟩

mutual
theorem pieces_content (cfg : ValidationConfig) (pretty : Bool) :
    ∀ (t : Markup) (depth : Nat) (pending : List Char), t.ok = true →
      ∃ nodes, Content cfg (scan pending (t.pieces pretty depth)).1 nodes
        ∧ elemDepth nodes = t.depth
        ∧ nodes.length + (if solid (scan pending (t.pieces pretty depth)).2 then 1 else 0)
            = (if solid pending then 1 else 0) + (if solid pending && t.isText then 0 else 1)
        ∧ solid (scan pending (t.pieces pretty depth)).2 = t.isText
  | .text c, depth, pending, h => by
    simp only [Markup.ok, Bool.and_eq_true] at h
    refine ⟨[], Content.nil, rfl, ?_, ?_⟩
    · simp only [Markup.pieces, scan, solid_append, h.1, Bool.or_true, Bool.true_or,
        if_true, List.length_nil, Markup.isText, Bool.and_true]
      cases solid pending <;> rfl
    · simp only [Markup.pieces, scan, solid_append, h.1, Bool.or_true, Bool.true_or,
        Markup.isText]
  | .element tag attrs selfClosing content, depth, pending, h => by
    simp only [Markup.ok, Bool.and_eq_true, Bool.or_eq_true, decide_eq_true_eq] at h
    obtain ⟨⟨htag, _⟩, hcontent⟩ := h
    by_cases he : (content.isEmpty && selfClosing) = true
    · have hc : content = [] := by
        simp only [Bool.and_eq_true, List.isEmpty_iff] at he
        exact he.1
      subst hc
      obtain ⟨node, hnode, hdepth⟩ := Content_empty_element cfg tag (attrTokens attrs)
        (htag.imp id (fun h => h.1.1))
      have hsc : (Markup.element tag attrs selfClosing []).pieces pretty depth
          = [.text (indentChars pretty depth), .startTag tag attrs true,
              .text (newlineChars pretty)] := by
        rw [Markup.pieces, if_pos he]
      rw [hsc, scan_empty_element]
      refine ⟨textNodes (pending ++ indentChars pretty depth) ++ [node],
        Content_append cfg _ _ (Content_flush cfg _) _ _ hnode, ?_, ?_, ?_⟩
      · rw [elemDepth_append, elemDepth_textNodes]
        simp [elemDepth, hdepth, Markup.depth, depthList]
      · simp only [List.length_append, length_textNodes, solid_pending_indent,
          solid_newlineChars, List.length_singleton, Markup.isText, Bool.and_false,
          Bool.false_eq_true, if_false]
      · simp only [solid_newlineChars, Markup.isText]
    · have htag1 : tag ∈ containerTags := by
        rcases htag with h | h
        · exact h
        · exact absurd (by simp [h.1.2, h.2]) he
      obtain ⟨elem, hk⟩ := elementKind_containerTags cfg tag htag1 (attrTokens attrs)
      obtain ⟨inner, hinner, hdepth, _, _⟩ :=
        piecesList_content cfg pretty content (depth + 1) (newlineChars pretty) hcontent
      have hsc : (Markup.element tag attrs selfClosing content).pieces pretty depth
          = [.text (indentChars pretty depth), .startTag tag attrs false,
              .text (newlineChars pretty)]
            ++ (piecesList pretty (depth + 1) content
              ++ [.text (indentChars pretty depth), .endTag tag,
                .text (newlineChars pretty)]) := by
        rw [Markup.pieces, if_neg he]
      rw [hsc, scan_element]
      refine ⟨textNodes (pending ++ indentChars pretty depth)
          ++ [elem.close (inner ++ textNodes
            ((scan (newlineChars pretty) (piecesList pretty (depth + 1) content)).2
              ++ indentChars pretty depth))],
        Content_append cfg _ _ (Content_flush cfg _) _ _
          (Content.container _ _ elem _ _ [] [] hk
            (Content_append cfg _ _ hinner _ _ (Content_flush cfg _)) Content.nil), ?_, ?_, ?_⟩
      · rw [elemDepth_append, elemDepth_textNodes]
        simp only [elemDepth, elemDepth_close, elemDepth_append, elemDepth_textNodes, hdepth,
          Markup.depth]
        simp
      · simp only [List.length_append, length_textNodes, solid_pending_indent,
          solid_newlineChars, List.length_singleton, Markup.isText, Bool.and_false,
          Bool.false_eq_true, if_false]
      · simp only [solid_newlineChars, Markup.isText]
  | .other, _, _, h => by simp [Markup.ok] at h
theorem piecesList_content (cfg : ValidationConfig) (pretty : Bool) :
    ∀ (ts : List Markup) (depth : Nat) (pending : List Char), okList ts = true →
      ∃ nodes, Content cfg (scan pending (piecesList pretty depth ts)).1 nodes
        ∧ elemDepth nodes = depthList ts
        ∧ nodes.length + (if solid (scan pending (piecesList pretty depth ts)).2 then 1 else 0)
            = (if solid pending then 1 else 0) + countRunsM (solid pending) ts
        ∧ solid (scan pending (piecesList pretty depth ts)).2 = lastText (solid pending) ts
  | [], depth, pending, _ => by
    refine ⟨[], Content.nil, rfl, ?_, ?_⟩
    · simp [piecesList, scan, countRunsM]
    · simp [piecesList, scan, lastText]
  | t :: ts, depth, pending, h => by
    simp only [okList, Bool.and_eq_true] at h
    obtain ⟨n1, hc1, hd1, hl1, hs1⟩ := pieces_content cfg pretty t depth pending h.1
    obtain ⟨n2, hc2, hd2, hl2, hs2⟩ := piecesList_content cfg pretty ts depth
      (scan pending (t.pieces pretty depth)).2 h.2
    rw [piecesList, scan_append]
    refine ⟨n1 ++ n2, Content_append cfg _ _ hc1 _ _ hc2, ?_, ?_, ?_⟩
    · rw [elemDepth_append, hd1, hd2, depthList]
    · simp only [List.length_append, countRunsM]
      rw [hs1] at hl1 hl2
      omega
    · simp only [lastText]
      rw [hs2, hs1]
end

end ssml

namespace ssml

mutual
theorem Markup.known_of_ok : ∀ (t : Markup), t.ok = true → t.known = true
  | .text _, _ => rfl
  | .element _ _ _ content, h => by
    simp only [Markup.ok, Bool.and_eq_true] at h
    simp only [Markup.known]
    exact knownList_of_ok content h.2
  | .other, h => by simp [Markup.ok] at h
theorem knownList_of_ok : ∀ (ts : List Markup), okList ts = true → knownList ts = true
  | [], _ => rfl
  | t :: ts, h => by
    simp only [okList, Bool.and_eq_true] at h
    simp only [knownList, Bool.and_eq_true]
    exact ⟨Markup.known_of_ok t h.1, knownList_of_ok ts h.2⟩
end

theorem markupList_isEmpty_iff (c : List Node) : (markupList c).isEmpty = c.isEmpty := by
  cases c <;> rfl

mutual
theorem Node.markup_ok : ∀ (item : Node), item.parsed = true → item.xmlChars = true →
    item.markup.ok = true
  | .Text c, hp, hx => by
    simp only [Node.parsed, decide_eq_true_eq] at hp
    simp only [Node.xmlChars] at hx
    simp only [Node.markup, Markup.ok, Bool.and_eq_true]
    exact ⟨(TrimSpace_ne_empty c).mp hp, hx⟩
  | .Audio a c, hp, hx => by
    simp only [Node.parsed] at hp
    simp only [Node.xmlChars, Bool.and_eq_true] at hx
    have hc := markupList_ok c hp (by simp only [hx])
    have ht : decide ("audio" ∈ containerTags) = true := by decide
    simp only [Node.markup, Markup.ok, hc, Bool.and_true, List.all_cons, List.all_nil, hx, ht,
      Bool.true_or, Bool.true_and]
    decide
  | .Break b, hp, hx => by
    simp only [Node.xmlChars, Bool.and_eq_true] at hx
    simp only [Node.markup, Markup.ok, okList, Bool.and_true, List.all_cons, List.all_nil, hx]
    decide
  | .Emphasis a c, hp, hx => by
    simp only [Node.parsed] at hp
    simp only [Node.xmlChars, Bool.and_eq_true] at hx
    have hc := markupList_ok c hp (by simp only [hx])
    have ht : decide ("emphasis" ∈ containerTags) = true := by decide
    simp only [Node.markup, Markup.ok, hc, Bool.and_true, List.all_cons, List.all_nil, hx, ht,
      Bool.true_or, Bool.true_and]
    decide
  | .Paragraph a c, hp, hx => by
    simp only [Node.parsed] at hp
    simp only [Node.xmlChars, Bool.and_eq_true] at hx
    have hc := markupList_ok c hp (by simp only [hx])
    have ht : decide ("p" ∈ containerTags) = true := by decide
    simp only [Node.markup, Markup.ok, hc, Bool.and_true, List.all_cons, List.all_nil, hx, ht,
      Bool.true_or, Bool.true_and]
  | .Phoneme a c, hp, hx => by
    simp only [Node.parsed] at hp
    simp only [Node.xmlChars, Bool.and_eq_true] at hx
    have hc := markupList_ok c hp (by simp only [hx])
    have ht : decide ("phoneme" ∈ containerTags) = true := by decide
    simp only [Node.markup, Markup.ok, hc, Bool.and_true, List.all_cons, List.all_nil, hx, ht,
      Bool.true_or, Bool.true_and]
    decide
  | .Prosody a c, hp, hx => by
    simp only [Node.parsed] at hp
    simp only [Node.xmlChars, Bool.and_eq_true] at hx
    have hc := markupList_ok c hp (by simp only [hx])
    have ht : decide ("prosody" ∈ containerTags) = true := by decide
    simp only [Node.markup, Markup.ok, hc, Bool.and_true, List.all_cons, List.all_nil, hx, ht,
      Bool.true_or, Bool.true_and]
    decide
  | .Sentence a c, hp, hx => by
    simp only [Node.parsed] at hp
    simp only [Node.xmlChars, Bool.and_eq_true] at hx
    have hc := markupList_ok c hp (by simp only [hx])
    have ht : decide ("s" ∈ containerTags) = true := by decide
    simp only [Node.markup, Markup.ok, hc, Bool.and_true, List.all_cons, List.all_nil, hx, ht,
      Bool.true_or, Bool.true_and]
  | .Sub a c, hp, hx => by
    simp only [Node.parsed] at hp
    simp only [Node.xmlChars, Bool.and_eq_true] at hx
    have hc := markupList_ok c hp (by simp only [hx])
    have ht : decide ("sub" ∈ containerTags) = true := by decide
    simp only [Node.markup, Markup.ok, hc, Bool.and_true, List.all_cons, List.all_nil, hx, ht,
      Bool.true_or, Bool.true_and]
    decide
  | .Voice a c, hp, hx => by
    simp only [Node.parsed] at hp
    simp only [Node.xmlChars, Bool.and_eq_true] at hx
    have hc := markupList_ok c hp (by simp only [hx])
    have ht : decide ("voice" ∈ containerTags) = true := by decide
    simp only [Node.markup, Markup.ok, hc, Bool.and_true, List.all_cons, List.all_nil, hx, ht,
      Bool.true_or, Bool.true_and]
    decide
  | .W a c, hp, hx => by
    simp only [Node.parsed] at hp
    simp only [Node.xmlChars, Bool.and_eq_true] at hx
    have hc := markupList_ok c hp (by simp only [hx])
    have ht : decide ("w" ∈ containerTags) = true := by decide
    simp only [Node.markup, Markup.ok, hc, Bool.and_true, List.all_cons, List.all_nil, hx, ht,
      Bool.true_or, Bool.true_and]
    decide
  | .Other _, hp, _ => by simp [Node.parsed] at hp
theorem markupList_ok : ∀ (c : List Node), parsedList c = true → xmlCharsList c = true →
    okList (markupList c) = true
  | [], _, _ => rfl
  | item :: rest, hp, hx => by
    simp only [parsedList, Bool.and_eq_true] at hp
    simp only [xmlCharsList, Bool.and_eq_true] at hx
    simp only [markupList, okList, Bool.and_eq_true]
    exact ⟨Node.markup_ok item hp.1 hx.1, markupList_ok rest hp.2 hx.2⟩
end

end ssml
namespace ssml

mutual
theorem Node.markup_depth : ∀ (item : Node), item.markup.depth = item.elemDepth
  | .Text _ => rfl
  | .Audio _ c => by simp only [Node.markup, Markup.depth, Node.elemDepth, markupList_depth c]
  | .Break _ => rfl
  | .Emphasis _ c => by simp only [Node.markup, Markup.depth, Node.elemDepth, markupList_depth c]
  | .Paragraph _ c => by simp only [Node.markup, Markup.depth, Node.elemDepth, markupList_depth c]
  | .Phoneme _ c => by simp only [Node.markup, Markup.depth, Node.elemDepth, markupList_depth c]
  | .Prosody _ c => by simp only [Node.markup, Markup.depth, Node.elemDepth, markupList_depth c]
  | .Sentence _ c => by simp only [Node.markup, Markup.depth, Node.elemDepth, markupList_depth c]
  | .Sub _ c => by simp only [Node.markup, Markup.depth, Node.elemDepth, markupList_depth c]
  | .Voice _ c => by simp only [Node.markup, Markup.depth, Node.elemDepth, markupList_depth c]
  | .W _ c => by simp only [Node.markup, Markup.depth, Node.elemDepth, markupList_depth c]
  | .Other _ => rfl
theorem markupList_depth : ∀ (c : List Node), depthList (markupList c) = elemDepth c
  | [] => rfl
  | item :: rest => by
    simp only [markupList, depthList, elemDepth, Node.markup_depth item, markupList_depth rest]
end

theorem Node.markup_isText (item : Node) : item.markup.isText = item.isText := by
  cases item <;> rfl

theorem markupList_countRuns (c : List Node) : ∀ (b : Bool),
    countRunsM b (markupList c) = countRuns b c := by
  induction c with
  | nil => intro b; rfl
  | cons item rest ih =>
    intro b
    simp only [markupList, countRunsM, countRuns, Node.markup_isText, ih]

theorem indentChars_range (pretty : Bool) (depth : Nat) :
    (indentChars pretty depth).all xml.isInCharacterRange = true := by
  unfold indentChars
  cases pretty
  · rfl
  · simp only [if_true]
    induction depth with
    | zero => rfl
    | succ n ih =>
      rw [List.replicate_succ, List.flatten_cons, List.all_append, ih]
      rfl

theorem newlineChars_range (pretty : Bool) :
    (newlineChars pretty).all xml.isInCharacterRange = true := by
  cases pretty <;> rfl

theorem goodName_tag (tag : String) (h : tag ∈ containerTags ∨ tag = "break") :
    xml.goodName tag.data = true := by
  simp only [containerTags, List.mem_cons, List.mem_singleton, List.not_mem_nil, or_false] at h
  rcases h with (h | h | h | h | h | h | h | h | h) | h <;> subst h <;> decide

mutual
theorem Markup.pieces_valid (pretty : Bool) : ∀ (t : Markup) (depth : Nat), t.ok = true →
    (t.pieces pretty depth).all Piece.valid = true
  | .text c, depth, h => by
    simp only [Markup.ok, Bool.and_eq_true, xmlString] at h
    simp only [Markup.pieces, List.all_cons, List.all_nil, Bool.and_true, Piece.valid,
      List.all_append, indentChars_range, newlineChars_range, h.2, Bool.and_self]
  | .element tag attrs selfClosing content, depth, h => by
    simp only [Markup.ok, Bool.and_eq_true, Bool.or_eq_true, decide_eq_true_eq] at h
    obtain ⟨⟨htag, hattrs⟩, hcontent⟩ := h
    have hgood := goodName_tag tag (htag.imp id (fun h => h.1.1))
    have hattrs1 : attrs.all (fun a => xml.goodName a.1.data
        && a.2.data.all xml.isInCharacterRange) = true := hattrs
    have hin := piecesList_valid pretty content (depth + 1) hcontent
    rw [Markup.pieces]
    split
    · simp only [List.all_cons, List.all_nil, Bool.and_true, Piece.valid, indentChars_range,
        newlineChars_range, hgood, hattrs1, Bool.and_self]
    · simp only [List.all_cons, List.all_nil, List.all_append, Bool.and_true, Piece.valid,
        indentChars_range, newlineChars_range, hgood, hattrs1, hin, Bool.and_self]
  | .other, _, _ => rfl
theorem piecesList_valid (pretty : Bool) : ∀ (ts : List Markup) (depth : Nat),
    okList ts = true → (piecesList pretty depth ts).all Piece.valid = true
  | [], _, _ => rfl
  | t :: ts, depth, h => by
    simp only [okList, Bool.and_eq_true] at h
    simp only [piecesList, List.all_append, Markup.pieces_valid pretty t depth h.1,
      piecesList_valid pretty ts depth h.2, Bool.and_self]
end

theorem normalize_id (x : List Char) (h : '\r' ∉ x) : xml.normalize false x = x := by
  induction x with
  | nil => rfl
  | cons c x ih =>
    simp only [List.mem_cons, not_or] at h
    have hc : c ≠ '\r' := fun hc => h.1 hc.symm
    simp only [xml.normalize, hc, if_false, Bool.false_and, Bool.false_eq_true, ih h.2]

end ssml

namespace ssml

theorem parsedList_append (a b : List Node) :
    parsedList (a ++ b) = (parsedList a && parsedList b) := by
  induction a with
  | nil => simp [parsedList]
  | cons x a ih => simp only [List.cons_append, parsedList, List.append_eq, ih, Bool.and_assoc]

theorem Open.close_parsed (elem : Open) (c : List Node) :
    (elem.close c).parsed = parsedList c := by
  cases elem <;> rfl

theorem solid_dropWhile (l : List Char) : solid (l.dropWhile unicode.IsSpace) = solid l := by
  induction l with
  | nil => rfl
  | cons a l ih =>
    rw [List.dropWhile_cons]
    by_cases h : unicode.IsSpace a = true
    · rw [if_pos h, ih]
      simp [solid, h]
    · rw [if_neg h]

theorem solid_reverse (l : List Char) : solid l.reverse = solid l := by
  simp [solid]

theorem solid_trimChars (l : List Char) : solid (strings.trimChars l) = solid l := by
  unfold strings.trimChars
  rw [solid_reverse, solid_dropWhile, solid_reverse, solid_dropWhile]

theorem TrimSpace_TrimSpace_ne (s : String) (h : strings.TrimSpace s ≠ "") :
    strings.TrimSpace (strings.TrimSpace s) ≠ "" := by
  rw [TrimSpace_ne_empty] at h ⊢
  unfold strings.TrimSpace
  rw [mk_data, solid_trimChars]
  exact h

theorem Machine.step_parsed (cfg : ValidationConfig) (m m1 : Machine) (tok : xml.Token)
    (h : m.step cfg tok = .ok m1) (hi : m.parsed = true) : m1.parsed = true := by
  obtain ⟨res, root, speak, frames, content, skip⟩ := m
  simp only [Machine.parsed, Bool.and_eq_true] at hi
  obtain ⟨⟨hroot, hcontent⟩, hframes⟩ := hi
  unfold Machine.step at h
  cases speak with
  | none =>
    simp only at h
    split at h
    · split at h
      · cases h
        simp only [Machine.parsed, Bool.and_eq_true, parsedList, List.all_nil]
        exact ⟨⟨hroot, trivial⟩, trivial⟩
      · cases h
        simp only [Machine.parsed, Bool.and_eq_true]
        exact ⟨⟨hroot, hcontent⟩, hframes⟩
    · cases h
      simp only [Machine.parsed, Bool.and_eq_true]
      exact ⟨⟨hroot, hcontent⟩, hframes⟩
  | some sp =>
    cases skip with
    | some sk =>
      simp only at h
      split at h
      · split at h
        · cases h
          cases sk with
          | breakElem b =>
            simp only [Machine.endSkip, Machine.parsed, Bool.and_eq_true, parsedList_append,
              parsedList, Node.parsed, Bool.and_true]
            exact ⟨⟨hroot, hcontent⟩, hframes⟩
          | unknown t =>
            simp only [Machine.endSkip, Machine.parsed, Bool.and_eq_true]
            exact ⟨⟨hroot, hcontent⟩, hframes⟩
        · cases h
          simp only [Machine.parsed, Bool.and_eq_true]
          exact ⟨⟨hroot, hcontent⟩, hframes⟩
      · cases h
        simp only [Machine.parsed, Bool.and_eq_true]
        exact ⟨⟨hroot, hcontent⟩, hframes⟩
    | none =>
      simp only at h
      split at h
      · split at h
        · cases h
          simp only [Machine.parsed, Bool.and_eq_true, parsedList, List.all_cons]
          exact ⟨⟨hroot, trivial⟩, hcontent, hframes⟩
        · cases h
          simp only [Machine.parsed, Bool.and_eq_true]
          exact ⟨⟨hroot, hcontent⟩, hframes⟩
        · cases h
          simp only [Machine.parsed, Bool.and_eq_true]
          exact ⟨⟨hroot, hcontent⟩, hframes⟩
        · cases h
      · split at h
        · cases h
          rename_i hne
          simp only [Machine.parsed, Bool.and_eq_true, parsedList_append, parsedList,
            Node.parsed, Bool.and_true, decide_eq_true_eq]
          exact ⟨⟨hroot, hcontent, TrimSpace_TrimSpace_ne _ hne⟩, hframes⟩
        · cases h
          simp only [Machine.parsed, Bool.and_eq_true]
          exact ⟨⟨hroot, hcontent⟩, hframes⟩
      · split at h
        · cases h
          cases frames with
          | nil =>
            simp only [Machine.leave, Machine.parsed, Bool.and_eq_true, parsedList,
              List.all_nil]
            exact ⟨⟨hcontent, trivial⟩, trivial⟩
          | cons f frames =>
            obtain ⟨elem, outer⟩ := f
            simp only [List.all_cons, Bool.and_eq_true] at hframes
            simp only [Machine.leave, Machine.parsed, Bool.and_eq_true, parsedList_append,
              parsedList, Open.close_parsed, Bool.and_true]
            exact ⟨⟨hroot, hframes.1, hcontent⟩, hframes.2⟩
        · cases h
          simp only [Machine.parsed, Bool.and_eq_true]
          exact ⟨⟨hroot, hcontent⟩, hframes⟩
      · cases h
        simp only [Machine.parsed, Bool.and_eq_true]
        exact ⟨⟨hroot, hcontent⟩, hframes⟩

end ssml
namespace ssml

theorem Machine.stop_done (m : Machine) (e : GoError) (r : ParseResult) (root : Option Speak)
    (h : m.stop e = .done r root) : root = m.root ∧ r = m.result ∧ e = .EOF := by
  unfold Machine.stop at h
  split at h
  · split at h
    · cases h; exact ⟨rfl, rfl, rfl⟩
    · cases h
  · cases h

theorem Machine.run_parsed (cfg : ValidationConfig) (le : Option String)
    (input : List xml.Token) : ∀ (stk : List xml.Name) (m : Machine) (r : ParseResult)
      (root : Speak),
      Machine.run cfg le input stk m = .done r (some root) → m.parsed = true →
        parsedList root.Content = true := by
  induction input with
  | nil =>
    intro stk m r root h hm
    obtain ⟨e, he, _⟩ := Machine.run_nil cfg le stk m
    rw [he] at h
    obtain ⟨h1, _, _⟩ := Machine.stop_done m e r _ h
    simp only [Machine.parsed, Bool.and_eq_true] at hm
    rw [← h1] at hm
    exact hm.1.1
  | cons tok rest ih =>
    intro stk m r root h hm
    rw [Machine.run_cons] at h
    cases hn : xml.nestStep stk tok with
    | error e =>
      rw [hn] at h
      obtain ⟨_, _, h3⟩ := Machine.stop_done m e r _ h
      subst h3
      exact absurd hn (xml.nestStep_ne_EOF stk tok)
    | ok s =>
      rw [hn] at h
      simp only at h
      cases hs : m.step cfg tok with
      | error e => rw [hs] at h; cases h
      | ok m1 =>
        rw [hs] at h
        exact ih s m1 r root h (Machine.step_parsed cfg m m1 tok hs hm)

/-- What an accepted parse yields: the loop ended cleanly with a root, the root
is as the parser builds it, and it nests no deeper than allowed. -/
theorem ParseReader_accepts (toks : List xml.Token) (le : Option String)
    (result : ParseResult)
    (h : ParseReader DefaultValidationConfig (xml.NewDecoder toks le) = some (result, none)) :
    ∃ D, result.Root = some D ∧ parsedList D.Content = true ∧ elemDepth D.Content ≤ 10 := by
  rw [ParseReader_eq_run] at h
  simp only [xml.NewDecoder] at h
  cases hr : Machine.run DefaultValidationConfig le toks [] Machine.init with
  | fuel => rw [hr] at h; cases h
  | returned r e => rw [hr] at h; cases h
  | done r root =>
    rw [hr] at h
    cases root with
    | none => cases h
    | some root =>
      simp only [validate, DefaultValidationConfig, Bool.false_eq_true, if_false,
        basicValidation, validateNestingDepth_eq, zero_add] at h
      have hp := Machine.run_parsed _ le toks [] Machine.init r root hr rfl
      by_cases hd : (elemDepth root.Content : Int) > 10
      · rw [if_pos hd] at h
        cases h
      · rw [if_neg hd] at h
        have h1 := congrArg Prod.fst (Option.some.inj h)
        simp only at h1
        refine ⟨root, ?_, hp, by omega⟩
        rw [← h1]
        split_ifs <;> rfl

end ssml

namespace ssml

theorem Serialize_eq (pretty : Bool) (speak : Speak)
    (h : knownList (markupList speak.Content) = true) :
    (NewSerializer pretty).Serialize (some speak)
      = (String.mk ("<?xml version=\"1.0\" encoding=\"UTF-8\"?>".data
          ++ render (documentPieces pretty speak)), none) := by
  simp only [Serializer.Serialize, newline_data]
  rw [serializeSpeak_eq pretty _ speak _
    (fun l1 => serializeContent_eq pretty speak.Content l1 (0 + 1) h)]
  simp only [documentPieces, Speak.markup, render_cons, render_pieces_element,
    markupList_isEmpty, Bool.and_true, decide_eq_true_eq, Piece.render, escape_newlineChars,
    List.append_assoc]

theorem tokens_declaration (n : Nat) (tail : List Char) :
    xml.tokens (n + 1) ("<?xml version=\"1.0\" encoding=\"UTF-8\"?>".data ++ tail)
      = xml.consToken (.ProcInst "xml" "version=\"1.0\" encoding=\"UTF-8\"")
          (xml.tokens n tail) := by
  rfl

end ssml

namespace ssml

theorem flush_misc (pending : List Char) : ∀ t ∈ flush pending, t.isMisc = true := by
  intro t ht
  unfold flush at ht
  split at ht
  · cases ht
  · simp only [List.mem_singleton] at ht
    subst ht
    rfl

/-- The tokens that the decoder reads from the text that `Serialize` writes after
the XML declaration: a speak element between character data, whose content is a
well-formed sequence of children. -/
theorem scan_document (cfg : ValidationConfig) (pretty : Bool) (speak : Speak)
    (hok : okList (markupList speak.Content) = true) :
    ∃ pro body epi nodes,
      (scan [] (documentPieces pretty speak)).1 ++ flush (scan [] (documentPieces pretty speak)).2
        = pro ++ .StartElement (xml.splitName "speak".data)
            (attrTokens [("version", speak.Version), ("xml:lang", speak.Lang)])
          :: (body ++ .EndElement (xml.splitName "speak".data) :: epi)
      ∧ (∀ t ∈ pro, t.isMisc = true) ∧ (∀ t ∈ epi, t.isMisc = true)
      ∧ Content cfg body nodes
      ∧ elemDepth nodes = elemDepth speak.Content
      ∧ nodes.length = countRuns false speak.Content := by
  have hdoc : scan [] (documentPieces pretty speak)
      = scan (newlineChars pretty) (speak.markup.pieces pretty 0) := by
    simp only [documentPieces, scan, List.nil_append]
  rw [hdoc]
  by_cases he : ((markupList speak.Content).isEmpty && true) = true
  · have hc : speak.Content = [] := by
      rw [Bool.and_true, markupList_isEmpty_iff, List.isEmpty_iff] at he
      exact he
    have hp : speak.markup.pieces pretty 0
        = [.text (indentChars pretty 0),
            .startTag "speak" [("version", speak.Version), ("xml:lang", speak.Lang)] true,
            .text (newlineChars pretty)] := by
      rw [Speak.markup, Markup.pieces, if_pos he]
    rw [hp, scan_empty_element]
    refine ⟨flush (newlineChars pretty ++ indentChars pretty 0), [], flush (newlineChars pretty),
      [], ?_, flush_misc _, flush_misc _, Content.nil, ?_, ?_⟩
    · simp only [List.append_assoc, List.cons_append, List.nil_append]
    · rw [hc]
    · rw [hc]; rfl
  · have hp : speak.markup.pieces pretty 0
        = [.text (indentChars pretty 0),
            .startTag "speak" [("version", speak.Version), ("xml:lang", speak.Lang)] false,
            .text (newlineChars pretty)]
          ++ (piecesList pretty (0 + 1) (markupList speak.Content)
            ++ [.text (indentChars pretty 0), .endTag "speak",
              .text (newlineChars pretty)]) := by
      rw [Speak.markup, Markup.pieces, if_neg he]
    obtain ⟨inner, hinner, hdepth, hlen, _⟩ :=
      piecesList_content cfg pretty (markupList speak.Content) (0 + 1) (newlineChars pretty) hok
    rw [hp, scan_element]
    refine ⟨flush (newlineChars pretty ++ indentChars pretty 0), _, flush (newlineChars pretty),
      inner ++ textNodes ((scan (newlineChars pretty)
        (piecesList pretty (0 + 1) (markupList speak.Content))).2 ++ indentChars pretty 0),
      ?_, flush_misc _, flush_misc _,
      Content_append cfg _ _ hinner _ _ (Content_flush cfg _), ?_, ?_⟩
    · simp only [List.append_assoc, List.cons_append, List.nil_append]
    · rw [elemDepth_append, elemDepth_textNodes, hdepth, markupList_depth]
      simp
    · rw [List.length_append, length_textNodes, solid_pending_indent]
      rw [solid_newlineChars, markupList_countRuns] at hlen
      simpa using hlen

end ssml

namespace ssml

theorem documentPieces_valid (pretty : Bool) (speak : Speak)
    (hx : speak.xmlChars = true) (hok : okList (markupList speak.Content) = true) :
    (documentPieces pretty speak).all Piece.valid = true := by
  simp only [Speak.xmlChars, Bool.and_eq_true, xmlString] at hx
  obtain ⟨⟨hv, hl⟩, _⟩ := hx
  have hin := piecesList_valid pretty (markupList speak.Content) (0 + 1) hok
  have hgood : xml.goodName "speak".data = true := by decide
  have hg1 : xml.goodName "version".data = true := by decide
  have hg2 : xml.goodName "xml:lang".data = true := by decide
  simp only [documentPieces, Speak.markup, Markup.pieces]
  split
  · simp only [List.all_cons, List.all_nil, Bool.and_true, Piece.valid, indentChars_range,
      newlineChars_range, hgood, hg1, hg2, hv, hl, Bool.and_self]
  · simp only [List.all_cons, List.all_nil, List.all_append, Bool.and_true, Piece.valid,
      indentChars_range, newlineChars_range, hgood, hg1, hg2, hv, hl, hin, Bool.and_self]

theorem tokenize_document (pretty : Bool) (speak : Speak)
    (hx : speak.xmlChars = true) (hok : okList (markupList speak.Content) = true) :
    xml.tokenize (String.mk ("<?xml version=\"1.0\" encoding=\"UTF-8\"?>".data
        ++ render (documentPieces pretty speak)))
      = (.ProcInst "xml" "version=\"1.0\" encoding=\"UTF-8\""
          :: ((scan [] (documentPieces pretty speak)).1
            ++ flush (scan [] (documentPieces pretty speak)).2), none) := by
  unfold xml.tokenize
  rw [mk_data, tokens_declaration]
  have h := tokens_render (documentPieces pretty speak) []
    ("<?xml version=\"1.0\" encoding=\"UTF-8\"?>".data
        ++ render (documentPieces pretty speak)).length
    (documentPieces_valid pretty speak hx hok) rfl (by
      rw [List.flatMap_nil, List.nil_append, List.length_append]
      have : 0 < "<?xml version=\"1.0\" encoding=\"UTF-8\"?>".data.length := by decide
      omega)
  simp only [List.flatMap_nil, List.nil_append] at h
  rw [h]
  rfl

theorem parseSpeak_attrs (version lang : String) (name : xml.Name) :
    (attrTokens [("version", version), ("xml:lang", lang)]).foldl parseSpeak.attr
        { XMLName := name, Version := "", Lang := "", Content := [] }
      = { XMLName := name, Version := String.mk (xml.normalize false version.data),
          Lang := String.mk (xml.normalize false lang.data), Content := [] } := by
  have h1 : xml.splitName "version".data = ⟨"", "version"⟩ := by decide
  have h2 : xml.splitName "xml:lang".data = ⟨"xml", "lang"⟩ := by decide
  have he : String.mk (xml.normalize false "".data) = "" := rfl
  by_cases hv : version = "" <;> by_cases hl : lang = "" <;>
    simp [attrTokens, hv, hl, h1, h2, parseSpeak.attr, he]

end ssml

namespace ssml

theorem countRuns_length : ∀ (c : List Node) (b : Bool),
    adjacentTexts c = false →
    (b && (match c with
      | [] => false
      | item :: _ => item.isText)) = false →
    countRuns b c = c.length
  | [], _, _, _ => rfl
  | item :: rest, b, h, hb => by
    simp only [adjacentTexts, Bool.or_eq_false_iff] at h
    simp only at hb
    rw [countRuns, hb, countRuns_length rest item.isText h.2 (by
      cases rest with
      | nil => simp
      | cons next rest1 => exact h.1)]
    simp only [Bool.false_eq_true, if_false, List.length_cons]
    omega

/-- What `ParseReader` returns, in the default configuration, for a document that
the token loop reads to a clean end with a root that nests no deeper than
allowed. -/
theorem ParseReader_done (toks : List xml.Token) (root : Speak)
    (hrun : Machine.run DefaultValidationConfig none toks [] Machine.init
      = .done { Root := none, Warnings := [], Errors := [] } (some root))
    (hdepth : elemDepth root.Content ≤ 10) :
    ∃ result, ParseReader DefaultValidationConfig (xml.NewDecoder toks none)
        = some (result, none) ∧ result.Root = some root := by
  rw [ParseReader_eq_run]
  simp only [xml.NewDecoder]
  rw [hrun]
  simp only [validate, DefaultValidationConfig, Bool.false_eq_true, if_false,
    basicValidation, validateNestingDepth_eq, zero_add]
  rw [if_neg (by omega)]
  refine ⟨_, rfl, ?_⟩
  split_ifs <;> rfl

end ssml

namespace ssml

/-- C1, as amended (round trip).  Take any document that the parser accepts in
the default configuration, with resulting document `D`, whose texts and
attribute values hold only characters that XML allows (as everything a decoder
hands out does) and whose `Version` and `Lang` hold no carriage return.  Then,
for `pretty = true` and for `pretty = false`, `Serialize(D)` succeeds, `Parse` of
the serialized text succeeds, and the re-parsed document has the same `Version`
and the same `Lang` as `D`; its number of top-level content items is the number
of top-level items of `D` with every run of adjacent `Text` items counted once,
which is the number of top-level items of `D` when no two `Text` items are
adjacent at the top level. -/
theorem Parse_round_trip (toks : List xml.Token) (lexErr : Option String)
    (result : ParseResult) (D : Speak) (pretty : Bool)
    (hparse : ParseReader DefaultValidationConfig (xml.NewDecoder toks lexErr)
      = some (result, none))
    (hroot : result.Root = some D)
    (hchars : D.xmlChars = true)
    (hcr : '\r' ∉ D.Version.data ∧ '\r' ∉ D.Lang.data) :
    ∃ text result2 D2,
      (NewSerializer pretty).Serialize (some D) = (text, none)
        ∧ Parse DefaultValidationConfig text = some (result2, none)
        ∧ result2.Root = some D2
        ∧ D2.Version = D.Version ∧ D2.Lang = D.Lang
        ∧ D2.Content.length = countRuns false D.Content
        ∧ (adjacentTexts D.Content = false → D2.Content.length = D.Content.length) := by
  obtain ⟨D1, hD1, hparsed, hdepth⟩ := ParseReader_accepts toks lexErr result hparse
  rw [hroot] at hD1
  cases hD1
  have hx : xmlCharsList D.Content = true := by
    simp only [Speak.xmlChars, Bool.and_eq_true] at hchars
    exact hchars.2
  have hok := markupList_ok D.Content hparsed hx
  obtain ⟨pro, body, epi, nodes, htoks, hpro, hepi, hbody, hnd, hlen⟩ :=
    scan_document DefaultValidationConfig pretty D hok
  have hrun := Machine.run_document DefaultValidationConfig
    (.ProcInst "xml" "version=\"1.0\" encoding=\"UTF-8\"" :: pro) body epi
    (xml.splitName "speak".data)
    (attrTokens [("version", D.Version), ("xml:lang", D.Lang)]) nodes rfl
    (by
      intro t ht
      rcases List.mem_cons.mp ht with h | h
      · subst h; rfl
      · exact hpro t h)
    hepi hbody
  rw [parseSpeak_attrs, normalize_id _ hcr.1, normalize_id _ hcr.2] at hrun
  obtain ⟨result2, hres, hroot2⟩ := ParseReader_done _ _ hrun (by
    show elemDepth nodes ≤ 10
    rw [hnd]; exact hdepth)
  refine ⟨_, result2, _, Serialize_eq pretty D (knownList_of_ok _ hok), ?_, hroot2, rfl, rfl,
    hlen, ?_⟩
  · unfold Parse
    rw [tokenize_document pretty D hchars hok, htoks]
    exact hres
  · intro hadj
    show nodes.length = D.Content.length
    rw [hlen]
    exact countRuns_length D.Content false hadj rfl

end ssml

set_option maxRecDepth 100000

namespace ssml

/-- C1 at the document of the test `TestParseSerializeRoundtrip`, which the
parser accepts, serialized with `pretty = true` as the test does. -/
theorem Parse_round_trip_witness :
    Parse DefaultValidationConfig roundtripDocument
        = some ({ Root := some roundtripRoot, Warnings := [], Errors := [] }, none)
      ∧ ∃ text result2 D2,
        (NewSerializer true).Serialize (some roundtripRoot) = (text, none)
          ∧ Parse DefaultValidationConfig text = some (result2, none)
          ∧ result2.Root = some D2
          ∧ D2.Version = roundtripRoot.Version ∧ D2.Lang = roundtripRoot.Lang
          ∧ D2.Content.length = countRuns false roundtripRoot.Content
          ∧ (adjacentTexts roundtripRoot.Content = false
              → D2.Content.length = roundtripRoot.Content.length) :=
  ⟨rfl,
    Parse_round_trip (xml.tokenize roundtripDocument).1 (xml.tokenize roundtripDocument).2
      { Root := some roundtripRoot, Warnings := [], Errors := [] } roundtripRoot true
      rfl rfl rfl ⟨by decide, by decide⟩⟩

/-- C1, counterexample.  In the default configuration the parser accepts
`<speak version="1.0" xml:lang="en">a<u></u>b</speak>`: it skips the unknown
element `u`, and the character data before and after it become two `Text` items.
`Serialize` writes the two texts one after the other, as
`<speak version="1.0" xml:lang="en">ab</speak>` without and on two lines with
pretty printing, and in both texts the parser reads a single run of character
data: the re-parsed document has one top-level item where the document had two.
Similarly the parser accepts `<speak version="1&#13;0" xml:lang="en">x</speak>`,
whose version holds a carriage return; `Serialize` writes that character as it
is, the decoder reads it as a line feed, and the re-parsed `Version` differs. -/
theorem Parse_round_trip_counterexample :
    (Parse DefaultValidationConfig "<speak version=\"1.0\" xml:lang=\"en\">a<u></u>b</speak>"
        = some ({ Root := some { XMLName := ⟨"", "speak"⟩, Version := "1.0", Lang := "en",
                                 Content := [Node.Text "a", Node.Text "b"] },
                  Warnings := [], Errors := [] }, none)
      ∧ (NewSerializer false).Serialize
          (some { XMLName := ⟨"", "speak"⟩, Version := "1.0", Lang := "en",
                  Content := [Node.Text "a", Node.Text "b"] })
        = ("<?xml version=\"1.0\" encoding=\"UTF-8\"?><speak version=\"1.0\" xml:lang=\"en\">ab</speak>",
            none)
      ∧ Parse DefaultValidationConfig
          "<?xml version=\"1.0\" encoding=\"UTF-8\"?><speak version=\"1.0\" xml:lang=\"en\">ab</speak>"
        = some ({ Root := some { XMLName := ⟨"", "speak"⟩, Version := "1.0", Lang := "en",
                                 Content := [Node.Text "ab"] },
                  Warnings := [], Errors := [] }, none)
      ∧ (NewSerializer true).Serialize
          (some { XMLName := ⟨"", "speak"⟩, Version := "1.0", Lang := "en",
                  Content := [Node.Text "a", Node.Text "b"] })
        = ("<?xml version=\"1.0\" encoding=\"UTF-8\"?>\n<speak version=\"1.0\" xml:lang=\"en\">\n  a\n  b\n</speak>\n",
            none)
      ∧ Parse DefaultValidationConfig
          "<?xml version=\"1.0\" encoding=\"UTF-8\"?>\n<speak version=\"1.0\" xml:lang=\"en\">\n  a\n  b\n</speak>\n"
        = some ({ Root := some { XMLName := ⟨"", "speak"⟩, Version := "1.0", Lang := "en",
                                 Content := [Node.Text "a\n  b"] },
                  Warnings := [], Errors := [] }, none))
    ∧ (Parse DefaultValidationConfig "<speak version=\"1&#13;0\" xml:lang=\"en\">x</speak>"
        = some ({ Root := some { XMLName := ⟨"", "speak"⟩, Version := "1\r0", Lang := "en",
                                 Content := [Node.Text "x"] },
                  Warnings := [], Errors := [] }, none)
      ∧ (NewSerializer false).Serialize
          (some { XMLName := ⟨"", "speak"⟩, Version := "1\r0", Lang := "en",
                  Content := [Node.Text "x"] })
        = ("<?xml version=\"1.0\" encoding=\"UTF-8\"?><speak version=\"1\r0\" xml:lang=\"en\">x</speak>",
            none)
      ∧ Parse DefaultValidationConfig
          "<?xml version=\"1.0\" encoding=\"UTF-8\"?><speak version=\"1\r0\" xml:lang=\"en\">x</speak>"
        = some ({ Root := some { XMLName := ⟨"", "speak"⟩, Version := "1\n0", Lang := "en",
                                 Content := [Node.Text "x"] },
                  Warnings := [], Errors := [] }, none)) :=
  ⟨⟨rfl, rfl, rfl, rfl, rfl⟩, rfl, rfl, rfl⟩

end ssml

namespace xml

theorem consText_inv (c : Char) (r : Except String (List Char × List Char))
    (data rest : List Char) (h : consText c r = .ok (data, rest)) :
    ∃ d, r = .ok (d, rest) := by
  cases r with
  | error e => cases h
  | ok p =>
    obtain ⟨d, r1⟩ := p
    simp only [consText, Except.ok.injEq, Prod.mk.injEq] at h
    exact ⟨d, by rw [h.2]⟩

theorem text_length (quote : Option Char) (input : List Char) :
    ∀ (b0 b1 : Char) (ent : Option (List Char)) (data rest : List Char),
      text quote b0 b1 ent input = .ok (data, rest) → rest.length ≤ input.length := by
  induction input with
  | nil =>
    intro b0 b1 ent data rest h
    cases ent with
    | none =>
      simp only [text] at h
      split at h
      · cases h
      · cases h; simp
    | some e => simp [text] at h
  | cons b input ih =>
    intro b0 b1 ent data rest h
    cases ent with
    | none =>
      simp only [text] at h
      split_ifs at h
      · cases h; simp
      · cases h; simp
      · exact Nat.le_succ_of_le (ih _ _ _ _ _ h)
      · obtain ⟨d, hd⟩ := consText_inv _ _ _ _ h
        exact Nat.le_succ_of_le (ih _ _ _ _ _ hd)
      · exact Nat.le_succ_of_le (ih _ _ _ _ _ h)
      · obtain ⟨d, hd⟩ := consText_inv _ _ _ _ h
        exact Nat.le_succ_of_le (ih _ _ _ _ _ hd)
    | some e =>
      simp only [text] at h
      split_ifs at h
      · split at h
        · obtain ⟨d, hd⟩ := consText_inv _ _ _ _ h
          exact Nat.le_succ_of_le (ih _ _ _ _ _ hd)
        · cases h
      · exact Nat.le_succ_of_le (ih _ _ _ _ _ h)

theorem textData_length (quote : Option Char) (input : List Char) (s : String)
    (rest : List Char) (h : textData quote input = .ok (s, rest)) :
    rest.length ≤ input.length := by
  unfold textData at h
  split at h
  · cases h
  · rename_i data rest1 heq
    split_ifs at h
    cases h
    exact text_length quote input _ _ _ _ _ heq

theorem attrval_length (input : List Char) (s : String) (rest : List Char)
    (h : attrval input = .ok (s, rest)) : rest.length < input.length := by
  cases input with
  | nil => simp [attrval] at h
  | cons b r =>
    simp only [attrval] at h
    split_ifs at h
    have := textData_length _ _ _ _ h
    simp only [List.length_cons]
    omega

theorem name_length (expected : String) (input s rest : List Char)
    (h : name expected input = .ok (s, rest)) : rest.length < input.length := by
  unfold name at h
  simp only at h
  split_ifs at h with h1 h2 h3 h4 h5
  cases h
  have hl := congrArg List.length (List.takeWhile_append_dropWhile isNameChar input)
  rw [List.length_append] at hl
  have : 0 < (input.takeWhile isNameChar).length := List.length_pos.mpr h2
  omega

theorem nsname_length (expected : String) (input : List Char) (n : Name) (rest : List Char)
    (h : nsname expected input = .ok (n, rest)) : rest.length < input.length := by
  unfold nsname at h
  split at h
  · cases h
  · rename_i s rest1 heq
    split_ifs at h
    cases h
    exact name_length expected input s _ heq

theorem space_length (input : List Char) : (space input).length ≤ input.length :=
  (List.dropWhile_sublist isSpaceByte).length_le

end xml
namespace xml

theorem attrs_length : ∀ (fuel : Nat) (input : List Char) (acc attr : List Attr)
    (empty : Bool) (rest : List Char),
    attrs fuel input acc = .ok (attr, empty, rest) → rest.length < input.length := by
  intro fuel
  induction fuel with
  | zero => intro input acc attr empty rest h; simp [attrs] at h
  | succ n ih =>
    intro input acc attr empty rest h
    have hsp := space_length input
    rw [attrs] at h
    split at h
    · cases h
    · rename_i b r heq
      rw [heq, List.length_cons] at hsp
      split_ifs at h with h1 h2
      · split at h
        · cases h
        · rename_i b1 r1
          split_ifs at h
          cases h
          simp only [List.length_cons] at hsp
          omega
      · cases h
        omega
      · split at h
        · cases h
        · rename_i a rest1 hns
          have hl1 := nsname_length _ _ _ _ hns
          rw [List.length_cons] at hl1
          have hsp1 := space_length rest1
          split at h
          · cases h
          · rename_i b1 rest2 heq1
            rw [heq1, List.length_cons] at hsp1
            split_ifs at h
            split at h
            · cases h
            · rename_i value rest3 hav
              have hl3 := attrval_length _ _ _ hav
              have hsp2 := space_length rest2
              have := ih _ _ _ _ _ h
              omega

/-- The attribute loop does not depend on its bound, once that exceeds the
length of the input. -/
theorem attrs_fuel : ∀ (f1 f2 : Nat) (input : List Char) (acc : List Attr),
    input.length < f1 → input.length < f2 → attrs f1 input acc = attrs f2 input acc := by
  intro f1
  induction f1 with
  | zero => intro f2 input acc h; omega
  | succ n1 ih =>
    intro f2 input acc h1 h2
    cases f2 with
    | zero => omega
    | succ n2 =>
      have hsp := space_length input
      rw [attrs, attrs]
      split
      · rfl
      · rename_i b r heq
        rw [heq, List.length_cons] at hsp
        split_ifs with h3 h4
        · rfl
        · rfl
        · split
          · rfl
          · rename_i a rest1 hns
            have hl1 := nsname_length _ _ _ _ hns
            rw [List.length_cons] at hl1
            have hsp1 := space_length rest1
            split
            · rfl
            · rename_i b1 rest2 heq1
              rw [heq1, List.length_cons] at hsp1
              split_ifs
              · rfl
              · split
                · rfl
                · rename_i value rest3 hav
                  have hl3 := attrval_length _ _ _ hav
                  have hsp2 := space_length rest2
                  exact ih n2 rest3 _ (by omega) (by omega)

theorem procInstData_length : ∀ (input data rest : List Char),
    procInstData input = .ok (data, rest) → rest.length < input.length := by
  intro input
  induction input with
  | nil => intro data rest h; simp [procInstData] at h
  | cons b r ih =>
    intro data rest h
    unfold procInstData at h
    split at h
    · cases h
      simp only [List.length_cons]
      omega
    · obtain ⟨d, hd⟩ := consText_inv _ _ _ _ h
      have := ih _ _ hd
      simp only [List.length_cons]
      omega

theorem textData_cons_length (b : Char) (input : List Char) (hb : b ≠ '<') (s : String)
    (rest : List Char) (h : textData none (b :: input) = .ok (s, rest)) :
    rest.length ≤ input.length := by
  unfold textData at h
  split at h
  · cases h
  · rename_i data rest1 heq
    split_ifs at h
    cases h
    simp only [text] at heq
    split_ifs at heq
    all_goals first
      | exact text_length _ _ _ _ _ _ _ heq
      | (obtain ⟨d, hd⟩ := consText_inv _ _ _ _ heq
         exact text_length _ _ _ _ _ _ _ hd)
      | (exfalso; assumption)

/-- The tokens of a text do not depend on the bound, once that exceeds the length
of the text: the bound that `tokenize` supplies never runs out. -/
theorem tokens_fuel : ∀ (f1 f2 : Nat) (input : List Char),
    input.length < f1 → input.length < f2 → tokens f1 input = tokens f2 input := by
  intro f1
  induction f1 with
  | zero => intro f2 input h; omega
  | succ n1 ih =>
    intro f2 input h1 h2
    cases f2 with
    | zero => omega
    | succ n2 =>
      cases input with
      | nil => rfl
      | cons b rest =>
        rw [List.length_cons] at h1 h2
        simp only [tokens]
        split_ifs with hb
        · split
          · rfl
          · rename_i data rest1 htd
            have := textData_cons_length _ _ hb _ _ htd
            rw [ih n2 rest1 (by omega) (by omega)]
        · cases rest with
          | nil => rfl
          | cons b1 rest1 =>
            rw [List.length_cons] at h1 h2
            simp only
            split_ifs
            · split
              · rfl
              · rename_i n rest2 hns
                have hl := nsname_length _ _ _ _ hns
                have hsp := space_length rest2
                split
                · rfl
                · rename_i b2 rest3 heq
                  rw [heq, List.length_cons] at hsp
                  split_ifs
                  · rfl
                  · rw [ih n2 rest3 (by omega) (by omega)]
            · split
              · rfl
              · rename_i target rest2 hn
                have hl := name_length _ _ _ _ hn
                have hsp := space_length rest2
                split
                · rfl
                · rename_i data rest3 hpi
                  have hl3 := procInstData_length _ _ _ hpi
                  split_ifs
                  · rfl
                  · rw [ih n2 rest3 (by omega) (by omega)]
            · rfl
            · split
              · rfl
              · rename_i n rest2 hns
                have hl := nsname_length _ _ _ _ hns
                rw [List.length_cons] at hl
                split
                · rfl
                · rename_i attr empty rest3 hat
                  have hl3 := attrs_length _ _ _ _ _ _ hat
                  split_ifs
                  · rw [ih n2 rest3 (by omega) (by omega)]
                  · rw [ih n2 rest3 (by omega) (by omega)]

end xml

namespace ssml

theorem validate_root (cfg : ValidationConfig) (root : Speak) (r : ParseResult) :
    (validate cfg root r).1.Root = r.Root
      ∧ ∀ err, (validate cfg root r).2 = some err → err ∈ validationErrors cfg := by
  unfold validate strictValidation basicValidation validationErrors
  simp only [validateNestingDepth_eq]
  split_ifs <;> simp

theorem unknown_ne_validation (cfg : ValidationConfig) (tagName : String) :
    GoError.errorString ("unknown element: " ++ tagName) ∉ validationErrors cfg := by
  have h : ∀ (a b : String), ("unknown element: " ++ a).data.head? = some 'u' := by
    intro a b; rfl
  intro hm
  simp only [validationErrors, nestingError, List.mem_cons, List.mem_singleton,
    GoError.errorString.injEq, List.not_mem_nil, or_false] at hm
  rcases hm with hm | hm | hm
  · have := congrArg (fun s => s.data.head?) hm
    simp only [h _ ""] at this
    exact absurd this (by decide)
  · have := congrArg (fun s => s.data.head?) hm
    simp only [h _ ""] at this
    exact absurd this (by decide)
  · have := congrArg (fun s => s.data.head?) hm
    simp only [h _ ""] at this
    have h2 : ("maximum nesting depth exceeded: " ++ toString cfg.MaxNestingDepth).data.head?
        = some 'm' := rfl
    rw [h2] at this
    exact absurd this (by decide)

theorem Machine.step_error_kind (cfg : ValidationConfig) (m : Machine) (tok : xml.Token)
    (r : ParseResult) (e : GoError) (h : m.step cfg tok = .error (r, e)) :
    ∃ tagName, e = .errorString ("unknown element: " ++ tagName) := by
  unfold Machine.step at h
  split at h
  · split at h
    · split at h <;> cases h
    · cases h
  · split at h
    · split at h
      · split at h <;> cases h
      · cases h
    · split at h
      · split at h
        · cases h
        · cases h
        · cases h
        · rename_i tagName _
          cases h
          exact ⟨tagName, rfl⟩
      · split at h <;> cases h
      · split at h <;> cases h
      · cases h

end ssml
namespace ssml

theorem nestStep_error_kind (stk : List xml.Name) (tok : xml.Token) (e : GoError)
    (h : xml.nestStep stk tok = .error e) : ∃ msg, e = .SyntaxError msg := by
  cases tok with
  | EndElement name =>
    cases stk with
    | nil => simp only [xml.nestStep] at h; cases h; exact ⟨_, rfl⟩
    | cons top stk1 =>
      simp only [xml.nestStep] at h
      split_ifs at h <;> cases h <;> exact ⟨_, rfl⟩
  | StartElement n a => cases h
  | CharData d => cases h
  | Comment d => cases h
  | ProcInst t i => cases h
  | Directive d => cases h

theorem not_validation_of_syntax (cfg : ValidationConfig) (e : GoError)
    (h : e = .EOF ∨ ∃ msg, e = .SyntaxError msg) : e ∉ validationErrors cfg := by
  rcases h with h | ⟨msg, h⟩ <;> subst h <;> simp [validationErrors, nestingError]

theorem Machine.stop_returned (m : Machine) (e : GoError) (r : ParseResult) (e1 : GoError)
    (h : m.stop e = .returned r e1) : e1 = e ∧ r.Root = m.result.Root := by
  unfold Machine.stop at h
  split at h
  · split at h
    · cases h
    · cases h; exact ⟨rfl, rfl⟩
  · cases h; exact ⟨rfl, rfl⟩

/-- An error with which the token loop returns is not one of `validate`, and the
loop leaves `Root` as it was. -/
theorem Machine.run_returned (cfg : ValidationConfig) (le : Option String)
    (input : List xml.Token) : ∀ (stk : List xml.Name) (m : Machine) (r : ParseResult)
      (e : GoError), Machine.run cfg le input stk m = .returned r e →
        r.Root = m.result.Root ∧ e ∉ validationErrors cfg := by
  induction input with
  | nil =>
    intro stk m r e h
    obtain ⟨e0, he, hE⟩ := xml.Decoder.Token_nil le stk
    rw [Machine.run, he] at h
    obtain ⟨h1, h2⟩ := Machine.stop_returned m e0 r e h
    subst h1
    refine ⟨h2, not_validation_of_syntax cfg _ ?_⟩
    cases le with
    | some msg => right; simp only [xml.Decoder.Token] at he; cases he; exact ⟨_, rfl⟩
    | none =>
      cases stk with
      | nil => left; simp only [xml.Decoder.Token] at he; cases he; rfl
      | cons a b => right; simp only [xml.Decoder.Token] at he; cases he; exact ⟨_, rfl⟩
  | cons tok rest ih =>
    intro stk m r e h
    rw [Machine.run_cons] at h
    cases hn : xml.nestStep stk tok with
    | error e0 =>
      rw [hn] at h
      obtain ⟨h1, h2⟩ := Machine.stop_returned m e0 r e h
      subst h1
      exact ⟨h2, not_validation_of_syntax cfg _ (Or.inr (nestStep_error_kind stk tok _ hn))⟩
    | ok s =>
      rw [hn] at h
      simp only at h
      cases hs : m.step cfg tok with
      | error re =>
        obtain ⟨r0, e0⟩ := re
        rw [hs] at h
        cases h
        obtain ⟨tagName, ht⟩ := Machine.step_error_kind cfg m tok _ _ hs
        subst ht
        exact ⟨(Machine.step_error_result cfg _ _ _ _ hs).1, unknown_ne_validation cfg tagName⟩
      | ok m1 =>
        rw [hs] at h
        obtain ⟨h1, h2⟩ := ih s m1 r e h
        exact ⟨h1.trans (Machine.step_ok_result cfg _ _ _ hs).1, h2⟩

end ssml
namespace ssml

/-- C11 (no document on failure).  Whenever `ParseReader` returns an error, the
result's `Root` is absent exactly when the error is not one of the three errors
of `validate`: on malformed markup, a missing root or an unknown element the
result has no root, but when the document has been parsed and `validate` rejects
it (nesting too deep, or a missing version or language in strict mode) the
result holds the parsed tree, because `ParseReader` stores the root in the
result before it calls `validate`. -/
theorem ParseReader_root_on_error (cfg : ValidationConfig) (toks : List xml.Token)
    (le : Option String) (result : ParseResult) (err : GoError)
    (h : ParseReader cfg (xml.NewDecoder toks le) = some (result, some err)) :
    (err ∉ validationErrors cfg → result.Root = none)
      ∧ (err ∈ validationErrors cfg → ∃ root, result.Root = some root) := by
  rw [ParseReader_eq_run] at h
  simp only [xml.NewDecoder] at h
  cases hr : Machine.run cfg le toks [] Machine.init with
  | fuel => rw [hr] at h; cases h
  | returned r e =>
    rw [hr] at h
    cases h
    obtain ⟨h1, h2⟩ := Machine.run_returned cfg le toks [] Machine.init _ _ hr
    exact ⟨fun _ => h1, fun hm => absurd hm h2⟩
  | done r root =>
    rw [hr] at h
    cases root with
    | none =>
      cases h
      refine ⟨fun _ => ?_, fun hm => ?_⟩
      · rcases Machine.run_cases cfg le toks [] Machine.init with
          ⟨r1, e1, h1, _⟩ | ⟨r1, root1, h1, h2, _⟩
        · rw [hr] at h1; cases h1
        · rw [hr] at h1; cases h1; exact h2
      · exfalso
        simp only [validationErrors, nestingError, List.mem_cons, List.mem_singleton,
          GoError.errorString.injEq, List.not_mem_nil, or_false] at hm
        rcases hm with hm | hm | hm
        · exact absurd hm (by decide)
        · exact absurd hm (by decide)
        · have := congrArg (fun s => s.data.head?) hm
          have h2 : ("maximum nesting depth exceeded: "
              ++ toString cfg.MaxNestingDepth).data.head? = some 'm' := rfl
          simp only [h2] at this
          exact absurd this (by decide)
    | some root =>
      have hv := validate_root cfg root { r with Root := some root }
      have h1 := Option.some.inj h
      rw [h1] at hv
      exact ⟨fun hn => absurd (hv.2 err rfl) hn, fun _ => ⟨root, hv.1⟩⟩

/-- C11 at a document that nests two elements, parsed with `MaxNestingDepth = 1`:
`<speak version="1.0" xml:lang="en"><p><s>x</s></p></speak>` is rejected with the
nesting error, and the result holds the whole tree. -/
theorem ParseReader_root_on_error_witness :
    ParseReader shallowConfig (xml.NewDecoder nestedTokens none)
      = some
        ({ Root := some nestedRoot, Warnings := [],
           Errors := ["maximum nesting depth exceeded: 1"] },
          some (.errorString "maximum nesting depth exceeded: 1"))
      ∧ ((GoError.errorString "maximum nesting depth exceeded: 1" ∉ validationErrors shallowConfig
          → some nestedRoot = none)
        ∧ (GoError.errorString "maximum nesting depth exceeded: 1" ∈ validationErrors shallowConfig
          → ∃ root, some nestedRoot = some root)) :=
  ⟨rfl, ParseReader_root_on_error shallowConfig nestedTokens none
    { Root := some nestedRoot, Warnings := [],
      Errors := ["maximum nesting depth exceeded: 1"] }
    (.errorString "maximum nesting depth exceeded: 1") rfl⟩

end ssml

namespace ssml

theorem allTextsList_append (p : String → Bool) (a b : List Node) :
    allTextsList p (a ++ b) = (allTextsList p a && allTextsList p b) := by
  induction a with
  | nil => simp [allTextsList]
  | cons x a ih => simp only [List.cons_append, allTextsList, List.append_eq, ih, Bool.and_assoc]

theorem Open.close_allTexts (p : String → Bool) (elem : Open) (c : List Node) :
    (elem.close c).allTexts p = allTextsList p c := by
  cases elem <;> rfl

theorem Machine.step_allTexts (p : String → Bool)
    (hp : ∀ s, strings.TrimSpace s ≠ "" → p (strings.TrimSpace s) = true)
    (cfg : ValidationConfig) (m m1 : Machine) (tok : xml.Token)
    (h : m.step cfg tok = .ok m1) (hi : m.allTexts p = true) : m1.allTexts p = true := by
  obtain ⟨res, root, speak, frames, content, skip⟩ := m
  simp only [Machine.allTexts, Bool.and_eq_true] at hi
  obtain ⟨⟨hroot, hcontent⟩, hframes⟩ := hi
  unfold Machine.step at h
  cases speak with
  | none =>
    simp only at h
    split at h
    · split at h
      · cases h
        simp only [Machine.allTexts, Bool.and_eq_true, allTextsList, List.all_nil]
        exact ⟨⟨hroot, trivial⟩, trivial⟩
      · cases h
        simp only [Machine.allTexts, Bool.and_eq_true]
        exact ⟨⟨hroot, hcontent⟩, hframes⟩
    · cases h
      simp only [Machine.allTexts, Bool.and_eq_true]
      exact ⟨⟨hroot, hcontent⟩, hframes⟩
  | some sp =>
    cases skip with
    | some sk =>
      simp only at h
      split at h
      · split at h
        · cases h
          cases sk with
          | breakElem b =>
            simp only [Machine.endSkip, Machine.allTexts, Bool.and_eq_true, allTextsList_append,
              allTextsList, Node.allTexts, Bool.and_true]
            exact ⟨⟨hroot, hcontent⟩, hframes⟩
          | unknown t =>
            simp only [Machine.endSkip, Machine.allTexts, Bool.and_eq_true]
            exact ⟨⟨hroot, hcontent⟩, hframes⟩
        · cases h
          simp only [Machine.allTexts, Bool.and_eq_true]
          exact ⟨⟨hroot, hcontent⟩, hframes⟩
      · cases h
        simp only [Machine.allTexts, Bool.and_eq_true]
        exact ⟨⟨hroot, hcontent⟩, hframes⟩
    | none =>
      simp only at h
      split at h
      · split at h
        · cases h
          simp only [Machine.allTexts, Bool.and_eq_true, allTextsList, List.all_cons]
          exact ⟨⟨hroot, trivial⟩, hcontent, hframes⟩
        · cases h
          simp only [Machine.allTexts, Bool.and_eq_true]
          exact ⟨⟨hroot, hcontent⟩, hframes⟩
        · cases h
          simp only [Machine.allTexts, Bool.and_eq_true]
          exact ⟨⟨hroot, hcontent⟩, hframes⟩
        · cases h
      · split at h
        · cases h
          rename_i hne
          simp only [Machine.allTexts, Bool.and_eq_true, allTextsList_append, allTextsList,
            Node.allTexts, Bool.and_true, decide_eq_true_eq]
          exact ⟨⟨hroot, hcontent, hp _ hne⟩, hframes⟩
        · cases h
          simp only [Machine.allTexts, Bool.and_eq_true]
          exact ⟨⟨hroot, hcontent⟩, hframes⟩
      · split at h
        · cases h
          cases frames with
          | nil =>
            simp only [Machine.leave, Machine.allTexts, Bool.and_eq_true, allTextsList,
              List.all_nil]
            exact ⟨⟨hcontent, trivial⟩, trivial⟩
          | cons f frames =>
            obtain ⟨elem, outer⟩ := f
            simp only [List.all_cons, Bool.and_eq_true] at hframes
            simp only [Machine.leave, Machine.allTexts, Bool.and_eq_true, allTextsList_append,
              allTextsList, Open.close_allTexts, Bool.and_true]
            exact ⟨⟨hroot, hframes.1, hcontent⟩, hframes.2⟩
        · cases h
          simp only [Machine.allTexts, Bool.and_eq_true]
          exact ⟨⟨hroot, hcontent⟩, hframes⟩
      · cases h
        simp only [Machine.allTexts, Bool.and_eq_true]
        exact ⟨⟨hroot, hcontent⟩, hframes⟩


theorem Machine.run_allTexts (p : String → Bool)
    (hp : ∀ s, strings.TrimSpace s ≠ "" → p (strings.TrimSpace s) = true)
    (cfg : ValidationConfig) (le : Option String)
    (input : List xml.Token) : ∀ (stk : List xml.Name) (m : Machine) (r : ParseResult)
      (root : Speak),
      Machine.run cfg le input stk m = .done r (some root) → m.allTexts p = true →
        allTextsList p root.Content = true := by
  induction input with
  | nil =>
    intro stk m r root h hm
    obtain ⟨e, he, _⟩ := Machine.run_nil cfg le stk m
    rw [he] at h
    obtain ⟨h1, _, _⟩ := Machine.stop_done m e r _ h
    simp only [Machine.allTexts, Bool.and_eq_true] at hm
    rw [← h1] at hm
    exact hm.1.1
  | cons tok rest ih =>
    intro stk m r root h hm
    rw [Machine.run_cons] at h
    cases hn : xml.nestStep stk tok with
    | error e =>
      rw [hn] at h
      obtain ⟨_, _, h3⟩ := Machine.stop_done m e r _ h
      subst h3
      exact absurd hn (xml.nestStep_ne_EOF stk tok)
    | ok s =>
      rw [hn] at h
      simp only at h
      cases hs : m.step cfg tok with
      | error e => rw [hs] at h; cases h
      | ok m1 =>
        rw [hs] at h
        exact ih s m1 r root h (Machine.step_allTexts p hp cfg m m1 tok hs hm)

end ssml
namespace ssml

theorem head_dropWhile_space (l : List Char) (a : Char)
    (h : (l.dropWhile unicode.IsSpace).head? = some a) : unicode.IsSpace a = false := by
  induction l with
  | nil => cases h
  | cons c l ih =>
    rw [List.dropWhile_cons] at h
    by_cases hc : unicode.IsSpace c = true
    · rw [if_pos hc] at h; exact ih h
    · rw [if_neg hc] at h
      cases h
      simpa using hc

theorem getLast_dropWhile_space (l : List Char) (a : Char)
    (h : (l.dropWhile unicode.IsSpace).getLast? = some a) : l.getLast? = some a := by
  induction l with
  | nil => cases h
  | cons c l ih =>
    rw [List.dropWhile_cons] at h
    by_cases hc : unicode.IsSpace c = true
    · rw [if_pos hc] at h
      have h1 := ih h
      cases l with
      | nil => cases h1
      | cons d l => rw [List.getLast?_cons_cons]; exact h1
    · rw [if_neg hc] at h; exact h

theorem trimChars_trimmed (l : List Char) (h : strings.trimChars l ≠ []) :
    ∃ a b, (strings.trimChars l).head? = some a ∧ (strings.trimChars l).getLast? = some b
      ∧ unicode.IsSpace a = false ∧ unicode.IsSpace b = false := by
  unfold strings.trimChars at h ⊢
  generalize hd : l.dropWhile unicode.IsSpace = d at h ⊢
  generalize hr : d.reverse.dropWhile unicode.IsSpace = r at h ⊢
  have hne : r ≠ [] := fun hh => h (by rw [hh]; rfl)
  obtain ⟨b, hb⟩ : ∃ b, r.head? = some b := by
    cases r with
    | nil => exact absurd rfl hne
    | cons b r => exact ⟨b, rfl⟩
  obtain ⟨a, ha⟩ : ∃ a, r.getLast? = some a := by
    cases hh : r.getLast? with
    | none => rw [List.getLast?_eq_none_iff] at hh; exact absurd hh hne
    | some a => exact ⟨a, rfl⟩
  refine ⟨a, b, ?_, ?_, ?_, ?_⟩
  · rw [List.head?_reverse]; exact ha
  · rw [List.getLast?_reverse]; exact hb
  · have h1 : d.reverse.getLast? = some a := getLast_dropWhile_space _ _ (by rw [hr]; exact ha)
    rw [List.getLast?_reverse] at h1
    exact head_dropWhile_space l a (by rw [hd]; exact h1)
  · exact head_dropWhile_space d.reverse b (by rw [hr]; exact hb)

theorem TrimSpace_trimmed (s : String) (h : strings.TrimSpace s ≠ "") :
    trimmed (strings.TrimSpace s) = true := by
  have hne : strings.trimChars s.data ≠ [] := by
    intro hh
    apply h
    unfold strings.TrimSpace
    rw [hh]
  obtain ⟨a, b, h1, h2, h3, h4⟩ := trimChars_trimmed s.data hne
  unfold trimmed strings.TrimSpace
  simp only [h1, h2, h3, h4, Bool.not_false, Bool.and_self]

end ssml
namespace xml

theorem nestStep_end_top (name : Name) (stk : List Name) :
    nestStep (name :: stk) (.EndElement name) = .ok stk := by
  simp [nestStep]

mutual
theorem Tree.tokens_openAfter : ∀ (t : Tree) (stk : List Name),
    openAfter t.tokens stk = some stk
  | .charData _, _ => rfl
  | .comment _, _ => rfl
  | .procInst _ _, _ => rfl
  | .directive _, _ => rfl
  | .element name attr children, stk => by
    simp only [Tree.tokens, openAfter, nestStep]
    rw [openAfter_append, Tree.listTokens_openAfter children (name :: stk)]
    simp only [Option.bind, openAfter, nestStep_end_top]
theorem Tree.listTokens_openAfter : ∀ (ts : List Tree) (stk : List Name),
    openAfter (Tree.listTokens ts) stk = some stk
  | [], _ => rfl
  | t :: ts, stk => by
    rw [Tree.listTokens, openAfter_append, Tree.tokens_openAfter t stk]
    exact Tree.listTokens_openAfter ts stk
end

mutual
theorem Tree.tokens_end : ∀ (t : Tree) (n : Name),
    Token.EndElement n ∈ t.tokens → t.hasElement n.Local = true
  | .charData _, n, h => by simp [Tree.tokens] at h
  | .comment _, n, h => by simp [Tree.tokens] at h
  | .procInst _ _, n, h => by simp [Tree.tokens] at h
  | .directive _, n, h => by simp [Tree.tokens] at h
  | .element name attr children, n, h => by
    simp only [Tree.tokens, List.mem_cons, List.mem_append, List.mem_singleton,
      Token.EndElement.injEq, List.not_mem_nil, or_false] at h
    simp only [Tree.hasElement, Bool.or_eq_true, beq_iff_eq]
    rcases h with h | h | h
    · cases h
    · exact Or.inr (Tree.listTokens_end children n h)
    · exact Or.inl (by rw [h])
theorem Tree.listTokens_end : ∀ (ts : List Tree) (n : Name),
    Token.EndElement n ∈ Tree.listTokens ts → Tree.listHasElement n.Local ts = true
  | [], n, h => by simp [Tree.listTokens] at h
  | t :: ts, n, h => by
    simp only [Tree.listTokens, List.mem_append] at h
    simp only [Tree.listHasElement, Bool.or_eq_true]
    rcases h with h | h
    · exact Or.inl (Tree.tokens_end t n h)
    · exact Or.inr (Tree.listTokens_end ts n h)
end

end xml

namespace ssml

mutual
theorem childNodes_content (cfg : ValidationConfig) : ∀ (t : xml.Tree),
    plainTree cfg t = true → Content cfg t.tokens (childNodes cfg t)
  | .charData data, _ => by
    have := Content.text data [] [] (@Content.nil cfg)
    simpa only [xml.Tree.tokens, childNodes, List.append_nil] using this
  | .comment data, _ => Content.comment data [] [] Content.nil
  | .procInst target inst, _ => Content.procInst target inst [] [] Content.nil
  | .directive data, _ => Content.directive data [] [] Content.nil
  | .element name attr children, h => by
    simp only [plainTree] at h
    simp only [xml.Tree.tokens, childNodes]
    cases hk : elementKind cfg name attr with
    | container elem =>
      rw [hk] at h
      exact Content.container name attr elem _ _ [] [] hk
        (childrenNodes_content cfg children h) Content.nil
    | breakElem b =>
      rw [hk] at h
      simp only [Bool.not_eq_true'] at h
      refine Content.breakElem name attr b _ [] [] hk
        (fun stk => xml.Tree.listTokens_openAfter children stk) ?_ Content.nil
      intro n hn hl
      have := xml.Tree.listTokens_end children n hn
      rw [hl, h] at this
      cases this
    | skip tagName =>
      rw [hk] at h
      simp only [Bool.not_eq_true'] at h
      refine Content.skipped name attr tagName _ [] [] hk
        (fun stk => xml.Tree.listTokens_openAfter children stk) ?_ Content.nil
      intro n hn hl
      have := xml.Tree.listTokens_end children n hn
      rw [hl, h] at this
      cases this
    | unknown tagName =>
      rw [hk] at h
      cases h
theorem childrenNodes_content (cfg : ValidationConfig) : ∀ (ts : List xml.Tree),
    plainTrees cfg ts = true → Content cfg (xml.Tree.listTokens ts) (childrenNodes cfg ts)
  | [], _ => Content.nil
  | t :: ts, h => by
    simp only [plainTrees, Bool.and_eq_true] at h
    exact Content_append cfg _ _ (childNodes_content cfg t h.1) _ _
      (childrenNodes_content cfg ts h.2)
end

end ssml
namespace ssml

/-- C12 (content construction).  For a document whose speak element has the
children `children` (any trees of character data, comments and elements in
which no break holds a break, no unrecognized element holds an element of its
own name, and unrecognized elements are allowed), `ParseReader` returns a root
whose content is `childrenNodes cfg children`: in document order, a `Text` with
the trimmed string for each character-data token that is not all white space,
one item of the matching variant for each recognized child element, with the
content built in the same way from its own children, and nothing for the other
children.  And in every tree that `ParseReader` returns, for any input, every
`Text` at any depth is non-empty and neither begins nor ends with white
space. -/
theorem ParseReader_content (cfg : ValidationConfig) (pro epi : List xml.Token)
    (name : xml.Name) (attr : List xml.Attr) (children : List xml.Tree)
    (hname : name.Local = "speak")
    (hpro : ∀ t ∈ pro, t.isMisc = true) (hepi : ∀ t ∈ epi, t.isMisc = true)
    (hplain : plainTrees cfg children = true) :
    (∃ result err D,
        ParseReader cfg
            (xml.NewDecoder (pro ++ ((xml.Tree.element name attr children).tokens ++ epi)) none)
          = some (result, err)
        ∧ result.Root = some D ∧ D.Content = childrenNodes cfg children)
      ∧ ∀ (toks : List xml.Token) (le : Option String) (result : ParseResult)
          (err : Option GoError) (D : Speak),
          ParseReader cfg (xml.NewDecoder toks le) = some (result, err) →
            result.Root = some D → allTextsList trimmed D.Content = true := by
  constructor
  · have hrun := Machine.run_document cfg pro (xml.Tree.listTokens children) epi name attr
      (childrenNodes cfg children) hname hpro hepi (childrenNodes_content cfg children hplain)
    simp only [ParseReader_eq_run, xml.NewDecoder, xml.Tree.tokens, List.cons_append,
      List.append_assoc, List.nil_append]
    rw [hrun]
    exact ⟨_, _, _, rfl, (validate_root cfg _ _).1, rfl⟩
  · intro toks le result err D h hD
    rw [ParseReader_eq_run] at h
    simp only [xml.NewDecoder] at h
    cases hr : Machine.run cfg le toks [] Machine.init with
    | fuel => rw [hr] at h; cases h
    | returned r e =>
      rw [hr] at h
      cases h
      have := (Machine.run_returned cfg le toks [] Machine.init _ _ hr).1
      rw [hD] at this
      cases this
    | done r root =>
      rw [hr] at h
      cases root with
      | none =>
        cases h
        rcases Machine.run_cases cfg le toks [] Machine.init with
          ⟨r1, e1, h1, _⟩ | ⟨r1, root1, h1, h2, _⟩
        · rw [hr] at h1; cases h1
        · rw [hr] at h1
          cases h1
          rw [hD] at h2
          cases h2
      | some root =>
        have hv := (validate_root cfg root { r with Root := some root }).1
        have h1 := Option.some.inj h
        rw [h1] at hv
        simp only at hv
        rw [hD] at hv
        cases hv
        exact Machine.run_allTexts trimmed TrimSpace_trimmed cfg le toks [] Machine.init r D hr rfl

/-- C12 at `<speak> Hello <p>One<break time="1s"/><x>no</x></p>  <!--c--></speak>`
in the default configuration: the content is the text `Hello`, trimmed, and the
paragraph, whose content is the text `One` and the break. -/
theorem ParseReader_content_witness :
    plainTrees DefaultValidationConfig sampleChildren = true
      ∧ childrenNodes DefaultValidationConfig sampleChildren
        = [.Text "Hello",
           .Paragraph ⟨⟨"", "p"⟩⟩
             [.Text "One", .Break ⟨⟨"", "break"⟩, "1s", ""⟩]]
      ∧ ((∃ result err D,
          ParseReader DefaultValidationConfig
              (xml.NewDecoder
                ([] ++ ((xml.Tree.element ⟨"", "speak"⟩ [] sampleChildren).tokens ++ [])) none)
            = some (result, err)
          ∧ result.Root = some D
          ∧ D.Content = childrenNodes DefaultValidationConfig sampleChildren)
        ∧ ∀ (toks : List xml.Token) (le : Option String) (result : ParseResult)
            (err : Option GoError) (D : Speak),
            ParseReader DefaultValidationConfig (xml.NewDecoder toks le) = some (result, err) →
              result.Root = some D → allTextsList trimmed D.Content = true) :=
  ⟨rfl, rfl,
    ParseReader_content DefaultValidationConfig [] [] ⟨"", "speak"⟩ [] sampleChildren rfl
      (fun _ h => absurd h (List.not_mem_nil _)) (fun _ h => absurd h (List.not_mem_nil _)) rfl⟩

/-- C12, where the code departs from it: in
`<speak version="1.0" xml:lang="en"><u><u></u>x</u></speak>` the only child of
the speak element is an unrecognized element, but the parser, which stops
skipping at the first end tag `u`, takes the text `x` inside it for a child of
the speak element. -/
theorem ParseReader_content_counterexample :
    ParseReader DefaultValidationConfig (xml.NewDecoder nestedUnknownTokens none)
        = some ({ Root := some { XMLName := ⟨"", "speak"⟩, Version := "1.0", Lang := "en",
                                 Content := [.Text "x"] },
                  Warnings := [], Errors := [] }, none)
      ∧ childrenNodes DefaultValidationConfig
          [.element ⟨"", "u"⟩ [] [.element ⟨"", "u"⟩ [] [], .charData "x"]] = []
      ∧ plainTrees DefaultValidationConfig
          [.element ⟨"", "u"⟩ [] [.element ⟨"", "u"⟩ [] [], .charData "x"]] = false :=
  ⟨rfl, rfl, rfl⟩

end ssml

namespace ssml

theorem attrValue_foldl (name : String) (attr : List xml.Attr) : ∀ init : String,
    (∀ a ∈ attr, a.Name.Local ≠ name) →
      attr.foldl (fun value a => if a.Name.Local = name then a.Value else value) init = init := by
  induction attr with
  | nil => intro init _; rfl
  | cons a attr ih =>
    intro init h
    rw [List.foldl_cons, if_neg (h a (List.mem_cons_self _ _))]
    exact ih init (fun b hb => h b (List.mem_cons_of_mem _ hb))

theorem attrValue_absent (attr : List xml.Attr) (name : String)
    (h : ∀ a ∈ attr, a.Name.Local ≠ name) : attrValue attr name = "" :=
  attrValue_foldl name attr "" h

theorem attrValue_foldl_present (name : String) (a : xml.Attr) (attr : List xml.Attr) :
    ∀ init : String, a ∈ attr → a.Name.Local = name →
      (∀ b ∈ attr, b.Name.Local = name → b = a) →
      attr.foldl (fun value b => if b.Name.Local = name then b.Value else value) init
        = a.Value := by
  induction attr with
  | nil => intro init h; cases h
  | cons c attr ih =>
    intro init hmem hname huniq
    rw [List.foldl_cons]
    by_cases hin : a ∈ attr
    · exact ih _ hin hname (fun b hb => huniq b (List.mem_cons_of_mem _ hb))
    · have hc : c = a := by
        rcases List.mem_cons.mp hmem with h | h
        · exact h.symm
        · exact absurd h hin
      subst hc
      rw [if_pos hname]
      apply attrValue_foldl
      intro b hb hbn
      have := huniq b (List.mem_cons_of_mem _ hb) hbn
      rw [this] at hb
      exact hin hb

theorem attrValue_present (attr : List xml.Attr) (name : String) (a : xml.Attr)
    (hmem : a ∈ attr) (hname : a.Name.Local = name)
    (huniq : ∀ b ∈ attr, b.Name.Local = name → b = a) : attrValue attr name = a.Value :=
  attrValue_foldl_present name a attr "" hmem hname huniq

theorem parseSpeak_foldl (attr : List xml.Attr) : ∀ s : Speak,
    attr.foldl parseSpeak.attr s
      = { XMLName := s.XMLName,
          Version := attr.foldl (fun v a => if a.Name.Local = "version" then a.Value else v)
            s.Version,
          Lang := attr.foldl (fun v a => if a.Name.Local = "lang" then a.Value else v) s.Lang,
          Content := s.Content } := by
  induction attr with
  | nil => intro s; rfl
  | cons a attr ih =>
    intro s
    rw [List.foldl_cons, ih]
    unfold parseSpeak.attr
    split <;> simp_all

theorem parseAudio_foldl (attr : List xml.Attr) : ∀ s : Audio,
    attr.foldl parseAudio.attr s
      = { XMLName := s.XMLName,
          Src := attr.foldl (fun v a => if a.Name.Local = "src" then a.Value else v) s.Src } := by
  induction attr with
  | nil => intro s; rfl
  | cons a attr ih =>
    intro s
    rw [List.foldl_cons, ih]
    unfold parseAudio.attr
    split <;> simp_all

theorem parseBreak_foldl (attr : List xml.Attr) : ∀ s : Break,
    attr.foldl parseBreak.attr s
      = { XMLName := s.XMLName,
          Time := attr.foldl (fun v a => if a.Name.Local = "time" then a.Value else v) s.Time,
          Strength := attr.foldl (fun v a => if a.Name.Local = "strength" then a.Value else v)
            s.Strength } := by
  induction attr with
  | nil => intro s; rfl
  | cons a attr ih =>
    intro s
    rw [List.foldl_cons, ih]
    unfold parseBreak.attr
    split <;> simp_all

theorem parseEmphasis_foldl (attr : List xml.Attr) : ∀ s : Emphasis,
    attr.foldl parseEmphasis.attr s
      = { XMLName := s.XMLName,
          Level := attr.foldl (fun v a => if a.Name.Local = "level" then a.Value else v)
            s.Level } := by
  induction attr with
  | nil => intro s; rfl
  | cons a attr ih =>
    intro s
    rw [List.foldl_cons, ih]
    unfold parseEmphasis.attr
    split <;> simp_all

theorem parsePhoneme_foldl (attr : List xml.Attr) : ∀ s : Phoneme,
    attr.foldl parsePhoneme.attr s
      = { XMLName := s.XMLName,
          Alphabet := attr.foldl (fun v a => if a.Name.Local = "alphabet" then a.Value else v)
            s.Alphabet,
          Ph := attr.foldl (fun v a => if a.Name.Local = "ph" then a.Value else v) s.Ph } := by
  induction attr with
  | nil => intro s; rfl
  | cons a attr ih =>
    intro s
    rw [List.foldl_cons, ih]
    unfold parsePhoneme.attr
    split <;> simp_all

theorem parseProsody_foldl (attr : List xml.Attr) : ∀ s : Prosody,
    attr.foldl parseProsody.attr s
      = { XMLName := s.XMLName,
          Rate := attr.foldl (fun v a => if a.Name.Local = "rate" then a.Value else v) s.Rate,
          Pitch := attr.foldl (fun v a => if a.Name.Local = "pitch" then a.Value else v) s.Pitch,
          Range := attr.foldl (fun v a => if a.Name.Local = "range" then a.Value else v) s.Range,
          Volume := attr.foldl (fun v a => if a.Name.Local = "volume" then a.Value else v)
            s.Volume } := by
  induction attr with
  | nil => intro s; rfl
  | cons a attr ih =>
    intro s
    rw [List.foldl_cons, ih]
    unfold parseProsody.attr
    split <;> simp_all

theorem parseSub_foldl (attr : List xml.Attr) : ∀ s : Sub,
    attr.foldl parseSub.attr s
      = { XMLName := s.XMLName,
          Alias := attr.foldl (fun v a => if a.Name.Local = "alias" then a.Value else v)
            s.Alias } := by
  induction attr with
  | nil => intro s; rfl
  | cons a attr ih =>
    intro s
    rw [List.foldl_cons, ih]
    unfold parseSub.attr
    split <;> simp_all

theorem parseVoice_foldl (attr : List xml.Attr) : ∀ s : Voice,
    attr.foldl parseVoice.attr s
      = { XMLName := s.XMLName,
          Gender := attr.foldl (fun v a => if a.Name.Local = "gender" then a.Value else v)
            s.Gender,
          Age := attr.foldl (fun v a => if a.Name.Local = "age" then a.Value else v) s.Age,
          Variant := attr.foldl (fun v a => if a.Name.Local = "variant" then a.Value else v)
            s.Variant,
          Name := attr.foldl (fun v a => if a.Name.Local = "name" then a.Value else v) s.Name,
          Languages := attr.foldl (fun v a => if a.Name.Local = "lang" then a.Value else v)
            s.Languages } := by
  induction attr with
  | nil => intro s; rfl
  | cons a attr ih =>
    intro s
    rw [List.foldl_cons, ih]
    unfold parseVoice.attr
    split <;> simp_all

theorem parseW_foldl (attr : List xml.Attr) : ∀ s : W,
    attr.foldl parseW.attr s
      = { XMLName := s.XMLName,
          Role := attr.foldl (fun v a => if a.Name.Local = "role" then a.Value else v)
            s.Role } := by
  induction attr with
  | nil => intro s; rfl
  | cons a attr ih =>
    intro s
    rw [List.foldl_cons, ih]
    unfold parseW.attr
    split <;> simp_all

end ssml
namespace ssml

theorem foldl_filter_attr (name : String) (keep : xml.Attr → Bool)
    (hkeep : ∀ a : xml.Attr, a.Name.Local = name → keep a = true) (attr : List xml.Attr) :
    ∀ init : String,
      (attr.filter keep).foldl (fun v a => if a.Name.Local = name then a.Value else v) init
        = attr.foldl (fun v a => if a.Name.Local = name then a.Value else v) init := by
  induction attr with
  | nil => intro init; rfl
  | cons a attr ih =>
    intro init
    rw [List.filter_cons]
    by_cases hk : keep a = true
    · rw [if_pos hk, List.foldl_cons, List.foldl_cons, ih]
    · rw [if_neg hk, List.foldl_cons, ih]
      have : ¬ a.Name.Local = name := fun h => hk (hkeep a h)
      rw [if_neg this]

theorem elementKind_stripAttrs (cfg : ValidationConfig) (name : xml.Name)
    (attr : List xml.Attr) :
    elementKind cfg name
        (attr.filter (fun a => decide (a.Name.Local ∈ recognizedAttrs name.Local)))
      = elementKind cfg name attr := by
  obtain ⟨space, tag⟩ := name
  unfold elementKind
  simp only
  split
  all_goals first
    | rfl
    | (simp only [recognizedAttrs, parseAudio_foldl, parseBreak_foldl, parseEmphasis_foldl,
        parsePhoneme_foldl, parseProsody_foldl, parseSub_foldl, parseVoice_foldl, parseW_foldl]
       repeat rw [foldl_filter_attr _ _ (by intro a h; simp [h])])

theorem parseSpeak_stripAttrs (name : xml.Name) (hname : name.Local = "speak")
    (attr : List xml.Attr) (s : Speak) :
    (attr.filter (fun a => decide (a.Name.Local ∈ recognizedAttrs name.Local))).foldl
        parseSpeak.attr s
      = attr.foldl parseSpeak.attr s := by
  rw [hname]
  simp only [recognizedAttrs, parseSpeak_foldl]
  repeat rw [foldl_filter_attr _ _ (by intro a h; simp [h])]

theorem nestStep_stripAttrs (stk : List xml.Name) (tok : xml.Token) :
    xml.nestStep stk (stripAttrs tok) = xml.nestStep stk tok := by
  cases tok <;> rfl

theorem Machine.step_stripAttrs (cfg : ValidationConfig) (m : Machine) (tok : xml.Token) :
    m.step cfg (stripAttrs tok) = m.step cfg tok := by
  cases tok with
  | StartElement name attr =>
    unfold Machine.step stripAttrs
    cases m.speak with
    | none =>
      simp only
      split
      · rename_i h; rw [parseSpeak_stripAttrs name h]
      · rfl
    | some sp =>
      simp only
      cases m.skip with
      | some sk => rfl
      | none => simp only [elementKind_stripAttrs]
  | _ => rfl

theorem Machine.run_stripAttrs (cfg : ValidationConfig) (le : Option String)
    (input : List xml.Token) : ∀ (stk : List xml.Name) (m : Machine),
      Machine.run cfg le (input.map stripAttrs) stk m = Machine.run cfg le input stk m := by
  induction input with
  | nil => intro stk m; rfl
  | cons tok rest ih =>
    intro stk m
    rw [List.map_cons, Machine.run_cons, Machine.run_cons, nestStep_stripAttrs,
      Machine.step_stripAttrs]
    cases xml.nestStep stk tok with
    | error e => rfl
    | ok s =>
      simp only
      cases m.step cfg tok with
      | error e => rfl
      | ok m1 => exact ih s m1

end ssml
namespace xml

theorem translate_Local (ns : List (String × String)) (n : Name) (b : Bool) :
    (translate ns n b).Local = n.Local := by
  unfold translate
  split
  · rfl
  · split
    · rfl
    · split
      · rfl
      · dsimp only
        split <;> rfl

theorem declareAttr_other (ns : List (String × String)) (a : Attr)
    (h : a.declares = false) : declareAttr ns a = ns := by
  unfold Attr.declares at h
  simp only [Bool.or_eq_false_iff, decide_eq_false_iff_not, Bool.and_eq_false_iff] at h
  unfold declareAttr
  rw [if_neg h.1]
  dsimp only
  rw [if_neg]
  rintro ⟨h1, h2⟩
  rcases h.2 with h3 | h3
  · exact h3 h1
  · exact h3 h2

theorem declare_filter (keep : Attr → Bool)
    (hkeep : ∀ a : Attr, a.declares = true → keep a = true) (attr : List Attr) :
    ∀ ns, declare ns (attr.filter keep) = declare ns attr := by
  unfold declare
  induction attr with
  | nil => intro ns; rfl
  | cons a attr ih =>
    intro ns
    rw [List.filter_cons]
    by_cases hk : keep a = true
    · rw [if_pos hk, List.foldl_cons, List.foldl_cons, ih]
    · rw [if_neg hk, List.foldl_cons, ih]
      have hd : a.declares = false := by
        cases hda : a.declares with
        | false => rfl
        | true => exact absurd (hkeep a hda) hk
      rw [declareAttr_other ns a hd]

end xml

namespace ssml

theorem stripAttrs_translateStart (ns : List (String × String)) (name : xml.Name)
    (attr : List xml.Attr) :
    stripAttrs (xml.translateStart ns name
        (attr.filter (fun a =>
          decide (a.Name.Local ∈ recognizedAttrs name.Local) || a.declares)))
      = stripAttrs (xml.translateStart ns name attr) := by
  unfold xml.translateStart stripAttrs
  simp only [xml.translate_Local, List.filter_map, List.filter_filter]
  congr 2
  apply List.filter_congr
  intro a _
  simp only [Function.comp, xml.translate_Local]
  cases decide (a.Name.Local ∈ recognizedAttrs name.Local) <;> simp

theorem translated_stripOtherAttrs (raw : List xml.Token) (lexErr : Option String) :
    ∀ (opened : List (xml.Name × List (String × String))) (ns : List (String × String)),
      (xml.translated opened ns (raw.map stripOtherAttrs) lexErr).1.map stripAttrs
          = (xml.translated opened ns raw lexErr).1.map stripAttrs
        ∧ (xml.translated opened ns (raw.map stripOtherAttrs) lexErr).2
          = (xml.translated opened ns raw lexErr).2 := by
  induction raw with
  | nil => intro opened ns; exact ⟨rfl, rfl⟩
  | cons tok rest ih =>
    intro opened ns
    cases tok with
    | StartElement name attr =>
      simp only [List.map_cons, stripOtherAttrs, xml.translated]
      rw [xml.declare_filter _ (fun a h => by simp [h]), stripAttrs_translateStart]
      exact ⟨congrArg _ (ih _ _).1, (ih _ _).2⟩
    | EndElement name =>
      simp only [List.map_cons, stripOtherAttrs, xml.translated]
      cases opened with
      | nil => exact ⟨rfl, rfl⟩
      | cons top opened1 =>
        obtain ⟨top, outer⟩ := top
        simp only
        split
        · exact ⟨rfl, rfl⟩
        · split
          · exact ⟨rfl, rfl⟩
          · simp only [List.map_cons]
            exact ⟨congrArg _ (ih _ _).1, (ih _ _).2⟩
    | CharData data =>
      simp only [List.map_cons, stripOtherAttrs, xml.translated]
      exact ⟨congrArg _ (ih _ _).1, (ih _ _).2⟩
    | Comment data =>
      simp only [List.map_cons, stripOtherAttrs, xml.translated]
      exact ⟨congrArg _ (ih _ _).1, (ih _ _).2⟩
    | ProcInst target inst =>
      simp only [List.map_cons, stripOtherAttrs, xml.translated]
      exact ⟨congrArg _ (ih _ _).1, (ih _ _).2⟩
    | Directive data =>
      simp only [List.map_cons, stripOtherAttrs, xml.translated]
      exact ⟨congrArg _ (ih _ _).1, (ih _ _).2⟩

end ssml

namespace xml

/-- The nesting check of `Decoder.Token` never fails on translated tokens: the
check on the names as written is made by `translated`, and an end element that
passes it is handed out under the same name as its start element.  When the
check on the names as written passes throughout, the syntax error of the
tokenizer is passed on and as many elements are open at the end. -/
theorem openAfter_translated (raw : List Token) (lexErr : Option String) :
    ∀ (opened : List (Name × List (String × String))) (ns : List (String × String)),
      ∃ stk, openAfter (translated opened ns raw lexErr).1 (handedOut opened ns) = some stk
        ∧ (∀ written, openAfter raw (opened.map Prod.fst) = some written →
            stk.length = written.length ∧ (translated opened ns raw lexErr).2 = lexErr)
        ∧ (openAfter raw (opened.map Prod.fst) = none →
            ∃ msg, (translated opened ns raw lexErr).2 = some msg) := by
  induction raw with
  | nil =>
    intro opened ns
    refine ⟨handedOut opened ns, rfl, ?_, ?_⟩
    · intro written h
      simp only [openAfter, Option.some.injEq] at h
      subst h
      refine ⟨?_, rfl⟩
      clear lexErr
      induction opened generalizing ns with
      | nil => rfl
      | cons f opened ih =>
        obtain ⟨name, outer⟩ := f
        simp only [handedOut, List.map_cons, List.length_cons, ih outer]
    · intro h
      simp [openAfter] at h
  | cons tok rest ih =>
    intro opened ns
    cases tok with
    | StartElement name attr =>
      obtain ⟨stk, h1, h2, h3⟩ := ih ((name, ns) :: opened) (declare ns attr)
      refine ⟨stk, ?_, ?_, ?_⟩
      · simpa only [translated, translateStart, openAfter, nestStep, handedOut] using h1
      · simpa only [translated, openAfter, nestStep, List.map_cons] using h2
      · simpa only [translated, openAfter, nestStep, List.map_cons] using h3
    | EndElement name =>
      cases opened with
      | nil =>
        refine ⟨[], rfl, ?_, ?_⟩
        · intro written h
          simp [openAfter, nestStep] at h
        · intro _
          exact ⟨_, rfl⟩
      | cons f opened1 =>
        obtain ⟨top, outer⟩ := f
        by_cases hl : top.Local ≠ name.Local
        · refine ⟨handedOut ((top, outer) :: opened1) ns, ?_, ?_, ?_⟩
          · simp only [translated, if_pos hl]
            rfl
          · intro written h
            simp [openAfter, nestStep, hl] at h
          · intro _
            simp only [translated, if_pos hl]
            exact ⟨_, rfl⟩
        · by_cases hs : top.Space ≠ name.Space
          · refine ⟨handedOut ((top, outer) :: opened1) ns, ?_, ?_, ?_⟩
            · simp only [translated, if_neg hl, if_pos hs]
              rfl
            · intro written h
              simp [openAfter, nestStep, hl, hs] at h
            · intro _
              simp only [translated, if_neg hl, if_pos hs]
              exact ⟨_, rfl⟩
          · have hname : top = name := by
              obtain ⟨s1, l1⟩ := top
              obtain ⟨s2, l2⟩ := name
              simp only [ne_eq, not_not] at hl hs
              subst hl hs
              rfl
            subst hname
            obtain ⟨stk, h1, h2, h3⟩ := ih opened1 outer
            refine ⟨stk, ?_, ?_, ?_⟩
            · simpa only [translated, if_neg hl, if_neg hs, openAfter, nestStep, handedOut,
                ne_eq, not_true_eq_false, if_false] using h1
            · simpa only [translated, if_neg hl, if_neg hs, openAfter, nestStep, List.map_cons,
                ne_eq, not_true_eq_false, if_false] using h2
            · simpa only [translated, if_neg hl, if_neg hs, openAfter, nestStep, List.map_cons,
                ne_eq, not_true_eq_false, if_false] using h3
    | CharData data =>
      obtain ⟨stk, h1, h2, h3⟩ := ih opened ns
      exact ⟨stk, by simpa only [translated, openAfter, nestStep] using h1,
        by simpa only [translated, openAfter, nestStep] using h2,
        by simpa only [translated, openAfter, nestStep] using h3⟩
    | Comment data =>
      obtain ⟨stk, h1, h2, h3⟩ := ih opened ns
      exact ⟨stk, by simpa only [translated, openAfter, nestStep] using h1,
        by simpa only [translated, openAfter, nestStep] using h2,
        by simpa only [translated, openAfter, nestStep] using h3⟩
    | ProcInst target inst =>
      obtain ⟨stk, h1, h2, h3⟩ := ih opened ns
      exact ⟨stk, by simpa only [translated, openAfter, nestStep] using h1,
        by simpa only [translated, openAfter, nestStep] using h2,
        by simpa only [translated, openAfter, nestStep] using h3⟩
    | Directive data =>
      obtain ⟨stk, h1, h2, h3⟩ := ih opened ns
      exact ⟨stk, by simpa only [translated, openAfter, nestStep] using h1,
        by simpa only [translated, openAfter, nestStep] using h2,
        by simpa only [translated, openAfter, nestStep] using h3⟩

end xml

namespace xml

theorem translate_nil (n : Name) (h : n.Space ≠ "xml") : translate [] n true = n := by
  unfold translate
  split
  · rfl
  · split
    · rfl
    · split
      · rfl
      · simp only [if_neg h, List.lookup]

theorem declare_undeclared (attr : List Attr)
    (h : attr.all (fun a => !a.declares) = true) : ∀ ns, declare ns attr = ns := by
  unfold declare
  induction attr with
  | nil => intro ns; rfl
  | cons a attr ih =>
    intro ns
    simp only [List.all_cons, Bool.and_eq_true, Bool.not_eq_eq_eq_not, Bool.not_true] at h
    rw [List.foldl_cons, declareAttr_other ns a h.1]
    exact ih (by simpa using h.2) ns

end xml

namespace ssml

theorem foldl_map_attr (name : String) (g : xml.Attr → xml.Attr)
    (hl : ∀ a, (g a).Name.Local = a.Name.Local) (hv : ∀ a, (g a).Value = a.Value)
    (attr : List xml.Attr) (init : String) :
    (attr.map g).foldl (fun v a => if a.Name.Local = name then a.Value else v) init
      = attr.foldl (fun v a => if a.Name.Local = name then a.Value else v) init := by
  rw [List.foldl_map]
  simp only [hl, hv]

theorem elementKind_map (cfg : ValidationConfig) (name : xml.Name) (g : xml.Attr → xml.Attr)
    (hl : ∀ a, (g a).Name.Local = a.Name.Local) (hv : ∀ a, (g a).Value = a.Value)
    (attr : List xml.Attr) :
    elementKind cfg name (attr.map g) = elementKind cfg name attr := by
  obtain ⟨space, tag⟩ := name
  unfold elementKind
  simp only
  split
  all_goals first
    | rfl
    | (simp only [parseAudio_foldl, parseBreak_foldl, parseEmphasis_foldl,
        parsePhoneme_foldl, parseProsody_foldl, parseSub_foldl, parseVoice_foldl, parseW_foldl]
       repeat rw [foldl_map_attr _ g hl hv])

theorem parseSpeak_map (g : xml.Attr → xml.Attr)
    (hl : ∀ a, (g a).Name.Local = a.Name.Local) (hv : ∀ a, (g a).Value = a.Value)
    (attr : List xml.Attr) (s : Speak) :
    (attr.map g).foldl parseSpeak.attr s = attr.foldl parseSpeak.attr s := by
  simp only [parseSpeak_foldl]
  repeat rw [foldl_map_attr _ g hl hv]

theorem Machine.step_map (cfg : ValidationConfig) (m : Machine) (name : xml.Name)
    (g : xml.Attr → xml.Attr)
    (hl : ∀ a, (g a).Name.Local = a.Name.Local) (hv : ∀ a, (g a).Value = a.Value)
    (attr : List xml.Attr) :
    m.step cfg (.StartElement name (attr.map g)) = m.step cfg (.StartElement name attr) := by
  unfold Machine.step
  simp only [parseSpeak_map g hl hv, elementKind_map cfg name g hl hv]

theorem Machine.run_lexErr (cfg : ValidationConfig) (msg : String) (stk : List xml.Name)
    (m : Machine) : Machine.run cfg (some msg) [] stk m = m.stop (.SyntaxError msg) := by
  rw [Machine.run]
  rfl

theorem Machine.run_translated (cfg : ValidationConfig) (le : Option String)
    (raw : List xml.Token) (hraw : ∀ tok ∈ raw, tok.undeclared = true) :
    ∀ (opened : List (xml.Name × List (String × String))) (m : Machine),
      (∀ f ∈ opened, f.1.Space ≠ "xml" ∧ f.2 = []) →
      Machine.run cfg (xml.translated opened [] raw le).2 (xml.translated opened [] raw le).1
          (opened.map Prod.fst) m
        = Machine.run cfg le raw (opened.map Prod.fst) m := by
  induction raw with
  | nil => intro opened m _; rfl
  | cons tok rest ih =>
    intro opened m hopened
    have hrest : ∀ t ∈ rest, t.undeclared = true := fun t ht => hraw t (List.mem_cons_of_mem _ ht)
    have htok := hraw tok (List.mem_cons_self _ _)
    cases tok with
    | StartElement name attr =>
      simp only [xml.Token.undeclared, Bool.and_eq_true, decide_eq_true_eq] at htok
      have hd := xml.declare_undeclared attr htok.2 []
      simp only [xml.translated, hd, xml.translateStart, xml.translate_nil name htok.1]
      rw [Machine.run_cons, Machine.run_cons,
        Machine.step_map cfg m name
          (fun a => { Name := xml.translate [] a.Name false, Value := a.Value })
          (fun a => xml.translate_Local _ _ _) (fun a => rfl)]
      simp only [xml.nestStep]
      cases m.step cfg (.StartElement name attr) with
      | error e => rfl
      | ok m1 =>
        simp only
        have := ih hrest ((name, []) :: opened) m1 (by
          intro f hf
          rcases List.mem_cons.mp hf with h | h
          · subst h; exact ⟨htok.1, rfl⟩
          · exact hopened f h)
        simpa only [List.map_cons] using this
    | EndElement name =>
      cases opened with
      | nil =>
        simp only [xml.translated, List.map_nil]
        rw [Machine.run_lexErr, Machine.run_cons]
        rfl
      | cons f opened1 =>
        obtain ⟨top, outer⟩ := f
        have hf := hopened (top, outer) (List.mem_cons_self _ _)
        simp only at hf
        obtain ⟨hxml, houter⟩ := hf
        subst houter
        by_cases hl : top.Local ≠ name.Local
        · simp only [xml.translated, if_pos hl, List.map_cons]
          rw [Machine.run_lexErr, Machine.run_cons]
          simp only [xml.nestStep, if_pos hl]
        · by_cases hs : top.Space ≠ name.Space
          · simp only [xml.translated, if_neg hl, if_pos hs, List.map_cons]
            rw [Machine.run_lexErr, Machine.run_cons]
            simp only [xml.nestStep, if_neg hl, if_pos hs]
          · have hname : top = name := by
              obtain ⟨s1, l1⟩ := top
              obtain ⟨s2, l2⟩ := name
              simp only [ne_eq, not_not] at hl hs
              subst hl hs
              rfl
            subst hname
            simp only [xml.translated, if_neg hl, if_neg hs, List.map_cons,
              xml.translate_nil top hxml]
            rw [Machine.run_cons, Machine.run_cons]
            simp only [xml.nestStep, if_neg hl, if_neg hs]
            cases m.step cfg (.EndElement top) with
            | error e => rfl
            | ok m1 =>
              simp only
              exact ih hrest opened1 m1
                (fun f hf => hopened f (List.mem_cons_of_mem _ hf))
    | CharData data =>
      simp only [xml.translated]
      rw [Machine.run_cons, Machine.run_cons]
      simp only [xml.nestStep]
      cases m.step cfg (.CharData data) with
      | error e => rfl
      | ok m1 => exact ih hrest opened m1 hopened
    | Comment data =>
      simp only [xml.translated]
      rw [Machine.run_cons, Machine.run_cons]
      simp only [xml.nestStep]
      cases m.step cfg (.Comment data) with
      | error e => rfl
      | ok m1 => exact ih hrest opened m1 hopened
    | ProcInst target inst =>
      simp only [xml.translated]
      rw [Machine.run_cons, Machine.run_cons]
      simp only [xml.nestStep]
      cases m.step cfg (.ProcInst target inst) with
      | error e => rfl
      | ok m1 => exact ih hrest opened m1 hopened
    | Directive data =>
      simp only [xml.translated]
      rw [Machine.run_cons, Machine.run_cons]
      simp only [xml.nestStep]
      cases m.step cfg (.Directive data) with
      | error e => rfl
      | ok m1 => exact ih hrest opened m1 hopened

/-- On raw tokens without name space declarations and without start elements
with the prefix `xml`, the translation of names changes nothing that the parser
reads: the parse result is that of the decoder on the raw tokens. -/
theorem ParseReader_undeclared (cfg : ValidationConfig) (raw : List xml.Token)
    (le : Option String) (hraw : ∀ tok ∈ raw, tok.undeclared = true) :
    ParseReader cfg (xml.NewTranslatingDecoder raw le) = ParseReader cfg (xml.NewDecoder raw le) := by
  rw [ParseReader_eq_run, ParseReader_eq_run]
  simp only [xml.NewTranslatingDecoder, xml.NewDecoder]
  have h := Machine.run_translated cfg le raw hraw [] Machine.init (by simp)
  simp only [List.map_nil] at h
  rw [h]

/-- On a text without name space declarations and without start elements with
the prefix `xml`, `Parse` is the parser on the translating decoder. -/
theorem Parse_undeclared (cfg : ValidationConfig) (ssmlContent : String)
    (hraw : ∀ tok ∈ (xml.tokenize ssmlContent).1, tok.undeclared = true) :
    Parse cfg ssmlContent
      = ParseReader cfg (xml.NewTranslatingDecoder (xml.tokenize ssmlContent).1
          (xml.tokenize ssmlContent).2) :=
  (ParseReader_undeclared cfg _ _ hraw).symm

end ssml

namespace ssml

theorem attrValue_translate (ns : List (String × String)) (attr : List xml.Attr)
    (name : String) :
    attrValue (attr.map (fun a => { a with Name := xml.translate ns a.Name false })) name
      = attrValue attr name := by
  unfold attrValue
  rw [List.foldl_map]
  simp only [xml.translate_Local]

theorem ParseReader_translated_stripOtherAttrs (cfg : ValidationConfig)
    (raw1 raw2 : List xml.Token) (le : Option String)
    (hsame : raw1.map stripOtherAttrs = raw2.map stripOtherAttrs) :
    ParseReader cfg (xml.NewTranslatingDecoder raw1 le)
      = ParseReader cfg (xml.NewTranslatingDecoder raw2 le) := by
  rw [ParseReader_eq_run, ParseReader_eq_run]
  simp only [xml.NewTranslatingDecoder, xml.NewDecoder]
  rw [← Machine.run_stripAttrs cfg _ (xml.translated [] [] raw1 le).1,
    ← Machine.run_stripAttrs cfg _ (xml.translated [] [] raw2 le).1,
    ← (translated_stripOtherAttrs raw1 le [] []).1, ← (translated_stripOtherAttrs raw1 le [] []).2,
    ← (translated_stripOtherAttrs raw2 le [] []).1, ← (translated_stripOtherAttrs raw2 le [] []).2,
    hsame]

/-- C13 (attribute parsing), amended.  Each field that a parser of an element
fills is `attrValue attr name`, the value of the attribute with the
corresponding local name among the attributes `attr` of the start tag, which is
the empty string when there is no such attribute and the value of that attribute
when there is one: for speak `version` and `lang`, for audio `src`, for break
`time` and `strength`, for emphasis `level`, for phoneme `alphabet` and `ph`,
for prosody `rate`, `pitch`, `range` and `volume`, for sub `alias`, for voice
`name`, `gender`, `age`, `variant` and `lang`, for w `role`; the translation of
attribute names by the decoder leaves these values as they are.  Two texts whose
raw tokens differ only in attributes that have other names and are not name
space declarations, so that the tokens are equal once `stripOtherAttrs` has
removed these, have the same parse result; and so have two streams of tokens
handed out by a decoder that are equal once `stripAttrs` has removed the
attributes with other names. -/
theorem ParseReader_attributes (cfg : ValidationConfig) (space : String)
    (attr : List xml.Attr) (raw1 raw2 : List xml.Token) (le : Option String)
    (hsame : raw1.map stripOtherAttrs = raw2.map stripOtherAttrs) :
    (∀ name, (∀ a ∈ attr, a.Name.Local ≠ name) → attrValue attr name = "")
      ∧ (∀ name a, a ∈ attr → a.Name.Local = name →
          (∀ b ∈ attr, b.Name.Local = name → b = a) → attrValue attr name = a.Value)
      ∧ (∀ ns name,
          attrValue (attr.map (fun a => { a with Name := xml.translate ns a.Name false })) name
            = attrValue attr name)
      ∧ attr.foldl parseSpeak.attr
          { XMLName := ⟨space, "speak"⟩, Version := "", Lang := "", Content := [] }
        = { XMLName := ⟨space, "speak"⟩, Version := attrValue attr "version",
            Lang := attrValue attr "lang", Content := [] }
      ∧ elementKind cfg ⟨space, "audio"⟩ attr
        = .container (.Audio { XMLName := ⟨space, "audio"⟩, Src := attrValue attr "src" })
      ∧ elementKind cfg ⟨space, "break"⟩ attr
        = .breakElem { XMLName := ⟨space, "break"⟩, Time := attrValue attr "time",
                       Strength := attrValue attr "strength" }
      ∧ elementKind cfg ⟨space, "emphasis"⟩ attr
        = .container (.Emphasis { XMLName := ⟨space, "emphasis"⟩,
                                  Level := attrValue attr "level" })
      ∧ elementKind cfg ⟨space, "phoneme"⟩ attr
        = .container (.Phoneme { XMLName := ⟨space, "phoneme"⟩,
                                 Alphabet := attrValue attr "alphabet",
                                 Ph := attrValue attr "ph" })
      ∧ elementKind cfg ⟨space, "prosody"⟩ attr
        = .container (.Prosody { XMLName := ⟨space, "prosody"⟩,
                                 Rate := attrValue attr "rate", Pitch := attrValue attr "pitch",
                                 Range := attrValue attr "range",
                                 Volume := attrValue attr "volume" })
      ∧ elementKind cfg ⟨space, "sub"⟩ attr
        = .container (.Sub { XMLName := ⟨space, "sub"⟩, Alias := attrValue attr "alias" })
      ∧ elementKind cfg ⟨space, "voice"⟩ attr
        = .container (.Voice { XMLName := ⟨space, "voice"⟩,
                               Gender := attrValue attr "gender", Age := attrValue attr "age",
                               Variant := attrValue attr "variant",
                               Name := attrValue attr "name",
                               Languages := attrValue attr "lang" })
      ∧ elementKind cfg ⟨space, "w"⟩ attr
        = .container (.W { XMLName := ⟨space, "w"⟩, Role := attrValue attr "role" })
      ∧ ParseReader cfg (xml.NewTranslatingDecoder raw1 le)
        = ParseReader cfg (xml.NewTranslatingDecoder raw2 le)
      ∧ (∀ toks1 toks2 : List xml.Token, toks1.map stripAttrs = toks2.map stripAttrs →
          ParseReader cfg (xml.NewDecoder toks1 le) = ParseReader cfg (xml.NewDecoder toks2 le)) := by
  refine ⟨fun name h => attrValue_absent attr name h,
    fun name a h1 h2 h3 => attrValue_present attr name a h1 h2 h3,
    fun ns name => attrValue_translate ns attr name,
    parseSpeak_foldl attr _, ?_, ?_, ?_, ?_, ?_, ?_, ?_, ?_,
    ParseReader_translated_stripOtherAttrs cfg raw1 raw2 le hsame, ?_⟩
  · simp only [elementKind, parseAudio_foldl]; rfl
  · simp only [elementKind, parseBreak_foldl]; rfl
  · simp only [elementKind, parseEmphasis_foldl]; rfl
  · simp only [elementKind, parsePhoneme_foldl]; rfl
  · simp only [elementKind, parseProsody_foldl]; rfl
  · simp only [elementKind, parseSub_foldl]; rfl
  · simp only [elementKind, parseVoice_foldl]; rfl
  · simp only [elementKind, parseW_foldl]; rfl
  · intro toks1 toks2 h
    rw [ParseReader_eq_run, ParseReader_eq_run]
    simp only [xml.NewDecoder]
    rw [← Machine.run_stripAttrs cfg le toks1, ← Machine.run_stripAttrs cfg le toks2, h]

/-- C13 at the text
`<speak xmlns="urn:x" version="1.0" id="x" xml:lang="en"><p class="c">a</p></speak>`
and the same text without the attributes `id` and `class`: the two have the
same parse result; a voice with the attributes `name`, `foo` and `xml:lang` has
the name and the language given by the first and the last of them, its other
fields being empty; and the tokens of
`<speak version="1.0" id="x"><voice name="a" foo="b" xml:lang="en"></voice></speak>`
have the same parse result with and without the attributes `id` and `foo`. -/
theorem ParseReader_attributes_witness :
    (xml.tokenize declaredTextOther).1.map stripOtherAttrs
        = (xml.tokenize declaredText).1.map stripOtherAttrs
      ∧ elementKind DefaultValidationConfig ⟨"", "voice"⟩
          [⟨⟨"", "name"⟩, "a"⟩, ⟨⟨"", "foo"⟩, "b"⟩, ⟨⟨"xml", "lang"⟩, "en"⟩]
        = .container (.Voice { XMLName := ⟨"", "voice"⟩, Gender := "", Age := "",
                               Variant := "", Name := "a", Languages := "en" })
      ∧ ParseReader DefaultValidationConfig
          (xml.NewTranslatingDecoder (xml.tokenize declaredTextOther).1 none)
        = ParseReader DefaultValidationConfig
          (xml.NewTranslatingDecoder (xml.tokenize declaredText).1 none)
      ∧ attributeTokens.map stripAttrs = attributeTokensStripped.map stripAttrs
      ∧ ParseReader DefaultValidationConfig (xml.NewDecoder attributeTokens none)
        = ParseReader DefaultValidationConfig (xml.NewDecoder attributeTokensStripped none) :=
  ⟨rfl,
    (ParseReader_attributes DefaultValidationConfig ""
      [⟨⟨"", "name"⟩, "a"⟩, ⟨⟨"", "foo"⟩, "b"⟩, ⟨⟨"xml", "lang"⟩, "en"⟩]
      (xml.tokenize declaredTextOther).1 (xml.tokenize declaredText).1 none
      rfl).2.2.2.2.2.2.2.2.2.2.1,
    (ParseReader_attributes DefaultValidationConfig "" []
      (xml.tokenize declaredTextOther).1 (xml.tokenize declaredText).1 none
      rfl).2.2.2.2.2.2.2.2.2.2.2.2.1,
    rfl,
    (ParseReader_attributes DefaultValidationConfig "" []
      (xml.tokenize declaredTextOther).1 (xml.tokenize declaredText).1 none
      rfl).2.2.2.2.2.2.2.2.2.2.2.2.2 attributeTokens attributeTokensStripped rfl⟩

/-- C13 fails for a name space declaration.  The texts
`<speak xmlns="urn:x" version="1.0" xml:lang="en"><p>a</p></speak>` and
`<speak version="1.0" xml:lang="en"><p>a</p></speak>` differ only in the attribute
`xmlns`, which no parser of an element reads, and their parse results differ:
with the declaration the decoder hands out the elements in the name space
`urn:x`, and the parser stores that name in `XMLName`. -/
theorem ParseReader_attributes_counterexample :
    (xml.tokenize declaredText).1.map stripAttrs
        = (xml.tokenize undeclaredText).1.map stripAttrs
      ∧ ParseReader DefaultValidationConfig
          (xml.NewTranslatingDecoder (xml.tokenize declaredText).1 (xml.tokenize declaredText).2)
        = some ({ Root := some { XMLName := ⟨"urn:x", "speak"⟩, Version := "1.0", Lang := "en",
                                 Content := [.Paragraph ⟨⟨"urn:x", "p"⟩⟩ [.Text "a"]] },
                  Warnings := [], Errors := [] }, none)
      ∧ ParseReader DefaultValidationConfig
          (xml.NewTranslatingDecoder (xml.tokenize undeclaredText).1
            (xml.tokenize undeclaredText).2)
        = some ({ Root := some { XMLName := ⟨"", "speak"⟩, Version := "1.0", Lang := "en",
                                 Content := [.Paragraph ⟨⟨"", "p"⟩⟩ [.Text "a"]] },
                  Warnings := [], Errors := [] }, none) :=
  ⟨rfl, rfl, rfl⟩

end ssml

namespace ssml

theorem serializeAudio_ok (s : Serializer) (builder : String) (audio : Audio)
    (content : List Node) (depth : Nat)
    (k : String → Except GoError String) (hk : ∀ b, ∃ out, k b = .ok out) :
    ∃ out, s.serializeAudio builder audio content depth k = .ok out := by
  unfold Serializer.serializeAudio
  dsimp only
  split
  · exact ⟨_, rfl⟩
  · generalize (if s.Pretty = true then _ else _ : String) = b0
    obtain ⟨o, ho⟩ := hk b0
    rw [ho]
    exact ⟨_, rfl⟩

theorem serializeAudio_error (s : Serializer) (builder : String) (audio : Audio)
    (content : List Node) (depth : Nat)
    (k : String → Except GoError String) (hc : content ≠ [])
    (hk : ∀ b, ∃ err, k b = .error err) :
    ∃ err, s.serializeAudio builder audio content depth k = .error err := by
  unfold Serializer.serializeAudio
  dsimp only
  rw [if_neg (by simpa using hc)]
  generalize (if s.Pretty = true then _ else _ : String) = b0
  obtain ⟨o, ho⟩ := hk b0
  rw [ho]
  exact ⟨_, rfl⟩

theorem serializeEmphasis_ok (s : Serializer) (builder : String) (emphasis : Emphasis)
    (content : List Node) (depth : Nat)
    (k : String → Except GoError String) (hk : ∀ b, ∃ out, k b = .ok out) :
    ∃ out, s.serializeEmphasis builder emphasis content depth k = .ok out := by
  unfold Serializer.serializeEmphasis
  dsimp only
  split
  · exact ⟨_, rfl⟩
  · generalize (if s.Pretty = true then _ else _ : String) = b0
    obtain ⟨o, ho⟩ := hk b0
    rw [ho]
    exact ⟨_, rfl⟩

theorem serializeEmphasis_error (s : Serializer) (builder : String) (emphasis : Emphasis)
    (content : List Node) (depth : Nat)
    (k : String → Except GoError String) (hc : content ≠ [])
    (hk : ∀ b, ∃ err, k b = .error err) :
    ∃ err, s.serializeEmphasis builder emphasis content depth k = .error err := by
  unfold Serializer.serializeEmphasis
  dsimp only
  rw [if_neg (by simpa using hc)]
  generalize (if s.Pretty = true then _ else _ : String) = b0
  obtain ⟨o, ho⟩ := hk b0
  rw [ho]
  exact ⟨_, rfl⟩

theorem serializeParagraph_ok (s : Serializer) (builder : String) (depth : Nat)
    (k : String → Except GoError String) (hk : ∀ b, ∃ out, k b = .ok out) :
    ∃ out, s.serializeParagraph builder depth k = .ok out := by
  unfold Serializer.serializeParagraph
  dsimp only
  generalize (if s.Pretty = true then _ else _ : String) = b0
  obtain ⟨o, ho⟩ := hk b0
  rw [ho]
  exact ⟨_, rfl⟩

theorem serializeParagraph_error (s : Serializer) (builder : String) (depth : Nat)
    (k : String → Except GoError String)
    (hk : ∀ b, ∃ err, k b = .error err) :
    ∃ err, s.serializeParagraph builder depth k = .error err := by
  unfold Serializer.serializeParagraph
  dsimp only
  generalize (if s.Pretty = true then _ else _ : String) = b0
  obtain ⟨o, ho⟩ := hk b0
  rw [ho]
  exact ⟨_, rfl⟩

theorem serializePhoneme_ok (s : Serializer) (builder : String) (phoneme : Phoneme)
    (content : List Node) (depth : Nat)
    (k : String → Except GoError String) (hk : ∀ b, ∃ out, k b = .ok out) :
    ∃ out, s.serializePhoneme builder phoneme content depth k = .ok out := by
  unfold Serializer.serializePhoneme
  dsimp only
  split
  · exact ⟨_, rfl⟩
  · generalize (if s.Pretty = true then _ else _ : String) = b0
    obtain ⟨o, ho⟩ := hk b0
    rw [ho]
    exact ⟨_, rfl⟩

theorem serializePhoneme_error (s : Serializer) (builder : String) (phoneme : Phoneme)
    (content : List Node) (depth : Nat)
    (k : String → Except GoError String) (hc : content ≠ [])
    (hk : ∀ b, ∃ err, k b = .error err) :
    ∃ err, s.serializePhoneme builder phoneme content depth k = .error err := by
  unfold Serializer.serializePhoneme
  dsimp only
  rw [if_neg (by simpa using hc)]
  generalize (if s.Pretty = true then _ else _ : String) = b0
  obtain ⟨o, ho⟩ := hk b0
  rw [ho]
  exact ⟨_, rfl⟩

theorem serializeProsody_ok (s : Serializer) (builder : String) (prosody : Prosody)
    (content : List Node) (depth : Nat)
    (k : String → Except GoError String) (hk : ∀ b, ∃ out, k b = .ok out) :
    ∃ out, s.serializeProsody builder prosody content depth k = .ok out := by
  unfold Serializer.serializeProsody
  dsimp only
  split
  · exact ⟨_, rfl⟩
  · generalize (if s.Pretty = true then _ else _ : String) = b0
    obtain ⟨o, ho⟩ := hk b0
    rw [ho]
    exact ⟨_, rfl⟩

theorem serializeProsody_error (s : Serializer) (builder : String) (prosody : Prosody)
    (content : List Node) (depth : Nat)
    (k : String → Except GoError String) (hc : content ≠ [])
    (hk : ∀ b, ∃ err, k b = .error err) :
    ∃ err, s.serializeProsody builder prosody content depth k = .error err := by
  unfold Serializer.serializeProsody
  dsimp only
  rw [if_neg (by simpa using hc)]
  generalize (if s.Pretty = true then _ else _ : String) = b0
  obtain ⟨o, ho⟩ := hk b0
  rw [ho]
  exact ⟨_, rfl⟩

theorem serializeSentence_ok (s : Serializer) (builder : String) (depth : Nat)
    (k : String → Except GoError String) (hk : ∀ b, ∃ out, k b = .ok out) :
    ∃ out, s.serializeSentence builder depth k = .ok out := by
  unfold Serializer.serializeSentence
  dsimp only
  generalize (if s.Pretty = true then _ else _ : String) = b0
  obtain ⟨o, ho⟩ := hk b0
  rw [ho]
  exact ⟨_, rfl⟩

theorem serializeSentence_error (s : Serializer) (builder : String) (depth : Nat)
    (k : String → Except GoError String)
    (hk : ∀ b, ∃ err, k b = .error err) :
    ∃ err, s.serializeSentence builder depth k = .error err := by
  unfold Serializer.serializeSentence
  dsimp only
  generalize (if s.Pretty = true then _ else _ : String) = b0
  obtain ⟨o, ho⟩ := hk b0
  rw [ho]
  exact ⟨_, rfl⟩

theorem serializeSub_ok (s : Serializer) (builder : String) (sub : Sub)
    (content : List Node) (depth : Nat)
    (k : String → Except GoError String) (hk : ∀ b, ∃ out, k b = .ok out) :
    ∃ out, s.serializeSub builder sub content depth k = .ok out := by
  unfold Serializer.serializeSub
  dsimp only
  split
  · exact ⟨_, rfl⟩
  · generalize (if s.Pretty = true then _ else _ : String) = b0
    obtain ⟨o, ho⟩ := hk b0
    rw [ho]
    exact ⟨_, rfl⟩

theorem serializeSub_error (s : Serializer) (builder : String) (sub : Sub)
    (content : List Node) (depth : Nat)
    (k : String → Except GoError String) (hc : content ≠ [])
    (hk : ∀ b, ∃ err, k b = .error err) :
    ∃ err, s.serializeSub builder sub content depth k = .error err := by
  unfold Serializer.serializeSub
  dsimp only
  rw [if_neg (by simpa using hc)]
  generalize (if s.Pretty = true then _ else _ : String) = b0
  obtain ⟨o, ho⟩ := hk b0
  rw [ho]
  exact ⟨_, rfl⟩

theorem serializeVoice_ok (s : Serializer) (builder : String) (voice : Voice)
    (content : List Node) (depth : Nat)
    (k : String → Except GoError String) (hk : ∀ b, ∃ out, k b = .ok out) :
    ∃ out, s.serializeVoice builder voice content depth k = .ok out := by
  unfold Serializer.serializeVoice
  dsimp only
  split
  · exact ⟨_, rfl⟩
  · generalize (if s.Pretty = true then _ else _ : String) = b0
    obtain ⟨o, ho⟩ := hk b0
    rw [ho]
    exact ⟨_, rfl⟩

theorem serializeVoice_error (s : Serializer) (builder : String) (voice : Voice)
    (content : List Node) (depth : Nat)
    (k : String → Except GoError String) (hc : content ≠ [])
    (hk : ∀ b, ∃ err, k b = .error err) :
    ∃ err, s.serializeVoice builder voice content depth k = .error err := by
  unfold Serializer.serializeVoice
  dsimp only
  rw [if_neg (by simpa using hc)]
  generalize (if s.Pretty = true then _ else _ : String) = b0
  obtain ⟨o, ho⟩ := hk b0
  rw [ho]
  exact ⟨_, rfl⟩

theorem serializeW_ok (s : Serializer) (builder : String) (w : W)
    (content : List Node) (depth : Nat)
    (k : String → Except GoError String) (hk : ∀ b, ∃ out, k b = .ok out) :
    ∃ out, s.serializeW builder w content depth k = .ok out := by
  unfold Serializer.serializeW
  dsimp only
  split
  · exact ⟨_, rfl⟩
  · generalize (if s.Pretty = true then _ else _ : String) = b0
    obtain ⟨o, ho⟩ := hk b0
    rw [ho]
    exact ⟨_, rfl⟩

theorem serializeW_error (s : Serializer) (builder : String) (w : W)
    (content : List Node) (depth : Nat)
    (k : String → Except GoError String) (hc : content ≠ [])
    (hk : ∀ b, ∃ err, k b = .error err) :
    ∃ err, s.serializeW builder w content depth k = .error err := by
  unfold Serializer.serializeW
  dsimp only
  rw [if_neg (by simpa using hc)]
  generalize (if s.Pretty = true then _ else _ : String) = b0
  obtain ⟨o, ho⟩ := hk b0
  rw [ho]
  exact ⟨_, rfl⟩

end ssml
namespace ssml

theorem hasOtherList_ne_nil (c : List Node) (h : hasOtherList c = true) : c ≠ [] := by
  intro hc
  subst hc
  cases h

mutual
theorem serializeItem_ok (s : Serializer) : ∀ (item : Node) (builder : String) (depth : Nat),
    item.hasOther = false → ∃ out, s.serializeItem builder item depth = .ok out
  | .Text _, _, _, _ => ⟨_, rfl⟩
  | .Audio a c, b, depth, h => by
    rw [Serializer.serializeItem]
    exact serializeAudio_ok s b a c depth _ (fun b1 => serializeContent_ok s c b1 (depth + 1) h)
  | .Break _, _, _, _ => ⟨_, rfl⟩
  | .Emphasis a c, b, depth, h => by
    rw [Serializer.serializeItem]
    exact serializeEmphasis_ok s b a c depth _
      (fun b1 => serializeContent_ok s c b1 (depth + 1) h)
  | .Paragraph _ c, b, depth, h => by
    rw [Serializer.serializeItem]
    exact serializeParagraph_ok s b depth _ (fun b1 => serializeContent_ok s c b1 (depth + 1) h)
  | .Phoneme a c, b, depth, h => by
    rw [Serializer.serializeItem]
    exact serializePhoneme_ok s b a c depth _
      (fun b1 => serializeContent_ok s c b1 (depth + 1) h)
  | .Prosody a c, b, depth, h => by
    rw [Serializer.serializeItem]
    exact serializeProsody_ok s b a c depth _
      (fun b1 => serializeContent_ok s c b1 (depth + 1) h)
  | .Sentence _ c, b, depth, h => by
    rw [Serializer.serializeItem]
    exact serializeSentence_ok s b depth _ (fun b1 => serializeContent_ok s c b1 (depth + 1) h)
  | .Sub a c, b, depth, h => by
    rw [Serializer.serializeItem]
    exact serializeSub_ok s b a c depth _ (fun b1 => serializeContent_ok s c b1 (depth + 1) h)
  | .Voice a c, b, depth, h => by
    rw [Serializer.serializeItem]
    exact serializeVoice_ok s b a c depth _ (fun b1 => serializeContent_ok s c b1 (depth + 1) h)
  | .W a c, b, depth, h => by
    rw [Serializer.serializeItem]
    exact serializeW_ok s b a c depth _ (fun b1 => serializeContent_ok s c b1 (depth + 1) h)
  | .Other _, _, _, h => by cases h
theorem serializeContent_ok (s : Serializer) : ∀ (c : List Node) (builder : String) (depth : Nat),
    hasOtherList c = false → ∃ out, s.serializeContent builder c depth = .ok out
  | [], _, _, _ => ⟨_, rfl⟩
  | item :: rest, b, depth, h => by
    simp only [hasOtherList, Bool.or_eq_false_iff] at h
    obtain ⟨o, ho⟩ := serializeItem_ok s item b depth h.1
    rw [Serializer.serializeContent, ho]
    exact serializeContent_ok s rest o depth h.2
end

mutual
theorem serializeItem_error (s : Serializer) : ∀ (item : Node) (builder : String) (depth : Nat),
    item.hasOther = true → ∃ err, s.serializeItem builder item depth = .error err
  | .Text _, _, _, h => by cases h
  | .Audio a c, b, depth, h => by
    rw [Serializer.serializeItem]
    exact serializeAudio_error s b a c depth _ (hasOtherList_ne_nil c h)
      (fun b1 => serializeContent_error s c b1 (depth + 1) h)
  | .Break _, _, _, h => by cases h
  | .Emphasis a c, b, depth, h => by
    rw [Serializer.serializeItem]
    exact serializeEmphasis_error s b a c depth _ (hasOtherList_ne_nil c h)
      (fun b1 => serializeContent_error s c b1 (depth + 1) h)
  | .Paragraph _ c, b, depth, h => by
    rw [Serializer.serializeItem]
    exact serializeParagraph_error s b depth _
      (fun b1 => serializeContent_error s c b1 (depth + 1) h)
  | .Phoneme a c, b, depth, h => by
    rw [Serializer.serializeItem]
    exact serializePhoneme_error s b a c depth _ (hasOtherList_ne_nil c h)
      (fun b1 => serializeContent_error s c b1 (depth + 1) h)
  | .Prosody a c, b, depth, h => by
    rw [Serializer.serializeItem]
    exact serializeProsody_error s b a c depth _ (hasOtherList_ne_nil c h)
      (fun b1 => serializeContent_error s c b1 (depth + 1) h)
  | .Sentence _ c, b, depth, h => by
    rw [Serializer.serializeItem]
    exact serializeSentence_error s b depth _
      (fun b1 => serializeContent_error s c b1 (depth + 1) h)
  | .Sub a c, b, depth, h => by
    rw [Serializer.serializeItem]
    exact serializeSub_error s b a c depth _ (hasOtherList_ne_nil c h)
      (fun b1 => serializeContent_error s c b1 (depth + 1) h)
  | .Voice a c, b, depth, h => by
    rw [Serializer.serializeItem]
    exact serializeVoice_error s b a c depth _ (hasOtherList_ne_nil c h)
      (fun b1 => serializeContent_error s c b1 (depth + 1) h)
  | .W a c, b, depth, h => by
    rw [Serializer.serializeItem]
    exact serializeW_error s b a c depth _ (hasOtherList_ne_nil c h)
      (fun b1 => serializeContent_error s c b1 (depth + 1) h)
  | .Other _, _, _, _ => ⟨_, rfl⟩
theorem serializeContent_error (s : Serializer) :
    ∀ (c : List Node) (builder : String) (depth : Nat),
      hasOtherList c = true → ∃ err, s.serializeContent builder c depth = .error err
  | [], _, _, h => by cases h
  | item :: rest, b, depth, h => by
    rw [Serializer.serializeContent]
    cases hi : s.serializeItem b item depth with
    | error e => exact ⟨e, rfl⟩
    | ok o =>
      simp only [hasOtherList, Bool.or_eq_true] at h
      rcases h with h | h
      · obtain ⟨e, he⟩ := serializeItem_error s item b depth h
        rw [he] at hi
        cases hi
      · exact serializeContent_error s rest o depth h
end

theorem serializeSpeak_result (s : Serializer) (builder : String) (speak : Speak) (depth : Nat) :
    (hasOtherList speak.Content = false → ∃ out, s.serializeSpeak builder speak depth = .ok out)
      ∧ (hasOtherList speak.Content = true →
          ∃ err, s.serializeSpeak builder speak depth = .error err) := by
  constructor
  · intro h
    unfold Serializer.serializeSpeak
    dsimp only
    split
    · exact ⟨_, rfl⟩
    · generalize (if s.Pretty = true then _ else _ : String) = b0
      obtain ⟨o, ho⟩ := serializeContent_ok s speak.Content b0 (depth + 1) h
      rw [ho]
      exact ⟨_, rfl⟩
  · intro h
    unfold Serializer.serializeSpeak
    dsimp only
    rw [if_neg (by simpa using hasOtherList_ne_nil _ h)]
    generalize (if s.Pretty = true then _ else _ : String) = b0
    obtain ⟨o, ho⟩ := serializeContent_error s speak.Content b0 (depth + 1) h
    rw [ho]
    exact ⟨_, rfl⟩

mutual
theorem Node.parsed_hasOther : ∀ (item : Node), item.parsed = true → item.hasOther = false
  | .Text _, _ => rfl
  | .Audio _ c, h => parsedList_hasOther c h
  | .Break _, _ => rfl
  | .Emphasis _ c, h => parsedList_hasOther c h
  | .Paragraph _ c, h => parsedList_hasOther c h
  | .Phoneme _ c, h => parsedList_hasOther c h
  | .Prosody _ c, h => parsedList_hasOther c h
  | .Sentence _ c, h => parsedList_hasOther c h
  | .Sub _ c, h => parsedList_hasOther c h
  | .Voice _ c, h => parsedList_hasOther c h
  | .W _ c, h => parsedList_hasOther c h
  | .Other _, h => by cases h
theorem parsedList_hasOther : ∀ (c : List Node), parsedList c = true → hasOtherList c = false
  | [], _ => rfl
  | item :: rest, h => by
    simp only [parsedList, Bool.and_eq_true] at h
    simp only [hasOtherList, Bool.or_eq_false_iff]
    exact ⟨Node.parsed_hasOther item h.1, parsedList_hasOther rest h.2⟩
end

theorem ParseReader_returns_root (cfg : ValidationConfig) (toks : List xml.Token)
    (le : Option String) (result : ParseResult) (err : Option GoError) (D : Speak)
    (h : ParseReader cfg (xml.NewDecoder toks le) = some (result, err))
    (hD : result.Root = some D) :
    ∃ r, Machine.run cfg le toks [] Machine.init = .done r (some D) := by
  rw [ParseReader_eq_run] at h
  simp only [xml.NewDecoder] at h
  cases hr : Machine.run cfg le toks [] Machine.init with
  | fuel => rw [hr] at h; cases h
  | returned r e =>
    rw [hr] at h
    cases h
    have := (Machine.run_returned cfg le toks [] Machine.init _ _ hr).1
    rw [hD] at this
    cases this
  | done r root =>
    rw [hr] at h
    cases root with
    | none =>
      cases h
      rcases Machine.run_cases cfg le toks [] Machine.init with
        ⟨r1, e1, h1, _⟩ | ⟨r1, root1, h1, h2, _⟩
      · rw [hr] at h1; cases h1
      · rw [hr] at h1
        cases h1
        rw [hD] at h2
        cases h2
    | some root =>
      have hv := (validate_root cfg root { r with Root := some root }).1
      have h1 := Option.some.inj h
      rw [h1] at hv
      simp only at hv
      rw [hD] at hv
      cases hv
      exact ⟨r, rfl⟩

theorem ParseReader_success_root (cfg : ValidationConfig) (toks : List xml.Token)
    (le : Option String) (result : ParseResult)
    (h : ParseReader cfg (xml.NewDecoder toks le) = some (result, none)) :
    ∃ D, result.Root = some D := by
  rw [ParseReader_eq_run] at h
  simp only [xml.NewDecoder] at h
  cases hr : Machine.run cfg le toks [] Machine.init with
  | fuel => rw [hr] at h; cases h
  | returned r e => rw [hr] at h; cases h
  | done r root =>
    rw [hr] at h
    cases root with
    | none => cases h
    | some root =>
      have hv := (validate_root cfg root { r with Root := some root }).1
      have h1 := Option.some.inj h
      rw [h1] at hv
      exact ⟨root, hv⟩

end ssml
namespace ssml

/-- C14 (serializer failure modes).  For every serializer and every document,
`Serialize` returns an error exactly when the document is absent (nil) or some
content list reachable from the root holds an item that is not one of the
recognized variants; when it returns an error the returned text is the empty
string; and in both pretty and compact mode it returns no error on the root of
every result that `ParseReader` returns without an error, for any
configuration and input. -/
theorem Serialize_failure_modes (s : Serializer) (speak : Option Speak) :
    ((s.Serialize speak).2.isSome = true
        ↔ speak = none ∨ ∃ D, speak = some D ∧ hasOtherList D.Content = true)
      ∧ ((s.Serialize speak).2.isSome = true → (s.Serialize speak).1 = "")
      ∧ ∀ (cfg : ValidationConfig) (toks : List xml.Token) (le : Option String)
          (result : ParseResult) (pretty : Bool),
          ParseReader cfg (xml.NewDecoder toks le) = some (result, none) →
            ((NewSerializer pretty).Serialize result.Root).2 = none := by
  have key : ∀ (s : Serializer) (D : Speak),
      (hasOtherList D.Content = false → ∃ out, s.Serialize (some D) = (out, none))
        ∧ (hasOtherList D.Content = true → ∃ err, s.Serialize (some D) = ("", some err)) := by
    intro s D
    constructor
    · intro h
      unfold Serializer.Serialize
      dsimp only
      obtain ⟨o, ho⟩ := (serializeSpeak_result s
        (if s.Pretty = true then "<?xml version=\"1.0\" encoding=\"UTF-8\"?>" ++ "\n"
          else "<?xml version=\"1.0\" encoding=\"UTF-8\"?>") D 0).1 h
      rw [ho]
      exact ⟨_, rfl⟩
    · intro h
      unfold Serializer.Serialize
      dsimp only
      obtain ⟨o, ho⟩ := (serializeSpeak_result s
        (if s.Pretty = true then "<?xml version=\"1.0\" encoding=\"UTF-8\"?>" ++ "\n"
          else "<?xml version=\"1.0\" encoding=\"UTF-8\"?>") D 0).2 h
      rw [ho]
      exact ⟨_, rfl⟩
  refine ⟨?_, ?_, ?_⟩
  · cases speak with
    | none => exact ⟨fun _ => Or.inl rfl, fun _ => rfl⟩
    | some D =>
      cases hD : hasOtherList D.Content with
      | false =>
        obtain ⟨o, ho⟩ := (key s D).1 hD
        rw [ho]
        constructor
        · intro h; cases h
        · intro h
          rcases h with h | ⟨D1, h1, h2⟩
          · cases h
          · cases h1
            rw [hD] at h2
            cases h2
      | true =>
        obtain ⟨e, he⟩ := (key s D).2 hD
        rw [he]
        exact ⟨fun _ => Or.inr ⟨D, rfl, hD⟩, fun _ => rfl⟩
  · cases speak with
    | none => intro _; rfl
    | some D =>
      cases hD : hasOtherList D.Content with
      | false =>
        obtain ⟨o, ho⟩ := (key s D).1 hD
        rw [ho]
        intro h
        cases h
      | true =>
        obtain ⟨e, he⟩ := (key s D).2 hD
        rw [he]
        intro _
        rfl
  · intro cfg toks le result pretty h
    obtain ⟨D, hD⟩ := ParseReader_success_root cfg toks le result h
    obtain ⟨r, hr⟩ := ParseReader_returns_root cfg toks le result none D h hD
    have hp := Machine.run_parsed cfg le toks [] Machine.init r D hr rfl
    obtain ⟨o, ho⟩ := (key (NewSerializer pretty) D).1 (parsedList_hasOther _ hp)
    rw [hD, ho]

/-- C14 at a document whose paragraph holds a value of unknown type after a
text: compact serialization fails and returns the empty string, not the text
written before the value was met; and the document parsed from
`<speak version="1.0" xml:lang="en"><p><s>x</s></p></speak>` is serialized
without an error in pretty mode. -/
theorem Serialize_failure_modes_witness :
    ((NewSerializer false).Serialize (some otherDocument)).2.isSome = true
      ∧ ((NewSerializer false).Serialize (some otherDocument)).1 = ""
      ∧ ParseReader DefaultValidationConfig (xml.NewDecoder nestedTokens none)
        = some ({ Root := some nestedRoot, Warnings := [], Errors := [] }, none)
      ∧ ((NewSerializer true).Serialize (some nestedRoot)).2 = none :=
  ⟨(Serialize_failure_modes (NewSerializer false) (some otherDocument)).1.2
      (Or.inr ⟨otherDocument, rfl, rfl⟩),
    (Serialize_failure_modes (NewSerializer false) (some otherDocument)).2.1 rfl,
    rfl,
    (Serialize_failure_modes (NewSerializer true) none).2.2 DefaultValidationConfig
      nestedTokens none { Root := some nestedRoot, Warnings := [], Errors := [] } true rfl⟩

end ssml

namespace html

theorem escapeChar_length (c : Char) : 1 ≤ (escapeChar c).length := by
  unfold escapeChar
  split_ifs <;> simp

theorem escapeChar_raw (c ch : Char) (h : ch ∈ escapeChar c) :
    ch ≠ '<' ∧ ch ≠ '>' ∧ ch ≠ Char.ofNat 34 ∧ ch ≠ Char.ofNat 39 := by
  unfold escapeChar at h
  split_ifs at h with h1 h2 h3 h4 h5
  · simp only [List.mem_cons, List.mem_singleton, List.not_mem_nil, or_false] at h
    rcases h with h | h | h | h | h <;> subst h <;> decide
  · simp only [List.mem_cons, List.mem_singleton, List.not_mem_nil, or_false] at h
    rcases h with h | h | h | h | h <;> subst h <;> decide
  · simp only [List.mem_cons, List.mem_singleton, List.not_mem_nil, or_false] at h
    rcases h with h | h | h | h <;> subst h <;> decide
  · simp only [List.mem_cons, List.mem_singleton, List.not_mem_nil, or_false] at h
    rcases h with h | h | h | h <;> subst h <;> decide
  · simp only [List.mem_cons, List.mem_singleton, List.not_mem_nil, or_false] at h
    rcases h with h | h | h | h | h <;> subst h <;> decide
  · simp only [List.mem_singleton] at h
    subst h
    exact ⟨h3, h4, h5, h2⟩

theorem EscapeString_raw (v : String) (ch : Char) (h : ch ∈ (EscapeString v).data) :
    ch ≠ '<' ∧ ch ≠ '>' ∧ ch ≠ Char.ofNat 34 ∧ ch ≠ Char.ofNat 39 := by
  unfold EscapeString at h
  simp only [List.mem_flatMap] at h
  obtain ⟨c, _, hc⟩ := h
  exact escapeChar_raw c ch hc

theorem replaceEntities_escapeChar (c : Char) (rest : List Char) (n : Nat) :
    replaceEntities (n + 1) (escapeChar c ++ rest) = c :: replaceEntities n rest := by
  unfold escapeChar
  split_ifs with h1 h2 h3 h4 h5
  · subst h1
    simp [replaceEntities, stripLit]
  · subst h2
    simp [replaceEntities, stripLit]
  · subst h3
    simp [replaceEntities, stripLit]
  · subst h4
    simp [replaceEntities, stripLit]
  · subst h5
    simp [replaceEntities, stripLit]
  · have hc : ¬ '&' = c := fun h => h1 h.symm
    simp [replaceEntities, stripLit, hc]

theorem replaceEntities_escape (cs : List Char) : ∀ fuel, cs.length ≤ fuel →
    replaceEntities fuel (cs.flatMap escapeChar) = cs := by
  induction cs with
  | nil =>
    intro fuel _
    cases fuel <;> rfl
  | cons c cs ih =>
    intro fuel hf
    cases fuel with
    | zero => simp at hf
    | succ n =>
      have hn : cs.length ≤ n := by simpa using hf
      rw [List.flatMap_cons, replaceEntities_escapeChar, ih n hn]

theorem flatMap_escape_length (cs : List Char) : cs.length ≤ (cs.flatMap escapeChar).length := by
  induction cs with
  | nil => simp
  | cons c cs ih =>
    rw [List.flatMap_cons, List.length_append, List.length_cons]
    have := escapeChar_length c
    omega

theorem UnescapeEntities_EscapeString (v : String) : UnescapeEntities (EscapeString v) = v := by
  unfold UnescapeEntities EscapeString
  simp only []
  rw [replaceEntities_escape v.data _ (flatMap_escape_length v.data)]

end html
namespace ssml

mutual
theorem Node.known_of_hasOther : ∀ (item : Node), item.hasOther = false →
    item.markup.known = true
  | .Text _, _ => rfl
  | .Audio _ c, h => by simp only [Node.markup, Markup.known]; exact knownList_of_hasOther c h
  | .Break _, _ => rfl
  | .Emphasis _ c, h => by simp only [Node.markup, Markup.known]; exact knownList_of_hasOther c h
  | .Paragraph _ c, h => by simp only [Node.markup, Markup.known]; exact knownList_of_hasOther c h
  | .Phoneme _ c, h => by simp only [Node.markup, Markup.known]; exact knownList_of_hasOther c h
  | .Prosody _ c, h => by simp only [Node.markup, Markup.known]; exact knownList_of_hasOther c h
  | .Sentence _ c, h => by simp only [Node.markup, Markup.known]; exact knownList_of_hasOther c h
  | .Sub _ c, h => by simp only [Node.markup, Markup.known]; exact knownList_of_hasOther c h
  | .Voice _ c, h => by simp only [Node.markup, Markup.known]; exact knownList_of_hasOther c h
  | .W _ c, h => by simp only [Node.markup, Markup.known]; exact knownList_of_hasOther c h
  | .Other _, h => by cases h
theorem knownList_of_hasOther : ∀ (c : List Node), hasOtherList c = false →
    knownList (markupList c) = true
  | [], _ => rfl
  | item :: rest, h => by
    simp only [hasOtherList, Bool.or_eq_false_iff] at h
    simp only [markupList, knownList, Bool.and_eq_true]
    exact ⟨Node.known_of_hasOther item h.1, knownList_of_hasOther rest h.2⟩
end

/-- C15 (escaping).  The text that `Serialize` returns for a document is the XML
declaration followed by the rendering of the document's pieces, in which the
content `v` of a text node stands as `html.EscapeString v` (between the
indentation and the line break of pretty mode) and an attribute with the
non-empty value `v` as ` name="` followed by `html.EscapeString v` and `"`.
`html.EscapeString v` is `v` with each of the five characters `&`, `'`, `<`, `>`
and `"` replaced by `&amp;`, `&#39;`, `&lt;`, `&gt;` and `&#34;` and every other
character unchanged; it holds no raw `<`, `>`, `"` or `'`; and replacing the
five entities in it by their characters gives `v` back. -/
theorem Serialize_escaping (pretty : Bool) (D : Speak) (v name builder : String) (depth : Nat)
    (h : hasOtherList D.Content = false) :
    (NewSerializer pretty).Serialize (some D)
        = (String.mk ("<?xml version=\"1.0\" encoding=\"UTF-8\"?>".data
            ++ render (documentPieces pretty D)), none)
      ∧ (NewSerializer pretty).serializeItem builder (.Text v) depth
        = .ok (String.mk (builder.data ++ (indentChars pretty depth
            ++ ((html.EscapeString v).data ++ newlineChars pretty))))
      ∧ render ((Node.Text v).markup.pieces pretty depth)
        = indentChars pretty depth ++ ((html.EscapeString v).data ++ newlineChars pretty)
      ∧ renderAttr (name, v)
        = (if v ≠ "" then
            ' ' :: (name.data ++ ("=\"".data ++ ((html.EscapeString v).data ++ "\"".data)))
          else [])
      ∧ (html.EscapeString v).data
        = v.data.flatMap (fun c =>
            if c = '&' then "&amp;".data
            else if c = Char.ofNat 39 then "&#39;".data
            else if c = '<' then "&lt;".data
            else if c = '>' then "&gt;".data
            else if c = Char.ofNat 34 then "&#34;".data
            else [c])
      ∧ (∀ ch ∈ (html.EscapeString v).data,
          ch ≠ '<' ∧ ch ≠ '>' ∧ ch ≠ Char.ofNat 34 ∧ ch ≠ Char.ofNat 39)
      ∧ html.UnescapeEntities (html.EscapeString v) = v := by
  have ht : render ((Node.Text v).markup.pieces pretty depth)
      = indentChars pretty depth ++ ((html.EscapeString v).data ++ newlineChars pretty) := by
    simp only [Node.markup, Markup.pieces, render_cons, render_nil, Piece.render,
      List.flatMap_append, escape_indentChars, escape_newlineChars, List.append_assoc,
      List.append_nil, html.EscapeString]
  refine ⟨Serialize_eq pretty D (knownList_of_hasOther _ h), ?_, ht, rfl, rfl,
    fun ch hch => html.EscapeString_raw v ch hch, html.UnescapeEntities_EscapeString v⟩
  have := serializeItem_eq pretty (.Text v) builder.data depth rfl
  rw [ht] at this
  exact this

/-- C15 at the document `<speak version="1&quot;0"><p>a&lt;b &amp; c</p></speak>`, compact:
the text `a<b & c` is written as `a&lt;b &amp; c` and the version `1"0` as
`1&#34;0`. -/
theorem Serialize_escaping_witness :
    hasOtherList escapingDocument.Content = false
      ∧ (NewSerializer false).Serialize (some escapingDocument)
        = ("<?xml version=\"1.0\" encoding=\"UTF-8\"?><speak version=\"1&#34;0\"><p>a&lt;b &amp; c</p></speak>",
            none)
      ∧ html.UnescapeEntities "a&lt;b &amp; c" = "a<b & c" :=
  ⟨rfl, rfl,
    (Serialize_escaping false escapingDocument "a<b & c" "" "" 0 rfl).2.2.2.2.2.2⟩

end ssml

namespace ssml

theorem serializeItem_empty (pretty : Bool) (item : Node) (builder : String) (depth : Nat)
    (h : item.markup.known = true) :
    (NewSerializer pretty).serializeItem builder item depth
      = .ok (String.mk (builder.data ++ render (item.markup.pieces pretty depth))) :=
  serializeItem_eq pretty item builder.data depth h

/-- What `serializeParagraph` does with empty content: it has no test of
`len(Content) == 0` and writes the start tag and the closing tag. -/
theorem serializeItem_empty_paragraph (pretty : Bool) (builder : String) (depth : Nat)
    (paragraph : Paragraph) :
    (NewSerializer pretty).serializeItem builder (.Paragraph paragraph []) depth
      = .ok (String.mk (builder.data ++ (indentChars pretty depth ++ ("<p>".data
          ++ (newlineChars pretty ++ (indentChars pretty depth ++ ("</p>".data
            ++ newlineChars pretty))))))) := by
  rw [serializeItem_empty pretty _ builder depth (by rfl)]
  simp only [Node.markup, markupList, render_pieces_element, List.isEmpty, Bool.and_self,
    Bool.and_false, Bool.false_eq_true, if_true, if_false, elementChars, piecesList,
    render_nil, List.flatMap_nil, List.nil_append, List.cons_append, List.append_assoc]
  try rfl

/-- What `serializeSentence` does with empty content: it has no test of
`len(Content) == 0` and writes the start tag and the closing tag. -/
theorem serializeItem_empty_sentence (pretty : Bool) (builder : String) (depth : Nat)
    (sentence : Sentence) :
    (NewSerializer pretty).serializeItem builder (.Sentence sentence []) depth
      = .ok (String.mk (builder.data ++ (indentChars pretty depth ++ ("<s>".data
          ++ (newlineChars pretty ++ (indentChars pretty depth ++ ("</s>".data
            ++ newlineChars pretty))))))) := by
  rw [serializeItem_empty pretty _ builder depth (by rfl)]
  simp only [Node.markup, markupList, render_pieces_element, List.isEmpty, Bool.and_self,
    Bool.and_false, Bool.false_eq_true, if_true, if_false, elementChars, piecesList,
    render_nil, List.flatMap_nil, List.nil_append, List.cons_append, List.append_assoc]
  try rfl

/-- C16 (self-closing emission), on the eight container serializers that test
`len(Content) == 0`.  In both modes the serializer writes a speak, audio,
emphasis, phoneme, prosody, sub, voice or w element whose content is empty as
the indentation, the single self-closing tag `<tag attributes/>` and the line
break of pretty mode, with no closing tag.  The two remaining containers, p and
s, have no such test in the code: see `serializeItem_empty_paragraph`,
`serializeItem_empty_sentence` and the counterexample. -/
theorem Serialize_self_closing (pretty : Bool) (builder : String) (depth : Nat) (D : Speak)
    (audio : Audio) (emphasis : Emphasis) (phoneme : Phoneme) (prosody : Prosody) (sub : Sub)
    (voice : Voice) (w : W) (h : D.Content = []) :
    (NewSerializer pretty).Serialize (some D)
        = (String.mk ("<?xml version=\"1.0\" encoding=\"UTF-8\"?>".data ++ (newlineChars pretty
            ++ elementChars pretty 0 "speak"
              [("version", D.Version), ("xml:lang", D.Lang)] none)), none)
      ∧ (NewSerializer pretty).serializeItem builder (.Audio audio []) depth
        = .ok (String.mk (builder.data
            ++ elementChars pretty depth "audio" [("src", audio.Src)] none))
      ∧ (NewSerializer pretty).serializeItem builder (.Emphasis emphasis []) depth
        = .ok (String.mk (builder.data
            ++ elementChars pretty depth "emphasis" [("level", emphasis.Level)] none))
      ∧ (NewSerializer pretty).serializeItem builder (.Phoneme phoneme []) depth
        = .ok (String.mk (builder.data
            ++ elementChars pretty depth "phoneme"
              [("alphabet", phoneme.Alphabet), ("ph", phoneme.Ph)] none))
      ∧ (NewSerializer pretty).serializeItem builder (.Prosody prosody []) depth
        = .ok (String.mk (builder.data
            ++ elementChars pretty depth "prosody"
              [("rate", prosody.Rate), ("pitch", prosody.Pitch), ("range", prosody.Range),
                ("volume", prosody.Volume)] none))
      ∧ (NewSerializer pretty).serializeItem builder (.Sub sub []) depth
        = .ok (String.mk (builder.data
            ++ elementChars pretty depth "sub" [("alias", sub.Alias)] none))
      ∧ (NewSerializer pretty).serializeItem builder (.Voice voice []) depth
        = .ok (String.mk (builder.data
            ++ elementChars pretty depth "voice"
              [("gender", voice.Gender), ("age", voice.Age), ("variant", voice.Variant),
                ("name", voice.Name), ("xml:lang", voice.Languages)] none))
      ∧ (NewSerializer pretty).serializeItem builder (.W w []) depth
        = .ok (String.mk (builder.data
            ++ elementChars pretty depth "w" [("role", w.Role)] none))
      ∧ (∀ (tag : String) (attrs : List (String × String)),
          elementChars pretty depth tag attrs none
            = indentChars pretty depth ++ ('<' :: (tag.data ++ (attrs.flatMap renderAttr
                ++ ("/>".data ++ newlineChars pretty))))) := by
  refine ⟨?_, ?_, ?_, ?_, ?_, ?_, ?_, ?_, fun _ _ => rfl⟩
  · rw [Serialize_eq pretty D (by rw [h]; rfl)]
    simp only [documentPieces, Speak.markup, h, markupList, render_cons, render_pieces_element,
      Piece.render, escape_newlineChars, List.isEmpty, Bool.and_self, if_true]
  all_goals
    rw [serializeItem_empty pretty _ builder depth (by rfl)]
    simp only [Node.markup, markupList, render_pieces_element, List.isEmpty, Bool.and_self,
      Bool.and_false, Bool.false_eq_true, if_true, if_false, elementChars, piecesList,
      render_nil, List.flatMap_nil, List.nil_append, List.cons_append, List.append_assoc]
    try rfl

/-- C16 at a voice without content: `<voice name="a"/>`, with a line break in
pretty mode. -/
theorem Serialize_self_closing_witness :
    (NewSerializer false).serializeItem "" (.Voice ⟨⟨"", "voice"⟩, "", "", "", "a", ""⟩ []) 0
        = .ok "<voice name=\"a\"/>"
      ∧ (NewSerializer true).serializeItem "" (.Voice ⟨⟨"", "voice"⟩, "", "", "", "a", ""⟩ []) 1
        = .ok "  <voice name=\"a\"/>\n"
      ∧ (NewSerializer false).Serialize
          (some { XMLName := ⟨"", "speak"⟩, Version := "", Lang := "", Content := [] })
        = (String.mk ("<?xml version=\"1.0\" encoding=\"UTF-8\"?>".data ++ (newlineChars false
            ++ elementChars false 0 "speak" [("version", ""), ("xml:lang", "")] none)), none) :=
  ⟨rfl, rfl,
    (Serialize_self_closing false "" 0
      { XMLName := ⟨"", "speak"⟩, Version := "", Lang := "", Content := [] }
      ⟨⟨"", "audio"⟩, ""⟩ ⟨⟨"", "emphasis"⟩, ""⟩ ⟨⟨"", "phoneme"⟩, "", ""⟩
      ⟨⟨"", "prosody"⟩, "", "", "", ""⟩ ⟨⟨"", "sub"⟩, ""⟩ ⟨⟨"", "voice"⟩, "", "", "", "", ""⟩
      ⟨⟨"", "w"⟩, ""⟩ rfl).1⟩

/-- C16 is not met by the code for the paragraph and the sentence:
`serializeParagraph` and `serializeSentence` lack the empty-content branch of
the other container serializers, so a document whose speak element holds an
empty paragraph and an empty sentence is written, in compact mode, as
`<speak><p></p><s></s></speak>`, with closing tags, where the claim asks for
`<speak><p/><s/></speak>`. -/
theorem Serialize_self_closing_counterexample :
    (NewSerializer false).Serialize (some emptyContainers)
      = ("<?xml version=\"1.0\" encoding=\"UTF-8\"?><speak><p></p><s></s></speak>", none) :=
  rfl

end ssml

namespace ssml

theorem indentChars_replicate (pretty : Bool) (depth : Nat) :
    indentChars pretty depth = if pretty then List.replicate (2 * depth) ' ' else [] := by
  unfold indentChars
  cases pretty
  · rfl
  · simp only [if_true]
    induction depth with
    | zero => rfl
    | succ n ih =>
      rw [List.replicate_succ, List.flatten_cons, ih, show 2 * (n + 1) = 2 + 2 * n by omega,
        List.replicate_add]
      rfl

theorem layout_append (pretty : Bool) (a b : List (Nat × List Char)) :
    layout pretty (a ++ b) = layout pretty a ++ layout pretty b := by
  simp [layout]

theorem layout_cons (pretty : Bool) (l : Nat × List Char) (ls : List (Nat × List Char)) :
    layout pretty (l :: ls)
      = (if pretty then List.replicate (2 * l.1) ' ' ++ (l.2 ++ ['\n']) else l.2)
        ++ layout pretty ls := by
  simp [layout]

theorem layout_nil (pretty : Bool) : layout pretty [] = [] := rfl

mutual
theorem render_pieces_layout (pretty : Bool) : ∀ (t : Markup) (depth : Nat),
    render (t.pieces pretty depth) = layout pretty (t.lines depth)
  | .text c, depth => by
    simp only [Markup.pieces, Markup.lines, render_cons, render_nil, Piece.render,
      List.flatMap_append, escape_indentChars, escape_newlineChars, layout_cons, layout_nil,
      List.append_nil, html.EscapeString]
    simp only [indentChars_replicate, newlineChars]
    cases pretty <;> simp
  | .element tag attrs selfClosing content, depth => by
    by_cases he : (content.isEmpty && selfClosing) = true
    · simp only [Markup.pieces, Markup.lines, he, if_true, render_cons, render_nil,
        Piece.render, escape_indentChars, escape_newlineChars, layout_cons, layout_nil,
        List.append_nil]
      simp only [indentChars_replicate, newlineChars]
      cases pretty <;> simp
    · simp only [Markup.pieces, Markup.lines, he, if_false, render_cons, render_nil,
        render_append, Piece.render, escape_indentChars, escape_newlineChars, layout_cons,
        layout_append, layout_nil, List.append_nil,
        render_piecesList_layout pretty content (depth + 1), Bool.false_eq_true]
      simp only [indentChars_replicate, newlineChars]
      cases pretty <;> simp
  | .other, _ => rfl
theorem render_piecesList_layout (pretty : Bool) : ∀ (ts : List Markup) (depth : Nat),
    render (piecesList pretty depth ts) = layout pretty (linesList depth ts)
  | [], _ => rfl
  | t :: ts, depth => by
    rw [piecesList, linesList, render_append, layout_append, render_pieces_layout pretty t depth,
      render_piecesList_layout pretty ts depth]
end

/-- C17 (indentation).  The text that `Serialize` returns for a document is the
XML declaration followed by the opening tags, closing tags, self-closing tags
and escaped texts of the document in order (`Markup.lines`, where the speak
element is at depth 0 and the items of a content list one level deeper than
their element): with `pretty = true` the declaration is followed by a line
break and each tag or text is preceded by exactly two spaces per level of its
depth and followed by a line break; with `pretty = false` the tags and texts
follow the declaration and one another directly. -/
theorem Serialize_indentation (pretty : Bool) (D : Speak)
    (h : hasOtherList D.Content = false) :
    (NewSerializer pretty).Serialize (some D)
        = (String.mk ("<?xml version=\"1.0\" encoding=\"UTF-8\"?>".data
            ++ ((if pretty then ['\n'] else []) ++ layout pretty (D.markup.lines 0))), none)
      ∧ layout true (D.markup.lines 0)
        = (D.markup.lines 0).flatMap
            (fun l => List.replicate (2 * l.1) ' ' ++ (l.2 ++ ['\n']))
      ∧ layout false (D.markup.lines 0) = (D.markup.lines 0).flatMap (fun l => l.2) := by
  refine ⟨?_, rfl, rfl⟩
  rw [Serialize_eq pretty D (knownList_of_hasOther _ h)]
  simp only [documentPieces, render_cons, Piece.render, escape_newlineChars,
    render_pieces_layout]
  simp only [newlineChars]

/-- C17 at a document with a text and a prosody element that holds a text and a
break: the lines of the pretty text are indented by two spaces per level, and
the compact text has neither line breaks nor indentation. -/
theorem Serialize_indentation_witness :
    hasOtherList layoutDocument.Content = false
      ∧ (NewSerializer true).Serialize (some layoutDocument)
        = ("<?xml version=\"1.0\" encoding=\"UTF-8\"?>\n<speak version=\"1.0\">\n  Hi\n  <prosody rate=\"fast\">\n    a\n    <break time=\"1s\"/>\n  </prosody>\n</speak>\n",
            none)
      ∧ (NewSerializer false).Serialize (some layoutDocument)
        = ("<?xml version=\"1.0\" encoding=\"UTF-8\"?><speak version=\"1.0\">Hi<prosody rate=\"fast\">a<break time=\"1s\"/></prosody></speak>",
            none)
      ∧ (NewSerializer true).Serialize (some layoutDocument)
        = (String.mk ("<?xml version=\"1.0\" encoding=\"UTF-8\"?>".data
            ++ ((if true then ['\n'] else []) ++ layout true (layoutDocument.markup.lines 0))),
            none) :=
  ⟨rfl, rfl, rfl, (Serialize_indentation true layoutDocument rfl).1⟩

end ssml

namespace float64

theorem bitLength_spec : ∀ (fuel n : Nat), n ≤ fuel → 0 < n →
    2 ^ (bitLength fuel n - 1) ≤ n ∧ n < 2 ^ bitLength fuel n := by
  intro fuel
  induction fuel with
  | zero => intro n h1 h2; omega
  | succ k ih =>
    intro n h1 h2
    rw [bitLength, if_neg (by omega)]
    by_cases hn : n / 2 = 0
    · have h1n : n = 1 := by omega
      subst h1n
      have : bitLength k (1 / 2) = 0 := by
        cases k <;> simp [bitLength]
      rw [this]
      simp
    · have hpos : 0 < n / 2 := Nat.pos_of_ne_zero hn
      obtain ⟨l1, l2⟩ := ih (n / 2) (by omega) hpos
      have hb : 0 < bitLength k (n / 2) := by
        cases k with
        | zero => omega
        | succ j => rw [bitLength, if_neg hn]; omega
      constructor
      · have : bitLength k (n / 2) + 1 - 1 = (bitLength k (n / 2) - 1) + 1 := by omega
        rw [this, Nat.pow_succ]
        omega
      · rw [Nat.pow_succ]
        omega

theorem bits_spec (n : Nat) (h : 0 < n) :
    2 ^ (bitLength n n - 1) ≤ n ∧ n < 2 ^ bitLength n n ∧ 0 < bitLength n n := by
  obtain ⟨h1, h2⟩ := bitLength_spec n n (Nat.le_refl _) h
  refine ⟨h1, h2, ?_⟩
  cases n with
  | zero => omega
  | succ k => rw [bitLength, if_neg (by omega)]; omega

end float64
namespace float64

theorem two_zpow_toNat (z : Int) (h : 0 ≤ z) : ((2 ^ z.toNat : Nat) : ℚ) = (2 : ℚ) ^ z := by
  have hz : (z.toNat : Int) = z := Int.toNat_of_nonneg h
  rw [Nat.cast_pow, Nat.cast_ofNat, ← zpow_natCast, hz]

theorem floorLog2_le (num den : Nat) (hn : 0 < num) (hd : 0 < den) :
    (2 : ℚ) ^ floorLog2 num den ≤ (num : ℚ) / den := by
  have hdq : (0 : ℚ) < den := by exact_mod_cast hd
  obtain ⟨n1, _, n3⟩ := bits_spec num hn
  obtain ⟨_, d2, d3⟩ := bits_spec den hd
  unfold floorLog2
  simp only
  generalize hl : ((bitLength num num : Int) - bitLength den den) = l
  have low : (2 : ℚ) ^ (l - 1) ≤ (num : ℚ) / den := by
    rw [le_div_iff₀ hdq]
    have e1 : (2 : ℚ) ^ (l - 1)
        = (2 : ℚ) ^ (bitLength num num - 1) / (2 : ℚ) ^ (bitLength den den) := by
      have : l - 1 = ((bitLength num num - 1 : Nat) : Int) - ((bitLength den den : Nat) : Int) := by
        omega
      rw [this, zpow_sub₀ (by norm_num), zpow_natCast, zpow_natCast]
    rw [e1, div_mul_eq_mul_div, div_le_iff₀ (by positivity)]
    have n1q : (2 : ℚ) ^ (bitLength num num - 1) ≤ num := by exact_mod_cast n1
    have d2q : (den : ℚ) ≤ 2 ^ bitLength den den := by exact_mod_cast d2.le
    exact mul_le_mul n1q d2q (by positivity) (by positivity)
  by_cases h0 : 0 ≤ l
  · simp only [h0, if_true]
    by_cases ht : den * 2 ^ l.toNat ≤ num
    · rw [if_pos ht, le_div_iff₀ hdq, ← two_zpow_toNat _ h0]
      rw [Nat.mul_comm] at ht
      exact_mod_cast ht
    · rw [if_neg ht]
      exact low
  · simp only [h0, if_false]
    by_cases ht : den ≤ num * 2 ^ (-l).toNat
    · rw [if_pos ht, le_div_iff₀ hdq]
      have hl2 : 0 ≤ -l := by omega
      have hz : (2 : ℚ) ^ l = ((2 : ℚ) ^ (-l))⁻¹ := by rw [zpow_neg, inv_inv]
      rw [hz, ← two_zpow_toNat _ hl2, inv_mul_le_iff₀ (by positivity)]
      rw [Nat.mul_comm] at ht
      exact_mod_cast ht
    · rw [if_neg ht]
      exact low

end float64
namespace float64

theorem roundPos_exact (num den : Nat) (hn : 0 < num) (hd : 0 < den) (k : Nat) (s : Int)
    (hk : k < 2 ^ 53) (hs1 : -1074 ≤ s) (hx : (num : ℚ) / den = k * (2 : ℚ) ^ s) :
    (roundPos num den).2 ≤ s
      ∧ (roundPos num den).1 = k * 2 ^ (s - (roundPos num den).2).toNat := by
  have hdq : (0 : ℚ) < den := by exact_mod_cast hd
  have hfl := floorLog2_le num den hn hd
  have hfl2 : floorLog2 num den < 53 + s := by
    have h1 : (2 : ℚ) ^ floorLog2 num den < (2 : ℚ) ^ (53 + s) := by
      calc (2 : ℚ) ^ floorLog2 num den ≤ (num : ℚ) / den := hfl
        _ = k * (2 : ℚ) ^ s := hx
        _ < (2 : ℚ) ^ (53 : ℕ) * (2 : ℚ) ^ s := by
          apply mul_lt_mul_of_pos_right _ (by positivity)
          exact_mod_cast hk
        _ = (2 : ℚ) ^ (53 + s) := by
          rw [zpow_add₀ (by norm_num)]
          norm_num
    exact (zpow_lt_zpow_iff_right₀ (by norm_num)).mp h1
  unfold roundPos
  simp only
  generalize he : max (floorLog2 num den - 52) (-1074) = e
  have hes : e ≤ s := by
    rw [← he]
    exact max_le (by omega) hs1
  have hse : 0 ≤ s - e := by omega
  have hnum : (num : ℚ) = k * (2 : ℚ) ^ s * den := by
    rw [← hx]
    field_simp
  have hsplit : (2 : ℚ) ^ s = (2 : ℚ) ^ (s - e) * (2 : ℚ) ^ e := by
    rw [← zpow_add₀ (by norm_num)]
    congr 1
    omega
  obtain ⟨n, hndef⟩ : ∃ n, n = (if 0 ≤ e then num else num * 2 ^ (-e).toNat) := ⟨_, rfl⟩
  obtain ⟨d, hddef⟩ : ∃ d, d = (if 0 ≤ e then den * 2 ^ e.toNat else den) := ⟨_, rfl⟩
  rw [← hndef, ← hddef]
  have hdpos : 0 < d := by
    rw [hddef]
    split
    · positivity
    · exact hd
  have key : n = k * 2 ^ (s - e).toNat * d := by
    have : (n : ℚ) = ((k * 2 ^ (s - e).toNat * d : Nat) : ℚ) := by
      rw [hndef, hddef]
      by_cases h0 : 0 ≤ e
      · simp only [h0, if_true]
        rw [Nat.cast_mul, Nat.cast_mul, Nat.cast_mul, two_zpow_toNat _ hse,
          two_zpow_toNat _ h0, hnum, hsplit]
        ring
      · simp only [h0, if_false]
        have h1 : 0 ≤ -e := by omega
        rw [Nat.cast_mul, Nat.cast_mul, Nat.cast_mul, two_zpow_toNat _ hse,
          two_zpow_toNat _ h1, hnum, hsplit, zpow_neg]
        field_simp
        ring
    exact_mod_cast this
  have hq : n / d = k * 2 ^ (s - e).toNat := by
    rw [key]
    exact Nat.mul_div_cancel _ hdpos
  have hr : n % d = 0 := by
    rw [key]
    exact Nat.mul_mod_left _ _
  refine ⟨hes, ?_⟩
  rw [hr, hq]
  have hc : ¬ (d < 2 * 0 ∨ (2 * 0 = d ∧ k * 2 ^ (s - e).toNat % 2 = 1)) := by
    omega
  rw [if_neg hc]

theorem round_exact (num : Int) (den : Nat) (hd : 0 < den) (k : Nat) (s : Int)
    (hk : k < 2 ^ 53) (hs1 : -1074 ≤ s) (hs2 : s ≤ 971)
    (hx : |(num : ℚ)| / den = k * (2 : ℚ) ^ s) :
    IsValue (round num den) ((num : ℚ) / den) := by
  unfold round
  by_cases h0 : num = 0
  · rw [if_pos h0]
    exact ⟨0, 0, rfl, by simp [h0]⟩
  · rw [if_neg h0]
    have hn : 0 < num.natAbs := Int.natAbs_pos.mpr h0
    have habs : ((num.natAbs : Nat) : ℚ) = |(num : ℚ)| := by
      rw [Nat.cast_natAbs, Int.cast_abs]
    obtain ⟨h1, h2⟩ := roundPos_exact num.natAbs den hn hd k s hk hs1 (by rw [habs]; exact hx)
    generalize hr : roundPos num.natAbs den = r at h1 h2
    obtain ⟨q, e⟩ := r
    simp only at h1 h2 ⊢
    have hov : ¬ (972 ≤ e ∨ (e = 971 ∧ 2 ^ 53 ≤ q)) := by
      rintro (h | ⟨h3, h4⟩)
      · omega
      · have : s - e = 0 := by omega
        rw [h2, this] at h4
        simp at h4
        omega
    rw [if_neg hov]
    refine ⟨_, e, rfl, ?_⟩
    have hse : 0 ≤ s - e := by omega
    have hq : (q : ℚ) * (2 : ℚ) ^ e = |(num : ℚ)| / den := by
      rw [hx, h2, Nat.cast_mul, two_zpow_toNat _ hse, mul_assoc, ← zpow_add₀ (by norm_num)]
      congr 2
      omega
    by_cases hneg : num < 0
    · rw [if_pos hneg]
      have : |(num : ℚ)| = -(num : ℚ) := abs_of_neg (by exact_mod_cast hneg)
      rw [this] at hq
      push_cast
      rw [neg_mul, hq]
      ring
    · rw [if_neg hneg]
      have : |(num : ℚ)| = (num : ℚ) := abs_of_nonneg (by exact_mod_cast (not_lt.mp hneg))
      rw [this] at hq
      push_cast
      exact hq

end float64
namespace float64

theorem truncate_int (m e K : Int) (h : (m : ℚ) * (2 : ℚ) ^ e = K) : truncate m e = K := by
  unfold truncate
  by_cases h0 : 0 ≤ e
  · rw [if_pos h0]
    have : ((m * 2 ^ e.toNat : Int) : ℚ) = (K : ℚ) := by
      push_cast
      rw [← h, ← two_zpow_toNat _ h0]
      push_cast
      rfl
    exact_mod_cast this
  · rw [if_neg h0]
    have h1 : 0 ≤ -e := by omega
    have hm : m = K * 2 ^ (-e).toNat := by
      have : (m : ℚ) = ((K * 2 ^ (-e).toNat : Int) : ℚ) := by
        have h2 := two_zpow_toNat _ h1
        push_cast at h2 ⊢
        rw [h2, ← h, zpow_neg]
        field_simp
      exact_mod_cast this
    have hpos : 0 < 2 ^ (-e).toNat := by positivity
    have habs : m.natAbs = K.natAbs * 2 ^ (-e).toNat := by
      rw [hm, Int.natAbs_mul]
      congr 1
      exact Int.natAbs_pow 2 _
    rw [habs, Nat.mul_div_cancel _ hpos]
    by_cases hneg : m < 0
    · rw [if_pos hneg]
      have hK : K < 0 := by
        by_contra hc
        have : 0 ≤ K * 2 ^ (-e).toNat := mul_nonneg (not_lt.mp hc) (by positivity)
        omega
      omega
    · rw [if_neg hneg]
      have hK : 0 ≤ K := by
        by_contra hc
        have : K * 2 ^ (-e).toNat < 0 := mul_neg_of_neg_of_pos (not_le.mp hc) (by positivity)
        omega
      omega

theorem toInt64_value (lib : Platform) (f : float64) (K : Int) (h : IsValue f K)
    (h1 : -(2 ^ 63) ≤ K) (h2 : K < 2 ^ 63) : toInt64 lib f = K := by
  obtain ⟨m, e, hf, hv⟩ := h
  subst hf
  simp only [toInt64]
  rw [truncate_int m e K hv, if_pos ⟨h1, h2⟩]

theorem mul_value (a b : float64) (x y : ℚ) (ha : IsValue a x) (hb : IsValue b y)
    (k : Nat) (s : Int) (hk : k < 2 ^ 53) (hs1 : -1074 ≤ s) (hs2 : s ≤ 971)
    (hxy : |x * y| = k * (2 : ℚ) ^ s) : IsValue (a.mul b) (x * y) := by
  obtain ⟨m1, e1, rfl, h1⟩ := ha
  obtain ⟨m2, e2, rfl, h2⟩ := hb
  have hprod : (m1 : ℚ) * m2 * (2 : ℚ) ^ (e1 + e2) = x * y := by
    rw [← h1, ← h2, zpow_add₀ (by norm_num)]
    ring
  simp only [mul]
  by_cases h0 : 0 ≤ e1 + e2
  · rw [if_pos h0]
    have hv : (((m1 * m2 * 2 ^ (e1 + e2).toNat : Int) : ℚ)) / ((1 : Nat) : ℚ) = x * y := by
      have h3 := two_zpow_toNat _ h0
      push_cast at h3 ⊢
      rw [h3, div_one, hprod]
    rw [← hv]
    apply round_exact _ 1 (by norm_num) k s hk hs1 hs2
    rw [← abs_of_pos (show (0 : ℚ) < ((1 : Nat) : ℚ) by norm_num), ← abs_div, hv]
    exact hxy
  · rw [if_neg h0]
    have hn : 0 ≤ -(e1 + e2) := by omega
    have hv : (((m1 * m2 : Int) : ℚ)) / ((2 ^ (-(e1 + e2)).toNat : Nat) : ℚ) = x * y := by
      rw [two_zpow_toNat _ hn, zpow_neg, div_inv_eq_mul]
      push_cast
      exact hprod
    rw [← hv]
    apply round_exact _ _ (by positivity) k s hk hs1 hs2
    have hp : (0 : ℚ) < ((2 ^ (-(e1 + e2)).toNat : Nat) : ℚ) := by positivity
    rw [← abs_of_pos hp, ← abs_div, hv]
    exact hxy

theorem ofInt_value (K : Int) (k : Nat) (s : Int) (hk : k < 2 ^ 53) (hs1 : -1074 ≤ s)
    (hs2 : s ≤ 971) (hx : |(K : ℚ)| = k * (2 : ℚ) ^ s) : IsValue (ofInt K) K := by
  have := round_exact K 1 (by norm_num) k s hk hs1 hs2 (by simpa using hx)
  simpa [ofInt] using this

end float64

set_option maxRecDepth 100000

namespace ssml

theorem ProcessSSML_start (lib : Platform) (speak : Speak) :
    NewAudioProcessor.ProcessSSML lib speak
      = match (defaultContext [] [] 0 0 "").processContents lib speak.Content with
        | none => none
        | some ctx =>
          some { ctx.result with
            PlainText := ctx.plainTextBuilder, TotalDuration := ctx.currentTime } :=
  rfl

/-- C18 (scenario).  For the document with the content `Hello`, a break with
`time="1s"` and `World`, `ProcessSSML` of the default processor (150 ms per
character) returns, on every platform, the plain text `HelloWorld`, the two
segments `Hello` (start 0, duration 750 ms) and `World` (start 1750 ms,
duration 750 ms), both with the default properties, the single instruction of
type `break` at position 5 with the duration 1 s, and the total duration
2.5 s. -/
theorem ProcessSSML_hello_world (lib : Platform) :
    NewAudioProcessor.ProcessSSML lib helloWorld
      = some
        { PlainText := "HelloWorld",
          Segments :=
            [{ Text := "Hello", StartTime := 0, Duration := 750 * time.Millisecond,
               Properties := NewAudioProcessor.defaultProperties },
             { Text := "World", StartTime := 1750 * time.Millisecond,
               Duration := 750 * time.Millisecond,
               Properties := NewAudioProcessor.defaultProperties }],
          Instructions :=
            [{ Type_ := "break", Position := 5, Duration := 1 * time.Second, AudioFile := "",
               Properties := none }],
          TotalDuration := 2500 * time.Millisecond } := by
  have h1 : (defaultContext [] [] 0 0 "").processContent lib (.Text "Hello")
      = some (defaultContext [⟨"Hello", 0, 750000000, NewAudioProcessor.defaultProperties⟩] []
          750000000 5 "Hello") := rfl
  have h2 : (defaultContext [⟨"Hello", 0, 750000000, NewAudioProcessor.defaultProperties⟩] []
          750000000 5 "Hello").processContent lib (.Break ⟨⟨"", "break"⟩, "1s", ""⟩)
      = some (defaultContext [⟨"Hello", 0, 750000000, NewAudioProcessor.defaultProperties⟩]
          [⟨"break", 5, 1000000000, "", none⟩] 1750000000 5 "Hello") := rfl
  have h3 : (defaultContext [⟨"Hello", 0, 750000000, NewAudioProcessor.defaultProperties⟩]
          [⟨"break", 5, 1000000000, "", none⟩] 1750000000 5 "Hello").processContent lib
          (.Text "World")
      = some (defaultContext
          [⟨"Hello", 0, 750000000, NewAudioProcessor.defaultProperties⟩,
            ⟨"World", 1750000000, 750000000, NewAudioProcessor.defaultProperties⟩]
          [⟨"break", 5, 1000000000, "", none⟩] 2500000000 10 "HelloWorld") := rfl
  rw [ProcessSSML_start]
  simp only [helloWorld, processingContext.processContents, h1, h2, h3]
  rfl

end ssml

namespace strconv

theorem digit_range (c : Char) (h : (digit c).isSome = true) : 48 ≤ c.toNat ∧ c.toNat ≤ 57 := by
  unfold digit at h
  split at h
  · rename_i hc
    obtain ⟨h1, h2⟩ := hc
    have h1n : ('0' : Char).toNat ≤ c.toNat := h1
    have h2n : c.toNat ≤ ('9' : Char).toNat := h2
    exact ⟨h1n, h2n⟩
  · cases h

theorem digit_not_space (c : Char) (h : (digit c).isSome = true) : unicode.IsSpace c = false := by
  obtain ⟨h1, h2⟩ := digit_range c h
  have hne : ∀ d : Char, d.toNat < 48 → ¬ c = d := by
    intro d hd hcd
    subst hcd
    omega
  unfold unicode.IsSpace
  simp only [Bool.or_eq_false_iff, decide_eq_false_iff_not, Bool.and_eq_false_iff]
  refine ⟨⟨⟨⟨⟨⟨⟨⟨⟨⟨⟨⟨⟨⟨?_, ?_⟩, ?_⟩, ?_⟩, ?_⟩, ?_⟩, ?_⟩, ?_⟩, ?_⟩, ?_⟩, ?_⟩, ?_⟩, ?_⟩, ?_⟩, ?_⟩
  all_goals first
    | (apply hne; decide)
    | omega

theorem digits_all (ds : List Char) (h : ∀ c ∈ ds, (digit c).isSome = true) : ∀ acc,
    digits ds acc = ((digits ds acc).1, ds.length, []) := by
  induction ds with
  | nil => intro acc; rfl
  | cons c cs ih =>
    intro acc
    have hc := h c (List.mem_cons_self _ _)
    obtain ⟨d, hd⟩ := Option.isSome_iff_exists.mp hc
    have := ih (fun x hx => h x (List.mem_cons_of_mem _ hx)) (acc * 10 + d)
    simp only [digits, hd]
    rw [this]
    rfl

theorem sign_digit (c : Char) (cs : List Char) (h : (digit c).isSome = true) :
    sign (c :: cs) = (false, c :: cs) := by
  obtain ⟨h1, h2⟩ := digit_range c h
  have hp : c ≠ '+' := by
    intro hc; subst hc; revert h1; decide
  have hm : c ≠ '-' := by
    intro hc; subst hc; revert h1; decide
  unfold sign
  split
  · rename_i heq; cases heq; exact absurd rfl hp
  · rename_i heq; cases heq; exact absurd rfl hm
  · rfl

theorem readDecimal_digits (ds : List Char) (hne : ds ≠ [])
    (h : ∀ c ∈ ds, (digit c).isSome = true) :
    readDecimal ds = some (false, (digits ds 0).1, 0) := by
  cases ds with
  | nil => exact absurd rfl hne
  | cons c cs =>
    unfold readDecimal
    rw [sign_digit c cs (h c (List.mem_cons_self _ _))]
    simp only
    rw [digits_all (c :: cs) h 0]
    simp

end strconv
namespace strings

theorem dropWhile_head_not {α : Type} (p : α → Bool) (a : α) (l : List α) (h : p a = false) :
    (a :: l).dropWhile p = a :: l := by
  rw [List.dropWhile_cons, if_neg (by simp [h])]

theorem trimChars_id (l : List Char) (a b : Char) (ha : l.head? = some a)
    (hb : l.getLast? = some b) (hsa : unicode.IsSpace a = false)
    (hsb : unicode.IsSpace b = false) : trimChars l = l := by
  unfold trimChars
  cases l with
  | nil => cases ha
  | cons c cs =>
    cases ha
    rw [dropWhile_head_not _ _ _ hsa]
    have hr : (a :: cs).reverse.head? = some b := by rw [List.head?_reverse]; exact hb
    cases hrev : (a :: cs).reverse with
    | nil => rw [hrev] at hr; cases hr
    | cons d ds =>
      rw [hrev] at hr
      cases hr
      rw [dropWhile_head_not _ _ _ hsb, ← hrev, List.reverse_reverse]

theorem HasSuffix_append (a suffix : List Char) :
    HasSuffix (String.mk (a ++ suffix)) (String.mk suffix) = true := by
  unfold HasSuffix
  simp

theorem TrimSuffix_append (a suffix : List Char) :
    TrimSuffix (String.mk (a ++ suffix)) (String.mk suffix) = String.mk a := by
  unfold TrimSuffix
  rw [if_pos (HasSuffix_append a suffix)]
  simp

theorem HasSuffix_ms (a : List Char) (c : Char) (hc : c ≠ 'm') :
    HasSuffix (String.mk (a ++ [c] ++ "s".data)) "ms" = false := by
  unfold HasSuffix
  simp only [decide_eq_false_iff_not, not_and]
  intro h
  exfalso
  have hl : (a ++ [c] ++ "s".data).length - "ms".data.length = a.length := by
    simp [List.length_append]
  rw [hl, List.append_assoc, List.drop_left' rfl] at h
  simp only [List.singleton_append, String.data] at h
  injection h with h1 h2
  exact hc h1

end strings
theorem wrap64_id (x : Int) (h1 : -(2 ^ 63) ≤ x) (h2 : x < 2 ^ 63) : wrap64 x = x := by
  unfold wrap64
  omega

namespace strconv

theorem ParseFloat_digits (lib : Platform) (ds : List Char) (hne : ds ≠ [])
    (h : ∀ c ∈ ds, (digit c).isSome = true) (hn : (digits ds 0).1 < 2 ^ 53) :
    ParseFloat lib (String.mk ds) = .ok (float64.ofInt (digits ds 0).1)
      ∧ float64.IsValue (float64.ofInt (digits ds 0).1) ((digits ds 0).1 : Int) := by
  have hv : float64.IsValue (float64.ofInt (digits ds 0).1) ((digits ds 0).1 : Int) :=
    float64.ofInt_value _ (digits ds 0).1 0 hn (by norm_num) (by norm_num) (by simp)
  refine ⟨?_, hv⟩
  obtain ⟨m, e, hf, _⟩ := hv
  unfold ParseFloat
  simp only [readDecimal_digits ds hne h]
  have h0 : (if (0 : Int) ≤ 0 then
      float64.round ((if false = true then -((digits ds 0).1 : Int) else ((digits ds 0).1 : Int))
        * 10 ^ (0 : Int).toNat) 1
      else float64.round (if false = true then -((digits ds 0).1 : Int)
        else ((digits ds 0).1 : Int)) (10 ^ (-(0 : Int)).toNat))
      = float64.ofInt (digits ds 0).1 := by
    simp [float64.ofInt]
  rw [h0, hf]

end strconv

namespace ssml

theorem digits_time_trim (ds suffix : List Char) (c : Char) (cs : List Char) (hds : ds = c :: cs)
    (hc : (strconv.digit c).isSome = true) (b : Char) (hb : suffix.getLast? = some b)
    (hsb : unicode.IsSpace b = false) :
    strings.TrimSpace (String.mk (ds ++ suffix)) = String.mk (ds ++ suffix) := by
  unfold strings.TrimSpace
  congr 1
  apply strings.trimChars_id _ c b
  · rw [hds]; rfl
  · cases suffix with
    | nil => cases hb
    | cons x xs =>
      rw [List.getLast?_append_of_ne_nil _ (by simp)]
      exact hb
  · exact strconv.digit_not_space c hc
  · exact hsb

theorem parseDuration_ms (lib : Platform) (ctx : processingContext) (ds : List Char)
    (hne : ds ≠ []) (h : ∀ c ∈ ds, (strconv.digit c).isSome = true)
    (hn : ((strconv.digits ds 0).1 : Int) * 1000000 < 2 ^ 63) :
    ctx.parseDuration lib (String.mk (ds ++ "ms".data))
      = .ok (((strconv.digits ds 0).1 : Int) * time.Millisecond) := by
  obtain ⟨c, cs, hds⟩ := List.exists_cons_of_ne_nil hne
  have hc : (strconv.digit c).isSome = true := h c (by rw [hds]; exact List.mem_cons_self _ _)
  have hn53 : (strconv.digits ds 0).1 < 2 ^ 53 := by
    have : ((strconv.digits ds 0).1 : Int) < 2 ^ 53 := by omega
    exact_mod_cast this
  obtain ⟨hp, hv⟩ := strconv.ParseFloat_digits lib ds hne h hn53
  unfold processingContext.parseDuration
  simp only
  rw [digits_time_trim ds "ms".data c cs hds hc 's' rfl rfl]
  rw [if_pos (strings.HasSuffix_append ds "ms".data), strings.TrimSuffix_append ds "ms".data, hp]
  simp only
  rw [float64.toInt64_value lib _ _ hv (by omega) (by omega)]
  rw [wrap64_id _ (by unfold time.Millisecond; omega) (by unfold time.Millisecond; omega)]

theorem parseDuration_s (lib : Platform) (ctx : processingContext) (ds : List Char)
    (hne : ds ≠ []) (h : ∀ c ∈ ds, (strconv.digit c).isSome = true)
    (hn : (strconv.digits ds 0).1 < 4611686019) :
    ctx.parseDuration lib (String.mk (ds ++ "s".data))
      = .ok (((strconv.digits ds 0).1 : Int) * time.Second) := by
  obtain ⟨c, cs, hds⟩ := List.exists_cons_of_ne_nil hne
  have hc : (strconv.digit c).isSome = true := h c (by rw [hds]; exact List.mem_cons_self _ _)
  have hn53 : (strconv.digits ds 0).1 < 2 ^ 53 := by omega
  obtain ⟨hp, hv⟩ := strconv.ParseFloat_digits lib ds hne h hn53
  have hsec : float64.IsValue (float64.ofInt time.Second) (time.Second : Int) :=
    float64.ofInt_value _ 1000000000 0 (by norm_num) (by norm_num) (by norm_num)
      (by simp [time.Second])
  have hmul := float64.mul_value _ _ _ _ hv hsec ((strconv.digits ds 0).1 * 5 ^ 9) 9
    (by omega) (by norm_num) (by norm_num)
    (by
      rw [abs_of_nonneg (mul_nonneg (by positivity) (by norm_num [time.Second]))]
      simp only [time.Second]
      push_cast
      ring)
  have hlast : ds = ds.dropLast ++ [ds.getLast hne] := (List.dropLast_append_getLast hne).symm
  have hlc : (strconv.digit (ds.getLast hne)).isSome = true := h _ (List.getLast_mem hne)
  have hm : ds.getLast hne ≠ 'm' := by
    intro hcm
    rw [hcm] at hlc
    revert hlc
    decide
  unfold processingContext.parseDuration
  simp only
  rw [digits_time_trim ds "s".data c cs hds hc 's' rfl rfl]
  have hnot : strings.HasSuffix (String.mk (ds ++ "s".data)) "ms" = false := by
    rw [hlast]
    exact strings.HasSuffix_ms _ _ hm
  rw [if_neg (by rw [hnot]; simp), if_pos (strings.HasSuffix_append ds "s".data),
    strings.TrimSuffix_append ds "s".data, hp]
  simp only
  have hcast : (((strconv.digits ds 0).1 : Int) : ℚ) * ((time.Second : Int) : ℚ)
      = ((((strconv.digits ds 0).1 : Int) * time.Second : Int) : ℚ) := by push_cast; rfl
  rw [hcast] at hmul
  rw [float64.toInt64_value lib _ _ hmul (by unfold time.Second; omega)
    (by unfold time.Second; omega)]

end ssml
namespace ssml

theorem processBreak_time (lib : Platform) (ctx : processingContext) (br : Break) (d : Int)
    (ht : br.Time ≠ "") (hd : ctx.parseDuration lib br.Time = .ok d) :
    ctx.processBreak lib br = ctx.afterBreak d := by
  unfold processingContext.processBreak processingContext.afterBreak
  simp only [ht, ne_eq, not_false_eq_true, if_true, hd]

theorem processBreak_strength (lib : Platform) (ctx : processingContext) (br : Break)
    (ht : br.Time = "") :
    ctx.processBreak lib br
      = ctx.afterBreak
          (if br.Strength = "none" then 0
            else if br.Strength = "x-weak" then 100 * time.Millisecond
            else if br.Strength = "weak" then 250 * time.Millisecond
            else if br.Strength = "medium" then 500 * time.Millisecond
            else if br.Strength = "strong" then 1 * time.Second
            else if br.Strength = "x-strong" then 2 * time.Second
            else 500 * time.Millisecond) := by
  unfold processingContext.processBreak processingContext.afterBreak
  simp only [ht, ne_eq, not_true_eq_false, if_false]
  by_cases hs : br.Strength = ""
  · simp [hs]
  · simp only [hs, not_false_eq_true, if_true]
    split <;> simp_all

/-- C19 (break resolution), amended.  `processBreak` appends one instruction of
type `break` whose position is the cursor, adds its duration to the duration
accumulator (in `int64` arithmetic) and changes nothing else (`afterBreak`).
The duration is (a) `n` milliseconds when `time` is the decimal digits of `n`
followed by `ms` and `n` milliseconds are an `int64` number of nanoseconds, and
`n` seconds when `time` is the digits of `n` followed by `s` and `n` is below
4611686019, whatever `strength` holds; (b) when `time` is empty, the value of
the table for `strength`: 0 for `none`, 100 ms for `x-weak`, 250 ms for `weak`,
500 ms for `medium`, 1 s for `strong`, 2 s for `x-strong`, and 500 ms for every
other string; (c) in particular 500 ms when both are empty. -/
theorem processBreak_resolution (lib : Platform) (ctx : processingContext) (br : Break)
    (ds : List Char) (hne : ds ≠ []) (hds : ∀ c ∈ ds, (strconv.digit c).isSome = true) :
    (br.Time = String.mk (ds ++ "ms".data) →
        ((strconv.digits ds 0).1 : Int) * 1000000 < 2 ^ 63 →
        ctx.processBreak lib br
          = ctx.afterBreak (((strconv.digits ds 0).1 : Int) * time.Millisecond))
      ∧ (br.Time = String.mk (ds ++ "s".data) → (strconv.digits ds 0).1 < 4611686019 →
        ctx.processBreak lib br
          = ctx.afterBreak (((strconv.digits ds 0).1 : Int) * time.Second))
      ∧ (br.Time = "" → br.Strength = "none" → ctx.processBreak lib br = ctx.afterBreak 0)
      ∧ (br.Time = "" → br.Strength = "x-weak" →
        ctx.processBreak lib br = ctx.afterBreak (100 * time.Millisecond))
      ∧ (br.Time = "" → br.Strength = "weak" →
        ctx.processBreak lib br = ctx.afterBreak (250 * time.Millisecond))
      ∧ (br.Time = "" → br.Strength = "medium" →
        ctx.processBreak lib br = ctx.afterBreak (500 * time.Millisecond))
      ∧ (br.Time = "" → br.Strength = "strong" →
        ctx.processBreak lib br = ctx.afterBreak (1 * time.Second))
      ∧ (br.Time = "" → br.Strength = "x-strong" →
        ctx.processBreak lib br = ctx.afterBreak (2 * time.Second))
      ∧ (br.Time = "" →
        br.Strength ∉ ["none", "x-weak", "weak", "medium", "strong", "x-strong"] →
        ctx.processBreak lib br = ctx.afterBreak (500 * time.Millisecond))
      ∧ (br.Time = "" → br.Strength = "" →
        ctx.processBreak lib br = ctx.afterBreak (500 * time.Millisecond))
      ∧ ∀ d : Int,
          (ctx.afterBreak d).result.Instructions
              = ctx.result.Instructions
                ++ [{ Type_ := "break", Position := ctx.textPosition, Duration := d,
                      AudioFile := "", Properties := none }]
            ∧ (ctx.afterBreak d).currentTime = wrap64 (ctx.currentTime + d)
            ∧ (-(2 ^ 63) ≤ ctx.currentTime + d → ctx.currentTime + d < 2 ^ 63 →
                (ctx.afterBreak d).currentTime = ctx.currentTime + d)
            ∧ (ctx.afterBreak d).textPosition = ctx.textPosition
            ∧ (ctx.afterBreak d).plainTextBuilder = ctx.plainTextBuilder
            ∧ (ctx.afterBreak d).result.Segments = ctx.result.Segments
            ∧ (ctx.afterBreak d).propertyStack = ctx.propertyStack := by
  refine ⟨?_, ?_, ?_, ?_, ?_, ?_, ?_, ?_, ?_, ?_, ?_⟩
  · intro ht hn
    apply processBreak_time lib ctx br _ _
    · rw [ht]; exact parseDuration_ms lib ctx ds hne hds hn
    · rw [ht]
      intro h
      have := congrArg String.length h
      simp [String.length] at this
  · intro ht hn
    apply processBreak_time lib ctx br _ _
    · rw [ht]; exact parseDuration_s lib ctx ds hne hds hn
    · rw [ht]
      intro h
      have := congrArg String.length h
      simp [String.length] at this
  · intro ht hs; rw [processBreak_strength lib ctx br ht, hs]; rfl
  · intro ht hs; rw [processBreak_strength lib ctx br ht, hs]; rfl
  · intro ht hs; rw [processBreak_strength lib ctx br ht, hs]; rfl
  · intro ht hs; rw [processBreak_strength lib ctx br ht, hs]; rfl
  · intro ht hs; rw [processBreak_strength lib ctx br ht, hs]; rfl
  · intro ht hs; rw [processBreak_strength lib ctx br ht, hs]; rfl
  · intro ht hs
    rw [processBreak_strength lib ctx br ht]
    simp only [List.mem_cons, List.mem_singleton, List.not_mem_nil, or_false, not_or] at hs
    simp only [hs, if_false]
  · intro ht hs; rw [processBreak_strength lib ctx br ht, hs]; rfl
  · intro d
    exact ⟨rfl, rfl, fun h1 h2 => wrap64_id _ h1 h2, rfl, rfl, rfl, rfl⟩

end ssml

set_option maxRecDepth 100000

namespace ssml

/-- C19 at `time="500ms"` with `strength="strong"`, in the context that has read
`Hello`: the break instruction has the position 5 and the duration 500 ms, and
the accumulator goes from 750 ms to 1250 ms. -/
theorem processBreak_resolution_witness :
    "500".data ≠ [] ∧ (∀ c ∈ "500".data, (strconv.digit c).isSome = true)
      ∧ (strconv.digits "500".data 0).1 = 500
      ∧ (defaultContext [] [] 750000000 5 "Hello").processBreak samplePlatform
          ⟨⟨"", "break"⟩, "500ms", "strong"⟩
        = (defaultContext [] [] 750000000 5 "Hello").afterBreak
            (((strconv.digits "500".data 0).1 : Int) * time.Millisecond)
      ∧ (defaultContext [] [] 750000000 5 "Hello").afterBreak (500 * time.Millisecond)
        = defaultContext [] [⟨"break", 5, 500000000, "", none⟩] 1250000000 5 "Hello" :=
  ⟨by decide, by decide, rfl,
    (processBreak_resolution samplePlatform (defaultContext [] [] 750000000 5 "Hello")
      ⟨⟨"", "break"⟩, "500ms", "strong"⟩ "500".data (by decide) (by decide)).1 rfl (by decide),
    rfl⟩

/-- C19 fails for a large whole number of seconds: for `time="4611686019s"` the
product of 4611686019 and the number of nanoseconds of a second is not a
`float64`, and the duration of the break is 512 ns more than 4611686019 s. -/
theorem processBreak_resolution_counterexample :
    (defaultContext [] [] 0 0 "").processBreak samplePlatform
        ⟨⟨"", "break"⟩, "4611686019s", ""⟩
      = (defaultContext [] [] 0 0 "").afterBreak 4611686019000000512
      ∧ 4611686019 * time.Second = 4611686019000000000 :=
  ⟨rfl, rfl⟩

end ssml

namespace ssml

theorem copyProperties_eq (ap : AudioProcessor) (props : AudioProperties) :
    ap.copyProperties props = props := by
  cases props
  rfl

theorem getCurrentProperties_top (ctx : processingContext) (stk : List AudioProperties)
    (top : AudioProperties) (h : ctx.propertyStack = stk ++ [top]) :
    ctx.getCurrentProperties = some top ∧ ctx.copyCurrentProperties = some top := by
  unfold processingContext.getCurrentProperties processingContext.copyCurrentProperties
    processingContext.copyProperties
  rw [h, List.getLast?_append_of_ne_nil _ (by simp)]
  simp [copyProperties_eq]

theorem stack_top (stack : List AudioProperties) (h : stack ≠ []) :
    ∃ stk top, stack = stk ++ [top] :=
  ⟨stack.dropLast, stack.getLast h, (List.dropLast_append_getLast h).symm⟩

theorem popProperties_push (ctx : processingContext) (stack : List AudioProperties)
    (frame : AudioProperties) (hne : stack ≠ []) (h : ctx.propertyStack = stack ++ [frame]) :
    ctx.popProperties.propertyStack = stack ∧ ctx.popProperties.processor = ctx.processor := by
  unfold processingContext.popProperties
  have hl : ctx.propertyStack.length > 1 := by
    rw [h, List.length_append]
    have := List.length_pos.mpr hne
    simp
    omega
  rw [if_pos hl]
  simp only [h]
  constructor
  · simp
  · trivial

theorem processText_stack (lib : Platform) (ctx : processingContext) (text : String)
    (h : ctx.propertyStack ≠ []) :
    ∃ c, ctx.processText lib text = some c ∧ c.propertyStack = ctx.propertyStack
      ∧ c.processor = ctx.processor := by
  obtain ⟨stk, top, hs⟩ := stack_top _ h
  obtain ⟨h1, _⟩ := getCurrentProperties_top ctx stk top hs
  unfold processingContext.processText
  simp only
  split
  · exact ⟨ctx, rfl, rfl, rfl⟩
  · unfold processingContext.calculateTextDuration
    simp only [h1]
    exact ⟨_, rfl, rfl, rfl⟩

theorem addAutomaticBreak_stack (ctx : processingContext) (d : Int) :
    (ctx.addAutomaticBreak d).propertyStack = ctx.propertyStack
      ∧ (ctx.addAutomaticBreak d).processor = ctx.processor := by
  unfold processingContext.addAutomaticBreak
  split <;> exact ⟨rfl, rfl⟩

theorem frame_stack (ctx : processingContext) (frame : AudioProperties)
    (loop : processingContext → Option processingContext) (h : ctx.propertyStack ≠ [])
    (hloop : ∀ c0 : processingContext, c0.propertyStack ≠ [] →
      ∃ c, loop c0 = some c ∧ c.propertyStack = c0.propertyStack
        ∧ c.processor = c0.processor) :
    ∃ c, (match loop (ctx.pushProperties frame) with
        | none => none
        | some c1 => some c1.popProperties) = some c
      ∧ c.propertyStack = ctx.propertyStack ∧ c.processor = ctx.processor := by
  obtain ⟨c1, h1, h2, h3⟩ := hloop (ctx.pushProperties frame)
    (by simp [processingContext.pushProperties])
  rw [h1]
  obtain ⟨h4, h5⟩ := popProperties_push c1 ctx.propertyStack frame h
    (by rw [h2]; rfl)
  exact ⟨_, rfl, h4, by rw [h5, h3]; rfl⟩

mutual
theorem processContent_stack (lib : Platform) : ∀ (item : Node) (ctx : processingContext),
    ctx.propertyStack ≠ [] →
      ∃ c, ctx.processContent lib item = some c ∧ c.propertyStack = ctx.propertyStack
        ∧ c.processor = ctx.processor
  | .Text text, ctx, h => by
    rw [processingContext.processContent]
    exact processText_stack lib ctx text h
  | .Break br, ctx, _ => ⟨_, rfl, rfl, rfl⟩
  | .Audio audio content, ctx, h => by
    rw [processingContext.processContent]
    unfold processingContext.processAudio
    exact processContents_stack lib content _ h
  | .Voice voice content, ctx, h => by
    obtain ⟨stk, top, hs⟩ := stack_top _ h
    rw [processingContext.processContent]
    unfold processingContext.processVoice
    rw [(getCurrentProperties_top ctx stk top hs).2]
    exact frame_stack ctx _ _ h (fun c0 h0 => processContents_stack lib content c0 h0)
  | .Prosody prosody content, ctx, h => by
    obtain ⟨stk, top, hs⟩ := stack_top _ h
    rw [processingContext.processContent]
    unfold processingContext.processProsody
    rw [(getCurrentProperties_top ctx stk top hs).2]
    exact frame_stack ctx _ _ h (fun c0 h0 => processContents_stack lib content c0 h0)
  | .Emphasis emphasis content, ctx, h => by
    obtain ⟨stk, top, hs⟩ := stack_top _ h
    rw [processingContext.processContent]
    unfold processingContext.processEmphasis
    rw [(getCurrentProperties_top ctx stk top hs).2]
    exact frame_stack ctx _ _ h (fun c0 h0 => processContents_stack lib content c0 h0)
  | .Phoneme phoneme content, ctx, h => by
    rw [processingContext.processContent]
    unfold processingContext.processPhoneme
    exact processContents_stack lib content ctx h
  | .Sub sub _, ctx, h => by
    rw [processingContext.processContent]
    unfold processingContext.processSub
    exact processText_stack lib ctx sub.Alias h
  | .Paragraph _ content, ctx, h => by
    obtain ⟨c, h1, h2, h3⟩ := processContents_stack lib content ctx h
    rw [processingContext.processContent]
    unfold processingContext.processContainer
    simp only [h1]
    obtain ⟨h4, h5⟩ := addAutomaticBreak_stack c (300 * time.Millisecond)
    exact ⟨_, rfl, by rw [h4, h2], by rw [h5, h3]⟩
  | .Sentence _ content, ctx, h => by
    obtain ⟨c, h1, h2, h3⟩ := processContents_stack lib content ctx h
    rw [processingContext.processContent]
    unfold processingContext.processContainer
    simp only [h1]
    obtain ⟨h4, h5⟩ := addAutomaticBreak_stack c (200 * time.Millisecond)
    exact ⟨_, rfl, by rw [h4, h2], by rw [h5, h3]⟩
  | .W _ content, ctx, h => by
    rw [processingContext.processContent]
    unfold processingContext.processContainer
    exact processContents_stack lib content ctx h
  | .Other _, ctx, _ => ⟨ctx, rfl, rfl, rfl⟩
theorem processContents_stack (lib : Platform) :
    ∀ (content : List Node) (ctx : processingContext), ctx.propertyStack ≠ [] →
      ∃ c, ctx.processContents lib content = some c ∧ c.propertyStack = ctx.propertyStack
        ∧ c.processor = ctx.processor
  | [], ctx, _ => ⟨ctx, rfl, rfl, rfl⟩
  | item :: rest, ctx, h => by
    obtain ⟨c1, h1, h2, h3⟩ := processContent_stack lib item ctx h
    obtain ⟨c2, h4, h5, h6⟩ := processContents_stack lib rest c1 (by rw [h2]; exact h)
    rw [processingContext.processContents, h1]
    exact ⟨c2, h4, by rw [h5, h2], by rw [h6, h3]⟩
end

end ssml
namespace ssml

theorem processVoice_frame (lib : Platform) (ctx : processingContext)
    (stk : List AudioProperties) (top : AudioProperties) (hstk : ctx.propertyStack = stk ++ [top])
    (voice : Voice) (content : List Node) :
    ctx.processContent lib (.Voice voice content)
      = ((ctx.pushProperties (voiceFrame top voice)).processContents lib content).map
          processingContext.popProperties := by
  rw [processingContext.processContent]
  unfold processingContext.processVoice
  rw [(getCurrentProperties_top ctx stk top hstk).2]
  have hf : (if voice.Languages ≠ "" then
        { (if voice.Gender ≠ "" then
            { (if voice.Name ≠ "" then { top with Voice := voice.Name } else top) with
              Gender := voice.Gender }
          else (if voice.Name ≠ "" then { top with Voice := voice.Name } else top)) with
          Language := voice.Languages }
      else (if voice.Gender ≠ "" then
            { (if voice.Name ≠ "" then { top with Voice := voice.Name } else top) with
              Gender := voice.Gender }
          else (if voice.Name ≠ "" then { top with Voice := voice.Name } else top)))
      = voiceFrame top voice := by
    unfold voiceFrame
    cases top
    split_ifs <;> rfl
  simp only [hf]
  cases (ctx.pushProperties (voiceFrame top voice)).processContents lib content <;> rfl

theorem processProsody_frame (lib : Platform) (ctx : processingContext)
    (stk : List AudioProperties) (top : AudioProperties) (hstk : ctx.propertyStack = stk ++ [top])
    (prosody : Prosody) (content : List Node) :
    ctx.processContent lib (.Prosody prosody content)
      = ((ctx.pushProperties (prosodyFrame top prosody)).processContents lib content).map
          processingContext.popProperties := by
  rw [processingContext.processContent]
  unfold processingContext.processProsody
  rw [(getCurrentProperties_top ctx stk top hstk).2]
  have hf : (if prosody.Volume ≠ "" then
        { (if prosody.Pitch ≠ "" then
            { (if prosody.Rate ≠ "" then { top with Rate := prosody.Rate } else top) with
              Pitch := prosody.Pitch }
          else (if prosody.Rate ≠ "" then { top with Rate := prosody.Rate } else top)) with
          Volume := prosody.Volume }
      else (if prosody.Pitch ≠ "" then
            { (if prosody.Rate ≠ "" then { top with Rate := prosody.Rate } else top) with
              Pitch := prosody.Pitch }
          else (if prosody.Rate ≠ "" then { top with Rate := prosody.Rate } else top)))
      = prosodyFrame top prosody := by
    unfold prosodyFrame
    cases top
    split_ifs <;> rfl
  simp only [hf]
  cases (ctx.pushProperties (prosodyFrame top prosody)).processContents lib content <;> rfl

theorem processText_segment (lib : Platform) (ctx : processingContext)
    (stk : List AudioProperties) (top : AudioProperties) (hstk : ctx.propertyStack = stk ++ [top])
    (text : String) (ht : strings.TrimSpace text ≠ "") :
    ∃ c duration, ctx.processContent lib (.Text text) = some c
      ∧ c.result.Segments = ctx.result.Segments
        ++ [{ Text := strings.TrimSpace text, StartTime := ctx.currentTime,
              Duration := duration, Properties := top }] := by
  obtain ⟨h1, _⟩ := getCurrentProperties_top ctx stk top hstk
  rw [processingContext.processContent]
  unfold processingContext.processText
  simp only [ht, if_false]
  unfold processingContext.calculateTextDuration
  simp only [h1]
  exact ⟨_, _, rfl, rfl⟩

/-- C20 (property inheritance, Voice and Prosody).  In a context whose top frame
is `top`, a Voice is processed by processing its content with the frame
`voiceFrame top voice` pushed, which is `top` with the voice, gender and
language of the element where these are non-empty and every other field
inherited, and popping it afterwards; each item of the content is processed
with this frame on top of the stack.  For a Prosody the same holds with
`prosodyFrame top prosody` and rate, pitch and volume.  A text processed with
the top frame `top` yields a segment with the properties `top`.  Hence the
text inside a Prosody with `rate="fast"` inside a Voice with `gender="female"`
yields a segment with the gender `female` and the rate `fast` and the default
values in the other fields. -/
theorem processContent_inheritance (lib : Platform) (ctx : processingContext)
    (stk : List AudioProperties) (top : AudioProperties) (voice : Voice) (prosody : Prosody)
    (text : String) (before after : List Node)
    (hstk : ctx.propertyStack = stk ++ [top]) (htext : strings.TrimSpace text ≠ "") :
    ctx.processContent lib (.Voice voice (before ++ after))
        = ((ctx.pushProperties (voiceFrame top voice)).processContents lib
            (before ++ after)).map processingContext.popProperties
      ∧ (∃ c, (ctx.pushProperties (voiceFrame top voice)).processContents lib before = some c
          ∧ c.propertyStack = stk ++ [top, voiceFrame top voice])
      ∧ ctx.processContent lib (.Prosody prosody (before ++ after))
        = ((ctx.pushProperties (prosodyFrame top prosody)).processContents lib
            (before ++ after)).map processingContext.popProperties
      ∧ (∃ c, (ctx.pushProperties (prosodyFrame top prosody)).processContents lib before = some c
          ∧ c.propertyStack = stk ++ [top, prosodyFrame top prosody])
      ∧ (∃ c duration, ctx.processContent lib (.Text text) = some c
          ∧ c.result.Segments = ctx.result.Segments
            ++ [{ Text := strings.TrimSpace text, StartTime := ctx.currentTime,
                  Duration := duration, Properties := top }])
      ∧ (NewAudioProcessor.ProcessSSML lib nestedVoice).map (fun r => r.Segments)
        = some [{ Text := "Hi", StartTime := 0, Duration := 225 * time.Millisecond,
                  Properties :=
                    { Rate := "fast", Pitch := "medium", Volume := "medium",
                      Voice := "default", Gender := "female", Language := "zh-CN",
                      Emphasis := "none" } }] := by
  refine ⟨processVoice_frame lib ctx stk top hstk voice _, ?_,
    processProsody_frame lib ctx stk top hstk prosody _, ?_,
    processText_segment lib ctx stk top hstk text htext, ?_⟩
  · obtain ⟨c, h1, h2, _⟩ := processContents_stack lib before
      (ctx.pushProperties (voiceFrame top voice)) (by simp [processingContext.pushProperties])
    refine ⟨c, h1, ?_⟩
    rw [h2]
    simp [processingContext.pushProperties, hstk]
  · obtain ⟨c, h1, h2, _⟩ := processContents_stack lib before
      (ctx.pushProperties (prosodyFrame top prosody))
      (by simp [processingContext.pushProperties])
    refine ⟨c, h1, ?_⟩
    rw [h2]
    simp [processingContext.pushProperties, hstk]
  · rfl

end ssml
namespace ssml

/-- C20 at the default context and the document
`<speak><voice gender="female"><prosody rate="fast">Hi</prosody></voice></speak>`:
the frame of the voice is the default frame with the gender `female`, and the
segment of `Hi` has the rate `fast` and the gender `female`. -/
theorem processContent_inheritance_witness :
    (defaultContext [] [] 0 0 "").propertyStack = [] ++ [NewAudioProcessor.defaultProperties]
      ∧ strings.TrimSpace "Hi" ≠ ""
      ∧ voiceFrame NewAudioProcessor.defaultProperties ⟨⟨"", "voice"⟩, "female", "", "", "", ""⟩
        = { Rate := "medium", Pitch := "medium", Volume := "medium", Voice := "default",
            Gender := "female", Language := "zh-CN", Emphasis := "none" }
      ∧ (NewAudioProcessor.ProcessSSML samplePlatform nestedVoice).map (fun r => r.Segments)
        = some [{ Text := "Hi", StartTime := 0, Duration := 225 * time.Millisecond,
                  Properties :=
                    { Rate := "fast", Pitch := "medium", Volume := "medium",
                      Voice := "default", Gender := "female", Language := "zh-CN",
                      Emphasis := "none" } }] :=
  ⟨rfl, by decide, rfl,
    (processContent_inheritance samplePlatform (defaultContext [] [] 0 0 "") []
      NewAudioProcessor.defaultProperties ⟨⟨"", "voice"⟩, "female", "", "", "", ""⟩
      ⟨⟨"", "prosody"⟩, "fast", "", "", ""⟩ "Hi" [] [] rfl (by decide)).2.2.2.2.2⟩

end ssml

namespace ssml

theorem processAudio_eq (lib : Platform) (ctx : processingContext) (audio : Audio)
    (content : List Node) :
    ctx.processContent lib (.Audio audio content)
      = (ctx.afterAudio audio.Src).processContents lib content := by
  rw [processingContext.processContent]
  rfl

theorem framed_cases (X : Option processingContext) (c : processingContext)
    (h : (match X with
        | none => none
        | some c1 => some c1.popProperties) = some c) :
    ∃ c1, X = some c1 ∧ c = c1.popProperties := by
  cases X with
  | none => cases h
  | some c1 => cases h; exact ⟨c1, rfl, rfl⟩

theorem copyCurrentProperties_ne_nil (ctx : processingContext) (top : AudioProperties)
    (h : ctx.copyCurrentProperties = some top) : ctx.propertyStack ≠ [] := by
  intro hs
  unfold processingContext.copyCurrentProperties at h
  rw [hs] at h
  cases h

theorem processVoice_cases (ctx : processingContext) (voice : Voice)
    (loop : processingContext → Option processingContext) (c : processingContext)
    (h : ctx.processVoice voice loop = some c) :
    ∃ frame c1, loop (ctx.pushProperties frame) = some c1 ∧ c = c1.popProperties
      ∧ ctx.propertyStack ≠ [] := by
  unfold processingContext.processVoice at h
  cases hcc : ctx.copyCurrentProperties with
  | none => rw [hcc] at h; cases h
  | some top =>
    rw [hcc] at h
    obtain ⟨c1, h1, h2⟩ := framed_cases _ c h
    exact ⟨_, c1, h1, h2, copyCurrentProperties_ne_nil ctx top hcc⟩

theorem processProsody_cases (ctx : processingContext) (prosody : Prosody)
    (loop : processingContext → Option processingContext) (c : processingContext)
    (h : ctx.processProsody prosody loop = some c) :
    ∃ frame c1, loop (ctx.pushProperties frame) = some c1 ∧ c = c1.popProperties
      ∧ ctx.propertyStack ≠ [] := by
  unfold processingContext.processProsody at h
  cases hcc : ctx.copyCurrentProperties with
  | none => rw [hcc] at h; cases h
  | some top =>
    rw [hcc] at h
    obtain ⟨c1, h1, h2⟩ := framed_cases _ c h
    exact ⟨_, c1, h1, h2, copyCurrentProperties_ne_nil ctx top hcc⟩

theorem processEmphasis_cases (ctx : processingContext) (emphasis : Emphasis)
    (loop : processingContext → Option processingContext) (c : processingContext)
    (h : ctx.processEmphasis emphasis loop = some c) :
    ∃ frame c1, loop (ctx.pushProperties frame) = some c1 ∧ c = c1.popProperties
      ∧ ctx.propertyStack ≠ [] := by
  unfold processingContext.processEmphasis at h
  cases hcc : ctx.copyCurrentProperties with
  | none => rw [hcc] at h; cases h
  | some top =>
    rw [hcc] at h
    obtain ⟨c1, h1, h2⟩ := framed_cases _ c h
    exact ⟨_, c1, h1, h2, copyCurrentProperties_ne_nil ctx top hcc⟩

theorem processContainer_cases (ctx : processingContext) (kind : ContainerKind)
    (loop : processingContext → Option processingContext) (c : processingContext)
    (h : ctx.processContainer kind loop = some c) :
    ∃ c1, loop ctx = some c1
      ∧ ((kind = .Paragraph ∧ c = c1.addAutomaticBreak (300 * time.Millisecond))
        ∨ (kind = .Sentence ∧ c = c1.addAutomaticBreak (200 * time.Millisecond))
        ∨ (kind = .W ∧ c = c1)) := by
  unfold processingContext.processContainer at h
  cases kind with
  | Paragraph =>
    simp only at h
    cases hl : loop ctx with
    | none => rw [hl] at h; cases h
    | some c1 => rw [hl] at h; cases h; exact ⟨c1, rfl, Or.inl ⟨rfl, rfl⟩⟩
  | Sentence =>
    simp only at h
    cases hl : loop ctx with
    | none => rw [hl] at h; cases h
    | some c1 => rw [hl] at h; cases h; exact ⟨c1, rfl, Or.inr (Or.inl ⟨rfl, rfl⟩)⟩
  | W => exact ⟨c, h, Or.inr (Or.inr ⟨rfl, rfl⟩)⟩

mutual
theorem processContent_invariant (lib : Platform) (P : processingContext → Prop)
    (hText : ∀ (ctx : processingContext) (text : String) (c : processingContext),
      P ctx → ctx.processText lib text = some c → P c)
    (hBreak : ∀ (ctx : processingContext) (br : Break), P ctx → P (ctx.processBreak lib br))
    (hAudio : ∀ (ctx : processingContext) (src : String), P ctx → P (ctx.afterAudio src))
    (hPush : ∀ (ctx : processingContext) (frame : AudioProperties),
      P ctx → ctx.propertyStack ≠ [] → P (ctx.pushProperties frame))
    (hPop : ∀ ctx : processingContext, P ctx → P ctx.popProperties)
    (hAuto : ∀ (ctx : processingContext) (d : Int), P ctx → P (ctx.addAutomaticBreak d)) :
    ∀ (item : Node) (ctx c : processingContext),
      P ctx → ctx.processContent lib item = some c → P c
  | .Text text, ctx, c, hp, h => by
    rw [processingContext.processContent] at h
    exact hText ctx text c hp h
  | .Break br, ctx, c, hp, h => by
    rw [processingContext.processContent] at h
    cases h
    exact hBreak ctx br hp
  | .Audio audio content, ctx, c, hp, h => by
    rw [processAudio_eq] at h
    exact processContents_invariant lib P hText hBreak hAudio hPush hPop hAuto content _ c
      (hAudio ctx audio.Src hp) h
  | .Voice voice content, ctx, c, hp, h => by
    rw [processingContext.processContent] at h
    obtain ⟨frame, c1, h1, h2, h3⟩ := processVoice_cases ctx _ _ c h
    rw [h2]
    exact hPop _ (processContents_invariant lib P hText hBreak hAudio hPush hPop hAuto
      content _ c1 (hPush ctx frame hp h3) h1)
  | .Prosody prosody content, ctx, c, hp, h => by
    rw [processingContext.processContent] at h
    obtain ⟨frame, c1, h1, h2, h3⟩ := processProsody_cases ctx _ _ c h
    rw [h2]
    exact hPop _ (processContents_invariant lib P hText hBreak hAudio hPush hPop hAuto
      content _ c1 (hPush ctx frame hp h3) h1)
  | .Emphasis emphasis content, ctx, c, hp, h => by
    rw [processingContext.processContent] at h
    obtain ⟨frame, c1, h1, h2, h3⟩ := processEmphasis_cases ctx _ _ c h
    rw [h2]
    exact hPop _ (processContents_invariant lib P hText hBreak hAudio hPush hPop hAuto
      content _ c1 (hPush ctx frame hp h3) h1)
  | .Phoneme phoneme content, ctx, c, hp, h => by
    rw [processingContext.processContent] at h
    unfold processingContext.processPhoneme at h
    exact processContents_invariant lib P hText hBreak hAudio hPush hPop hAuto content ctx c hp h
  | .Sub sub _, ctx, c, hp, h => by
    rw [processingContext.processContent] at h
    unfold processingContext.processSub at h
    exact hText ctx sub.Alias c hp h
  | .Paragraph _ content, ctx, c, hp, h => by
    rw [processingContext.processContent] at h
    obtain ⟨c1, h1, h2⟩ := processContainer_cases ctx _ _ c h
    have hc1 := processContents_invariant lib P hText hBreak hAudio hPush hPop hAuto
      content ctx c1 hp h1
    rcases h2 with ⟨_, h2⟩ | ⟨_, h2⟩ | ⟨_, h2⟩
    · rw [h2]; exact hAuto _ _ hc1
    · rw [h2]; exact hAuto _ _ hc1
    · rw [h2]; exact hc1
  | .Sentence _ content, ctx, c, hp, h => by
    rw [processingContext.processContent] at h
    obtain ⟨c1, h1, h2⟩ := processContainer_cases ctx _ _ c h
    have hc1 := processContents_invariant lib P hText hBreak hAudio hPush hPop hAuto
      content ctx c1 hp h1
    rcases h2 with ⟨_, h2⟩ | ⟨_, h2⟩ | ⟨_, h2⟩
    · rw [h2]; exact hAuto _ _ hc1
    · rw [h2]; exact hAuto _ _ hc1
    · rw [h2]; exact hc1
  | .W _ content, ctx, c, hp, h => by
    rw [processingContext.processContent] at h
    obtain ⟨c1, h1, h2⟩ := processContainer_cases ctx _ _ c h
    have hc1 := processContents_invariant lib P hText hBreak hAudio hPush hPop hAuto
      content ctx c1 hp h1
    rcases h2 with ⟨_, h2⟩ | ⟨_, h2⟩ | ⟨_, h2⟩
    · rw [h2]; exact hAuto _ _ hc1
    · rw [h2]; exact hAuto _ _ hc1
    · rw [h2]; exact hc1
  | .Other _, ctx, c, hp, h => by
    rw [processingContext.processContent] at h
    cases h
    exact hp
theorem processContents_invariant (lib : Platform) (P : processingContext → Prop)
    (hText : ∀ (ctx : processingContext) (text : String) (c : processingContext),
      P ctx → ctx.processText lib text = some c → P c)
    (hBreak : ∀ (ctx : processingContext) (br : Break), P ctx → P (ctx.processBreak lib br))
    (hAudio : ∀ (ctx : processingContext) (src : String), P ctx → P (ctx.afterAudio src))
    (hPush : ∀ (ctx : processingContext) (frame : AudioProperties),
      P ctx → ctx.propertyStack ≠ [] → P (ctx.pushProperties frame))
    (hPop : ∀ ctx : processingContext, P ctx → P ctx.popProperties)
    (hAuto : ∀ (ctx : processingContext) (d : Int), P ctx → P (ctx.addAutomaticBreak d)) :
    ∀ (content : List Node) (ctx c : processingContext),
      P ctx → ctx.processContents lib content = some c → P c
  | [], ctx, c, hp, h => by
    rw [processingContext.processContents] at h
    cases h
    exact hp
  | item :: rest, ctx, c, hp, h => by
    rw [processingContext.processContents] at h
    split at h
    · cases h
    · rename_i c1 h1
      exact processContents_invariant lib P hText hBreak hAudio hPush hPop hAuto rest c1 c
        (processContent_invariant lib P hText hBreak hAudio hPush hPop hAuto item ctx c1 hp h1) h
end

theorem processContents_append (lib : Platform) (a b : List Node) :
    ∀ ctx : processingContext,
      ctx.processContents lib (a ++ b)
        = (ctx.processContents lib a).bind (fun c => c.processContents lib b) := by
  induction a with
  | nil => intro ctx; rfl
  | cons item rest ih =>
    intro ctx
    rw [List.cons_append, processingContext.processContents, processingContext.processContents]
    cases ctx.processContent lib item with
    | none => rfl
    | some c1 => exact ih c1

end ssml

namespace ssml

theorem processEmphasis_frame (lib : Platform) (ctx : processingContext)
    (stk : List AudioProperties) (top : AudioProperties) (hstk : ctx.propertyStack = stk ++ [top])
    (emphasis : Emphasis) (content : List Node) :
    ctx.processContent lib (.Emphasis emphasis content)
      = ((ctx.pushProperties (emphasisFrame top emphasis)).processContents lib content).map
          processingContext.popProperties := by
  rw [processingContext.processContent]
  unfold processingContext.processEmphasis
  rw [(getCurrentProperties_top ctx stk top hstk).2]
  simp only [emphasisFrame]
  cases (ctx.pushProperties { top with Emphasis := emphasis.Level }).processContents lib content
    <;> rfl

/-- C21 (property inheritance, Emphasis), as the code has it.  In a context whose
top frame is `top`, an Emphasis is processed by processing its content with the
frame `emphasisFrame top emphasis` pushed and popping it afterwards, and each
item of the content is processed with this frame on top of the stack.  The
frame is `top` with the emphasis replaced by the level of the element and every
other field inherited.  The level replaces the inherited emphasis also when it
is empty: `processEmphasis` assigns it without testing it, so an Emphasis
without a level does not leave the inherited emphasis unchanged but sets it to
the empty string. -/
theorem processContent_emphasis (lib : Platform) (ctx : processingContext)
    (stk : List AudioProperties) (top : AudioProperties) (emphasis : Emphasis)
    (before after : List Node) (hstk : ctx.propertyStack = stk ++ [top]) :
    ctx.processContent lib (.Emphasis emphasis (before ++ after))
        = ((ctx.pushProperties (emphasisFrame top emphasis)).processContents lib
            (before ++ after)).map processingContext.popProperties
      ∧ (∃ c, (ctx.pushProperties (emphasisFrame top emphasis)).processContents lib before
            = some c
          ∧ c.propertyStack = stk ++ [top, emphasisFrame top emphasis])
      ∧ emphasisFrame top emphasis
        = { Rate := top.Rate, Pitch := top.Pitch, Volume := top.Volume, Voice := top.Voice,
            Gender := top.Gender, Language := top.Language, Emphasis := emphasis.Level }
      ∧ (emphasis.Level = "" → (emphasisFrame top emphasis).Emphasis = "")
      ∧ (NewAudioProcessor.ProcessSSML lib emphasisInEmphasis).map
          (fun r => r.Segments.map (fun s => s.Properties.Emphasis))
        = some [""] := by
  refine ⟨processEmphasis_frame lib ctx stk top hstk emphasis _, ?_, rfl, fun h => h, rfl⟩
  obtain ⟨c, h1, h2, _⟩ := processContents_stack lib before
    (ctx.pushProperties (emphasisFrame top emphasis))
    (by simp [processingContext.pushProperties])
  refine ⟨c, h1, ?_⟩
  rw [h2]
  simp [processingContext.pushProperties, hstk]

/-- C21 at the default context and an emphasis with the level `strong`: the frame
of its content is the default frame with the emphasis `strong`. -/
theorem processContent_emphasis_witness :
    (defaultContext [] [] 0 0 "").propertyStack = [] ++ [NewAudioProcessor.defaultProperties]
      ∧ emphasisFrame NewAudioProcessor.defaultProperties ⟨⟨"", "emphasis"⟩, "strong"⟩
        = { Rate := "medium", Pitch := "medium", Volume := "medium", Voice := "default",
            Gender := "neutral", Language := "zh-CN", Emphasis := "strong" } :=
  ⟨rfl,
    (processContent_emphasis samplePlatform (defaultContext [] [] 0 0 "") []
      NewAudioProcessor.defaultProperties ⟨⟨"", "emphasis"⟩, "strong"⟩ [] [] rfl).2.2.1⟩

/-- C21, where the code departs from it: for
`<speak><emphasis level="strong"><emphasis>Hi</emphasis></emphasis></speak>` the
segment of `Hi` has the empty emphasis, not the emphasis `strong` of the outer
element. -/
theorem processContent_emphasis_counterexample :
    NewAudioProcessor.ProcessSSML samplePlatform emphasisInEmphasis
      = some
        { PlainText := "Hi",
          Segments :=
            [{ Text := "Hi", StartTime := 0, Duration := 300 * time.Millisecond,
               Properties :=
                 { Rate := "medium", Pitch := "medium", Volume := "medium",
                   Voice := "default", Gender := "neutral", Language := "zh-CN",
                   Emphasis := "" } }],
          Instructions := [],
          TotalDuration := 300 * time.Millisecond } :=
  rfl

end ssml

namespace ssml

theorem processText_cases (lib : Platform) (ctx : processingContext) (text : String)
    (c : processingContext) (h : ctx.processText lib text = some c) :
    (strings.TrimSpace text = "" ∧ c = ctx)
      ∨ (strings.TrimSpace text ≠ ""
        ∧ ∃ top duration, ctx.getCurrentProperties = some top
          ∧ ctx.calculateTextDuration lib (strings.TrimSpace text) = some duration
          ∧ c = ctx.afterText (strings.TrimSpace text) duration top) := by
  unfold processingContext.processText at h
  simp only at h
  by_cases ht : strings.TrimSpace text = ""
  · rw [if_pos ht] at h
    cases h
    exact Or.inl ⟨ht, rfl⟩
  · rw [if_neg ht] at h
    right
    refine ⟨ht, ?_⟩
    cases hd : ctx.calculateTextDuration lib (strings.TrimSpace text) with
    | none => rw [hd] at h; cases h
    | some d =>
      rw [hd] at h
      simp only at h
      cases hp : ctx.getCurrentProperties with
      | none => rw [hp] at h; cases h
      | some top =>
        rw [hp] at h
        cases h
        exact ⟨top, d, rfl, rfl, rfl⟩

theorem processBreak_eq (lib : Platform) (ctx : processingContext) (br : Break) :
    ∃ d, ctx.processBreak lib br = ctx.afterBreak d :=
  ⟨_, rfl⟩

theorem addAutomaticBreak_eq (ctx : processingContext) (d : Int) :
    ctx.addAutomaticBreak d = if ctx.autoBreakPending then ctx else ctx.afterAutoBreak d :=
  rfl

end ssml
namespace ssml

theorem processContent_empty_stack (lib : Platform) (item : Node) (ctx c : processingContext)
    (hs : ctx.propertyStack = []) (h : ctx.processContent lib item = some c) :
    c.propertyStack = [] := by
  refine processContent_invariant lib (fun x => x.propertyStack = []) ?_ ?_ ?_ ?_ ?_ ?_
    item ctx c hs h
  · intro x text y hx hy
    rcases processText_cases lib x text y hy with ⟨_, h1⟩ | ⟨_, top, d, _, _, h1⟩
    · rw [h1]; exact hx
    · rw [h1]; exact hx
  · intro x br hx; exact hx
  · intro x src hx; exact hx
  · intro x frame hx hne; exact absurd hx hne
  · intro x hx
    unfold processingContext.popProperties
    split
    · simp [hx]
    · exact hx
  · intro x d hx
    rw [addAutomaticBreak_eq]
    split
    · exact hx
    · exact hx

theorem framed_stack (lib : Platform) (ctx : processingContext) (frame : AudioProperties)
    (content : List Node) (h : ctx.propertyStack ≠ []) :
    ∃ c1, (ctx.pushProperties frame).processContents lib content = some c1
      ∧ c1.propertyStack = ctx.propertyStack ++ [frame]
      ∧ 1 < c1.propertyStack.length
      ∧ c1.popProperties.propertyStack = ctx.propertyStack := by
  obtain ⟨c1, h1, h2, _⟩ := processContents_stack lib content (ctx.pushProperties frame)
    (by simp [processingContext.pushProperties])
  have h3 : c1.propertyStack = ctx.propertyStack ++ [frame] := by rw [h2]; rfl
  refine ⟨c1, h1, h3, ?_, (popProperties_push c1 ctx.propertyStack frame h h3).1⟩
  rw [h3, List.length_append]
  have := List.length_pos.mpr h
  simp
  omega

/-- C22 (frame restoration).  Whenever the processing of an item, of any variant
and with any content, returns, the property stack is as it was before; and it
returns whenever the stack is not empty, as it is in every context that
`ProcessSSML` creates.  Consequently a text that is processed after the item
yields a segment with the frame `top` that was on top of the stack before the
item, as a text processed before the item does.  For a Voice, a Prosody and an
Emphasis the content is processed with one frame pushed, it leaves the stack at
the stack before the element followed by that frame, so that `popProperties`
finds a stack of at least two frames, and the pop gives the stack before the
element. -/
theorem processContent_restores_stack (lib : Platform) (ctx : processingContext) (item : Node)
    (stk : List AudioProperties) (top : AudioProperties) (text : String)
    (hstk : ctx.propertyStack = stk ++ [top]) (htext : strings.TrimSpace text ≠ "") :
    (∀ (ctx0 c : processingContext), ctx0.processContent lib item = some c →
        c.propertyStack = ctx0.propertyStack)
      ∧ (∃ c, ctx.processContent lib item = some c ∧ c.propertyStack = ctx.propertyStack)
      ∧ (∃ c0 d0, ctx.processContent lib (.Text text) = some c0
          ∧ c0.result.Segments = ctx.result.Segments
            ++ [{ Text := strings.TrimSpace text, StartTime := ctx.currentTime,
                  Duration := d0, Properties := top }])
      ∧ (∃ c1 c2 d, ctx.processContent lib item = some c1
          ∧ c1.processContent lib (.Text text) = some c2
          ∧ c2.result.Segments = c1.result.Segments
            ++ [{ Text := strings.TrimSpace text, StartTime := c1.currentTime,
                  Duration := d, Properties := top }])
      ∧ (∀ (voice : Voice) (content : List Node), ∃ frame c1,
          (ctx.pushProperties frame).processContents lib content = some c1
          ∧ c1.propertyStack = ctx.propertyStack ++ [frame]
          ∧ 1 < c1.propertyStack.length
          ∧ ctx.processContent lib (.Voice voice content) = some c1.popProperties
          ∧ c1.popProperties.propertyStack = ctx.propertyStack)
      ∧ (∀ (prosody : Prosody) (content : List Node), ∃ frame c1,
          (ctx.pushProperties frame).processContents lib content = some c1
          ∧ c1.propertyStack = ctx.propertyStack ++ [frame]
          ∧ 1 < c1.propertyStack.length
          ∧ ctx.processContent lib (.Prosody prosody content) = some c1.popProperties
          ∧ c1.popProperties.propertyStack = ctx.propertyStack)
      ∧ (∀ (emphasis : Emphasis) (content : List Node), ∃ frame c1,
          (ctx.pushProperties frame).processContents lib content = some c1
          ∧ c1.propertyStack = ctx.propertyStack ++ [frame]
          ∧ 1 < c1.propertyStack.length
          ∧ ctx.processContent lib (.Emphasis emphasis content) = some c1.popProperties
          ∧ c1.popProperties.propertyStack = ctx.propertyStack) := by
  have hne : ctx.propertyStack ≠ [] := by rw [hstk]; simp
  refine ⟨?_, ?_, processText_segment lib ctx stk top hstk text htext, ?_, ?_, ?_, ?_⟩
  · intro ctx0 c h
    by_cases h0 : ctx0.propertyStack = []
    · rw [h0]
      exact processContent_empty_stack lib item ctx0 c h0 h
    · obtain ⟨c1, h1, h2, _⟩ := processContent_stack lib item ctx0 h0
      rw [h1] at h
      cases h
      exact h2
  · obtain ⟨c, h1, h2, _⟩ := processContent_stack lib item ctx hne
    exact ⟨c, h1, h2⟩
  · obtain ⟨c1, h1, h2, _⟩ := processContent_stack lib item ctx hne
    obtain ⟨c2, d, h3, h4⟩ := processText_segment lib c1 stk top (by rw [h2, hstk]) text htext
    exact ⟨c1, c2, d, h1, h3, h4⟩
  · intro voice content
    obtain ⟨c1, h1, h2, h3, h4⟩ := framed_stack lib ctx (voiceFrame top voice) content hne
    refine ⟨_, c1, h1, h2, h3, ?_, h4⟩
    rw [processVoice_frame lib ctx stk top hstk, h1]
    rfl
  · intro prosody content
    obtain ⟨c1, h1, h2, h3, h4⟩ := framed_stack lib ctx (prosodyFrame top prosody) content hne
    refine ⟨_, c1, h1, h2, h3, ?_, h4⟩
    rw [processProsody_frame lib ctx stk top hstk, h1]
    rfl
  · intro emphasis content
    obtain ⟨c1, h1, h2, h3, h4⟩ := framed_stack lib ctx (emphasisFrame top emphasis) content hne
    refine ⟨_, c1, h1, h2, h3, ?_, h4⟩
    rw [processEmphasis_frame lib ctx stk top hstk, h1]
    rfl

/-- C22 at `<speak>A<voice gender="female">B</voice>C</speak>`: the segments of `A`
and `C` have the default gender, the segment of `B` the gender `female`. -/
theorem processContent_restores_stack_witness :
    (defaultContext [] [] 0 0 "").propertyStack = [] ++ [NewAudioProcessor.defaultProperties]
      ∧ strings.TrimSpace "C" ≠ ""
      ∧ (NewAudioProcessor.ProcessSSML samplePlatform voiceBetweenTexts).map
          (fun r => r.Segments.map (fun s => (s.Text, s.Properties.Gender)))
        = some [("A", "neutral"), ("B", "female"), ("C", "neutral")]
      ∧ ∃ c, (defaultContext [] [] 0 0 "").processContent samplePlatform
            (.Voice ⟨⟨"", "voice"⟩, "female", "", "", "", ""⟩ [.Text "B"]) = some c
          ∧ c.propertyStack = (defaultContext [] [] 0 0 "").propertyStack :=
  ⟨rfl, by decide, rfl,
    (processContent_restores_stack samplePlatform (defaultContext [] [] 0 0 "")
      (.Voice ⟨⟨"", "voice"⟩, "female", "", "", "", ""⟩ [.Text "B"]) []
      NewAudioProcessor.defaultProperties "C" rfl (by decide)).2.1⟩

end ssml

namespace ssml

theorem repeatedAutoBreak_cons_cons (a b : AudioInstruction) (l : List AudioInstruction) :
    repeatedAutoBreak (a :: b :: l)
      = (decide (a.Type_ = "auto_break" ∧ b.Type_ = "auto_break" ∧ a.Position = b.Position)
        || repeatedAutoBreak (b :: l)) :=
  rfl

theorem repeatedAutoBreak_append (l : List AudioInstruction) (i : AudioInstruction) :
    repeatedAutoBreak (l ++ [i])
      = (repeatedAutoBreak l
        || (match l.getLast? with
            | some a =>
              decide (a.Type_ = "auto_break" ∧ i.Type_ = "auto_break" ∧ a.Position = i.Position)
            | none => false)) := by
  induction l with
  | nil => rfl
  | cons a rest ih =>
    cases rest with
    | nil => simp [repeatedAutoBreak]
    | cons b rest1 =>
      rw [List.cons_append, List.cons_append, repeatedAutoBreak_cons_cons,
        repeatedAutoBreak_cons_cons, ← List.cons_append, ih, List.getLast?_cons_cons,
        Bool.or_assoc]

theorem repeatedAutoBreak_other (l : List AudioInstruction) (i : AudioInstruction)
    (hl : repeatedAutoBreak l = false) (hi : i.Type_ ≠ "auto_break") :
    repeatedAutoBreak (l ++ [i]) = false := by
  rw [repeatedAutoBreak_append, hl]
  cases l.getLast? <;> simp [hi]

theorem processContainer_paragraph (lib : Platform) (ctx : processingContext)
    (paragraph : Paragraph) (content : List Node) :
    ctx.processContent lib (.Paragraph paragraph content)
      = (ctx.processContents lib content).map
          (fun c => if c.autoBreakPending then c else c.afterAutoBreak (300 * time.Millisecond)) := by
  rw [processingContext.processContent]
  unfold processingContext.processContainer
  simp only
  cases ctx.processContents lib content <;> rfl

theorem processContainer_sentence (lib : Platform) (ctx : processingContext)
    (sentence : Sentence) (content : List Node) :
    ctx.processContent lib (.Sentence sentence content)
      = (ctx.processContents lib content).map
          (fun c => if c.autoBreakPending then c else c.afterAutoBreak (200 * time.Millisecond)) := by
  rw [processingContext.processContent]
  unfold processingContext.processContainer
  simp only
  cases ctx.processContents lib content <;> rfl

theorem repeated_text (lib : Platform) (x : processingContext) (text : String)
    (y : processingContext) (hx : repeatedAutoBreak x.result.Instructions = false)
    (hy : x.processText lib text = some y) :
    repeatedAutoBreak y.result.Instructions = false := by
  rcases processText_cases lib x text y hy with ⟨_, h1⟩ | ⟨_, top, d, _, _, h1⟩
  · rw [h1]; exact hx
  · rw [h1]; exact hx

theorem repeated_break (lib : Platform) (x : processingContext) (br : Break)
    (hx : repeatedAutoBreak x.result.Instructions = false) :
    repeatedAutoBreak (x.processBreak lib br).result.Instructions = false := by
  obtain ⟨d, hd⟩ := processBreak_eq lib x br
  rw [hd]
  exact repeatedAutoBreak_other _ _ hx (show ("break" : String) ≠ "auto_break" by decide)

theorem repeated_audio (x : processingContext) (src : String)
    (hx : repeatedAutoBreak x.result.Instructions = false) :
    repeatedAutoBreak (x.afterAudio src).result.Instructions = false :=
  repeatedAutoBreak_other _ _ hx (show ("audio" : String) ≠ "auto_break" by decide)

theorem repeated_pop (x : processingContext)
    (hx : repeatedAutoBreak x.result.Instructions = false) :
    repeatedAutoBreak x.popProperties.result.Instructions = false := by
  unfold processingContext.popProperties
  split
  · exact hx
  · exact hx

theorem repeated_auto (x : processingContext) (d : Int)
    (hx : repeatedAutoBreak x.result.Instructions = false) :
    repeatedAutoBreak (x.addAutomaticBreak d).result.Instructions = false := by
  rw [addAutomaticBreak_eq]
  by_cases hp : x.autoBreakPending = true
  · rw [if_pos hp]; exact hx
  · rw [if_neg hp]
    simp only [processingContext.afterAutoBreak]
    rw [repeatedAutoBreak_append, hx]
    unfold processingContext.autoBreakPending at hp
    cases hl : x.result.Instructions.getLast? with
    | none => rfl
    | some a =>
      rw [hl] at hp
      simp only [decide_eq_true_eq] at hp
      simp only [Bool.false_or, decide_eq_false_iff_not]
      intro h3
      exact hp ⟨h3.1, h3.2.2⟩

theorem processContents_repeated (lib : Platform) (content : List Node)
    (ctx c : processingContext) (hs : repeatedAutoBreak ctx.result.Instructions = false)
    (h : ctx.processContents lib content = some c) :
    repeatedAutoBreak c.result.Instructions = false :=
  processContents_invariant lib (fun x => repeatedAutoBreak x.result.Instructions = false)
    (fun x text y hx hy => repeated_text lib x text y hx hy)
    (fun x br hx => repeated_break lib x br hx)
    (fun x src hx => repeated_audio x src hx)
    (fun _ _ hx _ => hx)
    (fun x hx => repeated_pop x hx)
    (fun x d hx => repeated_auto x d hx)
    content ctx c hs h

theorem ProcessSSML_returns (lib : Platform) (ap : AudioProcessor) (speak : Speak) :
    ∃ c : processingContext,
      ({ processor := ap,
         result := { PlainText := "", Segments := [], Instructions := [], TotalDuration := 0 },
         currentTime := 0, textPosition := 0,
         propertyStack := [ap.copyProperties ap.defaultProperties],
         plainTextBuilder := "" } : processingContext).processContents lib speak.Content
          = some c
        ∧ ap.ProcessSSML lib speak
          = some { c.result with
              PlainText := c.plainTextBuilder, TotalDuration := c.currentTime } := by
  obtain ⟨c, h1, _, _⟩ := processContents_stack lib speak.Content
    ({ processor := ap,
       result := { PlainText := "", Segments := [], Instructions := [], TotalDuration := 0 },
       currentTime := 0, textPosition := 0,
       propertyStack := [ap.copyProperties ap.defaultProperties],
       plainTextBuilder := "" } : processingContext) (by simp)
  refine ⟨c, h1, ?_⟩
  unfold AudioProcessor.ProcessSSML
  simp only [h1]

/-- C24 (auto-pause rule).  A Paragraph is processed by processing its content
and then, unless the last instruction emitted so far is an `auto_break` whose
position is the cursor (`autoBreakPending`), appending an instruction of type
`auto_break` with the duration 300 ms and the cursor as position and adding
300 ms to the accumulator (`afterAutoBreak`); in the excepted case the context
is left as it is.  A Sentence is processed in the same way with 200 ms.
Consequently the instruction list that `ProcessSSML` derives from any document
never holds two consecutive `auto_break` instructions with equal position. -/
theorem processContainer_auto_break (lib : Platform) (ap : AudioProcessor)
    (ctx : processingContext) (paragraph : Paragraph) (sentence : Sentence)
    (content : List Node) (speak : Speak) (d : Int) :
    ctx.processContent lib (.Paragraph paragraph content)
        = (ctx.processContents lib content).map
            (fun c =>
              if c.autoBreakPending then c else c.afterAutoBreak (300 * time.Millisecond))
      ∧ ctx.processContent lib (.Sentence sentence content)
        = (ctx.processContents lib content).map
            (fun c =>
              if c.autoBreakPending then c else c.afterAutoBreak (200 * time.Millisecond))
      ∧ (ctx.autoBreakPending = true
          ↔ ∃ lastInstruction, ctx.result.Instructions.getLast? = some lastInstruction
            ∧ lastInstruction.Type_ = "auto_break"
            ∧ lastInstruction.Position = ctx.textPosition)
      ∧ (ctx.afterAutoBreak d).result.Instructions
        = ctx.result.Instructions
          ++ [{ Type_ := "auto_break", Position := ctx.textPosition, Duration := d,
                AudioFile := "", Properties := none }]
      ∧ (ctx.afterAutoBreak d).currentTime = wrap64 (ctx.currentTime + d)
      ∧ (-(2 ^ 63) ≤ ctx.currentTime + d → ctx.currentTime + d < 2 ^ 63 →
          (ctx.afterAutoBreak d).currentTime = ctx.currentTime + d)
      ∧ (ctx.afterAutoBreak d).textPosition = ctx.textPosition
      ∧ (ctx.afterAutoBreak d).plainTextBuilder = ctx.plainTextBuilder
      ∧ (ctx.afterAutoBreak d).result.Segments = ctx.result.Segments
      ∧ (ctx.afterAutoBreak d).propertyStack = ctx.propertyStack
      ∧ ∃ r, ap.ProcessSSML lib speak = some r ∧ repeatedAutoBreak r.Instructions = false := by
  refine ⟨processContainer_paragraph lib ctx paragraph content,
    processContainer_sentence lib ctx sentence content, ?_, rfl, rfl,
    fun h1 h2 => wrap64_id _ h1 h2, rfl, rfl, rfl, rfl, ?_⟩
  · unfold processingContext.autoBreakPending
    cases ctx.result.Instructions.getLast? with
    | none => simp
    | some a => simp
  · obtain ⟨c, h1, h2⟩ := ProcessSSML_returns lib ap speak
    refine ⟨_, h2, ?_⟩
    exact processContents_repeated lib speak.Content _ c (by rfl) h1

end ssml

namespace ssml

/-- C24 at `<speak><p><s>Hi</s><s></s></p><p></p></speak>`: the first sentence
adds an automatic break of 200 ms at position 2; the empty sentence, the
paragraph around them and the empty paragraph add none. -/
theorem processContainer_auto_break_witness :
    NewAudioProcessor.ProcessSSML samplePlatform pauses
        = some
          { PlainText := "Hi",
            Segments :=
              [{ Text := "Hi", StartTime := 0, Duration := 300 * time.Millisecond,
                 Properties := NewAudioProcessor.defaultProperties }],
            Instructions :=
              [{ Type_ := "auto_break", Position := 2, Duration := 200 * time.Millisecond,
                 AudioFile := "", Properties := none }],
            TotalDuration := 500 * time.Millisecond }
      ∧ ∃ r, NewAudioProcessor.ProcessSSML samplePlatform pauses = some r
          ∧ repeatedAutoBreak r.Instructions = false :=
  ⟨rfl,
    (processContainer_auto_break samplePlatform NewAudioProcessor (defaultContext [] [] 0 0 "")
      ⟨⟨"", "p"⟩⟩ ⟨⟨"", "s"⟩⟩ [] pauses 0).2.2.2.2.2.2.2.2.2.2⟩

end ssml

namespace ssml

mutual
theorem processContent_invariant_quiet (lib : Platform) (P : processingContext → Prop)
    (hText : ∀ (ctx : processingContext) (text : String) (c : processingContext),
      P ctx → ctx.processText lib text = some c → P c)
    (hBreak : ∀ (ctx : processingContext) (br : Break), P ctx → P (ctx.processBreak lib br))
    (hAudio : ∀ (ctx : processingContext) (src : String), P ctx → P (ctx.afterAudio src))
    (hPush : ∀ (ctx : processingContext) (frame : AudioProperties),
      P ctx → ctx.propertyStack ≠ [] → P (ctx.pushProperties frame))
    (hPop : ∀ ctx : processingContext, P ctx → P ctx.popProperties) :
    ∀ (item : Node) (ctx c : processingContext), item.hasPause = false →
      P ctx → ctx.processContent lib item = some c → P c
  | .Text text, ctx, c, _, hp, h => by
    rw [processingContext.processContent] at h
    exact hText ctx text c hp h
  | .Break br, ctx, c, _, hp, h => by
    rw [processingContext.processContent] at h
    cases h
    exact hBreak ctx br hp
  | .Audio audio content, ctx, c, hq, hp, h => by
    rw [processAudio_eq] at h
    exact processContents_invariant_quiet lib P hText hBreak hAudio hPush hPop content _ c hq
      (hAudio ctx audio.Src hp) h
  | .Voice voice content, ctx, c, hq, hp, h => by
    rw [processingContext.processContent] at h
    obtain ⟨frame, c1, h1, h2, h3⟩ := processVoice_cases ctx _ _ c h
    rw [h2]
    exact hPop _ (processContents_invariant_quiet lib P hText hBreak hAudio hPush hPop
      content _ c1 hq (hPush ctx frame hp h3) h1)
  | .Prosody prosody content, ctx, c, hq, hp, h => by
    rw [processingContext.processContent] at h
    obtain ⟨frame, c1, h1, h2, h3⟩ := processProsody_cases ctx _ _ c h
    rw [h2]
    exact hPop _ (processContents_invariant_quiet lib P hText hBreak hAudio hPush hPop
      content _ c1 hq (hPush ctx frame hp h3) h1)
  | .Emphasis emphasis content, ctx, c, hq, hp, h => by
    rw [processingContext.processContent] at h
    obtain ⟨frame, c1, h1, h2, h3⟩ := processEmphasis_cases ctx _ _ c h
    rw [h2]
    exact hPop _ (processContents_invariant_quiet lib P hText hBreak hAudio hPush hPop
      content _ c1 hq (hPush ctx frame hp h3) h1)
  | .Phoneme phoneme content, ctx, c, hq, hp, h => by
    rw [processingContext.processContent] at h
    unfold processingContext.processPhoneme at h
    exact processContents_invariant_quiet lib P hText hBreak hAudio hPush hPop content ctx c hq
      hp h
  | .Sub sub _, ctx, c, _, hp, h => by
    rw [processingContext.processContent] at h
    unfold processingContext.processSub at h
    exact hText ctx sub.Alias c hp h
  | .Paragraph _ content, ctx, c, hq, hp, h => by cases hq
  | .Sentence _ content, ctx, c, hq, hp, h => by cases hq
  | .W _ content, ctx, c, hq, hp, h => by
    rw [processingContext.processContent] at h
    obtain ⟨c1, h1, h2⟩ := processContainer_cases ctx _ _ c h
    have hc1 := processContents_invariant_quiet lib P hText hBreak hAudio hPush hPop
      content ctx c1 hq hp h1
    rcases h2 with ⟨h3, _⟩ | ⟨h3, _⟩ | ⟨_, h2⟩
    · cases h3
    · cases h3
    · rw [h2]; exact hc1
  | .Other _, ctx, c, _, hp, h => by
    rw [processingContext.processContent] at h
    cases h
    exact hp
theorem processContents_invariant_quiet (lib : Platform) (P : processingContext → Prop)
    (hText : ∀ (ctx : processingContext) (text : String) (c : processingContext),
      P ctx → ctx.processText lib text = some c → P c)
    (hBreak : ∀ (ctx : processingContext) (br : Break), P ctx → P (ctx.processBreak lib br))
    (hAudio : ∀ (ctx : processingContext) (src : String), P ctx → P (ctx.afterAudio src))
    (hPush : ∀ (ctx : processingContext) (frame : AudioProperties),
      P ctx → ctx.propertyStack ≠ [] → P (ctx.pushProperties frame))
    (hPop : ∀ ctx : processingContext, P ctx → P ctx.popProperties) :
    ∀ (content : List Node) (ctx c : processingContext), hasPauseList content = false →
      P ctx → ctx.processContents lib content = some c → P c
  | [], ctx, c, _, hp, h => by
    rw [processingContext.processContents] at h
    cases h
    exact hp
  | item :: rest, ctx, c, hq, hp, h => by
    simp only [hasPauseList, Bool.or_eq_false_iff] at hq
    rw [processingContext.processContents] at h
    split at h
    · cases h
    · rename_i c1 h1
      exact processContents_invariant_quiet lib P hText hBreak hAudio hPush hPop rest c1 c hq.2
        (processContent_invariant_quiet lib P hText hBreak hAudio hPush hPop item ctx c1 hq.1
          hp h1) h
end

theorem len_append (a b : String) : len (a ++ b) = len a + len b := by
  unfold len
  simp [List.map_append, List.sum_append]

theorem processContents_cursor (lib : Platform) (content : List Node)
    (ctx c : processingContext) (hs : ctx.textPosition = len ctx.plainTextBuilder)
    (h : ctx.processContents lib content = some c) :
    c.textPosition = len c.plainTextBuilder := by
  refine processContents_invariant lib (fun x => x.textPosition = len x.plainTextBuilder)
    ?_ ?_ ?_ ?_ ?_ ?_ content ctx c hs h
  · intro x text y hx hy
    rcases processText_cases lib x text y hy with ⟨_, h1⟩ | ⟨_, top, d, _, _, h1⟩
    · rw [h1]; exact hx
    · rw [h1]
      simp only [processingContext.afterText, len_append, hx]
  · intro x br hx; exact hx
  · intro x src hx; exact hx
  · intro x frame hx _; exact hx
  · intro x hx
    unfold processingContext.popProperties
    split
    · exact hx
    · exact hx
  · intro x d hx
    rw [addAutomaticBreak_eq]
    split
    · exact hx
    · exact hx

theorem processContents_no_auto_break (lib : Platform) (content : List Node)
    (ctx c : processingContext) (hq : hasPauseList content = false)
    (hs : ∀ i ∈ ctx.result.Instructions, i.Type_ ≠ "auto_break")
    (h : ctx.processContents lib content = some c) :
    ∀ i ∈ c.result.Instructions, i.Type_ ≠ "auto_break" := by
  refine processContents_invariant_quiet lib
    (fun x => ∀ i ∈ x.result.Instructions, i.Type_ ≠ "auto_break")
    ?_ ?_ ?_ ?_ ?_ content ctx c hq hs h
  · intro x text y hx hy
    rcases processText_cases lib x text y hy with ⟨_, h1⟩ | ⟨_, top, d, _, _, h1⟩
    · rw [h1]; exact hx
    · rw [h1]; exact hx
  · intro x br hx
    obtain ⟨d, hd⟩ := processBreak_eq lib x br
    rw [hd]
    intro i hi
    simp only [processingContext.afterBreak, List.mem_append, List.mem_singleton] at hi
    rcases hi with hi | hi
    · exact hx i hi
    · rw [hi]; exact (show ("break" : String) ≠ "auto_break" by decide)
  · intro x src hx i hi
    simp only [processingContext.afterAudio, List.mem_append, List.mem_singleton] at hi
    rcases hi with hi | hi
    · exact hx i hi
    · rw [hi]; exact (show ("audio" : String) ≠ "auto_break" by decide)
  · intro x frame hx _; exact hx
  · intro x hx
    unfold processingContext.popProperties
    split
    · exact hx
    · exact hx

theorem autoBreakPending_of_none (c : processingContext)
    (h : ∀ i ∈ c.result.Instructions, i.Type_ ≠ "auto_break") : c.autoBreakPending = false := by
  unfold processingContext.autoBreakPending
  cases hl : c.result.Instructions.getLast? with
  | none => rfl
  | some a =>
    have := h a (List.mem_of_getLast?_eq_some hl)
    simp [this]

theorem autoBreakPending_afterAutoBreak (c : processingContext) (d : Int) :
    (c.afterAutoBreak d).autoBreakPending = true := by
  unfold processingContext.autoBreakPending processingContext.afterAutoBreak
  simp

/-- C23 (auto-pause de-duplication scenario).  Let the content of a sentence hold
no Paragraph and no Sentence.  The document whose content is that content alone
is derived without any `auto_break` instruction.  For the document whose content
is a single Paragraph whose sole child is the Sentence, `ProcessSSML` returns
the same plain text and the same segments, the same instructions followed by
exactly one `auto_break` instruction, whose position is the length of the plain
text and whose duration is the 200 ms of the sentence, and a total duration
that is advanced by these 200 ms once: the paragraph adds nothing. -/
theorem ProcessSSML_single_sentence (lib : Platform) (ap : AudioProcessor)
    (content : List Node) (paragraph : Paragraph) (sentence : Sentence) (name : xml.Name)
    (version lang : String) (hcontent : hasPauseList content = false) :
    ∃ r0, ap.ProcessSSML lib
          { XMLName := name, Version := version, Lang := lang, Content := content } = some r0
      ∧ (∀ i ∈ r0.Instructions, i.Type_ ≠ "auto_break")
      ∧ ap.ProcessSSML lib
          { XMLName := name, Version := version, Lang := lang,
            Content := [.Paragraph paragraph [.Sentence sentence content]] }
        = some
          { PlainText := r0.PlainText,
            Segments := r0.Segments,
            Instructions := r0.Instructions
              ++ [{ Type_ := "auto_break", Position := len r0.PlainText,
                    Duration := 200 * time.Millisecond, AudioFile := "",
                    Properties := none }],
            TotalDuration := wrap64 (r0.TotalDuration + 200 * time.Millisecond) } := by
  obtain ⟨c, h1, h2⟩ := ProcessSSML_returns lib ap
    { XMLName := name, Version := version, Lang := lang, Content := content }
  have hno := processContents_no_auto_break lib content _ c hcontent
    (by intro i hi; cases hi) h1
  have hcur := processContents_cursor lib content _ c rfl h1
  refine ⟨_, h2, hno, ?_⟩
  unfold AudioProcessor.ProcessSSML
  simp only [processingContext.processContents, processContainer_paragraph,
    processContainer_sentence]
  simp only at h1
  rw [h1]
  simp only [Option.map, autoBreakPending_of_none c hno, autoBreakPending_afterAutoBreak,
    Bool.false_eq_true, if_false, if_true]
  simp only [processingContext.afterAutoBreak, hcur]

/-- C23 at `<speak><p><s>Hi<break time="1s"/>you</s></p></speak>`: after the break
instruction there is one automatic break, at position 5, of 200 ms. -/
theorem ProcessSSML_single_sentence_witness :
    hasPauseList sentenceContent = false
      ∧ NewAudioProcessor.ProcessSSML samplePlatform
          { XMLName := ⟨"", "speak"⟩, Version := "", Lang := "",
            Content := [.Paragraph ⟨⟨"", "p"⟩⟩ [.Sentence ⟨⟨"", "s"⟩⟩ sentenceContent]] }
        = some
          { PlainText := "Hiyou",
            Segments :=
              [{ Text := "Hi", StartTime := 0, Duration := 300 * time.Millisecond,
                 Properties := NewAudioProcessor.defaultProperties },
               { Text := "you", StartTime := 1300 * time.Millisecond,
                 Duration := 450 * time.Millisecond,
                 Properties := NewAudioProcessor.defaultProperties }],
            Instructions :=
              [{ Type_ := "break", Position := 2, Duration := 1 * time.Second,
                 AudioFile := "", Properties := none },
               { Type_ := "auto_break", Position := 5, Duration := 200 * time.Millisecond,
                 AudioFile := "", Properties := none }],
            TotalDuration := 1950 * time.Millisecond }
      ∧ ∃ r0, NewAudioProcessor.ProcessSSML samplePlatform
            { XMLName := ⟨"", "speak"⟩, Version := "", Lang := "", Content := sentenceContent }
          = some r0
        ∧ (∀ i ∈ r0.Instructions, i.Type_ ≠ "auto_break")
        ∧ NewAudioProcessor.ProcessSSML samplePlatform
            { XMLName := ⟨"", "speak"⟩, Version := "", Lang := "",
              Content := [.Paragraph ⟨⟨"", "p"⟩⟩ [.Sentence ⟨⟨"", "s"⟩⟩ sentenceContent]] }
          = some
            { PlainText := r0.PlainText,
              Segments := r0.Segments,
              Instructions := r0.Instructions
                ++ [{ Type_ := "auto_break", Position := len r0.PlainText,
                      Duration := 200 * time.Millisecond, AudioFile := "",
                      Properties := none }],
              TotalDuration := wrap64 (r0.TotalDuration + 200 * time.Millisecond) } :=
  ⟨rfl, rfl,
    ProcessSSML_single_sentence samplePlatform NewAudioProcessor sentenceContent ⟨⟨"", "p"⟩⟩
      ⟨⟨"", "s"⟩⟩ ⟨"", "speak"⟩ "" "" rfl⟩

end ssml

namespace float64

theorem div_value (a b : float64) (x y : ℚ) (ha : IsValue a x) (hb : IsValue b y) (hy : y ≠ 0)
    (k : Nat) (s : Int) (hk : k < 2 ^ 53) (hs1 : -1074 ≤ s) (hs2 : s ≤ 971)
    (hxy : |x / y| = k * (2 : ℚ) ^ s) : IsValue (a.div b) (x / y) := by
  obtain ⟨m1, e1, rfl, h1⟩ := ha
  obtain ⟨m2, e2, rfl, h2⟩ := hb
  have hm2 : m2 ≠ 0 := by
    intro h0
    rw [h0] at h2
    simp at h2
    exact hy h2.symm
  have hm2q : (m2 : ℚ) ≠ 0 := by exact_mod_cast hm2
  have hnat : ((m2.natAbs : Nat) : ℚ) = |(m2 : ℚ)| := by
    rw [Nat.cast_natAbs, Int.cast_abs]
  have hsign : ((if m2 < 0 then -m1 else m1 : Int) : ℚ) / |(m2 : ℚ)| = (m1 : ℚ) / m2 := by
    by_cases hneg : m2 < 0
    · rw [if_pos hneg, abs_of_neg (by exact_mod_cast hneg)]
      push_cast
      rw [neg_div_neg_eq]
    · rw [if_neg hneg, abs_of_nonneg (by exact_mod_cast (not_lt.mp hneg))]
  have hquot : (m1 : ℚ) / m2 * (2 : ℚ) ^ (e1 - e2) = x / y := by
    rw [← h1, ← h2, zpow_sub₀ (by norm_num)]
    field_simp
  simp only [div, hm2, if_false]
  by_cases h0 : 0 ≤ e1 - e2
  · rw [if_pos h0]
    have hv : (((if m2 < 0 then -m1 else m1) * 2 ^ (e1 - e2).toNat : Int) : ℚ)
        / ((m2.natAbs : Nat) : ℚ) = x / y := by
      have h3 := two_zpow_toNat _ h0
      push_cast at h3
      rw [Int.cast_mul, hnat, mul_div_right_comm, hsign]
      push_cast
      rw [h3, hquot]
    rw [← hv]
    apply round_exact _ _ (Int.natAbs_pos.mpr hm2) k s hk hs1 hs2
    have hp : (0 : ℚ) < ((m2.natAbs : Nat) : ℚ) := by
      exact_mod_cast Int.natAbs_pos.mpr hm2
    rw [← abs_of_pos hp, ← abs_div, hv]
    exact hxy
  · rw [if_neg h0]
    have hn : 0 ≤ -(e1 - e2) := by omega
    have hv : (((if m2 < 0 then -m1 else m1 : Int)) : ℚ)
        / ((m2.natAbs * 2 ^ (-(e1 - e2)).toNat : Nat) : ℚ) = x / y := by
      rw [Nat.cast_mul, two_zpow_toNat _ hn, hnat, ← div_div, hsign, zpow_neg, div_inv_eq_mul]
      exact hquot
    rw [← hv]
    have hpos : 0 < m2.natAbs * 2 ^ (-(e1 - e2)).toNat :=
      Nat.mul_pos (Int.natAbs_pos.mpr hm2) (by positivity)
    apply round_exact _ _ hpos k s hk hs1 hs2
    have hp : (0 : ℚ) < ((m2.natAbs * 2 ^ (-(e1 - e2)).toNat : Nat) : ℚ) := by
      exact_mod_cast hpos
    rw [← abs_of_pos hp, ← abs_div, hv]
    exact hxy

theorem IsValue_finite (m e : Int) : IsValue (.finite m e) ((m : ℚ) * (2 : ℚ) ^ e) :=
  ⟨m, e, rfl, rfl⟩

end float64
namespace ssml

theorem getRateMultiplier_other (lib : Platform) (ctx : processingContext) (rate : String)
    (h : rate ∉ namedRates) :
    ctx.getRateMultiplier lib rate
      = if strings.HasSuffix rate "%" then
          match strconv.ParseFloat lib (strings.TrimSuffix rate "%") with
          | .ok val => val.div (.finite 100 0)
          | .error _ => .finite 1 0
        else .finite 1 0 := by
  simp only [namedRates, List.mem_cons, List.mem_singleton, List.not_mem_nil, or_false,
    not_or] at h
  unfold processingContext.getRateMultiplier
  split
  · exact absurd rfl h.1
  · exact absurd rfl h.2.1
  · exact absurd rfl h.2.2.1
  · exact absurd rfl h.2.2.2.1
  · exact absurd rfl h.2.2.2.2
  · rfl

theorem percent_not_named (a : List Char) : String.mk (a ++ "%".data) ∉ namedRates := by
  intro h
  simp only [namedRates, List.mem_cons, List.mem_singleton, List.not_mem_nil, or_false] at h
  have hl : (String.mk (a ++ "%".data)).data.getLast? = some '%' := by
    simp
  rcases h with h | h | h | h | h <;> rw [h] at hl <;> revert hl <;> decide

theorem calculateTextDuration_eq (lib : Platform) (ctx : processingContext)
    (stk : List AudioProperties) (top : AudioProperties) (hstk : ctx.propertyStack = stk ++ [top])
    (content : String) (hratio : ctx.processor.charToTimeRatio = 150 * time.Millisecond)
    (hlen : content.length < 2 ^ 31) :
    ctx.calculateTextDuration lib content
      = some (float64.toInt64 lib
          ((float64.ofInt ((content.length : Int) * 150000000)).mul
            (ctx.getRateMultiplier lib top.Rate))) := by
  unfold processingContext.calculateTextDuration
  simp only [(getCurrentProperties_top ctx stk top hstk).1, hratio]
  have hw : wrap64 ((content.length : Int) * (150 * time.Millisecond))
      = (content.length : Int) * 150000000 := by
    have h1 : (content.length : Int) < 2 ^ 31 := by exact_mod_cast hlen
    have h2 : (0 : Int) ≤ content.length := Int.natCast_nonneg _
    rw [wrap64_id _ (by unfold time.Millisecond; omega) (by unfold time.Millisecond; omega)]
    unfold time.Millisecond
    ring
  rw [hw]

theorem base_value (n : Nat) (hn : n < 2 ^ 31) :
    float64.IsValue (float64.ofInt ((n : Int) * 150000000)) (((n : Int) * 150000000 : Int) : ℚ) := by
  apply float64.ofInt_value _ (n * 1171875) 7 (by omega) (by norm_num) (by norm_num)
  rw [abs_of_nonneg (by positivity)]
  push_cast
  ring

theorem duration_exact (lib : Platform) (n : Nat) (hn : n < 2 ^ 31) (mult : float64) (q : ℚ)
    (K : Int) (k : Nat) (s : Int) (hm : float64.IsValue mult q)
    (hK : (((n : Int) * 150000000 : Int) : ℚ) * q = (K : ℚ)) (hk : k < 2 ^ 53)
    (hs1 : -1074 ≤ s) (hs2 : s ≤ 971) (habs : |(K : ℚ)| = k * (2 : ℚ) ^ s)
    (h1 : -(2 ^ 63) ≤ K) (h2 : K < 2 ^ 63) :
    float64.toInt64 lib ((float64.ofInt ((n : Int) * 150000000)).mul mult) = K := by
  have hv := float64.mul_value _ _ _ _ (base_value n hn) hm k s hk hs1 hs2 (by rw [hK]; exact habs)
  rw [hK] at hv
  exact float64.toInt64_value lib _ K hv h1 h2

theorem duration_named (lib : Platform) (n : Nat) (hn : n < 2 ^ 31) (m e : Int) (K : Int)
    (k : Nat) (s : Int)
    (hK : (((n : Int) * 150000000 : Int) : ℚ) * ((m : ℚ) * (2 : ℚ) ^ e) = (K : ℚ))
    (hk : k < 2 ^ 53) (hs1 : -1074 ≤ s) (hs2 : s ≤ 971) (habs : |(K : ℚ)| = k * (2 : ℚ) ^ s)
    (h1 : -(2 ^ 63) ≤ K) (h2 : K < 2 ^ 63) :
    float64.toInt64 lib ((float64.ofInt ((n : Int) * 150000000)).mul (.finite m e)) = K :=
  duration_exact lib n hn _ _ K k s (float64.IsValue_finite m e) hK hk hs1 hs2 habs h1 h2

end ssml
namespace ssml

theorem named_not_percent (rate : String) (h : rate ∈ namedRates) :
    strings.HasSuffix rate "%" = false := by
  simp only [namedRates, List.mem_cons, List.mem_singleton, List.not_mem_nil, or_false] at h
  rcases h with h | h | h | h | h <;> subst h <;> decide

theorem getRateMultiplier_percent (lib : Platform) (ctx : processingContext) (rate : String)
    (h : strings.HasSuffix rate "%" = true) :
    ctx.getRateMultiplier lib rate
      = match strconv.ParseFloat lib (strings.TrimSuffix rate "%") with
        | .ok val => val.div (.finite 100 0)
        | .error _ => .finite 1 0 := by
  have hn : rate ∉ namedRates := by
    intro hm
    rw [named_not_percent rate hm] at h
    cases h
  rw [getRateMultiplier_other lib ctx rate hn, if_pos h]

/-- C25 (text duration estimate), amended.  In a context whose top frame is
`top` and whose processor has the ratio of 150 ms per character, a text whose
trimmed content is non-empty and has `n` characters (code points), `n` below
`2 ^ 31`, yields one segment whose duration is the value of
`calculateTextDuration`, and that value is, in nanoseconds: `n` times
300000000 for the rate `x-slow`, 225000000 for `slow`, 150000000 for `medium`,
112500000 for `fast`, 75000000 for `x-fast`; `n` times 150000000 for every
other rate that does not end in `%` and for every rate whose text before `%`
is not a number; and for a rate `v%` whose `v` parses to the double `val`, the
`int64` conversion of the product of the doubles of `n` times 150000000 and of
`val / 100`, the product and the quotient rounded to a double each.  That
conversion is exactly `n` times 1500000 times `v` when `v` is a text of decimal
digits, a multiple of 25, and `n` times `v` is below `2 ^ 37`; for other
percentages it can fall one nanosecond short of it. -/
theorem processText_duration (lib : Platform) (ctx : processingContext)
    (stk : List AudioProperties) (top : AudioProperties) (text : String)
    (hstk : ctx.propertyStack = stk ++ [top]) (htext : strings.TrimSpace text ≠ "")
    (hratio : ctx.processor.charToTimeRatio = 150 * time.Millisecond)
    (hlen : (strings.TrimSpace text).length < 2 ^ 31) :
    (∃ duration, ctx.calculateTextDuration lib (strings.TrimSpace text) = some duration
        ∧ ctx.processContent lib (.Text text)
          = some (ctx.afterText (strings.TrimSpace text) duration top))
      ∧ (top.Rate = "x-slow" → ctx.calculateTextDuration lib (strings.TrimSpace text)
          = some (((strings.TrimSpace text).length : Int) * 300000000))
      ∧ (top.Rate = "slow" → ctx.calculateTextDuration lib (strings.TrimSpace text)
          = some (((strings.TrimSpace text).length : Int) * 225000000))
      ∧ (top.Rate = "medium" → ctx.calculateTextDuration lib (strings.TrimSpace text)
          = some (((strings.TrimSpace text).length : Int) * 150000000))
      ∧ (top.Rate = "fast" → ctx.calculateTextDuration lib (strings.TrimSpace text)
          = some (((strings.TrimSpace text).length : Int) * 112500000))
      ∧ (top.Rate = "x-fast" → ctx.calculateTextDuration lib (strings.TrimSpace text)
          = some (((strings.TrimSpace text).length : Int) * 75000000))
      ∧ (top.Rate ∉ namedRates → strings.HasSuffix top.Rate "%" = false →
          ctx.calculateTextDuration lib (strings.TrimSpace text)
            = some (((strings.TrimSpace text).length : Int) * 150000000))
      ∧ (∀ e, strings.HasSuffix top.Rate "%" = true →
          strconv.ParseFloat lib (strings.TrimSuffix top.Rate "%") = .error e →
          ctx.calculateTextDuration lib (strings.TrimSpace text)
            = some (((strings.TrimSpace text).length : Int) * 150000000))
      ∧ (∀ val, strings.HasSuffix top.Rate "%" = true →
          strconv.ParseFloat lib (strings.TrimSuffix top.Rate "%") = .ok val →
          ctx.calculateTextDuration lib (strings.TrimSpace text)
            = some (float64.toInt64 lib
                ((float64.ofInt (((strings.TrimSpace text).length : Int) * 150000000)).mul
                  (val.div (.finite 100 0)))))
      ∧ (∀ ds : List Char, top.Rate = String.mk (ds ++ "%".data) → ds ≠ [] →
          (∀ c ∈ ds, (strconv.digit c).isSome = true) → (strconv.digits ds 0).1 % 25 = 0 →
          (strings.TrimSpace text).length * (strconv.digits ds 0).1 < 2 ^ 37 →
          ctx.calculateTextDuration lib (strings.TrimSpace text)
            = some (((strings.TrimSpace text).length : Int) * 1500000
                * ((strconv.digits ds 0).1 : Int))) := by
  have hcalc := calculateTextDuration_eq lib ctx stk top hstk (strings.TrimSpace text) hratio hlen
  have hn0 : (0 : Int) ≤ ((strings.TrimSpace text).length : Int) := Int.natCast_nonneg _
  have hnl : ((strings.TrimSpace text).length : Int) < 2 ^ 31 := by exact_mod_cast hlen
  generalize hN : (strings.TrimSpace text).length = n at hcalc hn0 hnl hlen
  have hone : float64.toInt64 lib ((float64.ofInt ((n : Int) * 150000000)).mul (.finite 1 0))
      = (n : Int) * 150000000 := by
    apply duration_named lib n hlen 1 0 _ (n * 1171875) 7 (by push_cast; ring) (by omega)
      (by norm_num) (by norm_num) _ (by omega) (by omega)
    rw [abs_of_nonneg (by exact_mod_cast Nat.zero_le _)]
    push_cast
    ring
  refine ⟨⟨_, hcalc, ?_⟩, ?_, ?_, ?_, ?_, ?_, ?_, ?_, ?_, ?_⟩
  · rw [processingContext.processContent]
    unfold processingContext.processText
    simp only [htext, if_false, hcalc, (getCurrentProperties_top ctx stk top hstk).1]
    rfl
  · intro hr
    rw [hcalc, hr]
    congr 1
    apply duration_named lib n hlen 2 0 _ (n * 1171875) 8 (by push_cast; ring) (by omega)
      (by norm_num) (by norm_num) _ (by omega) (by omega)
    rw [abs_of_nonneg (by exact_mod_cast Nat.zero_le _)]
    push_cast
    ring
  · intro hr
    rw [hcalc, hr]
    congr 1
    apply duration_named lib n hlen 3 (-1) _ (n * 3515625) 6
      (by push_cast; norm_num; ring) (by omega) (by norm_num) (by norm_num) _ (by omega)
      (by omega)
    rw [abs_of_nonneg (by exact_mod_cast Nat.zero_le _)]
    push_cast
    ring
  · intro hr
    rw [hcalc, hr]
    congr 1
  · intro hr
    rw [hcalc, hr]
    congr 1
    apply duration_named lib n hlen 3 (-2) _ (n * 3515625) 5
      (by push_cast; norm_num; ring) (by omega) (by norm_num) (by norm_num) _ (by omega)
      (by omega)
    rw [abs_of_nonneg (by exact_mod_cast Nat.zero_le _)]
    push_cast
    ring
  · intro hr
    rw [hcalc, hr]
    congr 1
    apply duration_named lib n hlen 1 (-1) _ (n * 1171875) 6
      (by push_cast; norm_num; ring) (by omega) (by norm_num) (by norm_num) _ (by omega)
      (by omega)
    rw [abs_of_nonneg (by exact_mod_cast Nat.zero_le _)]
    push_cast
    ring
  · intro hnot hsuf
    rw [hcalc, getRateMultiplier_other lib ctx top.Rate hnot, hsuf]
    simp only [Bool.false_eq_true, if_false]
    rw [hone]
  · intro e hsuf hp
    rw [hcalc, getRateMultiplier_percent lib ctx top.Rate hsuf, hp]
    simp only
    rw [hone]
  · intro val hsuf hp
    rw [hcalc, getRateMultiplier_percent lib ctx top.Rate hsuf, hp]
  · intro ds hr hne hds h25 hbound
    have hnpos : 0 < n := by
      rcases Nat.eq_zero_or_pos n with h0 | h0
      · exfalso
        apply htext
        have : (strings.TrimSpace text).data = [] := List.length_eq_zero.mp (by
          rw [← hN] at h0; exact h0)
        exact String.ext this
      · exact h0
    obtain ⟨q, hq⟩ : ∃ q, (strconv.digits ds 0).1 = 25 * q := ⟨_, (Nat.div_add_mod _ 25).symm.trans (by rw [h25, Nat.add_zero])⟩
    have hv37 : (strconv.digits ds 0).1 < 2 ^ 37 := by
      calc (strconv.digits ds 0).1 ≤ n * (strconv.digits ds 0).1 := Nat.le_mul_of_pos_left _ hnpos
        _ < 2 ^ 37 := hbound
    obtain ⟨hp, hval⟩ := strconv.ParseFloat_digits lib ds hne hds (by omega)
    have hsuf : strings.HasSuffix top.Rate "%" = true := by
      rw [hr]; exact strings.HasSuffix_append ds "%".data
    have htrim : strings.TrimSuffix top.Rate "%" = String.mk ds := by
      rw [hr]; exact strings.TrimSuffix_append ds "%".data
    rw [hcalc, getRateMultiplier_percent lib ctx top.Rate hsuf, htrim, hp]
    simp only
    congr 1
    have hdiv : float64.IsValue ((float64.ofInt ((strconv.digits ds 0).1 : Int)).div (.finite 100 0))
        ((((strconv.digits ds 0).1 : Int) : ℚ) / ((100 : Int) * (2 : ℚ) ^ (0 : Int))) := by
      apply float64.div_value _ _ _ _ hval (float64.IsValue_finite 100 0) (by norm_num) q (-2)
        (by omega) (by norm_num) (by norm_num)
      rw [abs_of_nonneg (by positivity), hq]
      push_cast
      norm_num
      ring
    have hnq : n * q < 5497558139 := by
      rw [hq] at hbound
      have : n * (25 * q) = 25 * (n * q) := by ring
      omega
    apply duration_exact lib n hlen _ _ _ (n * q * 1171875) 5 hdiv _ (by omega) (by norm_num)
      (by norm_num) _ (by rw [hq]; push_cast; nlinarith) (by rw [hq]; push_cast; nlinarith)
    · rw [hq]
      push_cast
      norm_num
      ring
    · rw [abs_of_nonneg (by positivity), hq]
      push_cast
      ring

end ssml
namespace ssml

/-- C25 at the text `Hello` under the rate `50%`: the duration is 5 times 150 ms
times 50 / 100, 375 ms. -/
theorem processText_duration_witness :
    ((defaultContext [] [] 0 0 "").pushProperties
        { NewAudioProcessor.defaultProperties with Rate := "50%" }).propertyStack
        = [NewAudioProcessor.defaultProperties]
          ++ [{ NewAudioProcessor.defaultProperties with Rate := "50%" }]
      ∧ strings.TrimSpace " Hello " ≠ ""
      ∧ (strings.TrimSpace " Hello ").length < 2 ^ 31
      ∧ ((defaultContext [] [] 0 0 "").pushProperties
          { NewAudioProcessor.defaultProperties with Rate := "50%" }).calculateTextDuration
            samplePlatform (strings.TrimSpace " Hello ") = some (375 * time.Millisecond) :=
  ⟨rfl, by decide, by decide,
    (processText_duration samplePlatform
      ((defaultContext [] [] 0 0 "").pushProperties
        { NewAudioProcessor.defaultProperties with Rate := "50%" })
      [NewAudioProcessor.defaultProperties]
      { NewAudioProcessor.defaultProperties with Rate := "50%" } " Hello " rfl (by decide) rfl
      (by decide)).2.2.2.2.2.2.2.2.2 ['5', '0'] rfl (by decide) (by decide) (by decide)
      (by decide)⟩

/-- C25 as stated fails for
`<speak><prosody rate="35%">Hello</prosody></speak>`: the segment has the
duration 262499999 ns, one less than 5 times 150 ms times 35 / 100, which is
262500000 ns. -/
theorem processText_duration_counterexample :
    NewAudioProcessor.ProcessSSML samplePlatform percentRate
        = some
          { PlainText := "Hello",
            Segments :=
              [{ Text := "Hello", StartTime := 0, Duration := 262499999,
                 Properties :=
                   { Rate := "35%", Pitch := "medium", Volume := "medium",
                     Voice := "default", Gender := "neutral", Language := "zh-CN",
                     Emphasis := "none" } }],
            Instructions := [],
            TotalDuration := 262499999 }
      ∧ ("Hello".length : Int) * (150 * time.Millisecond) * 35 = 262500000 * 100 :=
  ⟨rfl, by decide⟩

end ssml

namespace ssml

theorem len_ascii (s : String) (h : ∀ ch ∈ s.data, ch.toNat < 128) : len s = s.length := by
  unfold len
  rw [String.length]
  generalize s.data = l at h
  induction l with
  | nil => rfl
  | cons a l ih =>
    have ha : a.toNat < 128 := h a (List.mem_cons_self _ _)
    have hl := ih (fun ch hch => h ch (List.mem_cons_of_mem _ hch))
    simp only [List.map_cons, List.sum_cons, List.length_cons, hl]
    rw [if_pos (by omega)]
    omega

theorem Positioned_append (ctx : processingContext) (i : AudioInstruction)
    (h : ctx.Positioned) (hi : i.Position = ctx.textPosition) :
    ∀ j ∈ ctx.result.Instructions ++ [i],
      ∃ pre post : String, ctx.plainTextBuilder = pre ++ post ∧ j.Position = len pre := by
  intro j hj
  rcases List.mem_append.mp hj with hj | hj
  · exact h.2 j hj
  · rw [List.mem_singleton] at hj
    subst hj
    exact ⟨ctx.plainTextBuilder, "", (String.append_empty _).symm, by rw [hi, h.1]⟩

theorem processContents_positioned (lib : Platform) (content : List Node)
    (ctx c : processingContext) (hs : ctx.Positioned)
    (h : ctx.processContents lib content = some c) : c.Positioned := by
  refine processContents_invariant lib (fun x => x.Positioned) ?_ ?_ ?_ ?_ ?_ ?_ content ctx c hs h
  · intro x text y hx hy
    rcases processText_cases lib x text y hy with ⟨_, h1⟩ | ⟨_, top, d, _, _, h1⟩
    · rw [h1]; exact hx
    · rw [h1]
      refine ⟨?_, ?_⟩
      · simp only [processingContext.afterText, len_append, hx.1]
      · intro i hi
        obtain ⟨pre, post, h2, h3⟩ := hx.2 i hi
        refine ⟨pre, post ++ strings.TrimSpace text, ?_, h3⟩
        simp only [processingContext.afterText]
        rw [h2, String.append_assoc]
  · intro x br hx
    obtain ⟨d, hd⟩ := processBreak_eq lib x br
    rw [hd]
    exact ⟨hx.1, Positioned_append x _ hx rfl⟩
  · intro x src hx
    exact ⟨hx.1, Positioned_append x _ hx rfl⟩
  · intro x frame hx _; exact hx
  · intro x hx
    unfold processingContext.popProperties
    split
    · exact hx
    · exact hx
  · intro x d hx
    rw [addAutomaticBreak_eq]
    split
    · exact hx
    · exact ⟨hx.1, Positioned_append x _ hx rfl⟩

theorem ProcessSSML_positioned (lib : Platform) (ap : AudioProcessor) (speak : Speak) :
    ∃ r, ap.ProcessSSML lib speak = some r
      ∧ ∀ i ∈ r.Instructions,
          ∃ pre post : String, r.PlainText = pre ++ post ∧ i.Position = len pre := by
  obtain ⟨c, h1, h2⟩ := ProcessSSML_returns lib ap speak
  refine ⟨_, h2, ?_⟩
  have hp := processContents_positioned lib speak.Content _ c
    ⟨rfl, fun i hi => absurd hi (List.not_mem_nil i)⟩ h1
  exact hp.2

end ssml
namespace ssml

/-- C26 (cursor is a character offset), as far as the code agrees with it.  The
cursor counts the bytes of the UTF-8 encoding of the accumulated plain text,
not its characters.  For every document the processing returns a result, and
the position of each of its instructions is the byte length of a prefix of
`PlainText`; when the plain text holds only characters below 128 this is the
number of characters of that prefix.  In a context whose cursor is the byte
length of the accumulated text, this remains so after any content has been
processed.  A Text advances the cursor by the byte length of its trimmed
content and appends that content to the plain text, which is its number of
characters when the content holds only characters below 128; a Break appends
an instruction at the cursor and leaves the cursor and the plain text as they
are, and so does the instruction of an Audio, after which the content of the
Audio is processed. -/
theorem ProcessSSML_cursor (lib : Platform) (ap : AudioProcessor) (speak : Speak)
    (ctx : processingContext) (hcur : ctx.textPosition = len ctx.plainTextBuilder) :
    (∃ r, ap.ProcessSSML lib speak = some r
        ∧ ∀ i ∈ r.Instructions, ∃ pre post : String,
            r.PlainText = pre ++ post ∧ i.Position = len pre
              ∧ ((∀ ch ∈ r.PlainText.data, ch.toNat < 128) → i.Position = pre.length))
      ∧ (∀ content c, ctx.processContents lib content = some c →
          c.textPosition = len c.plainTextBuilder)
      ∧ (∀ text c, ctx.processContent lib (.Text text) = some c →
          c.textPosition = ctx.textPosition + len (strings.TrimSpace text)
            ∧ c.plainTextBuilder = ctx.plainTextBuilder ++ strings.TrimSpace text
            ∧ c.result.Instructions = ctx.result.Instructions
            ∧ ((∀ ch ∈ (strings.TrimSpace text).data, ch.toNat < 128) →
                c.textPosition = ctx.textPosition + (strings.TrimSpace text).length))
      ∧ (∀ br, ∃ d, ctx.processContent lib (.Break br) = some (ctx.afterBreak d)
          ∧ (ctx.afterBreak d).textPosition = ctx.textPosition
          ∧ (ctx.afterBreak d).plainTextBuilder = ctx.plainTextBuilder
          ∧ (ctx.afterBreak d).result.Instructions = ctx.result.Instructions
              ++ [{ Type_ := "break", Position := ctx.textPosition, Duration := d,
                    AudioFile := "", Properties := none }])
      ∧ (∀ audio content, ctx.processContent lib (.Audio audio content)
            = (ctx.afterAudio audio.Src).processContents lib content
          ∧ (ctx.afterAudio audio.Src).textPosition = ctx.textPosition
          ∧ (ctx.afterAudio audio.Src).plainTextBuilder = ctx.plainTextBuilder
          ∧ (ctx.afterAudio audio.Src).result.Instructions = ctx.result.Instructions
              ++ [{ Type_ := "audio", Position := ctx.textPosition, Duration := 0,
                    AudioFile := audio.Src, Properties := none }]) := by
  refine ⟨?_, ?_, ?_, ?_, ?_⟩
  · obtain ⟨r, hr, hpos⟩ := ProcessSSML_positioned lib ap speak
    refine ⟨r, hr, ?_⟩
    intro i hi
    obtain ⟨pre, post, h1, h2⟩ := hpos i hi
    refine ⟨pre, post, h1, h2, ?_⟩
    intro hascii
    rw [h2]
    apply len_ascii
    intro ch hch
    apply hascii
    rw [h1, String.data_append]
    exact List.mem_append_left _ hch
  · intro content c h
    exact processContents_cursor lib content ctx c hcur h
  · intro text c h
    rw [processingContext.processContent] at h
    have hmain : c.textPosition = ctx.textPosition + len (strings.TrimSpace text)
        ∧ c.plainTextBuilder = ctx.plainTextBuilder ++ strings.TrimSpace text
        ∧ c.result.Instructions = ctx.result.Instructions := by
      rcases processText_cases lib ctx text c h with ⟨h0, h1⟩ | ⟨_, top, d, _, _, h1⟩
      · rw [h1, h0]
        exact ⟨rfl, (String.append_empty _).symm, rfl⟩
      · rw [h1]
        exact ⟨rfl, rfl, rfl⟩
    refine ⟨hmain.1, hmain.2.1, hmain.2.2, ?_⟩
    intro hascii
    rw [hmain.1, len_ascii _ hascii]
  · intro br
    obtain ⟨d, hd⟩ := processBreak_eq lib ctx br
    refine ⟨d, ?_, rfl, rfl, rfl⟩
    rw [processingContext.processContent, hd]
  · intro audio content
    exact ⟨processAudio_eq lib ctx audio content, rfl, rfl, rfl⟩

/-- C26 at the default context, whose cursor and plain text are empty: a break
with `time="1s"` leaves the cursor where it is. -/
theorem ProcessSSML_cursor_witness :
    (defaultContext [] [] 0 0 "").textPosition = len (defaultContext [] [] 0 0 "").plainTextBuilder
      ∧ ∃ d, (defaultContext [] [] 0 0 "").processContent samplePlatform
          (.Break ⟨⟨"", "break"⟩, "1s", ""⟩)
            = some ((defaultContext [] [] 0 0 "").afterBreak d)
        ∧ ((defaultContext [] [] 0 0 "").afterBreak d).textPosition
            = (defaultContext [] [] 0 0 "").textPosition :=
  ⟨rfl,
    let ⟨d, h1, h2, _⟩ := (ProcessSSML_cursor samplePlatform NewAudioProcessor helloWorld
      (defaultContext [] [] 0 0 "") rfl).2.2.2.1 ⟨⟨"", "break"⟩, "1s", ""⟩
    ⟨d, h1, h2⟩⟩

/-- C26, where the code departs from it: for `<speak>你好<break time="1s"/></speak>`
the break has the position 6, the number of bytes of the two characters before
it, not their number 2. -/
theorem ProcessSSML_cursor_counterexample :
    NewAudioProcessor.ProcessSSML samplePlatform chineseBreak
        = some
          { PlainText := "你好",
            Segments :=
              [{ Text := "你好", StartTime := 0, Duration := 300 * time.Millisecond,
                 Properties := NewAudioProcessor.defaultProperties }],
            Instructions :=
              [{ Type_ := "break", Position := 6, Duration := time.Second, AudioFile := "",
                 Properties := none }],
            TotalDuration := 1300 * time.Millisecond }
      ∧ "你好".length = 2 :=
  ⟨rfl, rfl⟩

end ssml

namespace ssml

mutual
theorem processContent_replaceAt (lib : Platform) (f : Node → List Node)
    (hf : ∀ (item : Node) (ctx : processingContext),
      ctx.processContents lib (f item) = ctx.processContent lib item) :
    ∀ (item : Node) (path : List Nat) (ctx : processingContext),
      ctx.processContent lib (item.replaceAt f path) = ctx.processContent lib item
  | .Text t, _, ctx => by rw [Node.replaceAt]
  | .Break b, _, ctx => by rw [Node.replaceAt]
  | .Other x, _, ctx => by rw [Node.replaceAt]
  | .Audio a c, path, ctx => by
    rw [Node.replaceAt, processingContext.processContent, processingContext.processContent]
    congr 1
    funext x
    exact processContents_replaceAt lib f hf c path x
  | .Emphasis e c, path, ctx => by
    rw [Node.replaceAt, processingContext.processContent, processingContext.processContent]
    congr 1
    funext x
    exact processContents_replaceAt lib f hf c path x
  | .Paragraph p c, path, ctx => by
    rw [Node.replaceAt, processingContext.processContent, processingContext.processContent]
    congr 1
    funext x
    exact processContents_replaceAt lib f hf c path x
  | .Phoneme p c, path, ctx => by
    rw [Node.replaceAt, processingContext.processContent, processingContext.processContent]
    congr 1
    funext x
    exact processContents_replaceAt lib f hf c path x
  | .Prosody p c, path, ctx => by
    rw [Node.replaceAt, processingContext.processContent, processingContext.processContent]
    congr 1
    funext x
    exact processContents_replaceAt lib f hf c path x
  | .Sentence s c, path, ctx => by
    rw [Node.replaceAt, processingContext.processContent, processingContext.processContent]
    congr 1
    funext x
    exact processContents_replaceAt lib f hf c path x
  | .Sub s c, path, ctx => by
    rw [Node.replaceAt, processingContext.processContent, processingContext.processContent]
  | .Voice v c, path, ctx => by
    rw [Node.replaceAt, processingContext.processContent, processingContext.processContent]
    congr 1
    funext x
    exact processContents_replaceAt lib f hf c path x
  | .W w c, path, ctx => by
    rw [Node.replaceAt, processingContext.processContent, processingContext.processContent]
    congr 1
    funext x
    exact processContents_replaceAt lib f hf c path x
theorem processContents_replaceAt (lib : Platform) (f : Node → List Node)
    (hf : ∀ (item : Node) (ctx : processingContext),
      ctx.processContents lib (f item) = ctx.processContent lib item) :
    ∀ (content : List Node) (path : List Nat) (ctx : processingContext),
      ctx.processContents lib (replaceAtList f content path) = ctx.processContents lib content
  | [], _, ctx => by rw [replaceAtList]
  | x :: xs, [], ctx => by rw [replaceAtList]
  | x :: xs, 0 :: [], ctx => by
    rw [replaceAtList, processContents_append, hf, processingContext.processContents]
    cases ctx.processContent lib x <;> rfl
  | x :: xs, 0 :: i :: rest, ctx => by
    rw [replaceAtList, processingContext.processContents, processingContext.processContents,
      processContent_replaceAt lib f hf x (i :: rest) ctx]
  | x :: xs, (n + 1) :: rest, ctx => by
    rw [replaceAtList, processingContext.processContents, processingContext.processContents]
    cases ctx.processContent lib x with
    | none => rfl
    | some c1 => exact processContents_replaceAt lib f hf xs (n :: rest) c1
end

end ssml
namespace ssml

theorem processContents_singleton (lib : Platform) (ctx : processingContext) (item : Node) :
    ctx.processContents lib [item] = ctx.processContent lib item := by
  rw [processingContext.processContents]
  cases ctx.processContent lib item with
  | none => rfl
  | some c => simp only [processingContext.processContents]

theorem processContent_sub_text (lib : Platform) (ctx : processingContext) (sub : Sub)
    (content : List Node) :
    ctx.processContent lib (.Sub sub content) = ctx.processContent lib (.Text sub.Alias) := by
  rw [processingContext.processContent, processingContext.processContent]
  rfl

theorem processContents_aliasText (lib : Platform) (item : Node) (ctx : processingContext) :
    ctx.processContents lib item.aliasText = ctx.processContent lib item := by
  cases item <;> simp only [Node.aliasText, processContents_singleton, processContent_sub_text]

theorem processContents_withSubContent (lib : Platform) (content : List Node) (item : Node)
    (ctx : processingContext) :
    ctx.processContents lib (item.withSubContent content) = ctx.processContent lib item := by
  cases item <;> simp only [Node.withSubContent, processContents_singleton,
    processContent_sub_text]

theorem ProcessSSML_replaceAt (lib : Platform) (f : Node → List Node)
    (hf : ∀ (item : Node) (ctx : processingContext),
      ctx.processContents lib (f item) = ctx.processContent lib item)
    (ap : AudioProcessor) (speak : Speak) (path : List Nat) :
    ap.ProcessSSML lib { speak with Content := replaceAtList f speak.Content path }
      = ap.ProcessSSML lib speak := by
  unfold AudioProcessor.ProcessSSML
  simp only [processContents_replaceAt lib f hf]

/-- C27 (Sub).  A Sub is processed exactly as the Text leaf that holds its alias,
in every context and whatever its content: nothing changes when the trimmed
alias is empty, and otherwise one segment with the trimmed alias, the
properties of the top frame and the duration of that text is appended, the
alias is appended to the plain text and the cursor and the accumulator
advance.  Two Subs with the same alias are processed alike.  Hence replacing
a Sub at any path of a document by the Text leaf of its alias, or its content
by any other content, leaves the result of the document as it is. -/
theorem processContent_sub (lib : Platform) (ctx : processingContext) (sub : Sub)
    (content : List Node) :
    ctx.processContent lib (.Sub sub content) = ctx.processContent lib (.Text sub.Alias)
      ∧ (strings.TrimSpace sub.Alias = "" →
          ctx.processContent lib (.Sub sub content) = some ctx)
      ∧ (strings.TrimSpace sub.Alias ≠ "" → ∀ stk top, ctx.propertyStack = stk ++ [top] →
          ∃ duration,
            ctx.calculateTextDuration lib (strings.TrimSpace sub.Alias) = some duration
              ∧ ctx.processContent lib (.Sub sub content)
                = some (ctx.afterText (strings.TrimSpace sub.Alias) duration top)
              ∧ (ctx.afterText (strings.TrimSpace sub.Alias) duration top).result.Segments
                = ctx.result.Segments
                  ++ [{ Text := strings.TrimSpace sub.Alias, StartTime := ctx.currentTime,
                        Duration := duration, Properties := top }]
              ∧ (ctx.afterText (strings.TrimSpace sub.Alias) duration top).result.Instructions
                = ctx.result.Instructions)
      ∧ (∀ (sub2 : Sub) (content2 : List Node), sub2.Alias = sub.Alias →
          ctx.processContent lib (.Sub sub2 content2) = ctx.processContent lib (.Sub sub content))
      ∧ (∀ (ap : AudioProcessor) (speak : Speak) (path : List Nat),
          ap.ProcessSSML lib
              { speak with Content := replaceAtList Node.aliasText speak.Content path }
            = ap.ProcessSSML lib speak)
      ∧ (∀ (ap : AudioProcessor) (speak : Speak) (path : List Nat) (content2 : List Node),
          ap.ProcessSSML lib
              { speak with
                Content := replaceAtList (Node.withSubContent content2) speak.Content path }
            = ap.ProcessSSML lib speak) := by
  refine ⟨processContent_sub_text lib ctx sub content, ?_, ?_, ?_, ?_, ?_⟩
  · intro h
    rw [processingContext.processContent]
    unfold processingContext.processSub processingContext.processText
    simp only [h, if_true]
  · intro h stk top hstk
    obtain ⟨h1, _⟩ := getCurrentProperties_top ctx stk top hstk
    have hd : ∃ duration,
        ctx.calculateTextDuration lib (strings.TrimSpace sub.Alias) = some duration := by
      unfold processingContext.calculateTextDuration
      simp only [h1]
      exact ⟨_, rfl⟩
    obtain ⟨duration, hd⟩ := hd
    refine ⟨duration, hd, ?_, rfl, rfl⟩
    rw [processingContext.processContent]
    unfold processingContext.processSub processingContext.processText
    simp only [h, if_false, hd, h1]
    rfl
  · intro sub2 content2 h
    rw [processContent_sub_text, processContent_sub_text, h]
  · intro ap speak path
    exact ProcessSSML_replaceAt lib _ (processContents_aliasText lib) ap speak path
  · intro ap speak path content2
    exact ProcessSSML_replaceAt lib _ (processContents_withSubContent lib content2) ap speak path

end ssml

namespace ssml

theorem joinTexts_append (a b : List String) :
    joinTexts (a ++ b) = joinTexts a ++ joinTexts b := by
  induction a with
  | nil => simp [joinTexts]
  | cons s rest ih => rw [List.cons_append, joinTexts, joinTexts, ih, String.append_assoc]

theorem Grows_same (ctx c : processingContext)
    (h1 : c.plainTextBuilder = ctx.plainTextBuilder)
    (h2 : c.result.Segments = ctx.result.Segments) : ctx.Grows c [] := by
  refine ⟨?_, ?_⟩
  · rw [h1]; simp [joinTexts]
  · rw [h2]; simp

theorem Grows_trans (a b c : processingContext) (l1 l2 : List String)
    (h1 : a.Grows b l1) (h2 : b.Grows c l2) : a.Grows c (l1 ++ l2) := by
  refine ⟨?_, ?_⟩
  · rw [h2.1, h1.1, joinTexts_append, String.append_assoc]
  · rw [h2.2, h1.2, List.append_assoc]

theorem Grows_left (a b c : processingContext) (l : List String) (h : a.Grows b [])
    (h2 : b.Grows c l) : a.Grows c l :=
  Grows_trans a b c [] l h h2

theorem Grows_right (a b c : processingContext) (l : List String) (h : a.Grows b l)
    (h2 : b.Grows c []) : a.Grows c l := by
  have := Grows_trans a b c l [] h h2
  rwa [List.append_nil] at this

theorem Grows_pop (c : processingContext) : c.Grows c.popProperties [] := by
  unfold processingContext.popProperties
  split
  · exact Grows_same _ _ rfl rfl
  · exact Grows_same _ _ rfl rfl

theorem Grows_auto (c : processingContext) (d : Int) : c.Grows (c.addAutomaticBreak d) [] := by
  rw [addAutomaticBreak_eq]
  split
  · exact Grows_same _ _ rfl rfl
  · exact Grows_same _ _ rfl rfl

theorem Grows_text (lib : Platform) (ctx c : processingContext) (text : String)
    (h : ctx.processText lib text = some c) :
    ctx.Grows c (if strings.TrimSpace text = "" then [] else [strings.TrimSpace text]) := by
  rcases processText_cases lib ctx text c h with ⟨h0, h1⟩ | ⟨h0, top, d, _, _, h1⟩
  · rw [if_pos h0, h1]
    exact Grows_same _ _ rfl rfl
  · rw [if_neg h0, h1]
    refine ⟨?_, ?_⟩
    · simp [processingContext.afterText, joinTexts]
    · simp [processingContext.afterText]

mutual
theorem processContent_texts (lib : Platform) :
    ∀ (item : Node) (ctx c : processingContext),
      ctx.processContent lib item = some c → ctx.Grows c item.texts
  | .Text text, ctx, c, h => by
    rw [processingContext.processContent] at h
    rw [Node.texts]
    exact Grows_text lib ctx c text h
  | .Break br, ctx, c, h => by
    rw [processingContext.processContent] at h
    cases h
    rw [Node.texts]
    exact Grows_same _ _ rfl rfl
  | .Audio audio content, ctx, c, h => by
    rw [processAudio_eq] at h
    rw [Node.texts]
    exact Grows_left ctx (ctx.afterAudio audio.Src) c _ (Grows_same _ _ rfl rfl)
      (processContents_texts lib content _ c h)
  | .Voice voice content, ctx, c, h => by
    rw [processingContext.processContent] at h
    obtain ⟨frame, c1, h1, h2, _⟩ := processVoice_cases ctx _ _ c h
    rw [Node.texts, h2]
    exact Grows_right _ _ _ _ (Grows_left ctx (ctx.pushProperties frame) c1 _
      (Grows_same _ _ rfl rfl) (processContents_texts lib content _ c1 h1)) (Grows_pop c1)
  | .Prosody prosody content, ctx, c, h => by
    rw [processingContext.processContent] at h
    obtain ⟨frame, c1, h1, h2, _⟩ := processProsody_cases ctx _ _ c h
    rw [Node.texts, h2]
    exact Grows_right _ _ _ _ (Grows_left ctx (ctx.pushProperties frame) c1 _
      (Grows_same _ _ rfl rfl) (processContents_texts lib content _ c1 h1)) (Grows_pop c1)
  | .Emphasis emphasis content, ctx, c, h => by
    rw [processingContext.processContent] at h
    obtain ⟨frame, c1, h1, h2, _⟩ := processEmphasis_cases ctx _ _ c h
    rw [Node.texts, h2]
    exact Grows_right _ _ _ _ (Grows_left ctx (ctx.pushProperties frame) c1 _
      (Grows_same _ _ rfl rfl) (processContents_texts lib content _ c1 h1)) (Grows_pop c1)
  | .Phoneme phoneme content, ctx, c, h => by
    rw [processingContext.processContent] at h
    unfold processingContext.processPhoneme at h
    rw [Node.texts]
    exact processContents_texts lib content ctx c h
  | .Sub sub _, ctx, c, h => by
    rw [processingContext.processContent] at h
    unfold processingContext.processSub at h
    rw [Node.texts]
    exact Grows_text lib ctx c sub.Alias h
  | .Paragraph _ content, ctx, c, h => by
    rw [processingContext.processContent] at h
    obtain ⟨c1, h1, h2⟩ := processContainer_cases ctx _ _ c h
    have hc1 := processContents_texts lib content ctx c1 h1
    rw [Node.texts]
    rcases h2 with ⟨_, h2⟩ | ⟨_, h2⟩ | ⟨_, h2⟩
    · rw [h2]; exact Grows_right _ _ _ _ hc1 (Grows_auto c1 _)
    · rw [h2]; exact Grows_right _ _ _ _ hc1 (Grows_auto c1 _)
    · rw [h2]; exact hc1
  | .Sentence _ content, ctx, c, h => by
    rw [processingContext.processContent] at h
    obtain ⟨c1, h1, h2⟩ := processContainer_cases ctx _ _ c h
    have hc1 := processContents_texts lib content ctx c1 h1
    rw [Node.texts]
    rcases h2 with ⟨_, h2⟩ | ⟨_, h2⟩ | ⟨_, h2⟩
    · rw [h2]; exact Grows_right _ _ _ _ hc1 (Grows_auto c1 _)
    · rw [h2]; exact Grows_right _ _ _ _ hc1 (Grows_auto c1 _)
    · rw [h2]; exact hc1
  | .W _ content, ctx, c, h => by
    rw [processingContext.processContent] at h
    obtain ⟨c1, h1, h2⟩ := processContainer_cases ctx _ _ c h
    have hc1 := processContents_texts lib content ctx c1 h1
    rw [Node.texts]
    rcases h2 with ⟨_, h2⟩ | ⟨_, h2⟩ | ⟨_, h2⟩
    · rw [h2]; exact Grows_right _ _ _ _ hc1 (Grows_auto c1 _)
    · rw [h2]; exact Grows_right _ _ _ _ hc1 (Grows_auto c1 _)
    · rw [h2]; exact hc1
  | .Other _, ctx, c, h => by
    rw [processingContext.processContent] at h
    cases h
    rw [Node.texts]
    exact Grows_same _ _ rfl rfl
theorem processContents_texts (lib : Platform) :
    ∀ (content : List Node) (ctx c : processingContext),
      ctx.processContents lib content = some c → ctx.Grows c (textsList content)
  | [], ctx, c, h => by
    rw [processingContext.processContents] at h
    cases h
    rw [textsList]
    exact Grows_same _ _ rfl rfl
  | item :: rest, ctx, c, h => by
    rw [processingContext.processContents] at h
    cases h1 : ctx.processContent lib item with
    | none => rw [h1] at h; cases h
    | some c1 =>
      rw [h1] at h
      rw [textsList]
      exact Grows_trans _ _ _ _ _ (processContent_texts lib item ctx c1 h1)
        (processContents_texts lib rest c1 c h)
end

end ssml
namespace ssml

theorem textsList_append (a b : List Node) :
    textsList (a ++ b) = textsList a ++ textsList b := by
  induction a with
  | nil => simp [textsList]
  | cons x xs ih => rw [List.cons_append, textsList, textsList, ih, List.append_assoc]

theorem ProcessSSML_texts (lib : Platform) (ap : AudioProcessor) (speak : Speak) :
    ∃ r, ap.ProcessSSML lib speak = some r
      ∧ r.PlainText = joinTexts (textsList speak.Content)
      ∧ r.Segments.map (fun s => s.Text) = textsList speak.Content := by
  obtain ⟨c, h1, h2⟩ := ProcessSSML_returns lib ap speak
  obtain ⟨h3, h4⟩ := processContents_texts lib speak.Content _ c h1
  refine ⟨_, h2, ?_, ?_⟩
  · simp only [h3]
    exact String.empty_append _
  · simp only [h4]
    rfl

/-- C28 (Audio).  An Audio is processed by appending one instruction of the type
`audio` with the cursor as its position, the duration 0 and the `src` as its
audio file, which leaves the segments, the accumulator, the cursor, the plain
text and the property stack as they are, and by processing the content of the
Audio in the context so obtained.  In a content, the items of the Audio are
processed after that instruction as if they stood before the items that follow
the Audio.  The texts of the content of the Audio are appended to the plain
text and yield one segment each, and in a context with a frame the processing
returns; so for every document the plain text and the texts of the segments
are those of its items, the content of each Audio included. -/
theorem processContent_audio (lib : Platform) (ctx : processingContext) (audio : Audio)
    (content : List Node) :
    ctx.processContent lib (.Audio audio content)
        = (ctx.afterAudio audio.Src).processContents lib content
      ∧ (ctx.afterAudio audio.Src).result.Instructions
        = ctx.result.Instructions
          ++ [{ Type_ := "audio", Position := ctx.textPosition, Duration := 0,
                AudioFile := audio.Src, Properties := none }]
      ∧ (ctx.afterAudio audio.Src).result.Segments = ctx.result.Segments
      ∧ (ctx.afterAudio audio.Src).currentTime = ctx.currentTime
      ∧ (ctx.afterAudio audio.Src).textPosition = ctx.textPosition
      ∧ (ctx.afterAudio audio.Src).plainTextBuilder = ctx.plainTextBuilder
      ∧ (ctx.afterAudio audio.Src).propertyStack = ctx.propertyStack
      ∧ (ctx.afterAudio audio.Src).processor = ctx.processor
      ∧ (∀ pre post : List Node,
          ctx.processContents lib (pre ++ .Audio audio content :: post)
            = (ctx.processContents lib pre).bind
                (fun c => (c.afterAudio audio.Src).processContents lib (content ++ post)))
      ∧ (∀ c, ctx.processContent lib (.Audio audio content) = some c →
          c.plainTextBuilder = ctx.plainTextBuilder ++ joinTexts (textsList content)
            ∧ c.result.Segments.map (fun s => s.Text)
              = ctx.result.Segments.map (fun s => s.Text) ++ textsList content)
      ∧ (ctx.propertyStack ≠ [] → ∃ c, ctx.processContent lib (.Audio audio content) = some c)
      ∧ (∀ (ap : AudioProcessor) (speak : Speak) (pre post : List Node),
          speak.Content = pre ++ .Audio audio content :: post →
          ∃ r, ap.ProcessSSML lib speak = some r
            ∧ r.PlainText
              = joinTexts (textsList pre) ++ joinTexts (textsList content)
                ++ joinTexts (textsList post)
            ∧ r.Segments.map (fun s => s.Text)
              = textsList pre ++ textsList content ++ textsList post) := by
  refine ⟨processAudio_eq lib ctx audio content, rfl, rfl, rfl, rfl, rfl, rfl, rfl, ?_, ?_, ?_,
    ?_⟩
  · intro pre post
    rw [processContents_append]
    congr 1
    funext c
    rw [processingContext.processContents, processAudio_eq, processContents_append]
    cases (c.afterAudio audio.Src).processContents lib content <;> rfl
  · intro c h
    have := processContent_texts lib (.Audio audio content) ctx c h
    rw [Node.texts] at this
    exact this
  · intro h
    obtain ⟨c, hc, _⟩ := processContent_stack lib (.Audio audio content) ctx h
    exact ⟨c, hc⟩
  · intro ap speak pre post hs
    obtain ⟨r, h1, h2, h3⟩ := ProcessSSML_texts lib ap speak
    have ht := textsList_append
    refine ⟨r, h1, ?_, ?_⟩
    · rw [h2, hs, ht, textsList, Node.texts, joinTexts_append, joinTexts_append,
        String.append_assoc]
    · rw [h3, hs, ht, textsList, Node.texts, List.append_assoc]

end ssml

namespace ssml

theorem processContent_phoneme (lib : Platform) (ctx : processingContext) (phoneme : Phoneme)
    (content : List Node) :
    ctx.processContent lib (.Phoneme phoneme content) = ctx.processContents lib content := by
  rw [processingContext.processContent]
  rfl

theorem processContent_w (lib : Platform) (ctx : processingContext) (w : W)
    (content : List Node) :
    ctx.processContent lib (.W w content) = ctx.processContents lib content := by
  rw [processingContext.processContent]
  rfl

theorem processContents_unwrap (lib : Platform) (item : Node) (ctx : processingContext) :
    ctx.processContents lib item.unwrap = ctx.processContent lib item := by
  cases item <;> simp only [Node.unwrap, processContents_singleton, processContent_phoneme,
    processContent_w]

/-- C29 (transparent containers).  A Phoneme, whatever its alphabet and `ph`, and
a W, whatever its role, are processed in every context exactly as the sequence
of their content items: nothing but the processing of these items happens.
Hence a content in which such an item is replaced by its content items is
processed alike, and replacing a Phoneme or a W at any path of a document by
its content items leaves the result of the document, with its plain text,
segments, instructions and total duration, as it is. -/
theorem processContent_transparent (lib : Platform) (ctx : processingContext) :
    (∀ (phoneme : Phoneme) (content : List Node),
        ctx.processContent lib (.Phoneme phoneme content) = ctx.processContents lib content)
      ∧ (∀ (w : W) (content : List Node),
          ctx.processContent lib (.W w content) = ctx.processContents lib content)
      ∧ (∀ (phoneme : Phoneme) (content pre post : List Node),
          ctx.processContents lib (pre ++ .Phoneme phoneme content :: post)
            = ctx.processContents lib (pre ++ content ++ post))
      ∧ (∀ (w : W) (content pre post : List Node),
          ctx.processContents lib (pre ++ .W w content :: post)
            = ctx.processContents lib (pre ++ content ++ post))
      ∧ (∀ (ap : AudioProcessor) (speak : Speak) (path : List Nat),
          ap.ProcessSSML lib
              { speak with Content := replaceAtList Node.unwrap speak.Content path }
            = ap.ProcessSSML lib speak) := by
  have hlist : ∀ (item : Node) (content pre post : List Node),
      (∀ c : processingContext, c.processContent lib item = c.processContents lib content) →
      ctx.processContents lib (pre ++ item :: post)
        = ctx.processContents lib (pre ++ content ++ post) := by
    intro item content pre post h
    rw [List.append_assoc, processContents_append, processContents_append]
    congr 1
    funext c
    rw [processingContext.processContents, h, processContents_append]
    cases c.processContents lib content <;> rfl
  refine ⟨processContent_phoneme lib ctx, processContent_w lib ctx, ?_, ?_, ?_⟩
  · intro phoneme content pre post
    exact hlist _ content pre post (fun c => processContent_phoneme lib c phoneme content)
  · intro w content pre post
    exact hlist _ content pre post (fun c => processContent_w lib c w content)
  · intro ap speak path
    exact ProcessSSML_replaceAt lib _ (processContents_unwrap lib) ap speak path

/-- C29 at the document
`<speak>a<voice name="v"><w role="noun">b<phoneme ph="x">c</phoneme></w>d</voice></speak>`
and the path to the W: the document with `b<phoneme ph="x">c</phoneme>` in the
place of the W has the same result. -/
theorem processContent_transparent_witness :
    replaceAtList Node.unwrap wordInVoice.Content [1, 0]
        = [.Text "a",
           .Voice ⟨⟨"", "voice"⟩, "", "", "", "v", ""⟩
             [.Text "b", .Phoneme ⟨⟨"", "phoneme"⟩, "", "x"⟩ [.Text "c"], .Text "d"]]
      ∧ NewAudioProcessor.ProcessSSML samplePlatform
          { wordInVoice with Content := replaceAtList Node.unwrap wordInVoice.Content [1, 0] }
        = NewAudioProcessor.ProcessSSML samplePlatform wordInVoice :=
  ⟨rfl,
    (processContent_transparent samplePlatform (defaultContext [] [] 0 0 "")).2.2.2.2
      NewAudioProcessor wordInVoice [1, 0]⟩

end ssml

namespace ssml

theorem elementKind_break_tag (cfg : ValidationConfig) (name : xml.Name)
    (attr : List xml.Attr) (h : name.Local = "break") :
    elementKind cfg name attr
      = .breakElem { XMLName := name, Time := attrValue attr "time",
                     Strength := attrValue attr "strength" } := by
  unfold elementKind
  rw [h]
  simp only
  rw [parseBreak_foldl]
  rfl

/-- C30 (break element consumption), as far as the code agrees with it.  While
the parser reads the content of an element, a start tag with the local name
`break`, followed by balanced tokens `mid` that hold no end tag with the local
name `break`, and by its end tag, appends to the content one Break with the
values of the attributes `time` and `strength` of the start tag and changes
nothing else: no token of `mid` yields a node or an error, whatever the
configuration says about unknown elements.  The parser then goes on with the
tokens `rest` that follow the end tag, in the state so reached; the nodes of
well-formed content that follows are appended after the Break, in order. -/
theorem Machine.feed_break_element (cfg : ValidationConfig) (le : Option String)
    (stk : List xml.Name) (m : Machine) (name : xml.Name) (attr : List xml.Attr)
    (mid rest : List xml.Token)
    (hsp : m.speak ≠ none) (hsk : m.skip = none) (hname : name.Local = "break")
    (hmid : ∀ n, xml.Token.EndElement n ∈ mid → n.Local ≠ "break")
    (hwf : xml.openAfter mid (name :: stk) = some (name :: stk)) :
    Machine.feed cfg (.StartElement name attr :: (mid ++ [.EndElement name])) stk m
        = some (stk,
          { m with
            content := m.content
              ++ [Node.Break { XMLName := name, Time := attrValue attr "time",
                               Strength := attrValue attr "strength" }] })
      ∧ Machine.run cfg le (.StartElement name attr :: (mid ++ [.EndElement name]) ++ rest) stk m
        = Machine.run cfg le rest stk
          { m with
            content := m.content
              ++ [Node.Break { XMLName := name, Time := attrValue attr "time",
                               Strength := attrValue attr "strength" }] }
      ∧ (∀ nodes, Content cfg rest nodes →
          Machine.feed cfg (.StartElement name attr :: (mid ++ [.EndElement name]) ++ rest) stk m
            = some (stk,
              { m with
                content := m.content
                  ++ Node.Break { XMLName := name, Time := attrValue attr "time",
                                  Strength := attrValue attr "strength" } :: nodes })) := by
  obtain ⟨res, root, speak, frames, content, skip⟩ := m
  simp only at hsp hsk
  subst hsk
  cases speak with
  | none => exact absurd rfl hsp
  | some sp =>
    have hfeed : Machine.feed cfg (.StartElement name attr :: (mid ++ [.EndElement name])) stk
        { result := res, root := root, speak := some sp, frames := frames, content := content,
          skip := none }
        = some (stk,
          { result := res, root := root, speak := some sp, frames := frames,
            content := content
              ++ [Node.Break { XMLName := name, Time := attrValue attr "time",
                               Strength := attrValue attr "strength" }],
            skip := none }) := by
      rw [Machine.feed_cons]
      simp only [xml.nestStep, Machine.step, elementKind_break_tag cfg name attr hname]
      rw [Machine.feed_append,
        Machine.feed_skip cfg mid (name :: stk) (name :: stk) _ sp
          (.breakElem { XMLName := name, Time := attrValue attr "time",
                        Strength := attrValue attr "strength" }) rfl rfl hmid hwf]
      simp only [Option.bind]
      rw [Machine.feed_cons]
      simp [xml.nestStep, Machine.step, Skip.tag, Machine.endSkip, Machine.feed, hname]
    refine ⟨hfeed, ?_, ?_⟩
    · exact Machine.run_append cfg le _ rest stk stk _ _ hfeed
    · intro nodes hnodes
      rw [Machine.feed_append, hfeed]
      simp only [Option.bind]
      rw [Machine.feed_content cfg rest nodes hnodes]
      simp

/-- C30 at the break `<break time="1s">x<u></u></break>` read first in a speak
element, with unknown elements not allowed: the content is one Break with the
time `1s`; the text and the element inside it leave no trace. -/
theorem Machine.feed_break_element_witness :
    Machine.inSpeak.speak ≠ none ∧ Machine.inSpeak.skip = none
      ∧ xml.openAfter [.CharData "x", .StartElement ⟨"", "u"⟩ [], .EndElement ⟨"", "u"⟩]
          [⟨"", "break"⟩, ⟨"", "speak"⟩] = some [⟨"", "break"⟩, ⟨"", "speak"⟩]
      ∧ Machine.feed knownOnlyConfig
          (.StartElement ⟨"", "break"⟩ [⟨⟨"", "time"⟩, "1s"⟩]
            :: ([.CharData "x", .StartElement ⟨"", "u"⟩ [], .EndElement ⟨"", "u"⟩]
              ++ [.EndElement ⟨"", "break"⟩]))
          [⟨"", "speak"⟩] Machine.inSpeak
        = some ([⟨"", "speak"⟩],
          { Machine.inSpeak with
            content := [Node.Break { XMLName := ⟨"", "break"⟩, Time := "1s", Strength := "" }] }) :=
  ⟨by simp [Machine.inSpeak], rfl, rfl,
    (Machine.feed_break_element knownOnlyConfig none [⟨"", "speak"⟩] Machine.inSpeak
      ⟨"", "break"⟩ [⟨⟨"", "time"⟩, "1s"⟩]
      [.CharData "x", .StartElement ⟨"", "u"⟩ [], .EndElement ⟨"", "u"⟩] []
      (by simp [Machine.inSpeak]) rfl rfl (by intro n hn; simp at hn; subst hn; decide) rfl).1⟩

/-- C30, where the code departs from it: in
`<speak version="1.0" xml:lang="en"><break time="1s"><break time="2s"/>x</break>y</speak>`
the loop of
`parseBreak` stops at the end tag of the inner break, so the text `x`, which
stands between the start tag and the end tag of the outer break, becomes a
node of the speak element. -/
theorem Machine.feed_break_element_counterexample :
    ParseReader DefaultValidationConfig (xml.NewDecoder nestedBreakTokens none)
      = some ({ Root := some { XMLName := ⟨"", "speak"⟩, Version := "1.0", Lang := "en",
                               Content :=
                                 [.Break { XMLName := ⟨"", "break"⟩, Time := "1s",
                                           Strength := "" },
                                  .Text "x", .Text "y"] },
                Warnings := [], Errors := [] }, none) :=
  rfl

end ssml

namespace ssml

/-- C32 (text leaf).  A Text whose content is empty or all white space is
processed by leaving the context as it is: no segment is added, and the plain
text, the cursor and the accumulator keep their values.  In a context whose top
frame is `top`, any other Text is processed by appending its trimmed content to
the plain text and appending exactly one segment, whose text is the trimmed
content, whose start time is the accumulator before the text, whose duration
is that of `calculateTextDuration` and whose properties are `top`; the
instructions are left as they are. -/
theorem processContent_text (lib : Platform) (ctx : processingContext)
    (stk : List AudioProperties) (top : AudioProperties) (text : String)
    (hstk : ctx.propertyStack = stk ++ [top]) :
    (strings.TrimSpace text = "" → ctx.processContent lib (.Text text) = some ctx)
      ∧ (strings.TrimSpace text ≠ "" →
          ∃ duration, ctx.calculateTextDuration lib (strings.TrimSpace text) = some duration
            ∧ ctx.processContent lib (.Text text)
              = some (ctx.afterText (strings.TrimSpace text) duration top)
            ∧ (ctx.afterText (strings.TrimSpace text) duration top).plainTextBuilder
              = ctx.plainTextBuilder ++ strings.TrimSpace text
            ∧ (ctx.afterText (strings.TrimSpace text) duration top).result.Segments
              = ctx.result.Segments
                ++ [{ Text := strings.TrimSpace text, StartTime := ctx.currentTime,
                      Duration := duration, Properties := top }]
            ∧ (ctx.afterText (strings.TrimSpace text) duration top).result.Instructions
              = ctx.result.Instructions
            ∧ (ctx.afterText (strings.TrimSpace text) duration top).propertyStack
              = ctx.propertyStack) := by
  refine ⟨?_, ?_⟩
  · intro h
    rw [processingContext.processContent]
    unfold processingContext.processText
    simp only [h, if_true]
  · intro h
    obtain ⟨h1, _⟩ := getCurrentProperties_top ctx stk top hstk
    have hd : ∃ duration,
        ctx.calculateTextDuration lib (strings.TrimSpace text) = some duration := by
      unfold processingContext.calculateTextDuration
      simp only [h1]
      exact ⟨_, rfl⟩
    obtain ⟨duration, hd⟩ := hd
    refine ⟨duration, hd, ?_, rfl, rfl, rfl, rfl⟩
    rw [processingContext.processContent]
    unfold processingContext.processText
    simp only [h, if_false, hd, h1]
    rfl

/-- C32 at the default context: the text of two spaces leaves it as it is. -/
theorem processContent_text_witness :
    (defaultContext [] [] 0 0 "").propertyStack = [] ++ [NewAudioProcessor.defaultProperties]
      ∧ strings.TrimSpace "  " = ""
      ∧ (defaultContext [] [] 0 0 "").processContent samplePlatform (.Text "  ")
        = some (defaultContext [] [] 0 0 "") :=
  ⟨rfl, by decide,
    (processContent_text samplePlatform (defaultContext [] [] 0 0 "") []
      NewAudioProcessor.defaultProperties "  " rfl).1 (by decide)⟩

end ssml

namespace ssml

theorem wrap64_add_left (a b : Int) : wrap64 (wrap64 a + b) = wrap64 (a + b) := by
  unfold wrap64
  omega

theorem wrap64_wrap64 (a : Int) : wrap64 (wrap64 a) = wrap64 a := by
  unfold wrap64
  omega

theorem len_pos_of_trimmed (s : String) (h : trimmed s = true) : 0 < len s := by
  unfold trimmed at h
  unfold len
  cases hd : s.data with
  | nil => rw [hd] at h; cases h
  | cons a l =>
    simp only [List.map_cons, List.sum_cons]
    split <;> [omega; (split <;> [omega; (split <;> omega)])]

theorem segmentsDuration_append (a b : List AudioSegment) :
    segmentsDuration (a ++ b) = segmentsDuration a + segmentsDuration b := by
  simp [segmentsDuration, List.sum_append]

theorem instructionsDuration_append (a b : List AudioInstruction) :
    instructionsDuration (a ++ b) = instructionsDuration a + instructionsDuration b := by
  simp [instructionsDuration, List.sum_append]

theorem bytesBefore_append (segs : List AudioSegment) (extra : List AudioSegment) (k : Nat)
    (hk : k ≤ segs.length) : bytesBefore (segs ++ extra) k = bytesBefore segs k := by
  unfold bytesBefore
  rw [List.take_append_of_le_length hk]

theorem bytesBefore_length (segs : List AudioSegment) :
    bytesBefore segs segs.length = len (joinTexts (segs.map (fun s => s.Text))) := by
  unfold bytesBefore
  rw [List.take_length]

theorem bytesBefore_zero (segs : List AudioSegment) : bytesBefore segs 0 = 0 := by
  unfold bytesBefore
  rfl

theorem bytesBefore_succ (segs : List AudioSegment) (k : Nat) (hk : k < segs.length) :
    bytesBefore segs (k + 1) = bytesBefore segs k + len (segs.get ⟨k, hk⟩).Text := by
  unfold bytesBefore
  rw [List.take_succ, List.getElem?_eq_getElem hk]
  simp only [Option.toList, List.map_append, List.map_cons, List.map_nil, joinTexts_append,
    len_append, joinTexts, List.get_eq_getElem]
  have h0 : len "" = 0 := rfl
  rw [h0, Nat.add_zero]

theorem bytesBefore_lt (segs : List AudioSegment) (hne : ∀ s ∈ segs, trimmed s.Text = true)
    (k : Nat) : ∀ n, k < n → n ≤ segs.length → bytesBefore segs k < bytesBefore segs n := by
  intro n
  induction n with
  | zero => intro h; omega
  | succ n ih =>
    intro hkn hn
    have hlt : n < segs.length := by omega
    rw [bytesBefore_succ segs n hlt]
    have hpos := len_pos_of_trimmed _ (hne _ (List.get_mem segs n hlt))
    rcases Nat.lt_or_ge k n with h | h
    · have := ih h (by omega)
      omega
    · have hkn2 : k = n := by omega
      subst hkn2
      omega

theorem bytesBefore_le (segs : List AudioSegment) (hne : ∀ s ∈ segs, trimmed s.Text = true)
    (k n : Nat) (hkn : k ≤ n) (hn : n ≤ segs.length) :
    bytesBefore segs k ≤ bytesBefore segs n := by
  rcases Nat.eq_or_lt_of_le hkn with h | h
  · rw [h]
  · exact Nat.le_of_lt (bytesBefore_lt segs hne k n h hn)

theorem durationUpTo_append (instrs : List AudioInstruction) (i : AudioInstruction) (p : Nat) :
    durationUpTo (instrs ++ [i]) p
      = durationUpTo instrs p + (if i.Position ≤ p then i.Duration else 0) := by
  unfold durationUpTo
  rw [List.filter_append, instructionsDuration_append]
  congr 1
  by_cases h : i.Position ≤ p
  · simp [List.filter, h, instructionsDuration]
  · simp [List.filter, h, instructionsDuration]

theorem durationUpTo_all (instrs : List AudioInstruction) (p : Nat)
    (h : ∀ i ∈ instrs, i.Position ≤ p) : durationUpTo instrs p = instructionsDuration instrs := by
  unfold durationUpTo
  rw [List.filter_eq_self.mpr]
  intro i hi
  simp [h i hi]

end ssml
namespace ssml

theorem Sound_instruction (ctx c : processingContext) (i : AudioInstruction)
    (hs : ctx.Sound) (hi : i.Position = ctx.textPosition)
    (h1 : c.result.Instructions = ctx.result.Instructions ++ [i])
    (h2 : c.result.Segments = ctx.result.Segments)
    (h3 : c.plainTextBuilder = ctx.plainTextBuilder)
    (h4 : c.textPosition = ctx.textPosition)
    (h5 : c.currentTime = wrap64 (ctx.currentTime + i.Duration)) : c.Sound := by
  obtain ⟨s1, s2, s3, s4, s5, s6, s7, s8⟩ := hs
  have hcur : ctx.textPosition = bytesBefore ctx.result.Segments ctx.result.Segments.length := by
    rw [bytesBefore_length, ← s1, s2]
  unfold processingContext.Sound
  rw [h1, h2, h3, h4, h5]
  refine ⟨s1, s2, s3, ?_, ?_, ?_, ?_, ?_⟩
  · rw [s4, wrap64_add_left, instructionsDuration_append]
    congr 1
    simp only [instructionsDuration, List.map_cons, List.map_nil, List.sum_cons, List.sum_nil]
    omega
  · intro j hj
    rcases List.mem_append.mp hj with hj | hj
    · exact s5 j hj
    · rw [List.mem_singleton] at hj
      subst hj
      exact ⟨_, Nat.le_refl _, by rw [hi, hcur]⟩
  · rw [List.map_append, List.pairwise_append]
    refine ⟨s6, List.pairwise_singleton _ _, ?_⟩
    intro a ha b hb
    simp only [List.map_cons, List.map_nil, List.mem_singleton] at hb
    obtain ⟨j, hj, rfl⟩ := List.mem_map.mp ha
    rw [hb, hi]
    exact s7 j hj
  · intro j hj
    rcases List.mem_append.mp hj with hj | hj
    · exact s7 j hj
    · rw [List.mem_singleton] at hj
      subst hj
      exact Nat.le_of_eq hi
  · intro k s hk
    rw [s8 k s hk, durationUpTo_append]
    have hlt : k < ctx.result.Segments.length := by
      by_contra hc
      rw [List.getElem?_eq_none (by omega)] at hk
      cases hk
    have := bytesBefore_lt ctx.result.Segments s3 k _ hlt (Nat.le_refl _)
    rw [if_neg (by rw [hi, hcur]; omega)]
    simp

theorem Sound_text (ctx : processingContext) (content : String) (duration : Int)
    (props : AudioProperties) (hs : ctx.Sound) (hc : trimmed content = true) :
    (ctx.afterText content duration props).Sound := by
  obtain ⟨s1, s2, s3, s4, s5, s6, s7, s8⟩ := hs
  have hcur : ctx.textPosition = bytesBefore ctx.result.Segments ctx.result.Segments.length := by
    rw [bytesBefore_length, ← s1, s2]
  unfold processingContext.Sound
  simp only [processingContext.afterText]
  refine ⟨?_, ?_, ?_, ?_, ?_, s6, ?_, ?_⟩
  · rw [List.map_append, joinTexts_append, ← s1]
    simp [joinTexts]
  · rw [len_append, s2]
  · intro s hsm
    rcases List.mem_append.mp hsm with hsm | hsm
    · exact s3 s hsm
    · rw [List.mem_singleton] at hsm
      subst hsm
      exact hc
  · rw [s4, wrap64_add_left, segmentsDuration_append]
    congr 1
    simp only [segmentsDuration, List.map_cons, List.map_nil, List.sum_cons, List.sum_nil]
    omega
  · intro j hj
    obtain ⟨k, hk1, hk2⟩ := s5 j hj
    refine ⟨k, ?_, ?_⟩
    · rw [List.length_append]; omega
    · rw [bytesBefore_append _ _ k hk1]; exact hk2
  · intro j hj
    have := s7 j hj
    omega
  · intro k s hk
    rcases Nat.lt_or_ge k ctx.result.Segments.length with hlt | hge
    · rw [List.getElem?_append_left hlt] at hk
      rw [s8 k s hk, bytesBefore_append _ _ k (Nat.le_of_lt hlt),
        List.take_append_of_le_length (Nat.le_of_lt hlt)]
    · rw [List.getElem?_append_right hge] at hk
      have hk0 : k = ctx.result.Segments.length := by
        by_contra hne
        have : k - ctx.result.Segments.length ≠ 0 := by omega
        obtain ⟨n, hn⟩ := Nat.exists_eq_succ_of_ne_zero this
        rw [hn] at hk
        simp at hk
      subst hk0
      simp only [Nat.sub_self, List.getElem?_cons_zero, Option.some.injEq] at hk
      subst hk
      simp only
      rw [bytesBefore_append _ _ _ (Nat.le_refl _), ← hcur,
        durationUpTo_all _ _ s7, List.take_left, s4]

theorem Sound_same (ctx c : processingContext) (hs : ctx.Sound)
    (h1 : c.result = ctx.result) (h3 : c.plainTextBuilder = ctx.plainTextBuilder)
    (h4 : c.textPosition = ctx.textPosition) (h5 : c.currentTime = ctx.currentTime) :
    c.Sound := by
  unfold processingContext.Sound at hs ⊢
  rw [h1, h3, h4, h5]
  exact hs

theorem processContents_sound (lib : Platform) (content : List Node)
    (ctx c : processingContext) (hs : ctx.Sound)
    (h : ctx.processContents lib content = some c) : c.Sound := by
  refine processContents_invariant lib (fun x => x.Sound) ?_ ?_ ?_ ?_ ?_ ?_ content ctx c hs h
  · intro x text y hx hy
    rcases processText_cases lib x text y hy with ⟨_, h1⟩ | ⟨h0, top, d, _, _, h1⟩
    · rw [h1]; exact hx
    · rw [h1]
      exact Sound_text x _ d top hx (TrimSpace_trimmed text h0)
  · intro x br hx
    obtain ⟨d, hd⟩ := processBreak_eq lib x br
    rw [hd]
    exact Sound_instruction x _ _ hx rfl rfl rfl rfl rfl rfl
  · intro x src hx
    refine Sound_instruction x _ _ hx rfl rfl rfl rfl rfl ?_
    show x.currentTime = wrap64 (x.currentTime + 0)
    rw [Int.add_zero, hx.2.2.2.1, wrap64_wrap64]
  · intro x frame hx _
    exact Sound_same x _ hx rfl rfl rfl rfl
  · intro x hx
    unfold processingContext.popProperties
    split
    · exact Sound_same x _ hx rfl rfl rfl rfl
    · exact hx
  · intro x d hx
    rw [addAutomaticBreak_eq]
    split
    · exact hx
    · exact Sound_instruction x _ _ hx rfl rfl rfl rfl rfl rfl

theorem ProcessSSML_sound (lib : Platform) (ap : AudioProcessor) (speak : Speak) :
    ∃ c : processingContext, c.Sound
      ∧ ap.ProcessSSML lib speak
        = some { c.result with PlainText := c.plainTextBuilder, TotalDuration := c.currentTime } := by
  obtain ⟨c, h1, h2⟩ := ProcessSSML_returns lib ap speak
  refine ⟨c, processContents_sound lib speak.Content _ c ?_ h1, h2⟩
  refine ⟨rfl, rfl, ?_, rfl, ?_, List.Pairwise.nil, ?_, ?_⟩
  · intro s hs; cases hs
  · intro i hi; cases hi
  · intro i hi; cases hi
  · intro k s hk
    simp at hk

end ssml

namespace ssml

theorem processContents_audio_zero (lib : Platform) (content : List Node)
    (ctx c : processingContext)
    (hs : ∀ i ∈ ctx.result.Instructions, i.Type_ = "audio" → i.Duration = 0)
    (h : ctx.processContents lib content = some c) :
    ∀ i ∈ c.result.Instructions, i.Type_ = "audio" → i.Duration = 0 := by
  have happ : ∀ (x : processingContext) (j : AudioInstruction),
      (∀ i ∈ x.result.Instructions, i.Type_ = "audio" → i.Duration = 0) →
      (j.Type_ = "audio" → j.Duration = 0) →
      ∀ i ∈ x.result.Instructions ++ [j], i.Type_ = "audio" → i.Duration = 0 := by
    intro x j hx hj i hi
    rcases List.mem_append.mp hi with hi | hi
    · exact hx i hi
    · rw [List.mem_singleton] at hi
      subst hi
      exact hj
  refine processContents_invariant lib
    (fun x => ∀ i ∈ x.result.Instructions, i.Type_ = "audio" → i.Duration = 0)
    ?_ ?_ ?_ ?_ ?_ ?_ content ctx c hs h
  · intro x text y hx hy
    rcases processText_cases lib x text y hy with ⟨_, h1⟩ | ⟨_, top, d, _, _, h1⟩
    · rw [h1]; exact hx
    · rw [h1]; exact hx
  · intro x br hx
    obtain ⟨d, hd⟩ := processBreak_eq lib x br
    rw [hd]
    exact happ x _ hx (fun h => absurd h (show ("break" : String) ≠ "audio" by decide))
  · intro x src hx
    exact happ x _ hx (fun _ => rfl)
  · intro x frame hx _; exact hx
  · intro x hx
    unfold processingContext.popProperties
    split
    · exact hx
    · exact hx
  · intro x d hx
    rw [addAutomaticBreak_eq]
    split
    · exact hx
    · exact happ x _ hx (fun h => absurd h (show ("auto_break" : String) ≠ "audio" by decide))

theorem ProcessSSML_reaches (lib : Platform) (ap : AudioProcessor) (speak : Speak) :
    ∃ c : processingContext,
      ({ processor := ap,
         result := { PlainText := "", Segments := [], Instructions := [], TotalDuration := 0 },
         currentTime := 0, textPosition := 0,
         propertyStack := [ap.copyProperties ap.defaultProperties],
         plainTextBuilder := "" } : processingContext).processContents lib speak.Content
          = some c
        ∧ c.Sound
        ∧ ap.ProcessSSML lib speak
          = some { c.result with
              PlainText := c.plainTextBuilder, TotalDuration := c.currentTime } := by
  obtain ⟨c, h1, h2⟩ := ProcessSSML_returns lib ap speak
  refine ⟨c, h1, processContents_sound lib speak.Content _ c ?_ h1, h2⟩
  refine ⟨rfl, rfl, ?_, rfl, ?_, List.Pairwise.nil, ?_, ?_⟩
  · intro s hs; cases hs
  · intro i hi; cases hi
  · intro i hi; cases hi
  · intro k s hk
    simp at hk

/-- C36 (duration conservation).  For every document `ProcessSSML` returns a
result whose total duration is the sum of the durations of its segments and of
its instructions, taken in the `int64` arithmetic of `time.Duration`; it is
that sum as an integer whenever the sum is an `int64`.  Every instruction of
the type `audio` has the duration 0.  A document without content gives the
empty plain text, no segment, no instruction and the total duration 0. -/
theorem ProcessSSML_duration_conservation (lib : Platform) (ap : AudioProcessor)
    (speak : Speak) :
    ∃ r, ap.ProcessSSML lib speak = some r
      ∧ r.TotalDuration
        = wrap64 (segmentsDuration r.Segments + instructionsDuration r.Instructions)
      ∧ (-(2 ^ 63) ≤ segmentsDuration r.Segments + instructionsDuration r.Instructions →
          segmentsDuration r.Segments + instructionsDuration r.Instructions < 2 ^ 63 →
          r.TotalDuration = segmentsDuration r.Segments + instructionsDuration r.Instructions)
      ∧ (∀ i ∈ r.Instructions, i.Type_ = "audio" → i.Duration = 0)
      ∧ (speak.Content = [] →
          r = { PlainText := "", Segments := [], Instructions := [], TotalDuration := 0 }) := by
  obtain ⟨c, h1, hs, h2⟩ := ProcessSSML_reaches lib ap speak
  have ha := processContents_audio_zero lib speak.Content _ c (fun i hi => by cases hi) h1
  refine ⟨_, h2, hs.2.2.2.1, ?_, ha, ?_⟩
  · intro hlo hhi
    show c.currentTime = _
    rw [hs.2.2.2.1]
    exact wrap64_id _ hlo hhi
  · intro hc
    rw [hc, processingContext.processContents] at h1
    cases h1
    rfl

end ssml
namespace ssml

theorem instructionsDuration_filter_split (l : List AudioInstruction)
    (P Q R : AudioInstruction → Bool)
    (h : ∀ i ∈ l, P i = (Q i || R i)) (hd : ∀ i ∈ l, ¬ (Q i = true ∧ R i = true)) :
    instructionsDuration (l.filter P)
      = instructionsDuration (l.filter Q) + instructionsDuration (l.filter R) := by
  induction l with
  | nil => simp [instructionsDuration]
  | cons a l ih =>
    have iha := ih (fun i hi => h i (List.mem_cons_of_mem _ hi))
      (fun i hi => hd i (List.mem_cons_of_mem _ hi))
    have ha := h a (List.mem_cons_self _ _)
    have hda := hd a (List.mem_cons_self _ _)
    simp only [List.filter_cons, ha]
    cases hq : Q a <;> cases hr : R a
    · simpa using iha
    · simp only [Bool.false_or, if_true, Bool.false_eq_true, if_false]
      simp only [instructionsDuration, List.map_cons, List.sum_cons] at iha ⊢
      omega
    · simp only [Bool.true_or, if_true, Bool.false_eq_true, if_false]
      simp only [instructionsDuration, List.map_cons, List.sum_cons] at iha ⊢
      omega
    · exact absurd ⟨hq, hr⟩ hda

theorem durationUpTo_zero (instrs : List AudioInstruction) :
    durationUpTo instrs 0 = durationAt instrs 0 := by
  unfold durationUpTo durationAt
  congr 1
  apply List.filter_congr
  intro i _
  simp

theorem durationUpTo_succ (segs : List AudioSegment) (instrs : List AudioInstruction)
    (hne : ∀ s ∈ segs, trimmed s.Text = true)
    (hpos : ∀ i ∈ instrs, ∃ k, k ≤ segs.length ∧ i.Position = bytesBefore segs k)
    (k : Nat) (hk : k < segs.length) :
    durationUpTo instrs (bytesBefore segs (k + 1))
      = durationUpTo instrs (bytesBefore segs k) + durationAt instrs (bytesBefore segs (k + 1)) := by
  unfold durationUpTo durationAt
  have hlt := bytesBefore_lt segs hne k (k + 1) (Nat.lt_succ_self k) hk
  apply instructionsDuration_filter_split
  · intro i hi
    obtain ⟨j, hj1, hj2⟩ := hpos i hi
    rcases Nat.lt_trichotomy j (k + 1) with h | h | h
    · have := bytesBefore_le segs hne j k (by omega) (by omega)
      have h1 : i.Position ≤ bytesBefore segs (k + 1) := by omega
      have h2 : i.Position ≤ bytesBefore segs k := by omega
      simp [h1, h2]
    · subst h
      simp [hj2]
    · have := bytesBefore_lt segs hne (k + 1) j h hj1
      have h1 : ¬ i.Position ≤ bytesBefore segs (k + 1) := by omega
      have h2 : ¬ i.Position ≤ bytesBefore segs k := by omega
      have h3 : ¬ i.Position = bytesBefore segs (k + 1) := by omega
      simp [h1, h2, h3]
  · intro i _ h
    simp only [decide_eq_true_eq] at h
    omega

theorem segmentsDuration_take_succ (segs : List AudioSegment) (k : Nat) (s : AudioSegment)
    (hk : segs[k]? = some s) :
    segmentsDuration (segs.take (k + 1)) = segmentsDuration (segs.take k) + s.Duration := by
  rw [List.take_succ, hk, segmentsDuration_append]
  simp [segmentsDuration]

/-- C33 (segment timing).  For every document `ProcessSSML` returns a result in
which the first segment starts at the sum of the durations of the instructions
with the position 0, and the segment after a segment `s` starts at the start of
`s` plus the duration of `s` plus the sum of the durations of the instructions
whose position is the byte length of the texts of the segments up to `s`, all
sums taken in the `int64` arithmetic of `time.Duration`.  Each segment starts at
the `int64` sum of the durations of the segments before it and of the
instructions whose position is at most the byte length of the texts before it,
which are the instructions emitted before it. -/
theorem ProcessSSML_segment_timing (lib : Platform) (ap : AudioProcessor) (speak : Speak) :
    ∃ r, ap.ProcessSSML lib speak = some r
      ∧ (∀ s, r.Segments[0]? = some s → s.StartTime = wrap64 (durationAt r.Instructions 0))
      ∧ (∀ (k : Nat) (s t : AudioSegment), r.Segments[k]? = some s →
          r.Segments[k + 1]? = some t →
          t.StartTime
            = wrap64 (s.StartTime + s.Duration
                + durationAt r.Instructions (bytesBefore r.Segments (k + 1))))
      ∧ (∀ (k : Nat) (s : AudioSegment), r.Segments[k]? = some s →
          s.StartTime
            = wrap64 (segmentsDuration (r.Segments.take k)
                + durationUpTo r.Instructions (bytesBefore r.Segments k))) := by
  obtain ⟨c, _, hs, h2⟩ := ProcessSSML_reaches lib ap speak
  obtain ⟨s1, s2, s3, s4, s5, s6, s7, s8⟩ := hs
  refine ⟨_, h2, ?_, ?_, s8⟩
  · intro s h0
    have h0 : c.result.Segments[0]? = some s := h0
    show s.StartTime = wrap64 (durationAt c.result.Instructions 0)
    have := s8 0 s h0
    rw [this, bytesBefore_zero, durationUpTo_zero]
    simp [segmentsDuration]
  · intro k s t hk hk1
    have hk : c.result.Segments[k]? = some s := hk
    have hk1 : c.result.Segments[k + 1]? = some t := hk1
    have hlt : k < c.result.Segments.length := by
      by_contra hc
      rw [List.getElem?_eq_none (by omega)] at hk
      cases hk
    show t.StartTime = wrap64 (s.StartTime + s.Duration
      + durationAt c.result.Instructions (bytesBefore c.result.Segments (k + 1)))
    rw [s8 (k + 1) t hk1, s8 k s hk, segmentsDuration_take_succ _ k s hk,
      durationUpTo_succ _ _ s3 s5 k hlt, Int.add_assoc (wrap64 _), wrap64_add_left]
    congr 1
    omega

end ssml
namespace ssml

theorem TrimSpace_of_trimmed (s : String) (h : trimmed s = true) : strings.TrimSpace s = s := by
  unfold trimmed at h
  unfold strings.TrimSpace
  cases hh : s.data.head? with
  | none => rw [hh] at h; cases h
  | some a =>
    cases hl : s.data.getLast? with
    | none => rw [hh, hl] at h; cases h
    | some b =>
      rw [hh, hl] at h
      simp only [Bool.and_eq_true, Bool.not_eq_true', ] at h
      rw [strings.trimChars_id s.data a b hh hl h.1 h.2]

/-- C37 (plain text is the segments).  For every document `ProcessSSML` returns
a result whose plain text is the texts of its segments, in order, one after the
other with nothing between them; the text of every segment is not empty,
neither begins nor ends with white space, and is left as it is by
`strings.TrimSpace`. -/
theorem ProcessSSML_plain_text (lib : Platform) (ap : AudioProcessor) (speak : Speak) :
    ∃ r, ap.ProcessSSML lib speak = some r
      ∧ r.PlainText = joinTexts (r.Segments.map (fun s => s.Text))
      ∧ ∀ s ∈ r.Segments, s.Text ≠ "" ∧ trimmed s.Text = true
          ∧ strings.TrimSpace s.Text = s.Text := by
  obtain ⟨c, _, hs, h2⟩ := ProcessSSML_reaches lib ap speak
  refine ⟨_, h2, hs.1, ?_⟩
  intro s hsm
  have ht : trimmed s.Text = true := hs.2.2.1 s hsm
  refine ⟨?_, ht, TrimSpace_of_trimmed _ ht⟩
  intro he
  rw [he] at ht
  revert ht
  decide

end ssml
namespace ssml

/-- C38 (instruction positions are valid offsets).  For every document
`ProcessSSML` returns a result in which the positions of the instructions do
not decrease along the list, each position is at most the byte length of the
plain text, and each is the byte length of the texts of the first `k` segments
for some `k`, so it lies where a segment of the plain text begins or ends. -/
theorem ProcessSSML_positions (lib : Platform) (ap : AudioProcessor) (speak : Speak) :
    ∃ r, ap.ProcessSSML lib speak = some r
      ∧ (r.Instructions.map (fun i => i.Position)).Pairwise (fun a b => a ≤ b)
      ∧ (∀ i ∈ r.Instructions, i.Position ≤ len r.PlainText)
      ∧ (∀ i ∈ r.Instructions,
          ∃ k, k ≤ r.Segments.length ∧ i.Position = bytesBefore r.Segments k
            ∧ i.Position = len (joinTexts ((r.Segments.take k).map (fun s => s.Text))))
      ∧ bytesBefore r.Segments r.Segments.length = len r.PlainText := by
  obtain ⟨c, _, hs, h2⟩ := ProcessSSML_reaches lib ap speak
  obtain ⟨s1, s2, s3, s4, s5, s6, s7, s8⟩ := hs
  refine ⟨_, h2, s6, ?_, ?_, ?_⟩
  · intro i hi
    have := s7 i hi
    rw [s2] at this
    exact this
  · intro i hi
    obtain ⟨k, hk1, hk2⟩ := s5 i hi
    exact ⟨k, hk1, hk2, hk2⟩
  · show bytesBefore c.result.Segments c.result.Segments.length = len c.plainTextBuilder
    rw [bytesBefore_length, ← s1]

end ssml

namespace ssml

theorem processText_framed (lib : Platform) (ctx c : processingContext)
    (stk : List AudioProperties) (top : AudioProperties) (hstk : ctx.propertyStack = stk ++ [top])
    (text : String) (h : ctx.processText lib text = some c) :
    c.result.Segments.map (fun s => (s.Text, s.Properties))
      = ctx.result.Segments.map (fun s => (s.Text, s.Properties))
        ++ (if strings.TrimSpace text = "" then [] else [(strings.TrimSpace text, top)]) := by
  rcases processText_cases lib ctx text c h with ⟨h0, h1⟩ | ⟨h0, top1, d, h2, _, h1⟩
  · rw [if_pos h0, h1, List.append_nil]
  · rw [(getCurrentProperties_top ctx stk top hstk).1] at h2
    cases h2
    rw [if_neg h0, h1]
    simp [processingContext.afterText]

theorem popProperties_segments (c : processingContext) :
    c.popProperties.result = c.result := by
  unfold processingContext.popProperties
  split <;> rfl

mutual
theorem processContent_framed (lib : Platform) :
    ∀ (item : Node) (ctx c : processingContext) (stk : List AudioProperties)
      (top : AudioProperties), ctx.propertyStack = stk ++ [top] →
      ctx.processContent lib item = some c →
      c.result.Segments.map (fun s => (s.Text, s.Properties))
        = ctx.result.Segments.map (fun s => (s.Text, s.Properties)) ++ item.framedTexts top
  | .Text text, ctx, c, stk, top, hstk, h => by
    rw [processingContext.processContent] at h
    rw [Node.framedTexts]
    exact processText_framed lib ctx c stk top hstk text h
  | .Break br, ctx, c, stk, top, hstk, h => by
    rw [processingContext.processContent] at h
    cases h
    rw [Node.framedTexts, List.append_nil]
    rfl
  | .Audio audio content, ctx, c, stk, top, hstk, h => by
    rw [processAudio_eq] at h
    rw [Node.framedTexts]
    exact processContents_framed lib content (ctx.afterAudio audio.Src) c stk top hstk h
  | .Voice voice content, ctx, c, stk, top, hstk, h => by
    rw [processVoice_frame lib ctx stk top hstk] at h
    cases h1 : (ctx.pushProperties (voiceFrame top voice)).processContents lib content with
    | none => rw [h1] at h; cases h
    | some c1 =>
      rw [h1] at h
      cases h
      rw [Node.framedTexts, popProperties_segments]
      exact processContents_framed lib content (ctx.pushProperties (voiceFrame top voice)) c1
        (stk ++ [top]) _ (by unfold processingContext.pushProperties; rw [hstk]) h1
  | .Prosody prosody content, ctx, c, stk, top, hstk, h => by
    rw [processProsody_frame lib ctx stk top hstk] at h
    cases h1 : (ctx.pushProperties (prosodyFrame top prosody)).processContents lib content with
    | none => rw [h1] at h; cases h
    | some c1 =>
      rw [h1] at h
      cases h
      rw [Node.framedTexts, popProperties_segments]
      exact processContents_framed lib content (ctx.pushProperties (prosodyFrame top prosody)) c1
        (stk ++ [top]) _ (by unfold processingContext.pushProperties; rw [hstk]) h1
  | .Emphasis emphasis content, ctx, c, stk, top, hstk, h => by
    rw [processEmphasis_frame lib ctx stk top hstk] at h
    cases h1 : (ctx.pushProperties (emphasisFrame top emphasis)).processContents lib content with
    | none => rw [h1] at h; cases h
    | some c1 =>
      rw [h1] at h
      cases h
      rw [Node.framedTexts, popProperties_segments]
      exact processContents_framed lib content (ctx.pushProperties (emphasisFrame top emphasis)) c1
        (stk ++ [top]) _ (by unfold processingContext.pushProperties; rw [hstk]) h1
  | .Phoneme phoneme content, ctx, c, stk, top, hstk, h => by
    rw [processContent_phoneme] at h
    rw [Node.framedTexts]
    exact processContents_framed lib content ctx c stk top hstk h
  | .Sub sub _, ctx, c, stk, top, hstk, h => by
    rw [processingContext.processContent] at h
    unfold processingContext.processSub at h
    rw [Node.framedTexts]
    exact processText_framed lib ctx c stk top hstk sub.Alias h
  | .Paragraph _ content, ctx, c, stk, top, hstk, h => by
    rw [processContainer_paragraph] at h
    cases h1 : ctx.processContents lib content with
    | none => rw [h1] at h; cases h
    | some c1 =>
      rw [h1] at h
      cases h
      rw [Node.framedTexts, ← processContents_framed lib content ctx c1 stk top hstk h1]
      simp only
      split <;> rfl
  | .Sentence _ content, ctx, c, stk, top, hstk, h => by
    rw [processContainer_sentence] at h
    cases h1 : ctx.processContents lib content with
    | none => rw [h1] at h; cases h
    | some c1 =>
      rw [h1] at h
      cases h
      rw [Node.framedTexts, ← processContents_framed lib content ctx c1 stk top hstk h1]
      simp only
      split <;> rfl
  | .W _ content, ctx, c, stk, top, hstk, h => by
    rw [processContent_w] at h
    rw [Node.framedTexts]
    exact processContents_framed lib content ctx c stk top hstk h
  | .Other _, ctx, c, stk, top, hstk, h => by
    rw [processingContext.processContent] at h
    cases h
    rw [Node.framedTexts, List.append_nil]
theorem processContents_framed (lib : Platform) :
    ∀ (content : List Node) (ctx c : processingContext) (stk : List AudioProperties)
      (top : AudioProperties), ctx.propertyStack = stk ++ [top] →
      ctx.processContents lib content = some c →
      c.result.Segments.map (fun s => (s.Text, s.Properties))
        = ctx.result.Segments.map (fun s => (s.Text, s.Properties))
          ++ framedTextsList content top
  | [], ctx, c, stk, top, hstk, h => by
    rw [processingContext.processContents] at h
    cases h
    rw [framedTextsList, List.append_nil]
  | item :: rest, ctx, c, stk, top, hstk, h => by
    rw [processingContext.processContents] at h
    cases h1 : ctx.processContent lib item with
    | none => rw [h1] at h; cases h
    | some c1 =>
      rw [h1] at h
      obtain ⟨c0, h2, h3, _⟩ := processContent_stack lib item ctx (by rw [hstk]; simp)
      rw [h1] at h2
      cases h2
      rw [framedTextsList, processContents_framed lib rest c1 c stk top (by rw [h3, hstk]) h,
        processContent_framed lib item ctx c1 stk top hstk h1, List.append_assoc]
end

mutual
theorem framedTexts_unframed :
    ∀ (item : Node) (top : AudioProperties), item.hasFrame = false →
      ∀ p ∈ item.framedTexts top, p.2 = top
  | .Text t, top, _ => by
    rw [Node.framedTexts]
    split
    · intro p hp; cases hp
    · intro p hp; rw [List.mem_singleton] at hp; rw [hp]
  | .Break _, top, _ => by rw [Node.framedTexts]; intro p hp; cases hp
  | .Other _, top, _ => by rw [Node.framedTexts]; intro p hp; cases hp
  | .Sub sub _, top, _ => by
    rw [Node.framedTexts]
    split
    · intro p hp; cases hp
    · intro p hp; rw [List.mem_singleton] at hp; rw [hp]
  | .Audio _ c, top, h => by
    rw [Node.hasFrame] at h
    rw [Node.framedTexts]
    exact framedTextsList_unframed c top h
  | .Paragraph _ c, top, h => by
    rw [Node.hasFrame] at h
    rw [Node.framedTexts]
    exact framedTextsList_unframed c top h
  | .Sentence _ c, top, h => by
    rw [Node.hasFrame] at h
    rw [Node.framedTexts]
    exact framedTextsList_unframed c top h
  | .Phoneme _ c, top, h => by
    rw [Node.hasFrame] at h
    rw [Node.framedTexts]
    exact framedTextsList_unframed c top h
  | .W _ c, top, h => by
    rw [Node.hasFrame] at h
    rw [Node.framedTexts]
    exact framedTextsList_unframed c top h
  | .Voice _ _, top, h => by rw [Node.hasFrame] at h; cases h
  | .Prosody _ _, top, h => by rw [Node.hasFrame] at h; cases h
  | .Emphasis _ _, top, h => by rw [Node.hasFrame] at h; cases h
theorem framedTextsList_unframed :
    ∀ (content : List Node) (top : AudioProperties), hasFrameList content = false →
      ∀ p ∈ framedTextsList content top, p.2 = top
  | [], top, _ => by rw [framedTextsList]; intro p hp; cases hp
  | item :: rest, top, h => by
    rw [hasFrameList, Bool.or_eq_false_iff] at h
    rw [framedTextsList]
    intro p hp
    rcases List.mem_append.mp hp with hp | hp
    · exact framedTexts_unframed item top h.1 p hp
    · exact framedTextsList_unframed rest top h.2 p hp
end

theorem framedTextsList_append (a b : List Node) (top : AudioProperties) :
    framedTextsList (a ++ b) top = framedTextsList a top ++ framedTextsList b top := by
  induction a with
  | nil => simp [framedTextsList]
  | cons x xs ih => rw [List.cons_append, framedTextsList, framedTextsList, ih, List.append_assoc]

theorem ProcessSSML_framed (lib : Platform) (ap : AudioProcessor) (speak : Speak) :
    ∃ r, ap.ProcessSSML lib speak = some r
      ∧ r.Segments.map (fun s => (s.Text, s.Properties))
        = framedTextsList speak.Content ap.defaultProperties := by
  obtain ⟨c, h1, h2⟩ := ProcessSSML_returns lib ap speak
  refine ⟨_, h2, ?_⟩
  have := processContents_framed lib speak.Content _ c [] (ap.copyProperties ap.defaultProperties)
    rfl h1
  rw [copyProperties_eq] at this
  exact this

/-- C39 (derivation ignores the root attributes).  `ProcessSSML` gives the same
result for two documents with the same content, whatever the name, the version
and the language of their root elements.  For every document it returns a
result whose segments have, in order, the texts and the frames of
`framedTextsList` under the default frame of the processor: a text outside any
Voice, Prosody and Emphasis, whether it stands in the root or inside Audio,
Paragraph, Sentence, Phoneme or W elements, has the default frame itself, and so
has every segment of a document, and every segment of an item of the root,
that holds no Voice, Prosody or Emphasis.  The default frame of
`NewAudioProcessor` has rate, pitch and volume `medium`, voice `default`, gender
`neutral`, language `zh-CN` and emphasis `none`. -/
theorem ProcessSSML_ignores_root (lib : Platform) (ap : AudioProcessor) (speak : Speak)
    (name : xml.Name) (version lang : String) :
    ap.ProcessSSML lib
        { XMLName := name, Version := version, Lang := lang, Content := speak.Content }
        = ap.ProcessSSML lib speak
      ∧ (∀ other : Speak, other.Content = speak.Content →
          ap.ProcessSSML lib other = ap.ProcessSSML lib speak)
      ∧ (∃ r, ap.ProcessSSML lib speak = some r
          ∧ r.Segments.map (fun s => (s.Text, s.Properties))
            = framedTextsList speak.Content ap.defaultProperties
          ∧ (hasFrameList speak.Content = false →
              ∀ s ∈ r.Segments, s.Properties = ap.defaultProperties))
      ∧ (∀ (before after : List Node) (item : Node),
          speak.Content = before ++ item :: after → item.hasFrame = false →
          framedTextsList speak.Content ap.defaultProperties
              = framedTextsList before ap.defaultProperties
                ++ item.framedTexts ap.defaultProperties
                ++ framedTextsList after ap.defaultProperties
            ∧ ∀ p ∈ item.framedTexts ap.defaultProperties, p.2 = ap.defaultProperties)
      ∧ (∀ (text : String) (top : AudioProperties), strings.TrimSpace text ≠ "" →
          (Node.Text text).framedTexts top = [(strings.TrimSpace text, top)])
      ∧ NewAudioProcessor.defaultProperties
        = { Rate := "medium", Pitch := "medium", Volume := "medium", Voice := "default",
            Gender := "neutral", Language := "zh-CN", Emphasis := "none" } := by
  refine ⟨rfl, ?_, ?_, ?_, ?_, rfl⟩
  · intro other h
    unfold AudioProcessor.ProcessSSML
    rw [h]
  · obtain ⟨r, h1, h2⟩ := ProcessSSML_framed lib ap speak
    refine ⟨r, h1, h2, ?_⟩
    intro hf s hs
    have hm : (s.Text, s.Properties) ∈ r.Segments.map (fun s => (s.Text, s.Properties)) :=
      List.mem_map.mpr ⟨s, hs, rfl⟩
    rw [h2] at hm
    exact framedTextsList_unframed speak.Content _ hf _ hm
  · intro before after item hc hf
    refine ⟨?_, framedTexts_unframed item _ hf⟩
    rw [hc, framedTextsList_append, framedTextsList, List.append_assoc]
  · intro text top h
    rw [Node.framedTexts, if_neg h]

/-- C39 at `<speak version="1.1" xml:lang="en-US">Hi<p><voice gender="female">you</voice></p></speak>`:
the segment of `Hi` has the language `zh-CN` of the default frame, and the
document without version and language has the same result. -/
theorem ProcessSSML_ignores_root_witness :
    (NewAudioProcessor.ProcessSSML samplePlatform englishRoot).map
          (fun r => r.Segments.map (fun s => (s.Text, s.Properties.Language, s.Properties.Gender)))
        = some [("Hi", "zh-CN", "neutral"), ("you", "zh-CN", "female")]
      ∧ NewAudioProcessor.ProcessSSML samplePlatform
          { XMLName := ⟨"", "speak"⟩, Version := "", Lang := "", Content := englishRoot.Content }
        = NewAudioProcessor.ProcessSSML samplePlatform englishRoot :=
  ⟨rfl,
    (ProcessSSML_ignores_root samplePlatform NewAudioProcessor englishRoot ⟨"", "speak"⟩ "" "").1⟩

end ssml

namespace ssml

theorem validate_errors (cfg : ValidationConfig) (root : Speak) (r : ParseResult)
    (h : r.Errors = []) :
    ((validate cfg root r).2 = none ∧ (validate cfg root r).1.Errors = [])
      ∨ (∃ e msg, (validate cfg root r).2 = some e ∧ (validate cfg root r).1.Errors = [msg]) := by
  unfold validate strictValidation basicValidation
  simp only [validateNestingDepth_eq]
  split_ifs <;> simp [h]

theorem ParseReader_errors (cfg : ValidationConfig) (d : xml.Decoder) :
    ∃ result err, ParseReader cfg d = some (result, err)
      ∧ (err ≠ none ↔ result.Errors ≠ [])
      ∧ (err ≠ none → ∃ msg, result.Errors = [msg])
      ∧ (err = none → result.Root ≠ none ∧ result.Errors = []) := by
  rw [ParseReader_eq_run]
  rcases Machine.run_cases cfg d.lexErr d.input d.stk Machine.init with
    ⟨r, e, hr, _, msg, hmsg⟩ | ⟨r, root, hr, hroot, herr, _, _⟩
  · rw [hr]
    have hE : r.Errors = [msg] := by rw [hmsg]; rfl
    refine ⟨r, some e, rfl, ?_, ?_, ?_⟩
    · rw [hE]; simp
    · intro _; exact ⟨msg, hE⟩
    · intro h; cases h
  · rw [hr]
    have hE : r.Errors = [] := by rw [herr]; rfl
    cases root with
    | none =>
      refine ⟨_, _, rfl, ?_, ?_, ?_⟩
      · simp
      · intro _
        exact ⟨"No valid SSML root element found", by simp only [hE, List.nil_append]⟩
      · intro h; cases h
    | some root =>
      simp only
      have hv := validate_errors cfg root { r with Root := some root } hE
      have hroot := (validate_root cfg root { r with Root := some root }).1
      generalize validate cfg root { r with Root := some root } = v at hv hroot
      obtain ⟨res, err⟩ := v
      simp only at hv hroot
      refine ⟨res, err, rfl, ?_, ?_, ?_⟩
      · rcases hv with ⟨h1, h2⟩ | ⟨e, msg, h1, h2⟩
        · rw [h1, h2]; simp
        · rw [h1, h2]; simp
      · intro hne
        rcases hv with ⟨h1, _⟩ | ⟨e, msg, _, h2⟩
        · exact absurd h1 hne
        · exact ⟨msg, h2⟩
      · intro hnone
        rcases hv with ⟨_, h2⟩ | ⟨e, msg, h1, _⟩
        · refine ⟨?_, h2⟩
          rw [hroot]
          simp
        · rw [hnone] at h1; cases h1

/-- C34 (agreement of the error and `Errors`).  For every configuration and every
input, given as a decoder or as the text of `Parse`, the parser returns, and it
returns an error exactly when the `Errors` of the returned result are not
empty; they then hold exactly one message.  When it returns no error, `Root` is
present and `Errors` is empty. -/
theorem ParseReader_error_agreement (cfg : ValidationConfig) (d : xml.Decoder)
    (ssmlContent : String) :
    (∃ result err, ParseReader cfg d = some (result, err)
        ∧ (err ≠ none ↔ result.Errors ≠ [])
        ∧ (err ≠ none → ∃ msg, result.Errors = [msg])
        ∧ (err = none → result.Root ≠ none ∧ result.Errors = []))
      ∧ (∃ result err, Parse cfg ssmlContent = some (result, err)
          ∧ (err ≠ none ↔ result.Errors ≠ [])
          ∧ (err ≠ none → ∃ msg, result.Errors = [msg])
          ∧ (err = none → result.Root ≠ none ∧ result.Errors = [])) :=
  ⟨ParseReader_errors cfg d, ParseReader_errors cfg _⟩

end ssml
namespace ssml

theorem elemDepth_item (item : Node) :
    item.elemDepth = match item.GetContent with
      | none => 0
      | some c => 1 + elemDepth c := by
  cases item <;> rfl

theorem elemDepth_eq_zero (content : List Node) :
    elemDepth content = 0 ↔ ∀ item ∈ content, item.GetContent = none := by
  induction content with
  | nil => simp [elemDepth]
  | cons x xs ih =>
    rw [elemDepth, Nat.max_eq_zero_iff, ih, elemDepth_item]
    constructor
    · rintro ⟨h1, h2⟩ item hi
      rcases List.mem_cons.mp hi with h | h
      · subst h
        cases hg : item.GetContent with
        | none => rfl
        | some c => rw [hg] at h1; simp only at h1; omega
      · exact h2 item h
    · intro h
      refine ⟨?_, fun item hi => h item (List.mem_cons_of_mem _ hi)⟩
      rw [h x (List.mem_cons_self _ _)]

theorem elemDepth_ge (content : List Node) :
    ∀ item ∈ content, ∀ c, item.GetContent = some c → 1 + elemDepth c ≤ elemDepth content := by
  induction content with
  | nil => intro item hi; cases hi
  | cons x xs ih =>
    intro item hi c hc
    rw [elemDepth]
    rcases List.mem_cons.mp hi with h | h
    · subst h
      have := elemDepth_item item
      rw [hc] at this
      simp only at this
      omega
    · have := ih item h c hc
      omega

theorem elemDepth_attained (content : List Node) (h : elemDepth content ≠ 0) :
    ∃ item ∈ content, ∃ c, item.GetContent = some c ∧ elemDepth content = 1 + elemDepth c := by
  induction content with
  | nil => exact absurd rfl h
  | cons x xs ih =>
    rw [elemDepth] at h ⊢
    rcases Nat.le_total x.elemDepth (elemDepth xs) with hle | hle
    · rw [Nat.max_eq_right hle] at h ⊢
      obtain ⟨item, hi, c, hc, he⟩ := ih h
      exact ⟨item, List.mem_cons_of_mem _ hi, c, hc, he⟩
    · rw [Nat.max_eq_left hle] at h ⊢
      have hx := elemDepth_item x
      cases hg : x.GetContent with
      | none => rw [hg] at hx; exact absurd hx h
      | some c => rw [hg] at hx; exact ⟨x, List.mem_cons_self _ _, c, hg, hx⟩

theorem elemDepth_nestedBreak (k : Nat) (b : Break) : (nestedBreak k b).elemDepth = k + 1 := by
  induction k with
  | zero => rfl
  | succ k ih =>
    rw [nestedBreak, Node.elemDepth, elemDepth, elemDepth, ih]
    simp
    omega

/-- C35 (depth measure).  The nesting validation of a content succeeds exactly
when `elemDepth` of the content is at most `MaxNestingDepth`; it then leaves the
result as it is, and otherwise it returns the nesting error and records its
message.  `elemDepth` is 0 exactly for a content that holds no element; for any
other content it is 1 more than the largest `elemDepth` of the contents of its
elements, where a Text is no element and a Break is an element with no
content.  So a Break inside `k` nested paragraphs has the depth `k + 1` and
passes exactly when `MaxNestingDepth` is at least `k + 1`, and a negative
`MaxNestingDepth` rejects every content, the empty one included.  For the tree
that the parser has built, with the version and language present when the mode
is strict, `ParseReader` returns no error exactly when `elemDepth` of the content
of the root is at most `MaxNestingDepth`. -/
theorem validateNestingDepth_measure (cfg : ValidationConfig) (content : List Node)
    (result : ParseResult) (k : Nat) (b : Break) :
    ((validateNestingDepth cfg content 0 result).2 = none
        ↔ (elemDepth content : Int) ≤ cfg.MaxNestingDepth)
      ∧ ((validateNestingDepth cfg content 0 result).2 = none →
          (validateNestingDepth cfg content 0 result).1 = result)
      ∧ ((validateNestingDepth cfg content 0 result).2 ≠ none →
          (validateNestingDepth cfg content 0 result).2 = some (nestingError cfg)
            ∧ (validateNestingDepth cfg content 0 result).1.Errors
              = result.Errors ++ [(nestingError cfg).Error])
      ∧ (elemDepth content = 0 ↔ ∀ item ∈ content, item.GetContent = none)
      ∧ (∀ item ∈ content, ∀ c, item.GetContent = some c →
          1 + elemDepth c ≤ elemDepth content)
      ∧ (elemDepth content ≠ 0 →
          ∃ item ∈ content, ∃ c, item.GetContent = some c
            ∧ elemDepth content = 1 + elemDepth c)
      ∧ (∀ text, (Node.Text text).GetContent = none)
      ∧ (Node.Break b).GetContent = some []
      ∧ elemDepth [nestedBreak k b] = k + 1
      ∧ ((validateNestingDepth cfg [nestedBreak k b] 0 result).2 = none
          ↔ (k : Int) + 1 ≤ cfg.MaxNestingDepth)
      ∧ (cfg.MaxNestingDepth < 0 →
          (validateNestingDepth cfg content 0 result).2 = some (nestingError cfg)
            ∧ (validateNestingDepth cfg [] 0 result).2 = some (nestingError cfg))
      ∧ (∀ (toks : List xml.Token) (le : Option String) (res : ParseResult)
          (err : Option GoError) (root : Speak),
          ParseReader cfg (xml.NewDecoder toks le) = some (res, err) → res.Root = some root →
          (cfg.StrictMode = true → root.Version ≠ "" ∧ root.Lang ≠ "") →
          (err = none ↔ (elemDepth root.Content : Int) ≤ cfg.MaxNestingDepth)) := by
  have hmain : ∀ (c : List Node) (r : ParseResult),
      ((validateNestingDepth cfg c 0 r).2 = none ↔ (elemDepth c : Int) ≤ cfg.MaxNestingDepth) := by
    intro c r
    rw [validateNestingDepth_eq]
    split
    · simp only [reduceCtorEq, false_iff]
      omega
    · simp only [true_iff]
      omega
  have hbreak : elemDepth [nestedBreak k b] = k + 1 := by
    rw [elemDepth, elemDepth, elemDepth_nestedBreak]
    simp
  refine ⟨hmain content result, ?_, ?_, elemDepth_eq_zero content, elemDepth_ge content,
    elemDepth_attained content, fun _ => rfl, rfl, hbreak, ?_, ?_, ?_⟩
  · rw [validateNestingDepth_eq]
    split
    · intro h; cases h
    · intro _; rfl
  · rw [validateNestingDepth_eq]
    split
    · intro _; exact ⟨rfl, rfl⟩
    · intro h; exact absurd rfl h
  · rw [hmain, hbreak]
    push_cast
    rfl
  · intro hneg
    constructor
    · rw [validateNestingDepth_eq, if_pos (by omega)]
    · rw [validateNestingDepth_eq, if_pos (by simp only [elemDepth]; omega)]
  · intro toks le res err root h hroot hstrict
    obtain ⟨r, hr⟩ := ParseReader_returns_root cfg toks le res err root h hroot
    rw [ParseReader_eq_run] at h
    simp only [xml.NewDecoder] at h
    rw [hr] at h
    simp only [Option.some.injEq] at h
    have herr : err = (validate cfg root { r with Root := some root }).2 := by rw [h]
    rw [herr]
    unfold validate strictValidation basicValidation
    by_cases hs : cfg.StrictMode = true
    · obtain ⟨hv, hl⟩ := hstrict hs
      simp only [hs, if_true, hv, hl, if_false]
      exact hmain _ _
    · simp only [hs, Bool.false_eq_true, if_false]
      exact hmain _ _

end ssml

namespace time

theorem leadingInt_digits (ds u : List Char)
    (hds : ∀ c ∈ ds, (strconv.digit c).isSome = true)
    (hu : ∀ c ∈ u.head?, strconv.digit c = none) :
    ∀ x, leadingInt (ds ++ u) x = none ∨ ∃ v, leadingInt (ds ++ u) x = some (v, u) := by
  induction ds with
  | nil =>
    intro x
    right
    cases u with
    | nil => exact ⟨x, rfl⟩
    | cons c cs =>
      have hc : strconv.digit c = none := hu c rfl
      refine ⟨x, ?_⟩
      simp only [List.nil_append, leadingInt, hc]
  | cons d ds ih =>
    intro x
    obtain ⟨k, hk⟩ := Option.isSome_iff_exists.mp (hds d (List.mem_cons_self _ _))
    have ih1 := ih (fun c hc => hds c (List.mem_cons_of_mem _ hc))
    simp only [List.cons_append, leadingInt, hk]
    split
    · left; rfl
    · split
      · left; rfl
      · exact ih1 _

theorem parseTerms_unknown_unit (lib : Platform) (ds u : List Char) (hne : ds ≠ [])
    (hds : ∀ c ∈ ds, (strconv.digit c).isSome = true)
    (hu : ∀ c ∈ u, ¬ (c = '.' ∨ (strconv.digit c).isSome = true))
    (hunit : u = [] ∨ unitMap (String.mk u) = none) (fuel d : Nat) :
    ∃ e, parseTerms lib (fuel + 1) (ds ++ u) d = .error e := by
  obtain ⟨c, cs, hcs⟩ := List.exists_cons_of_ne_nil hne
  have hc : (strconv.digit c).isSome = true := hds c (by rw [hcs]; exact List.mem_cons_self _ _)
  have hhead : ∀ c ∈ u.head?, strconv.digit c = none := by
    intro x hx
    have hxm : x ∈ u := List.mem_of_mem_head? hx
    have := hu x hxm
    cases hd : strconv.digit x with
    | none => rfl
    | some k => rw [hd] at this; simp at this
  have hlen : decide (u.length ≠ (ds ++ u).length) = true := by
    rw [hcs]
    simp only [List.cons_append, List.length_cons, List.length_append, ne_eq, decide_eq_true_eq]
    omega
  have htw : u.takeWhile (fun c => ¬ (c = '.' ∨ (strconv.digit c).isSome)) = u := by
    rw [List.takeWhile_eq_self_iff]
    intro x hx
    simpa using hu x hx
  have hnodot : ∀ rest, u ≠ '.' :: rest := by
    intro rest h
    have := hu '.' (by rw [h]; exact List.mem_cons_self _ _)
    simp at this
  rcases leadingInt_digits ds u hds hhead 0 with hl | ⟨v, hl⟩
  · refine ⟨invalidDuration, ?_⟩
    have : ds ++ u = c :: (cs ++ u) := by rw [hcs]; rfl
    rw [this, parseTerms]
    rw [← this, hl]
    simp [hc]
  · refine ⟨invalidDuration, ?_⟩
    have : ds ++ u = c :: (cs ++ u) := by rw [hcs]; rfl
    rw [this, parseTerms]
    rw [← this, hl]
    simp only [hc, or_true, not_true_eq_false, if_false]
    cases u with
    | nil => simp
    | cons x xs =>
      have hx : x ≠ '.' := by
        intro h
        exact hnodot xs (by rw [h])
      have hunit1 : unitMap (String.mk (x :: xs)) = none := by
        rcases hunit with h | h
        · cases h
        · exact h
      simp only [htw, hunit1]
      split_ifs <;> rfl

end time
namespace strings

theorem HasSuffix_data (s suffix : String) (h : HasSuffix s suffix = true) :
    ∃ a, s.data = a ++ suffix.data := by
  unfold HasSuffix at h
  simp only [decide_eq_true_eq] at h
  refine ⟨s.data.take (s.data.length - suffix.data.length), ?_⟩
  have := List.take_append_drop (s.data.length - suffix.data.length) s.data
  rw [h.1] at this
  exact this.symm

theorem HasSuffix_s_of_ms (s : String) (h : HasSuffix s "ms" = true) :
    HasSuffix s "s" = true := by
  obtain ⟨a, ha⟩ := HasSuffix_data s "ms" h
  have hs : s = String.mk ((a ++ ['m']) ++ "s".data) := by
    apply String.ext
    rw [ha]
    simp
  rw [hs]
  exact HasSuffix_append _ _

theorem HasSuffix_s_last (s : String) (h : s.data.getLast? ≠ some 's') :
    HasSuffix s "s" = false := by
  cases hh : HasSuffix s "s" with
  | false => rfl
  | true =>
    exfalso
    obtain ⟨a, ha⟩ := HasSuffix_data s "s" hh
    apply h
    rw [ha]
    simp

end strings

namespace time

theorem ParseDuration_unknown_unit (lib : Platform) (ds u : List Char) (hne : ds ≠ [])
    (hds : ∀ c ∈ ds, (strconv.digit c).isSome = true)
    (hu : ∀ c ∈ u, ¬ (c = '.' ∨ (strconv.digit c).isSome = true))
    (hunit : u = [] ∨ unitMap (String.mk u) = none) :
    ParseDuration lib (String.mk (ds ++ u)) = .ok 0
      ∨ ∃ e, ParseDuration lib (String.mk (ds ++ u)) = .error e := by
  obtain ⟨c, cs, hcs⟩ := List.exists_cons_of_ne_nil hne
  have hc : (strconv.digit c).isSome = true := hds c (by rw [hcs]; exact List.mem_cons_self _ _)
  have hsign : strconv.sign (ds ++ u) = (false, ds ++ u) := by
    rw [hcs, List.cons_append]
    exact strconv.sign_digit c _ hc
  unfold ParseDuration
  simp only [hsign]
  split
  · left; rfl
  · right
    rw [if_neg (by rw [hcs]; simp)]
    obtain ⟨e, he⟩ := parseTerms_unknown_unit lib ds u hne hds hu hunit (ds ++ u).length 0
    rw [he]
    exact ⟨e, rfl⟩

end time

namespace ssml

theorem parseDuration_no_suffix (lib : Platform) (ctx : processingContext) (timeStr : String)
    (h : strings.HasSuffix (strings.TrimSpace timeStr) "s" = false) :
    ctx.parseDuration lib timeStr = time.ParseDuration lib (strings.TrimSpace timeStr) := by
  have hms : strings.HasSuffix (strings.TrimSpace timeStr) "ms" = false := by
    cases hh : strings.HasSuffix (strings.TrimSpace timeStr) "ms" with
    | false => rfl
    | true => rw [strings.HasSuffix_s_of_ms _ hh] at h; cases h
  unfold processingContext.parseDuration
  simp only [hms, h, Bool.false_eq_true, if_false]

theorem parseDuration_error (lib : Platform) (ctx : processingContext) (timeStr : String)
    (e : GoError) (h : ctx.parseDuration lib timeStr = .error e) :
    time.ParseDuration lib (strings.TrimSpace timeStr) = .error e := by
  unfold processingContext.parseDuration at h
  simp only at h
  split at h
  · split at h
    · cases h
    · exact h
  · split at h
    · split at h
      · cases h
      · exact h
    · exact h

theorem processBreak_rejected (lib : Platform) (ctx : processingContext) (br : Break)
    (ht : br.Time ≠ "") (e : GoError) (he : ctx.parseDuration lib br.Time = .error e) :
    ctx.processBreak lib br = ctx.afterBreak 0 := by
  unfold processingContext.processBreak processingContext.afterBreak
  simp only [ht, ne_eq, not_false_eq_true, if_true, he]

/-- C31 (unrecognized break time), amended.  For a Break whose time is not empty
the processing raises no error, does not look at the strength and does not
apply the default of 500 ms: the instruction has the duration that
`parseDuration` returns, and the duration 0 when `parseDuration` returns an
error.  `parseDuration` returns an error only when `time.ParseDuration` rejects
the trimmed time as well, and for a time that does not end in `s` it is
`time.ParseDuration` of the trimmed time: a time such as `1h` is accepted and
gives one hour, not 0.  The duration is 0 for a whole number without a unit, and
for a whole number followed by a unit that holds no digit and no point, does
not end in `s` and is none of the units of `time.ParseDuration`. -/
theorem processBreak_unrecognized_time (lib : Platform) (ctx : processingContext) (br : Break)
    (ds u : List Char) (htime : br.Time ≠ "") :
    (∀ e, ctx.parseDuration lib br.Time = .error e →
        ctx.processBreak lib br = ctx.afterBreak 0)
      ∧ (∀ d, ctx.parseDuration lib br.Time = .ok d →
          ctx.processBreak lib br = ctx.afterBreak d)
      ∧ (∀ strength, ctx.processBreak lib { br with Strength := strength }
          = ctx.processBreak lib br)
      ∧ (∀ e, ctx.parseDuration lib br.Time = .error e →
          time.ParseDuration lib (strings.TrimSpace br.Time) = .error e)
      ∧ (strings.HasSuffix (strings.TrimSpace br.Time) "s" = false →
          ctx.parseDuration lib br.Time = time.ParseDuration lib (strings.TrimSpace br.Time))
      ∧ (strings.TrimSpace br.Time = String.mk (ds ++ u) → ds ≠ [] →
          (∀ c ∈ ds, (strconv.digit c).isSome = true) →
          (∀ c ∈ u, ¬ (c = '.' ∨ (strconv.digit c).isSome = true)) →
          (u = [] ∨ time.unitMap (String.mk u) = none) →
          (ds ++ u).getLast? ≠ some 's' →
          ctx.processBreak lib br = ctx.afterBreak 0) := by
  refine ⟨fun e he => processBreak_rejected lib ctx br htime e he,
    fun d hd => processBreak_time lib ctx br d htime hd, ?_,
    fun e he => parseDuration_error lib ctx br.Time e he,
    parseDuration_no_suffix lib ctx br.Time, ?_⟩
  · intro strength
    unfold processingContext.processBreak
    simp only [htime, ne_eq, not_false_eq_true, if_true]
  · intro ht hne hds hu hunit hlast
    have hs : strings.HasSuffix (strings.TrimSpace br.Time) "s" = false := by
      rw [ht]
      exact strings.HasSuffix_s_last _ hlast
    have hp := parseDuration_no_suffix lib ctx br.Time hs
    rw [ht] at hp
    rcases time.ParseDuration_unknown_unit lib ds u hne hds hu hunit with h0 | ⟨e, he⟩
    · rw [h0] at hp
      exact processBreak_time lib ctx br 0 htime hp
    · rw [he] at hp
      exact processBreak_rejected lib ctx br htime e hp

/-- C31 at `<break time="5min" strength="strong"/>`: the duration is 0. -/
theorem processBreak_unrecognized_time_witness :
    ("5min" : String) ≠ ""
      ∧ strings.TrimSpace "5min" = String.mk (['5'] ++ "min".data)
      ∧ time.unitMap (String.mk "min".data) = none
      ∧ (defaultContext [] [] 0 0 "").processBreak samplePlatform
          ⟨⟨"", "break"⟩, "5min", "strong"⟩
        = (defaultContext [] [] 0 0 "").afterBreak 0 :=
  ⟨by decide, by decide, by decide,
    (processBreak_unrecognized_time samplePlatform (defaultContext [] [] 0 0 "")
      ⟨⟨"", "break"⟩, "5min", "strong"⟩ ['5'] "min".data (by decide)).2.2.2.2.2 (by decide)
      (by decide) (by decide) (by decide) (Or.inr (by decide)) (by decide)⟩

/-- C31 as stated fails for `<break time="1h"/>` and `<break time="1m30s"/>`:
neither time is a number followed by `ms` or `s`, and the instructions have the
durations of one hour and of ninety seconds. -/
theorem processBreak_unrecognized_time_counterexample :
    (defaultContext [] [] 0 0 "").processBreak samplePlatform ⟨⟨"", "break"⟩, "1h", ""⟩
        = (defaultContext [] [] 0 0 "").afterBreak (3600 * time.Second)
      ∧ (defaultContext [] [] 0 0 "").processBreak samplePlatform ⟨⟨"", "break"⟩, "1m30s", ""⟩
        = (defaultContext [] [] 0 0 "").afterBreak (90 * time.Second)
      ∧ strconv.ParseFloat samplePlatform "1m30"
        = .error (.errorString "strconv.ParseFloat: invalid syntax") :=
  ⟨rfl, rfl, rfl⟩

end ssml

namespace strconv

theorem digits_append_stop (ds rest : List Char)
    (hds : ∀ c ∈ ds, (digit c).isSome = true) (hrest : ∀ c ∈ rest.head?, digit c = none) :
    ∀ acc, digits (ds ++ rest) acc = ((digits ds acc).1, ds.length, rest) := by
  induction ds with
  | nil =>
    intro acc
    cases rest with
    | nil => rfl
    | cons c cs =>
      have hc : digit c = none := hrest c rfl
      simp only [List.nil_append, digits, hc, List.length_nil]
  | cons d ds ih =>
    intro acc
    obtain ⟨k, hk⟩ := Option.isSome_iff_exists.mp (hds d (List.mem_cons_self _ _))
    have := ih (fun c hc => hds c (List.mem_cons_of_mem _ hc)) (acc * 10 + k)
    simp only [List.cons_append, digits, hk, List.append_eq, this, List.length_cons]

theorem digits_append_value (a b : List Char) (ha : ∀ c ∈ a, (digit c).isSome = true) :
    ∀ acc, (digits (a ++ b) acc).1 = (digits b (digits a acc).1).1 := by
  induction a with
  | nil => intro acc; rfl
  | cons d ds ih =>
    intro acc
    obtain ⟨k, hk⟩ := Option.isSome_iff_exists.mp (ha d (List.mem_cons_self _ _))
    have := ih (fun c hc => ha c (List.mem_cons_of_mem _ hc)) (acc * 10 + k)
    simp only [List.cons_append, digits, hk, List.append_eq, this]

theorem readDecimal_point (ip fp : List Char) (hne : ip ≠ [])
    (hip : ∀ c ∈ ip, (digit c).isSome = true) (hfp : ∀ c ∈ fp, (digit c).isSome = true) :
    readDecimal (ip ++ '.' :: fp) = some (false, (digits (ip ++ fp) 0).1, -(fp.length : Int)) := by
  obtain ⟨c, cs, hcs⟩ := List.exists_cons_of_ne_nil hne
  have hc : (digit c).isSome = true := hip c (by rw [hcs]; exact List.mem_cons_self _ _)
  have hsign : sign (ip ++ '.' :: fp) = (false, ip ++ '.' :: fp) := by
    rw [hcs, List.cons_append]
    exact sign_digit c _ hc
  have h1 := digits_append_stop ip ('.' :: fp) hip (by intro x hx; cases hx; rfl) 0
  have h2 := digits_all fp hfp (digits ip 0).1
  have h3 := digits_append_value ip fp hip 0
  unfold readDecimal
  simp only [hsign, h1]
  rw [h2]
  simp only [← h3]
  have hlen : ip.length + fp.length ≠ 0 := by
    rw [hcs]
    simp
  rw [if_neg hlen]

theorem ParseFloat_point (lib : Platform) (ip fp : List Char) (hne : ip ≠ [])
    (hip : ∀ c ∈ ip, (digit c).isSome = true) (hfp : ∀ c ∈ fp, (digit c).isSome = true)
    (k : Nat) (s : Int) (hk : k < 2 ^ 53) (hs1 : -1074 ≤ s) (hs2 : s ≤ 971)
    (hval : ((digits (ip ++ fp) 0).1 : ℚ) / (10 : ℚ) ^ fp.length = k * (2 : ℚ) ^ s) :
    ∃ f, ParseFloat lib (String.mk (ip ++ '.' :: fp)) = .ok f
      ∧ float64.IsValue f (((digits (ip ++ fp) 0).1 : ℚ) / (10 : ℚ) ^ fp.length) := by
  unfold ParseFloat
  simp only [readDecimal_point ip fp hne hip hfp, Bool.false_eq_true, if_false]
  have hv : float64.IsValue
      (if 0 ≤ -(fp.length : Int) then
        float64.round (((digits (ip ++ fp) 0).1 : Int) * 10 ^ (-(fp.length : Int)).toNat) 1
      else float64.round ((digits (ip ++ fp) 0).1 : Int) (10 ^ (-(-(fp.length : Int))).toNat))
      (((digits (ip ++ fp) 0).1 : ℚ) / (10 : ℚ) ^ fp.length) := by
    by_cases h0 : fp.length = 0
    · rw [if_pos (by omega)]
      have hz : (-(fp.length : Int)).toNat = 0 := by omega
      rw [hz, pow_zero, mul_one]
      rw [h0, pow_zero, div_one] at hval ⊢
      have := float64.round_exact ((digits (ip ++ fp) 0).1 : Int) 1 (by norm_num) k s hk hs1 hs2
        (by
          rw [abs_of_nonneg (by positivity)]
          push_cast
          rw [div_one]
          exact hval)
      simpa using this
    · rw [if_neg (by omega)]
      have hz : (-(-(fp.length : Int))).toNat = fp.length := by omega
      rw [hz]
      have := float64.round_exact ((digits (ip ++ fp) 0).1 : Int) (10 ^ fp.length)
        (by positivity) k s hk hs1 hs2
        (by
          rw [abs_of_nonneg (by positivity)]
          push_cast
          exact hval)
      simpa using this
  obtain ⟨m, e, hf, hme⟩ := hv
  rw [hf]
  exact ⟨_, rfl, m, e, rfl, hme⟩

end strconv
namespace ssml

theorem parseDuration_point_s (lib : Platform) (ctx : processingContext) (ip fp : List Char)
    (hne : ip ≠ []) (hip : ∀ c ∈ ip, (strconv.digit c).isSome = true)
    (hfp : ∀ c ∈ fp, (strconv.digit c).isSome = true) (k : Nat) (hk : k < 2 ^ 32)
    (hval : ((strconv.digits (ip ++ fp) 0).1 : ℚ) / (10 : ℚ) ^ fp.length = k * (2 : ℚ) ^ (-3 : Int)) :
    ctx.parseDuration lib (String.mk (ip ++ ('.' :: fp ++ "s".data)))
      = .ok ((k : Int) * 125000000) := by
  obtain ⟨c, cs, hcs⟩ := List.exists_cons_of_ne_nil hne
  have hc : (strconv.digit c).isSome = true := hip c (by rw [hcs]; exact List.mem_cons_self _ _)
  obtain ⟨f, hp, hv⟩ := strconv.ParseFloat_point lib ip fp hne hip hfp k (-3) (by omega)
    (by norm_num) (by norm_num) hval
  rw [hval] at hv
  have hsec : float64.IsValue (float64.ofInt time.Second) (time.Second : Int) :=
    float64.ofInt_value _ 1000000000 0 (by norm_num) (by norm_num) (by norm_num)
      (by simp [time.Second])
  have hmul := float64.mul_value _ _ _ _ hv hsec (k * 1953125) 6
    (by omega) (by norm_num) (by norm_num)
    (by
      rw [abs_of_nonneg (mul_nonneg (by positivity) (by norm_num [time.Second]))]
      simp only [time.Second]
      push_cast
      norm_num
      ring)
  have hK : (k : ℚ) * (2 : ℚ) ^ (-3 : Int) * ((time.Second : Int) : ℚ)
      = (((k : Int) * 125000000 : Int) : ℚ) := by
    simp only [time.Second]
    push_cast
    norm_num
    ring
  rw [hK] at hmul
  have hbody : ip ++ ('.' :: fp ++ "s".data) = (ip ++ '.' :: fp) ++ "s".data := by simp
  have hnotm : strings.HasSuffix (String.mk ((ip ++ '.' :: fp) ++ "s".data)) "ms" = false := by
    have hne2 : ip ++ '.' :: fp ≠ [] := by simp
    have hlast : ip ++ '.' :: fp
        = (ip ++ '.' :: fp).dropLast ++ [(ip ++ '.' :: fp).getLast hne2] :=
      (List.dropLast_append_getLast hne2).symm
    have hm : (ip ++ '.' :: fp).getLast hne2 ≠ 'm' := by
      intro hcm
      have hmem : (ip ++ '.' :: fp).getLast hne2 ∈ ip ++ '.' :: fp := List.getLast_mem hne2
      rw [hcm] at hmem
      rcases List.mem_append.mp hmem with h | h
      · have := hip _ h; revert this; decide
      · rcases List.mem_cons.mp h with h | h
        · revert h; decide
        · have := hfp _ h; revert this; decide
    rw [hlast]
    exact strings.HasSuffix_ms _ _ hm
  unfold processingContext.parseDuration
  simp only
  have hl : ('.' :: fp ++ "s".data).getLast? = some 's' := by
    rw [List.getLast?_append_of_ne_nil _ (by simp)]
    rfl
  rw [digits_time_trim ip ('.' :: fp ++ "s".data) c cs hcs hc 's' hl rfl]
  rw [hbody, if_neg (by rw [hnotm]; simp),
    if_pos (strings.HasSuffix_append (ip ++ '.' :: fp) "s".data),
    strings.TrimSuffix_append (ip ++ '.' :: fp) "s".data, hp]
  simp only
  rw [float64.toInt64_value lib _ _ hmul (by omega) (by omega)]

end ssml
namespace ssml

theorem time_ne_empty (a : List Char) (suffix : List Char) (h : suffix ≠ []) :
    String.mk (a ++ suffix) ≠ "" := by
  intro he
  have := congrArg String.data he
  exact h (List.append_eq_nil.mp this).2

/-- C40 (unit consistency of break time), amended.  Take a whole number of
milliseconds that is a multiple of 125, `125 * k` with `k` below `2 ^ 32`,
written in decimal digits, and the same amount in seconds written as a whole
part, a point and a fraction.  The times with the suffix `ms` and with the
suffix `s` then resolve to the same duration, that number of milliseconds, and
the two breaks are processed alike; so does the amount in whole seconds written
without a point.  For other amounts the two need not agree: the number before
`ms` is cut to whole milliseconds, and the product of the seconds and `1e9` is
a double that can lie just below the amount. -/
theorem parseDuration_unit_consistency (lib : Platform) (ctx : processingContext)
    (ms ip fp : List Char) (k : Nat) (name : xml.Name) (strength : String)
    (hms : ms ≠ []) (hmsd : ∀ c ∈ ms, (strconv.digit c).isSome = true)
    (hip : ip ≠ []) (hipd : ∀ c ∈ ip, (strconv.digit c).isSome = true)
    (hfpd : ∀ c ∈ fp, (strconv.digit c).isSome = true) (hk : k < 2 ^ 32)
    (hv : (strconv.digits ms 0).1 = 125 * k)
    (hsame : (strconv.digits ms 0).1 * 10 ^ fp.length
      = 1000 * (strconv.digits (ip ++ fp) 0).1) :
    ctx.parseDuration lib (String.mk (ms ++ "ms".data))
        = .ok (((strconv.digits ms 0).1 : Int) * time.Millisecond)
      ∧ ctx.parseDuration lib (String.mk (ip ++ ('.' :: fp ++ "s".data)))
        = .ok (((strconv.digits ms 0).1 : Int) * time.Millisecond)
      ∧ ctx.processBreak lib ⟨name, String.mk (ms ++ "ms".data), strength⟩
        = ctx.afterBreak (((strconv.digits ms 0).1 : Int) * time.Millisecond)
      ∧ ctx.processBreak lib ⟨name, String.mk (ip ++ ('.' :: fp ++ "s".data)), strength⟩
        = ctx.afterBreak (((strconv.digits ms 0).1 : Int) * time.Millisecond)
      ∧ (fp = [] →
          ctx.parseDuration lib (String.mk (ip ++ "s".data))
            = .ok (((strconv.digits ms 0).1 : Int) * time.Millisecond)) := by
  have hvI : ((strconv.digits ms 0).1 : Int) = 125 * (k : Int) := by exact_mod_cast hv
  have hkI : (k : Int) < 2 ^ 32 := by exact_mod_cast hk
  have h1 := parseDuration_ms lib ctx ms hms hmsd (by omega)
  have hval : ((strconv.digits (ip ++ fp) 0).1 : ℚ) / (10 : ℚ) ^ fp.length
      = k * (2 : ℚ) ^ (-3 : Int) := by
    have hq : (((strconv.digits ms 0).1 * 10 ^ fp.length : Nat) : ℚ)
        = ((1000 * (strconv.digits (ip ++ fp) 0).1 : Nat) : ℚ) := by rw [hsame]
    rw [hv] at hq
    push_cast at hq
    rw [div_eq_iff (by positivity)]
    norm_num
    linarith
  have h2 := parseDuration_point_s lib ctx ip fp hip hipd hfpd k hk hval
  have hK : (k : Int) * 125000000 = ((strconv.digits ms 0).1 : Int) * time.Millisecond := by
    rw [hvI]
    unfold time.Millisecond
    ring
  rw [hK] at h2
  refine ⟨h1, h2, ?_, ?_, ?_⟩
  · exact processBreak_time lib ctx _ _ (time_ne_empty ms _ (by decide)) h1
  · exact processBreak_time lib ctx _ _
      (time_ne_empty ip _ (by simp)) h2
  · intro hfp
    rw [hfp, List.append_nil] at hsame
    simp only [List.length_nil, pow_zero, mul_one] at hsame
    have hn : (strconv.digits ip 0).1 < 4611686019 := by omega
    have hI : ((strconv.digits ms 0).1 : Int) = 1000 * ((strconv.digits ip 0).1 : Int) := by
      exact_mod_cast hsame
    have heq : ((strconv.digits ip 0).1 : Int) * time.Second
        = ((strconv.digits ms 0).1 : Int) * time.Millisecond := by
      rw [hI]
      unfold time.Second time.Millisecond
      ring
    rw [parseDuration_s lib ctx ip hip hipd hn, heq]

/-- C40 at `1500ms` and `1.5s`: both breaks have the duration 1500 ms. -/
theorem parseDuration_unit_consistency_witness :
    (strconv.digits "1500".data 0).1 = 125 * 12
      ∧ (strconv.digits "1500".data 0).1 * 10 ^ ['5'].length
        = 1000 * (strconv.digits (['1'] ++ ['5']) 0).1
      ∧ (defaultContext [] [] 0 0 "").processBreak samplePlatform ⟨⟨"", "break"⟩, "1500ms", ""⟩
        = (defaultContext [] [] 0 0 "").afterBreak (1500 * time.Millisecond)
      ∧ (defaultContext [] [] 0 0 "").processBreak samplePlatform ⟨⟨"", "break"⟩, "1.5s", ""⟩
        = (defaultContext [] [] 0 0 "").afterBreak (1500 * time.Millisecond) :=
  have h := parseDuration_unit_consistency samplePlatform (defaultContext [] [] 0 0 "")
    "1500".data ['1'] ['5'] 12 ⟨"", "break"⟩ "" (by decide) (by decide) (by decide) (by decide)
    (by decide) (by decide) (by decide) (by decide)
  ⟨by decide, by decide, h.2.2.1, h.2.2.2.1⟩

/-- C40 as stated fails for `1001ms` and `1.001s`, whose durations are
1001000000 ns and 1000999999 ns, and for `0.5ms` and `0.0005s`, whose durations
are 0 and 500000 ns. -/
theorem parseDuration_unit_consistency_counterexample :
    (defaultContext [] [] 0 0 "").processBreak samplePlatform ⟨⟨"", "break"⟩, "1001ms", ""⟩
        = (defaultContext [] [] 0 0 "").afterBreak 1001000000
      ∧ (defaultContext [] [] 0 0 "").processBreak samplePlatform ⟨⟨"", "break"⟩, "1.001s", ""⟩
        = (defaultContext [] [] 0 0 "").afterBreak 1000999999
      ∧ (defaultContext [] [] 0 0 "").processBreak samplePlatform ⟨⟨"", "break"⟩, "0.5ms", ""⟩
        = (defaultContext [] [] 0 0 "").afterBreak 0
      ∧ (defaultContext [] [] 0 0 "").processBreak samplePlatform ⟨⟨"", "break"⟩, "0.0005s", ""⟩
        = (defaultContext [] [] 0 0 "").afterBreak 500000 :=
  ⟨rfl, rfl, rfl, rfl⟩

end ssml

namespace ssml

/-- C33 at `<speak>Hello<break time="1s"/>World</speak>`: no instruction has the
position 0 and `Hello` starts at 0; the break of 1 s has the position 5, the
byte length of `Hello`, and `World` starts at 0 + 750 ms + 1 s. -/
theorem ProcessSSML_segment_timing_witness :
    ∃ r, NewAudioProcessor.ProcessSSML samplePlatform helloWorld = some r
      ∧ r.Segments.map (fun s => (s.Text, s.StartTime, s.Duration))
        = [("Hello", 0, 750000000), ("World", 1750000000, 750000000)]
      ∧ durationAt r.Instructions 0 = 0
      ∧ bytesBefore r.Segments 1 = 5
      ∧ durationAt r.Instructions 5 = 1000000000
      ∧ ∀ s, r.Segments[0]? = some s → s.StartTime = wrap64 (durationAt r.Instructions 0) := by
  obtain ⟨r, h, h0, _, _⟩ := ProcessSSML_segment_timing samplePlatform NewAudioProcessor helloWorld
  have hc : NewAudioProcessor.ProcessSSML samplePlatform helloWorld
      = some
        { PlainText := "HelloWorld",
          Segments :=
            [{ Text := "Hello", StartTime := 0, Duration := 750000000,
               Properties := NewAudioProcessor.defaultProperties },
             { Text := "World", StartTime := 1750000000, Duration := 750000000,
               Properties := NewAudioProcessor.defaultProperties }],
          Instructions :=
            [{ Type_ := "break", Position := 5, Duration := 1000000000, AudioFile := "",
               Properties := none }],
          TotalDuration := 2500000000 } := rfl
  rw [hc] at h
  cases h
  exact ⟨_, hc, rfl, by decide, by decide, by decide, h0⟩

/-- C36 at `<speak>Hello<break time="1s"/>World</speak>`: the segments last 1.5 s,
the instructions 1 s, and the total duration is 2.5 s. -/
theorem ProcessSSML_duration_conservation_witness :
    ∃ r, NewAudioProcessor.ProcessSSML samplePlatform helloWorld = some r
      ∧ segmentsDuration r.Segments = 1500000000
      ∧ instructionsDuration r.Instructions = 1000000000
      ∧ r.TotalDuration = 2500000000
      ∧ r.TotalDuration
        = wrap64 (segmentsDuration r.Segments + instructionsDuration r.Instructions) := by
  obtain ⟨r, h, h0, _, _⟩ :=
    ProcessSSML_duration_conservation samplePlatform NewAudioProcessor helloWorld
  have hc : NewAudioProcessor.ProcessSSML samplePlatform helloWorld
      = some
        { PlainText := "HelloWorld",
          Segments :=
            [{ Text := "Hello", StartTime := 0, Duration := 750000000,
               Properties := NewAudioProcessor.defaultProperties },
             { Text := "World", StartTime := 1750000000, Duration := 750000000,
               Properties := NewAudioProcessor.defaultProperties }],
          Instructions :=
            [{ Type_ := "break", Position := 5, Duration := 1000000000, AudioFile := "",
               Properties := none }],
          TotalDuration := 2500000000 } := rfl
  rw [hc] at h
  cases h
  exact ⟨_, hc, by decide, by decide, rfl, h0⟩

/-- C38 at `<speak>你好<break time="1s"/></speak>`: the break has the position 6,
the byte length of the plain text and of the text of the one segment. -/
theorem ProcessSSML_positions_witness :
    ∃ r, NewAudioProcessor.ProcessSSML samplePlatform chineseBreak = some r
      ∧ r.Instructions.map (fun i => i.Position) = [6]
      ∧ len r.PlainText = 6
      ∧ bytesBefore r.Segments 1 = 6
      ∧ ∀ i ∈ r.Instructions, i.Position ≤ len r.PlainText := by
  obtain ⟨r, h, _, h0, _⟩ := ProcessSSML_positions samplePlatform NewAudioProcessor chineseBreak
  have hc : NewAudioProcessor.ProcessSSML samplePlatform chineseBreak
      = some
        { PlainText := "你好",
          Segments :=
            [{ Text := "你好", StartTime := 0, Duration := 300000000,
               Properties := NewAudioProcessor.defaultProperties }],
          Instructions :=
            [{ Type_ := "break", Position := 6, Duration := 1000000000, AudioFile := "",
               Properties := none }],
          TotalDuration := 1300000000 } := rfl
  rw [hc] at h
  cases h
  exact ⟨_, hc, rfl, by decide, by decide, h0⟩

end ssml
